import Mathlib

/-!
# Aho-Corasick multi-pattern matching (`Aho-Corasick.cpp`)

A shallow embedding of the automaton construction (`buildTrie`, `fillSuffixLink`,
`fillOutputLink`, `buildAutomaton`) and of the scanner (`query`).

* The heap of `ACNode`s is a list; a pointer is an index into it, a nullable pointer
  is an `Option Nat`, and `new ACNode()` appends a fresh node.
* Code that indexes the `children` table, dereferences a pointer or indexes the pattern
  vector runs in `Except Fault`: the source performs none of these checks, and a `Fault`
  records the access that has undefined behaviour in C++.
* `while` loops are driven by a fuel argument; the callers supply the fuel (the node
  count for the breadth-first loops, a depth for the walks along `fail` and `out`, twice
  the text length for the scan) and the theorems show that it is never exhausted.
* What `query` prints is returned as a list of `Match` records, in printing order.
-/

namespace AhoCorasick

/-- The alphabet size: `const int SIZE = 26`. -/
def SIZE : Nat := 26

/-- The first symbol of the alphabet: `const char FIRST = 'a'`. -/
def FIRST : Char := 'a'

/-- An access the source performs unchecked and that is undefined behaviour in C++
(or, for `outOfFuel`, the exhaustion of the fuel that drives a `while` loop of the model). -/
inductive Fault where
  /-- A 26-entry `children` table, or the pattern vector, was indexed with `k` outside its bounds. -/
  | outOfRange (k : Int)
  /-- A null pointer was dereferenced. -/
  | nullDeref
  /-- A pointer that does not address an allocated node was dereferenced. -/
  | wildPointer
  /-- The fuel of a loop ran out. -/
  | outOfFuel
  deriving DecidableEq, Repr

deriving instance DecidableEq for Except

/-- The node type `struct ACNode`, with its default member initialisers. -/
structure ACNode where
  children : List (Option Nat) := List.replicate SIZE none
  pattern : Int := -1
  depth : Nat := 0
  fail : Option Nat := none
  out : Option Nat := none
  deriving DecidableEq, Repr

/-- The heap of allocated nodes. -/
abbrev Heap := List ACNode

/-- The expression `new ACNode()`: the heap grows by one default node, whose address is returned. -/
def alloc (h : Heap) : Heap × Nat := (h ++ [({} : ACNode)], h.length)

/-- Dereference of a non-null pointer. -/
def load (h : Heap) (a : Nat) : Except Fault ACNode :=
  match h[a]? with
  | some n => .ok n
  | none => .error .wildPointer

/-- Dereference of a nullable pointer. -/
def deref (h : Heap) (p : Option Nat) : Except Fault (Nat × ACNode) :=
  match p with
  | none => .error .nullDeref
  | some a =>
    match h[a]? with
    | some n => .ok (a, n)
    | none => .error .wildPointer

/-- The entry `children[i]` for an index `i` that is a loop counter below `SIZE`. -/
def ACNode.child (n : ACNode) (i : Nat) : Option Nat := (n.children[i]?).join

/-- The entry `children[k]` for a computed index `k` (`c - FIRST`): the source indexes
the table without a check, the model records an index outside `0..SIZE-1` as a fault. -/
def ACNode.childAt (n : ACNode) (k : Int) : Except Fault (Option Nat) :=
  if 0 ≤ k ∧ k < (SIZE : Int) then .ok (n.child k.toNat) else .error (.outOfRange k)

/-- The index `c - FIRST` of a character in the `children` table. A symbol of the model
stands for the `char` of the same code: this is the value the source computes for every
ASCII symbol (codes `0..127`, where a `char` is its code whether `char` is signed or
not). For the bytes above 127 the source's value depends on the signedness of `char`;
the theorems that name the index of a symbol outside `'a'..'z'` are stated for ASCII
symbols. -/
def charIndex (c : Char) : Int := (c.toNat : Int) - (FIRST.toNat : Int)

/-- The assignment `a->children[i] = u`. -/
def setChild (h : Heap) (a : Nat) (i : Nat) (u : Nat) : Except Fault Heap := do
  let n ← load h a
  pure (h.set a { n with children := n.children.set i (some u) })

/-- The assignment `a->depth = d`. -/
def setDepth (h : Heap) (a : Nat) (d : Nat) : Except Fault Heap := do
  let n ← load h a
  pure (h.set a { n with depth := d })

/-- The assignment `a->pattern = i`. -/
def setPattern (h : Heap) (a : Nat) (i : Int) : Except Fault Heap := do
  let n ← load h a
  pure (h.set a { n with pattern := i })

/-- The assignment `a->fail = f`. -/
def setFail (h : Heap) (a : Nat) (f : Option Nat) : Except Fault Heap := do
  let n ← load h a
  pure (h.set a { n with fail := f })

/-- The assignment `a->out = o`. -/
def setOut (h : Heap) (a : Nat) (o : Option Nat) : Except Fault Heap := do
  let n ← load h a
  pure (h.set a { n with out := o })

/-- The inner loop of `buildTrie`, `for (char c : s)`: walks from `cur`, creating the
missing child for each symbol and storing the running `charCount` as its depth.
Returns the heap and the node at which the walk ends. -/
def insertChars (h : Heap) (cur : Nat) (charCount : Nat) : List Char → Except Fault (Heap × Nat)
  | [] => .ok (h, cur)
  | c :: s => do
    let k := charIndex c
    let n ← load h cur
    let ch ← n.childAt k
    match ch with
    | some u => do
      let h1 ← setDepth h u (charCount + 1)
      insertChars h1 u (charCount + 1) s
    | none => do
      let (h1, u) := alloc h
      let h2 ← setChild h1 cur k.toNat u
      let h3 ← setDepth h2 u (charCount + 1)
      insertChars h3 u (charCount + 1) s

/-- The outer loop of `buildTrie`, `for (int i=0; i<p.size(); i++)`, on the patterns
not yet inserted. -/
def buildTrieLoop (root : Nat) : List (List Char) → Nat → Heap → Except Fault Heap
  | [], _, h => .ok h
  | s :: ps, i, h => do
    let (h1, cur) ← insertChars h root 0 s
    let h2 ← setPattern h1 cur (i : Int)
    buildTrieLoop root ps (i + 1) h2

/-- The function `buildTrie`: the heap holding the trie, and its root. -/
def buildTrie (p : List (List Char)) : Except Fault (Heap × Nat) := do
  let (h, root) := alloc []
  let h1 ← buildTrieLoop root p 0 h
  pure (h1, root)

/-- The first loop of `fillSuffixLink`, `for (ACNode* child : root->children)`: every
child of the root is pushed and gets `fail = root`. -/
def pushRootChildren (root : Nat) : List (Option Nat) → Heap → List Nat → Except Fault (Heap × List Nat)
  | [], h, q => .ok (h, q)
  | none :: cs, h, q => pushRootChildren root cs h q
  | some child :: cs, h, q => do
    let h1 ← setFail h child (some root)
    pushRootChildren root cs h1 (q ++ [child])

/-- The loop `while (nextFail != root && !nextFail->children[i]) nextFail = nextFail->fail`.
A null `fail` link faults when it is assigned: the source dereferences it in the test
that follows. The fuel is the depth of the node from whose `fail` link the walk starts. -/
def failWalk (h : Heap) (root : Nat) (i : Nat) : Nat → Nat → Except Fault Nat
  | 0, _ => .error .outOfFuel
  | fuel + 1, nextFail =>
    if nextFail = root then .ok nextFail
    else do
      let n ← load h nextFail
      match n.child i with
      | some _ => .ok nextFail
      | none => do
        let (f, _) ← deref h n.fail
        failWalk h root i fuel f

/-- The loop `for (int i=0; i<SIZE; i++)` of `fillSuffixLink`, run for the last `rem`
values of `i`; `front` is `q.front()` and `q` is the queue, to which the children of
`front` are pushed. -/
def fillChildren (root : Nat) (front : Nat) : Nat → Heap → List Nat → Except Fault (Heap × List Nat)
  | 0, h, q => .ok (h, q)
  | rem + 1, h, q => do
    let i := SIZE - (rem + 1)
    let fr ← load h front
    match fr.child i with
    | none => fillChildren root front rem h q
    | some child => do
      let (nf0, _) ← deref h fr.fail
      let nextFail ← failWalk h root i fr.depth nf0
      let viaChild ←
        if nextFail ≠ root then pure true
        else do
          let rn ← load h root
          pure (rn.child i).isSome
      let h1 ←
        if viaChild then do
          let nfn ← load h nextFail
          setFail h child (nfn.child i)
        else
          setFail h child (some root)
      fillChildren root front rem h1 (q ++ [child])

/-- The loop `while (!q.empty())` of `fillSuffixLink`. -/
def fillSuffixLoop (root : Nat) : Nat → Heap → List Nat → Except Fault Heap
  | 0, _, _ => .error .outOfFuel
  | _ + 1, h, [] => .ok h
  | fuel + 1, h, front :: rest => do
    let (h1, q1) ← fillChildren root front SIZE h (front :: rest)
    fillSuffixLoop root fuel h1 q1.tail

/-- The function `fillSuffixLink`. -/
def fillSuffixLink (h : Heap) (root : Nat) : Except Fault Heap := do
  let rn ← load h root
  let (h1, q) ← pushRootChildren root rn.children h []
  fillSuffixLoop root (h.length + 1) h1 q

/-- The loop `while (!q.empty())` of `fillOutputLink`. -/
def fillOutputLoop (root : Nat) : Nat → Heap → List Nat → Except Fault Heap
  | 0, _, _ => .error .outOfFuel
  | _ + 1, h, [] => .ok h
  | fuel + 1, h, cur :: rest => do
    let cn ← load h cur
    let q1 := (cur :: rest) ++ cn.children.reduceOption
    let h1 ←
      if cur ≠ root then do
        let (f, fn) ← deref h cn.fail
        if fn.pattern ≠ -1 then setOut h cur (some f) else setOut h cur fn.out
      else pure h
    fillOutputLoop root fuel h1 q1.tail

/-- The function `fillOutputLink`. -/
def fillOutputLink (h : Heap) (root : Nat) : Except Fault Heap :=
  fillOutputLoop root (h.length + 1) h [root]

/-- The function `buildAutomaton`. -/
def buildAutomaton (p : List (List Char)) : Except Fault (Heap × Nat) := do
  let (h, root) ← buildTrie p
  let h1 ← fillSuffixLink h root
  let h2 ← fillOutputLink h1 root
  pure (h2, root)

/-- One line printed by `query`: the pattern `p[node->pattern]`, the start index
`i - node->depth + 1`, and (not printed, kept for the ordering properties) the text
position `i` at which the line is printed. -/
structure Match where
  pattern : List Char
  index : Int
  pos : Nat
  deriving DecidableEq, Repr

/-- The expression `p[k]` on the pattern vector. -/
def patternAt (p : List (List Char)) (k : Int) : Except Fault (List Char) :=
  if 0 ≤ k then
    match p[k.toNat]? with
    | some s => .ok s
    | none => .error (.outOfRange k)
  else .error (.outOfRange k)

/-- The line printed for node `n` at text position `i`. -/
def report (p : List (List Char)) (i : Nat) (n : ACNode) : Except Fault Match := do
  let s ← patternAt p n.pattern
  pure { pattern := s, index := (i : Int) - (n.depth : Int) + 1, pos := i }

/-- The loop `while ((outl = outl->out) && (outl->pattern != -1))` of `query`, which
prints a line for each node on the way. -/
def outWalk (h : Heap) (p : List (List Char)) (i : Nat) :
    Nat → Nat → List Match → Except Fault (List Match)
  | 0, _, _ => .error .outOfFuel
  | fuel + 1, outl, acc => do
    let n ← load h outl
    match n.out with
    | none => .ok acc
    | some o => do
      let m ← load h o
      if m.pattern ≠ -1 then do
        let r ← report p i m
        outWalk h p i fuel o (acc ++ [r])
      else .ok acc

/-- The loop `while (i < s.length())` of `query`, with the cursor `cur`, the position `i`
and the lines `acc` printed so far. A null `fail` link faults when it is assigned to
the cursor: the source dereferences it in the iteration that follows. -/
def queryLoop (h : Heap) (root : Nat) (s : List Char) (p : List (List Char)) :
    Nat → Nat → Nat → List Match → Except Fault (List Match)
  | 0, _, _, _ => .error .outOfFuel
  | fuel + 1, cur, i, acc =>
    match s[i]? with
    | none => .ok acc
    | some c => do
      let n ← load h cur
      let ch ← n.childAt (charIndex c)
      match ch with
      | some nxt => do
        let m ← load h nxt
        let acc1 ← if m.pattern ≠ -1 then do
            let r ← report p i m
            pure (acc ++ [r])
          else pure acc
        let acc2 ← outWalk h p i (m.depth + 1) nxt acc1
        queryLoop h root s p fuel nxt (i + 1) acc2
      | none =>
        if cur ≠ root then do
          let (f, _) ← deref h n.fail
          queryLoop h root s p fuel f i acc
        else
          queryLoop h root s p fuel cur (i + 1) acc

/-- The function `query`: the lines it prints, in order. -/
def query (s : List Char) (p : List (List Char)) : Except Fault (List Match) := do
  let (h, root) ← buildAutomaton p
  queryLoop h root s p (2 * s.length + 1) root 0 []

/-- The statements of `query` between `outl = cur` and `i++`, run after the cursor has
moved to the child `v` at text position `i`: the line of `v` if it carries a pattern,
then the lines of the loop over the `out` links. Returns the lines printed. -/
def reportAt (h : Heap) (p : List (List Char)) (i : Nat) (v : Nat) :
    Except Fault (List Match) := do
  let m ← load h v
  let acc1 ← if m.pattern ≠ -1 then do
      let r ← report p i m
      pure [r]
    else pure []
  outWalk h p i (m.depth + 1) v acc1


/-! ## Specification vocabulary -/

/-- The child pointer `v->children[k]` read from the heap (null for an unallocated `v`). -/
def childOf (h : Heap) (v k : Nat) : Option Nat := ((h[v]?).map fun (n : ACNode) => n.child k).join

/-- The link `v->fail` read from the heap. -/
def failOf (h : Heap) (v : Nat) : Option Nat := ((h[v]?).map fun (n : ACNode) => n.fail).join

/-- The link `v->out` read from the heap. -/
def outOf (h : Heap) (v : Nat) : Option Nat := ((h[v]?).map fun (n : ACNode) => n.out).join

/-- The field `v->depth` read from the heap. -/
def depthOf (h : Heap) (v : Nat) : Option Nat := (h[v]?).map fun (n : ACNode) => n.depth

/-- The field `v->pattern` read from the heap. -/
def patOf (h : Heap) (v : Nat) : Option Int := (h[v]?).map fun (n : ACNode) => n.pattern

/-- The table index of a character, as a natural number. -/
def code (c : Char) : Nat := (charIndex c).toNat

/-- A string over the alphabet `'a'..'z'`. -/
def Lower (s : List Char) : Prop := ∀ c ∈ s, 'a' ≤ c ∧ c ≤ 'z'

instance (s : List Char) : Decidable (Lower s) := by
  unfold Lower; infer_instance

/-- The node reached from `v` by following the child pointers labelled by `w`. -/
def walk (h : Heap) : Nat → List Nat → Option Nat
  | v, [] => if v < h.length then some v else none
  | v, k :: w => (childOf h v k).bind fun u => walk h u w

/-- The heap `h` is a trie whose node `v` spells the string `keys[v]` (a list of table
indices): the root `0` spells the empty string, distinct nodes spell distinct strings,
a child pointer labelled `k` extends the string by `k`, every non-root node is the
child of the node spelling its string without the last symbol, every table has `SIZE`
entries and `depth` is the length of the string. -/
structure TrieInv (h : Heap) (keys : List (List Nat)) : Prop where
  len : keys.length = h.length
  root : keys[0]? = some []
  nodup : keys.Nodup
  width : ∀ (v : Nat) (n : ACNode), h[v]? = some n → n.children.length = SIZE
  child_key : ∀ (v k u : Nat), childOf h v k = some u →
    ∃ w, keys[v]? = some w ∧ keys[u]? = some (w ++ [k])
  key_child : ∀ (u : Nat) (w : List Nat) (k : Nat), keys[u]? = some (w ++ [k]) →
    ∃ v, keys[v]? = some w ∧ childOf h v k = some u
  depth : ∀ (v : Nat) (w : List Nat), keys[v]? = some w → depthOf h v = some w.length

/-- The value the `pattern` field must hold for a node spelling `w` once the patterns
`ps` (given last-inserted first) are in the trie: the index of the last inserted copy
of `w`, or `-1`. -/
def lastIndexRev (w : List Nat) : List (List Nat) → Int
  | [] => -1
  | s :: ps => if s = w then (ps.length : Int) else lastIndexRev w ps

/-- The index of the last occurrence of `w` in `ps`, or `-1`. -/
def lastIndex (ps : List (List Nat)) (w : List Nat) : Int := lastIndexRev w ps.reverse

/-- The `pattern` fields after inserting `ps`: each node holds the last index of its string. -/
def PatInv (h : Heap) (keys : List (List Nat)) (ps : List (List Nat)) : Prop :=
  (∀ (v : Nat) (w : List Nat), keys[v]? = some w → patOf h v = some (lastIndex ps w)) ∧
  (∀ s ∈ ps, s ∈ keys) ∧
  (∀ w ∈ keys, w = [] ∨ ∃ s ∈ ps, w <+: s)

/-- The string `s` is the longest proper suffix of `w` that satisfies `S`. -/
def LongestProperSuffix (S : List Nat → Prop) (w s : List Nat) : Prop :=
  s <:+ w ∧ s.length < w.length ∧ S s ∧
    ∀ t, t <:+ w → t.length < w.length → S t → t.length ≤ s.length

/-- The `fail` link of `v` is set and points to the node spelling the longest proper
suffix of the string of `v` that is spelled by a node. -/
def FailOK (h : Heap) (keys : List (List Nat)) (v : Nat) : Prop :=
  ∀ w : List Nat, keys[v]? = some w → ∃ (f : Nat) (wf : List Nat), failOf h v = some f ∧ keys[f]? = some wf ∧
    LongestProperSuffix (fun t => t ∈ keys) w wf

/-- The string `w` is spelled by a node that carries a pattern index. -/
def IsPat (h : Heap) (keys : List (List Nat)) (w : List Nat) : Prop :=
  ∃ (u : Nat) (i : Int), keys[u]? = some w ∧ patOf h u = some i ∧ i ≠ -1

/-- The `out` link of `v` points to the node spelling the longest proper suffix of the
string of `v` that carries a pattern, and is null when no proper suffix does. -/
def OutOK (h : Heap) (keys : List (List Nat)) (v : Nat) : Prop :=
  ∀ w : List Nat, keys[v]? = some w →
    (outOf h v = none ∧ ∀ t, t <:+ w → t.length < w.length → ¬ IsPat h keys t) ∨
    (∃ (o : Nat) (wo : List Nat), outOf h v = some o ∧ keys[o]? = some wo ∧ LongestProperSuffix (IsPat h keys) w wo)

/-- Heaps that agree on the trie structure: size, child pointers, depths and table widths. -/
structure SameTrie (h h' : Heap) : Prop where
  len : h'.length = h.length
  child : ∀ v k, childOf h' v k = childOf h v k
  depth : ∀ v, depthOf h' v = depthOf h v
  width : ∀ (v : Nat) (n' : ACNode), h'[v]? = some n' →
    ∃ n, h[v]? = some n ∧ n'.children = n.children

/-- Heaps that agree on everything but the `fail` and `out` links. -/
structure SameShape (h h' : Heap) : Prop where
  trie : SameTrie h h'
  pat : ∀ v, patOf h' v = patOf h v

/-- No `fail` or `out` link is set (the state `buildTrie` leaves behind). -/
def NoLinks (h : Heap) : Prop := ∀ v, failOf h v = none ∧ outOf h v = none

/-- What `insertChars` guarantees when it is run on a trie `h`/`keys` towards the string
`target`: the result `h'`/`keys'` is a trie extending the old one, `u` spells `target`,
the nodes that existed keep their `pattern`, the new nodes have none and spell
prefixes of `target`. -/
structure InsertPost (h : Heap) (keys : List (List Nat)) (target : List Nat)
    (h' : Heap) (keys' : List (List Nat)) (u : Nat) : Prop where
  trie : TrieInv h' keys'
  ext : keys <+: keys'
  key : keys'[u]? = some target
  pat_old : ∀ v, v < h.length → patOf h' v = patOf h v
  pat_new : ∀ v, h.length ≤ v → v < h'.length → patOf h' v = some (-1)
  new_key : ∀ t ∈ keys', t ∈ keys ∨ t <+: target
  links : NoLinks h'

/-- The length of the string spelled by node `v`. -/
def klen (keys : List (List Nat)) (v : Nat) : Nat := ((keys[v]?).getD []).length

/-- The state of the breadth-first traversal of `fillSuffixLink`: `hist` lists the nodes
pushed so far, in pushing order, and `E v k` holds when entry `k` of the table of `v`
has been visited. The pushed nodes are distinct non-root nodes in order of depth, they
are exactly the children found in visited entries, and their `fail` links are final;
the other `fail` links are unset. -/
structure FailInv (h : Heap) (keys : List (List Nat)) (hist : List Nat)
    (E : Nat → Nat → Prop) : Prop where
  nodup : hist.Nodup
  sorted : hist.Pairwise fun a b => klen keys a ≤ klen keys b
  kids : ∀ v k u, E v k → childOf h v k = some u → u ∈ hist
  parent : ∀ u ∈ hist, ∃ v k, E v k ∧ childOf h v k = some u
  failok : ∀ v ∈ hist, FailOK h keys v
  unset : ∀ v, v ∉ hist → failOf h v = none

/-- The walk along the `fail` links that looks for a node with a child labelled `i`:
`s` is a proper suffix of `w`, and no spelled proper suffix of `w` longer than `s`
can be extended by `i`. -/
def WalkInv (keys : List (List Nat)) (w : List Nat) (i : Nat) (s : List Nat) : Prop :=
  s <:+ w ∧ s.length < w.length ∧
    ∀ t, t <:+ w → t.length < w.length → t ∈ keys → s.length < t.length → t ++ [i] ∉ keys

/-- The table entries visited by `fillSuffixLink` when the nodes `done` have left the
queue and the first `i` entries of `front` have been handled. -/
def Visited (done : List Nat) (front i : Nat) (v k : Nat) : Prop :=
  v = 0 ∨ v ∈ done ∨ (v = front ∧ k < i)

/-- The state of the breadth-first traversal of `fillOutputLink`: the nodes `done` have
left the queue `q`. The nodes pushed so far are distinct and in order of depth, they are
the root and the children of the nodes in `done`, the `out` links of the nodes in `done`
are final and the other `out` links are unset. -/
structure OutInv (h : Heap) (keys : List (List Nat)) (done q : List Nat) : Prop where
  nodup : (done ++ q).Nodup
  sorted : (done ++ q).Pairwise fun a b => klen keys a ≤ klen keys b
  root : 0 ∈ done ++ q
  kids : ∀ v ∈ done, ∀ k u, childOf h v k = some u → u ∈ done ++ q
  parent : ∀ u ∈ done ++ q, u = 0 ∨ ∃ v k, v ∈ done ∧ childOf h v k = some u
  outok : ∀ v ∈ done, OutOK h keys v
  unset : ∀ v, v ∉ done → outOf h v = none

/-- The heap `h` is the automaton of the patterns `ps` (as lists of table indices): a
trie with its `pattern` fields, in which every non-root node has its `fail` link, the
root has none, and every `out` link is the one `fillOutputLink` is meant to compute. -/
structure Automaton (h : Heap) (keys : List (List Nat)) (ps : List (List Nat)) : Prop where
  trie : TrieInv h keys
  pat : PatInv h keys ps
  fail : ∀ (v : Nat) (w : List Nat), keys[v]? = some w → w ≠ [] → FailOK h keys v
  root_fail : failOf h 0 = none
  out : ∀ (v : Nat) (w : List Nat), keys[v]? = some w → OutOK h keys v

/-- The state of the cursor of `query` before it looks at text position `i`: the cursor
spells a suffix `s` of the text read so far, and no longer spelled suffix can be
extended by the next symbol. (`tc` is the text as a list of table indices.) -/
def QInv (keys : List (List Nat)) (tc : List Nat) (i : Nat) (s : List Nat) : Prop :=
  s <:+ tc.take i ∧ ∀ c, tc[i]? = some c → ∀ t, t <:+ tc.take i → t ∈ keys →
    s.length < t.length → t ++ [c] ∉ keys

/-- The lines `R` printed at text position `i` for the patterns that are suffixes of
`so` and shorter than `bound`: each line is such a pattern with its start index, every
such pattern has its line, and the lines come in order of strictly decreasing length. -/
structure ChainSpec (h : Heap) (keys : List (List Nat)) (P : List (List Char))
    (i bound : Nat) (so : List Nat) (R : List Match) : Prop where
  sound : ∀ m ∈ R, m.pos = i ∧ m.pattern ∈ P ∧ m.pattern.map code <:+ so ∧
    m.pattern.length < bound ∧ m.index = (i : Int) - (m.pattern.length : Int) + 1
  complete : ∀ t, t <:+ so → t.length < bound → IsPat h keys t →
    ∃ m ∈ R, m.pattern.map code = t
  order : R.Pairwise fun a b => b.pattern.length < a.pattern.length

/-- The lines `acc` printed by `query` before it looks at text position `i`: each line
is a pattern that ends at its position, with its start index; every occurrence of a
non-empty pattern that ends before `i` has its line; the lines are in order of
position and, at one position, of strictly decreasing length. -/
structure Good (P : List (List Char)) (tc : List Nat) (i : Nat) (acc : List Match) : Prop where
  sound : ∀ m ∈ acc, m.pos < i ∧ m.pattern ∈ P ∧
    m.pattern.map code <:+ tc.take (m.pos + 1) ∧
    m.index = (m.pos : Int) - (m.pattern.length : Int) + 1
  complete : ∀ e, e < i → ∀ p ∈ P, p ≠ [] → p.map code <:+ tc.take (e + 1) →
    ∃ m ∈ acc, m.pos = e ∧ m.pattern.map code = p.map code
  order : acc.Pairwise fun a b =>
    a.pos < b.pos ∨ (a.pos = b.pos ∧ b.pattern.length < a.pattern.length)

/-- What the scan of `T` returns when the first `N` symbols of `T` are in `'a'..'z'`:
if they are the whole text, the printed lines, which satisfy `Good`; if symbol `N` is
outside `'a'..'z'`, the fault of indexing a `children` table with its index. -/
def ScanResult (P : List (List Char)) (T : List Char) (N : Nat)
    (r : Except Fault (List Match)) : Prop :=
  (T[N]? = none → ∃ ms, r = .ok ms ∧ Good P (T.map code) N ms) ∧
  (∀ c, T[N]? = some c → ¬ ('a' ≤ c ∧ c ≤ 'z') → r = .error (.outOfRange (charIndex c)))

/-! ## The naive matcher -/

/-- The pattern `p` occurs in `T` at offset `k`: `T[k .. k+|p|) = p`. -/
def Occurs (T p : List Char) (k : Nat) : Prop :=
  k + p.length ≤ T.length ∧ (T.drop k).take p.length = p

instance (T p : List Char) (k : Nat) : Decidable (Occurs T p k) := by
  unfold Occurs; infer_instance

/-- The naive substring check of every pattern at every offset of the text: the pairs
(pattern, start index) it finds. -/
def naive (T : List Char) (P : List (List Char)) : List (List Char × Int) :=
  P.flatMap fun p => (List.range (T.length + 1)).filterMap fun k =>
    if Occurs T p k then some (p, (k : Int)) else none

/-- The pairs (pattern, start index) of the lines printed by `query`. -/
def reported (ms : List Match) : List (List Char × Int) :=
  ms.map fun m => (m.pattern, m.index)

/-! ## The links, in terms of the patterns -/

/-- The chain `v->fail, v->fail->fail, ...` of at most `fuel` nodes, up to the node whose
`fail` link is null. -/
def failChain (h : Heap) : Nat → Nat → List Nat
  | 0, _ => []
  | fuel + 1, v =>
    match failOf h v with
    | none => []
    | some f => f :: failChain h fuel f

/-- The node `u` carries a pattern: `u->pattern != -1`. -/
def hasPattern (h : Heap) (u : Nat) : Bool := decide (patOf h u ≠ some (-1))

/-- The string `sf` is the longest proper suffix of `s` that is a prefix of some pattern
of `P`. -/
def FailTarget (P : List (List Char)) (s sf : List Char) : Prop :=
  sf <:+ s ∧ sf.length < s.length ∧ (∃ p ∈ P, sf <+: p) ∧
    ∀ t, t <:+ s → t.length < s.length → (∃ p ∈ P, t <+: p) → t.length ≤ sf.length

/-- The string `so` is the longest pattern of `P` that is a proper suffix of `s`. -/
def OutTarget (P : List (List Char)) (s so : List Char) : Prop :=
  so <:+ s ∧ so.length < s.length ∧ so ∈ P ∧
    ∀ t, t <:+ s → t.length < s.length → t ∈ P → t.length ≤ so.length

/-! ## The nodes of the trie, in terms of the patterns -/

/-- The empty string and the prefixes of the patterns of `P`, each listed once. -/
def prefixes (P : List (List Char)) : List (List Char) :=
  ([] :: P.flatMap List.inits).dedup

end AhoCorasick

/-!
# Knuth-Morris-Pratt search (`KMP.cpp`)

Strings are lists of characters, the `int` variables `i`, `j` and `len` and the entries
of `lps` are natural numbers (they are never negative), and the index `j-1` of a read of
`lps` is an integer. Reads outside a string or vector are faults and the loops are driven
by fuel.
-/

namespace KMP

/-- An access outside a string or vector, or the exhaustion of the fuel of a loop. -/
inductive Fault where
  | outOfRange (k : Int)
  | outOfFuel
  deriving DecidableEq, Repr

/-- The read `s[k]` of a `std::string`: the character at `k`, and the null character
for `k = s.length()`. -/
def charAt (s : List Char) (k : Nat) : Except Fault Char :=
  match s[k]? with
  | some c => .ok c
  | none => if k = s.length then .ok (Char.ofNat 0) else .error (.outOfRange k)

/-- The read `lps[k]`. -/
def vecAt (lps : List Nat) (k : Int) : Except Fault Nat :=
  if 0 ≤ k then
    match lps[k.toNat]? with
    | some x => .ok x
    | none => .error (.outOfRange k)
  else .error (.outOfRange k)

/-- The loop `while (i < p.length())` of `findLPS`. -/
def findLPSLoop (p : List Char) : Nat → List Nat → Nat → Nat → Except Fault (List Nat)
  | 0, _, _, _ => .error .outOfFuel
  | fuel + 1, lps, i, len =>
    if i < p.length then do
      let a ← charAt p i
      let b ← charAt p len
      if a = b then findLPSLoop p fuel (lps ++ [len + 1]) (i + 1) (len + 1)
      else if len > 0 then do
        let l ← vecAt lps ((len : Int) - 1)
        findLPSLoop p fuel lps i l
      else findLPSLoop p fuel (lps ++ [0]) (i + 1) len
    else .ok lps

/-- The function `findLPS`. The loop gets the fuel `2 * |p| + 1`. -/
def findLPS (p : List Char) : Except Fault (List Nat) :=
  findLPSLoop p (2 * p.length + 1) [0] 1 0

/-- The test `i + p.length() - j <= s.length()`, computed in `size_t`: when `j` exceeds
`i + p.length()` the difference wraps to a value above every length. -/
def inWindow (s p : List Char) (i j : Nat) : Bool :=
  decide (j ≤ i + p.length) && decide (i + p.length - j ≤ s.length)

/-- The loop `while (i + p.length() - j <= s.length())` of `findFirst`. -/
def findFirstLoop (s p : List Char) (lps : List Nat) : Nat → Nat → Nat → Except Fault Int
  | 0, _, _ => .error .outOfFuel
  | fuel + 1, i, j =>
    if inWindow s p i j then
      if j = p.length then .ok ((i : Int) - (j : Int))
      else do
        let a ← charAt s i
        let b ← charAt p j
        if a = b then findFirstLoop s p lps fuel (i + 1) (j + 1)
        else if j = 0 then findFirstLoop s p lps fuel (i + 1) j
        else do
          let l ← vecAt lps ((j : Int) - 1)
          findFirstLoop s p lps fuel i l
    else .ok (-1)

/-- The function `findFirst`. The loop gets the fuel `2 * |s| + 2`. -/
def findFirst (s p : List Char) : Except Fault Int := do
  let lps ← findLPS p
  findFirstLoop s p lps (2 * s.length + 2) 0 0

/-- The statement `if (j == p.length()) { indexes.push_back(i-j); j = lps[j-1]; }` of
`findAll`: the new `indexes` and `j`. -/
def recordMatch (p : List Char) (lps : List Nat) (i j : Nat) (indexes : List Int) :
    Except Fault (List Int × Nat) :=
  if j = p.length then do
    let l ← vecAt lps ((j : Int) - 1)
    pure (indexes ++ [(i : Int) - (j : Int)], l)
  else pure (indexes, j)

/-- The loop `while (i + p.length() - j <= s.length())` of `findAll`. -/
def findAllLoop (s p : List Char) (lps : List Nat) :
    Nat → Nat → Nat → List Int → Except Fault (List Int)
  | 0, _, _, _ => .error .outOfFuel
  | fuel + 1, i, j, indexes =>
    if inWindow s p i j then do
      let (indexes1, j1) ← recordMatch p lps i j indexes
      let a ← charAt s i
      let b ← charAt p j1
      if a = b then findAllLoop s p lps fuel (i + 1) (j1 + 1) indexes1
      else if j1 = 0 then findAllLoop s p lps fuel (i + 1) j1 indexes1
      else do
        let l ← vecAt lps ((j1 : Int) - 1)
        findAllLoop s p lps fuel i l indexes1
    else .ok indexes

/-- The function `findAll`. The loop gets the fuel `2 * |s| + 2`. -/
def findAll (s p : List Char) : Except Fault (List Int) := do
  let lps ← findLPS p
  findAllLoop s p lps (2 * s.length + 2) 0 0 []

/-! ## Occurrences and borders -/

/-- The pattern `p` occurs in `s` at index `k`: `s[k .. k+|p|) = p`. -/
def Occ (s p : List Char) (k : Nat) : Prop :=
  k + p.length ≤ s.length ∧ (s.drop k).take p.length = p

instance (s p : List Char) (k : Nat) : Decidable (Occ s p k) := by
  unfold Occ; infer_instance

/-- The prefix of `p` of length `b` is a suffix of the prefix of `p` of length `n`. -/
def Border (p : List Char) (n b : Nat) : Prop := p.take b <:+ p.take n

/-- The table `lps` is right up to index `i`: it has `i` entries, and entry `k` is the
length of the longest proper prefix of `p[0..k]` that is a suffix of `p[0..k]`. -/
def LpsOK (p : List Char) (lps : List Nat) (i : Nat) : Prop :=
  lps.length = i ∧ ∀ k, k < i → ∃ b, lps[k]? = some b ∧ b ≤ k ∧ Border p (k + 1) b ∧
    ∀ b', b' ≤ k → Border p (k + 1) b' → b' ≤ b

/-- The first `j` symbols of `p` are the last `j` symbols read of `s`:
`s[i-j .. i) = p[0 .. j)`. -/
def Match (s p : List Char) (i j : Nat) : Prop := p.take j <:+ s.take i

/-- The list `idx` holds, in increasing order and once each, the indices before `i - j`
at which `p` occurs in `s`. -/
def Found (s p : List Char) (idx : List Int) (i j : Nat) : Prop :=
  idx.Pairwise (· < ·) ∧
    ∀ k : Int, k ∈ idx ↔ ∃ n : Nat, k = (n : Int) ∧ Occ s p n ∧ n + j < i

end KMP

/-!
# Binary search and counting inversions (`divide_and_conquer.cpp`)

Vectors of `int` are lists of integers and `int` variables are integers. The inversion
counts of `mergeAndCount` and `sortAndCount` are added in `int`: a sum outside the range
of `int` is undefined behaviour in C++ and a fault of the model. The index variables of
these functions stay between the bounds `l` and `r` they are called with, and the
conversion of `v.size() - 1` in `search` wraps. Reads and writes outside a vector are
faults; loops and the recursion of `sortAndCount` are driven by fuel, so that a call that
never returns is one that exhausts every fuel. C++ leaves open in which order the
operands of the `return` expression of `sortAndCount` are evaluated: the order is a
parameter of the model.
-/

namespace DivideAndConquer

/-- An access outside a vector, the exhaustion of the fuel of a loop or recursion, or an
`int` addition whose result is outside the range of `int`. -/
inductive Fault where
  | outOfRange (k : Int)
  | outOfFuel
  | overflow
  deriving DecidableEq, Repr

/-- The largest value of an `int` (32 bits). -/
def INT_MAX : Int := 2 ^ 31 - 1

/-- The smallest value of an `int` (32 bits). -/
def INT_MIN : Int := -(2 ^ 31)

/-- The sum `a + b` of two `int`s; a sum outside the range of `int` is a fault. -/
def addInt (a b : Int) : Except Fault Int :=
  if INT_MIN ≤ a + b ∧ a + b ≤ INT_MAX then .ok (a + b) else .error .overflow

/-- The read `a[k]`. -/
def readAt (a : List Int) (k : Int) : Except Fault Int :=
  if 0 ≤ k then
    match a[k.toNat]? with
    | some x => .ok x
    | none => .error (.outOfRange k)
  else .error (.outOfRange k)

/-- The write `a[k] = x`. -/
def writeAt (a : List Int) (k : Int) (x : Int) : Except Fault (List Int) :=
  if 0 ≤ k ∧ k.toNat < a.length then .ok (a.set k.toNat x) else .error (.outOfRange k)

/-- The conversion of a `size_t` value to `int` (two's complement, 32 bits). -/
def toInt32 (x : Nat) : Int := (((x + 2 ^ 31) % 2 ^ 32 : Nat) : Int) - 2 ^ 31

/-- The initialiser `size() - 1` of an `int`: the subtraction is done in `size_t`
(64 bits, wrapping) and the result is converted to `int`. -/
def sizeMinusOne (n : Nat) : Int := toInt32 ((n + 2 ^ 64 - 1) % 2 ^ 64)

/-- The loop `while (lo <= hi)` of `search`. -/
def searchLoop (nums : List Int) (target : Int) : Nat → Int → Int → Except Fault Int
  | 0, _, _ => .error .outOfFuel
  | fuel + 1, lo, hi =>
    if lo ≤ hi then do
      let mid := lo + (hi - lo).tdiv 2
      let x ← readAt nums mid
      if x = target then .ok mid
      else if x < target then searchLoop nums target fuel (mid + 1) hi
      else searchLoop nums target fuel lo (mid - 1)
    else .ok (-1)

/-- The function `search`. Its body computes `hi` from `v.size()`, where `v` is not the
parameter `nums` and is declared nowhere in the file: the vector `v` is a parameter of
the model. -/
def search (v : List Int) (nums : List Int) (target : Int) : Except Fault Int :=
  searchLoop nums target (v.length + 1) 0 (sizeMinusOne v.length)

/-- The test `rcur == r || (lcur < m && v[lcur] <= v[rcur])` of `mergeAndCount`. -/
def takeLeft (v : List Int) (m r lcur rcur : Int) : Except Fault Bool :=
  if rcur = r then .ok true
  else if lcur < m then do
    let a ← readAt v lcur
    let b ← readAt v rcur
    pure (decide (a ≤ b))
  else .ok false

/-- The loop `while (lcur < m || rcur < r)` of `mergeAndCount`. -/
def mergeLoop (v : List Int) (m r : Int) :
    Nat → Int → Int → List Int → Int → Except Fault (List Int × Int)
  | 0, _, _, _, _ => .error .outOfFuel
  | fuel + 1, lcur, rcur, temp, inv =>
    if lcur < m ∨ rcur < r then do
      let left ← takeLeft v m r lcur rcur
      if left then do
        let x ← readAt v lcur
        mergeLoop v m r fuel (lcur + 1) rcur (temp ++ [x]) inv
      else do
        let x ← readAt v rcur
        let inv1 ← addInt inv (m - lcur)
        mergeLoop v m r fuel lcur (rcur + 1) (temp ++ [x]) inv1
    else .ok (temp, inv)

/-- The loop `for (int i=l, j=0; i<r; i++, j++) v[i] = temp[j]` of `mergeAndCount`. -/
def copyBack (temp : List Int) (r : Int) : Nat → List Int → Int → Int → Except Fault (List Int)
  | 0, _, _, _ => .error .outOfFuel
  | fuel + 1, v, i, j =>
    if i < r then do
      let x ← readAt temp j
      let v1 ← writeAt v i x
      copyBack temp r fuel v1 (i + 1) (j + 1)
    else .ok v

/-- The function `mergeAndCount`: the vector after the merge, and the returned count.
Both loops get the fuel `r - l + 1`. -/
def mergeAndCount (v : List Int) (l r m : Int) : Except Fault (List Int × Int) := do
  let (temp, inv) ← mergeLoop v m r ((r - l).toNat + 1) l m [] 0
  let v1 ← copyBack temp r ((r - l).toNat + 1) v l 0
  pure (v1, inv)

/-- The order in which an implementation evaluates the three operands of the `return`
expression of `sortAndCount`: the call on the left half, the call on the right half and
the call of `mergeAndCount`. C++ leaves the order unspecified. -/
inductive EvalOrder where
  | leftRightMerge
  | rightLeftMerge
  | leftMergeRight
  | mergeLeftRight
  | rightMergeLeft
  | mergeRightLeft
  deriving DecidableEq, Repr

/-- The orders in which both recursive calls are evaluated before `mergeAndCount`. -/
def EvalOrder.mergeLast : EvalOrder → Bool
  | .leftRightMerge => true
  | .rightLeftMerge => true
  | _ => false

/-- The value `a + b + c` of the `return` expression of `sortAndCount`, that is
`(a + b) + c`, added in `int` once the three operands have their values. -/
def sumCounts (a b c : Int) : Except Fault Int := do
  let ab ← addInt a b
  addInt ab c

/-- The function `sortAndCount`: the vector after the call, and the returned count. The
fuel bounds the depth of the recursion. The three operands of the `return` expression,
`a = sortAndCount(v, l, m)`, `b = sortAndCount(v, m, r)` and
`c = mergeAndCount(v, l, r, m)`, are evaluated in the order `ord`, each on the vector the
one before has left. -/
def sortAndCount (ord : EvalOrder) : Nat → List Int → Int → Int → Except Fault (List Int × Int)
  | 0, _, _, _ => .error .outOfFuel
  | fuel + 1, v, l, r =>
    if r = l + 1 then .ok (v, 0)
    else
      let m := l + (r - l).tdiv 2
      match ord with
      | .leftRightMerge => do
        let (v1, a) ← sortAndCount ord fuel v l m
        let (v2, b) ← sortAndCount ord fuel v1 m r
        let (v3, c) ← mergeAndCount v2 l r m
        let s ← sumCounts a b c
        pure (v3, s)
      | .rightLeftMerge => do
        let (v1, b) ← sortAndCount ord fuel v m r
        let (v2, a) ← sortAndCount ord fuel v1 l m
        let (v3, c) ← mergeAndCount v2 l r m
        let s ← sumCounts a b c
        pure (v3, s)
      | .leftMergeRight => do
        let (v1, a) ← sortAndCount ord fuel v l m
        let (v2, c) ← mergeAndCount v1 l r m
        let (v3, b) ← sortAndCount ord fuel v2 m r
        let s ← sumCounts a b c
        pure (v3, s)
      | .mergeLeftRight => do
        let (v1, c) ← mergeAndCount v l r m
        let (v2, a) ← sortAndCount ord fuel v1 l m
        let (v3, b) ← sortAndCount ord fuel v2 m r
        let s ← sumCounts a b c
        pure (v3, s)
      | .rightMergeLeft => do
        let (v1, b) ← sortAndCount ord fuel v m r
        let (v2, c) ← mergeAndCount v1 l r m
        let (v3, a) ← sortAndCount ord fuel v2 l m
        let s ← sumCounts a b c
        pure (v3, s)
      | .mergeRightLeft => do
        let (v1, c) ← mergeAndCount v l r m
        let (v2, b) ← sortAndCount ord fuel v1 m r
        let (v3, a) ← sortAndCount ord fuel v2 l m
        let s ← sumCounts a b c
        pure (v3, s)

/-! ## Inversions -/

/-- The number of index pairs `l ≤ i < j < r` with `v[i] > v[j]`. -/
def inversions (v : List Int) (l r : Nat) : Nat :=
  ((List.range r).map fun j =>
    ((List.range j).filter fun i => decide (l ≤ i) && decide (v.getD j 0 < v.getD i 0)).length).sum

/-- The number of pairs of positions of a list in which the earlier element is the
greater. -/
def invCount : List Int → Nat
  | [] => 0
  | x :: xs => xs.countP (fun y => decide (y < x)) + invCount xs

/-- The vector `n-1, n-2, ..., 1, 0` of `n` elements in descending order. -/
def descending : Nat → List Int
  | 0 => []
  | n + 1 => (n : Int) :: descending n

/-- The number of pairs of an element of `as` and a smaller element of `bs`. -/
def cross (as bs : List Int) : Nat :=
  (bs.map fun b => as.countP fun a => decide (b < a)).sum

end DivideAndConquer

/-!
# Articulation points (`undirected_graph.cpp`, `getAP`)

A graph is its adjacency lists; the `vector<int>` tables of `getAP` are lists of integers
and the stack is a list whose head is the top. Reads and writes outside a table are
faults, and the `while` loop is driven by fuel.
-/

namespace UndirectedGraph

/-- An access outside a vector, or the exhaustion of the fuel of a loop. -/
inductive Fault where
  | outOfRange (k : Nat)
  | outOfFuel
  deriving DecidableEq, Repr

/-- The type `graph`: adjacency lists over the nodes `0..n-1`. -/
abbrev Graph := List (List Nat)

/-- The read `a[i]`. -/
def readAt (a : List Int) (i : Nat) : Except Fault Int :=
  match a[i]? with
  | some x => .ok x
  | none => .error (.outOfRange i)

/-- The write `a[i] = x`. -/
def writeAt (a : List Int) (i : Nat) (x : Int) : Except Fault (List Int) :=
  if i < a.length then .ok (a.set i x) else .error (.outOfRange i)

/-- The read `g[i]`. -/
def adj (g : Graph) (i : Nat) : Except Fault (List Nat) :=
  match g[i]? with
  | some l => .ok l
  | none => .error (.outOfRange i)

/-- The local variables of `getAP`. -/
structure APState where
  ap : List Int
  exp : List Int
  low : List Int
  cleared : List Int
  parent : List Int
  s : List Nat
  order : Int
  deriving DecidableEq, Repr

/-- The loop over `g[cur]` on the first visit of `cur`: every unexplored neighbour is
pushed and gets `cur` as its parent. -/
def pushNeighbours (cur : Nat) : List Nat → APState → Except Fault APState
  | [], st => .ok st
  | node :: rest, st => do
    let e ← readAt st.exp node
    if e = 0 then do
      let parent ← writeAt st.parent node (cur : Int)
      pushNeighbours cur rest { st with s := node :: st.s, parent := parent }
    else pushNeighbours cur rest st

/-- The loop over `g[cur]` when `cur`, which is not a root, is on top of the stack for
the second time. -/
def scanNeighbours (cur : Nat) : List Nat → APState → Except Fault APState
  | [], st => .ok st
  | node :: rest, st => do
    let en ← readAt st.exp node
    let ec ← readAt st.exp cur
    if en > ec then do
      let ln ← readAt st.low node
      let lc ← readAt st.low cur
      let low ← writeAt st.low cur (min ln lc)
      if ln ≥ ec then do
        let ap ← writeAt st.ap cur 1
        scanNeighbours cur rest { st with low := low, ap := ap }
      else scanNeighbours cur rest { st with low := low }
    else do
      let pc ← readAt st.parent cur
      if (node : Int) ≠ pc then do
        let lc ← readAt st.low cur
        let low ← writeAt st.low cur (min lc en)
        scanNeighbours cur rest { st with low := low }
      else scanNeighbours cur rest st

/-- The statements run when `cur` is on top of the stack for the second time. -/
def finish (g : Graph) (cur : Nat) (st : APState) : Except Fault APState := do
  let pc ← readAt st.parent cur
  let st1 ←
    if pc ≠ -1 then do
      let l ← adj g cur
      scanNeighbours cur l st
    else do
      let ap ← writeAt st.ap cur (if st.parent.count (cur : Int) > 1 then 1 else 0)
      pure { st with ap := ap }
  let cleared ← writeAt st1.cleared cur 1
  pure { st1 with cleared := cleared, s := st1.s.tail }

/-- The statements run when `cur` is on top of the stack for the first time. -/
def visit (g : Graph) (cur : Nat) (st : APState) : Except Fault APState := do
  let order := st.order + 1
  let exp ← writeAt st.exp cur order
  let low ← writeAt st.low cur order
  let l ← adj g cur
  pushNeighbours cur l { st with order := order, exp := exp, low := low }

/-- The loop `while (!s.empty())` of `getAP`. -/
def dfsLoop (g : Graph) : Nat → APState → Except Fault APState
  | 0, _ => .error .outOfFuel
  | fuel + 1, st =>
    match st.s with
    | [] => .ok st
    | cur :: rest => do
      let c ← readAt st.cleared cur
      if c ≠ 0 then dfsLoop g fuel { st with s := rest }
      else do
        let e ← readAt st.exp cur
        if e = 0 then do
          let st1 ← visit g cur st
          dfsLoop g fuel st1
        else do
          let st1 ← finish g cur st
          dfsLoop g fuel st1

/-- The loop `for (int i=0; i<g.size(); i++)` of `getAP`, on the roots not yet tried. -/
def rootsLoop (g : Graph) (fuel : Nat) : List Nat → APState → Except Fault APState
  | [], st => .ok st
  | i :: rest, st => do
    let c ← readAt st.cleared i
    if c ≠ 0 then rootsLoop g fuel rest st
    else do
      let st1 ← dfsLoop g fuel { st with s := i :: st.s }
      rootsLoop g fuel rest st1

/-- The function `getAP`. Each run of the `while` loop gets the fuel
`2 * (n + number of adjacency entries) + 1`: an iteration pops an entry of the stack or
visits a node for the first time. -/
def getAP (g : Graph) : Except Fault (List Nat) := do
  let n := g.length
  let st0 : APState :=
    { ap := List.replicate n 0, exp := List.replicate n 0, low := List.replicate n 0,
      cleared := List.replicate n 0, parent := List.replicate n (-1), s := [], order := 0 }
  let st ← rootsLoop g (2 * (n + (g.map List.length).sum) + 1) (List.range n) st0
  pure ((List.range n).filter fun i => st.ap.getD i 0 ≠ 0)

/-! ## Articulation points -/

/-- A simple undirected graph: every neighbour is a node, no node is its own neighbour,
and the adjacency lists are symmetric and without repetition. -/
def isSimple (g : Graph) : Bool :=
  (List.range g.length).all fun i =>
    let l := g.getD i []
    l.Nodup && l.all fun j => j < g.length && j != i && (g.getD j []).contains i

/-- One step of the search for the nodes connected to `S` in the graph without the
node `removed`. -/
def expand (g : Graph) (removed : Option Nat) (S : List Nat) : List Nat :=
  (S ++ S.flatMap fun w => (g.getD w []).filter fun u => some u ≠ removed).dedup

/-- The nodes connected to `i` in the graph without the node `removed`. -/
def component (g : Graph) (removed : Option Nat) (i : Nat) : List Nat :=
  (expand g removed)^[g.length] [i]

/-- The number of connected components of the graph without the node `removed`: the
number of nodes that are the least node of their component. -/
def componentCount (g : Graph) (removed : Option Nat) : Nat :=
  ((List.range g.length).filter fun i =>
    some i ≠ removed && (component g removed i).all fun j => i ≤ j).length

/-- The node `v` is an articulation point: removing it increases the number of connected
components. -/
def isArticulation (g : Graph) (v : Nat) : Bool :=
  componentCount g none < componentCount g (some v)

end UndirectedGraph

/-!
# Topological sorting (`directed_graph.cpp`, `topologicalOrder`)

A graph is its adjacency lists over the nodes `0..n-1` (the parameter type `adjList` of
the source is declared nowhere; it is taken to be the type `graph` of the file). The
vector `activePre` is a list of integers and the queue is a list whose head is the
front. Reads and writes outside a vector are faults, and the `while` loop is driven by
fuel.
-/

namespace DirectedGraph

/-- An access outside a vector, or the exhaustion of the fuel of a loop. -/
inductive Fault where
  | outOfRange (k : Nat)
  | outOfFuel
  deriving DecidableEq, Repr

/-- The type `graph`: adjacency lists over the nodes `0..n-1`. -/
abbrev Graph := List (List Nat)

/-- The read `a[i]`. -/
def readAt (a : List Int) (i : Nat) : Except Fault Int :=
  match a[i]? with
  | some x => .ok x
  | none => .error (.outOfRange i)

/-- The write `a[i] = x`. -/
def writeAt (a : List Int) (i : Nat) (x : Int) : Except Fault (List Int) :=
  if i < a.length then .ok (a.set i x) else .error (.outOfRange i)

/-- The read `l[i]`. -/
def adj (l : Graph) (i : Nat) : Except Fault (List Nat) :=
  match l[i]? with
  | some v => .ok v
  | none => .error (.outOfRange i)

/-- The loop `for (int node : v) activePre[node]++`. -/
def countRow : List Nat → List Int → Except Fault (List Int)
  | [], a => .ok a
  | node :: rest, a => do
    let x ← readAt a node
    let a1 ← writeAt a node (x + 1)
    countRow rest a1

/-- The loop `for (vector<int> v : l)` of the preprocessing. -/
def countAll : List (List Nat) → List Int → Except Fault (List Int)
  | [], a => .ok a
  | v :: rest, a => do
    let a1 ← countRow v a
    countAll rest a1

/-- The loop `for (int i=0; i<l.size(); i++) if (activePre[i] == 0) leadingNodes.push(i)`,
on the values of `i` not yet tried. -/
def pushLeading (a : List Int) : List Nat → List Nat → Except Fault (List Nat)
  | [], q => .ok q
  | i :: rest, q => do
    let x ← readAt a i
    if x = 0 then pushLeading a rest (q ++ [i]) else pushLeading a rest q

/-- The loop `for (int node : l[cur])` of the extraction: `activePre[node]` goes down by
one and `node` is pushed when it reaches zero. -/
def relax : List Nat → List Int → List Nat → Except Fault (List Int × List Nat)
  | [], a, q => .ok (a, q)
  | node :: rest, a, q => do
    let x ← readAt a node
    let a1 ← writeAt a node (x - 1)
    let y ← readAt a1 node
    if y = 0 then relax rest a1 (q ++ [node]) else relax rest a1 q

/-- The loop `while (!leadingNodes.empty())`; `order` is the vector `to` of the source. -/
def extractLoop (l : Graph) : Nat → List Nat → List Int → List Nat → Except Fault (List Nat)
  | 0, _, _, _ => .error .outOfFuel
  | fuel + 1, order, a, q =>
    match q with
    | [] => .ok order
    | cur :: rest => do
      let row ← adj l cur
      let (a1, q1) ← relax row a (cur :: rest)
      extractLoop l fuel (order ++ [cur]) a1 q1.tail

/-- The function `topologicalOrder`. The `while` loop gets the fuel `n + 1`. -/
def topologicalOrder (l : Graph) : Except Fault (List Nat) := do
  let a ← countAll l (List.replicate l.length 0)
  let q ← pushLeading a (List.range l.length) []
  let order ← extractLoop l (l.length + 1) [] a q
  if order.length < l.length then pure [] else pure order

/-! ## Cycles and orders -/

/-- The graph has the edge `u -> v`. -/
def Edge (l : Graph) (u v : Nat) : Prop := ∃ row, l[u]? = some row ∧ v ∈ row

/-- The graph contains a directed cycle: a node reaches itself along one edge or more. -/
def HasCycle (l : Graph) : Prop := ∃ v, Relation.TransGen (Edge l) v v

/-- The number of edges into `v` from the nodes that are not in `done`, counted with
their multiplicity. -/
def indeg (l : Graph) (done : List Nat) (v : Nat) : Nat :=
  ∑ u ∈ (Finset.range l.length).filter (fun u => u ∉ done), (l.getD u []).count v

/-- The state of the extraction before an iteration of the `while` loop: `order` and the
queue `q` hold distinct nodes, `activePre` holds for each node the number of edges into
it from the nodes not yet in `order`, the nodes of `order` and `q` are those for which
this number is zero, and every edge into a node of `order` comes from a node placed
earlier in `order`. -/
structure ExtractInv (l : Graph) (order q : List Nat) (a : List Int) : Prop where
  len : a.length = l.length
  nodup : (order ++ q).Nodup
  bound : ∀ v ∈ order ++ q, v < l.length
  count : ∀ v, v < l.length → a[v]? = some ((indeg l order v : Nat) : Int)
  zero : ∀ v, v < l.length → (v ∈ order ++ q ↔ indeg l order v = 0)
  sorted : ∀ u v, Edge l u v → v ∈ order → u ∈ order ∧ order.indexOf u < order.indexOf v

end DirectedGraph

/-!
# Interval scheduling (`greedy.cpp`, `getMaxSchedule`)

An event is the pair of its start and finish time. The lines `getMaxSchedule` prints
are returned as the list of the events selected, in printing order.
-/

namespace Greedy

/-- The type `pi` of an event: `(start, finish)`. -/
abbrev Event := Int × Int

/-- The comparison `endTimeAsc`. -/
def endTimeAsc (a b : Event) : Bool := decide (a.2 < b.2)

/-- The call `sort(schedule.begin(), schedule.end(), endTimeAsc)`. The library leaves the
order of events with equal finish time open. The model keeps them in input order: this
is the insertion sort that the library runs on a vector of at most 16 elements. On a
longer vector the library may order events with equal finish time differently, and the
model stands for the code only up to that order. -/
def sortByEnd (schedule : List Event) : List Event :=
  schedule.insertionSort fun a b => ¬ endTimeAsc b a

/-- The loop `for (pi event : schedule)` of `getMaxSchedule`: the events printed. -/
def selectLoop : List Event → Int → List Event
  | [], _ => []
  | event :: rest, lastEnd =>
    if event.1 ≥ lastEnd then event :: selectLoop rest event.2 else selectLoop rest lastEnd

/-- The function `getMaxSchedule`: the events it prints, in order. -/
def getMaxSchedule (schedule : List Event) : List Event :=
  selectLoop (sortByEnd schedule) (-1)

/-! ## Schedules -/

/-- Two events do not conflict: one finishes no later than the other starts. -/
def NonConflicting (a b : Event) : Prop := a.2 ≤ b.1 ∨ b.2 ≤ a.1

instance (a b : Event) : Decidable (NonConflicting a b) := by
  unfold NonConflicting; infer_instance

/-- A pairwise non-conflicting choice `S` of events of the input. -/
def ConflictFree (input S : List Event) : Prop :=
  S.Subperm input ∧ S.Pairwise NonConflicting

end Greedy

/-!
# Gale-Shapley stable matching (`Gale-Shapley.cpp`, `match`)

The vectors of the source are lists, and the `int`s (indices of men and women, ranks,
`next`, and the `partner` field with its value `-1` for none) are integers. Every access
of the source goes through `.at()`, which is modelled by `vecAt`: an index outside the
vector is the fault `outOfRange`. The vector `freeMen` is kept as a list whose head is
its back. The `while` loop is driven by fuel. The function `match` is called `matching`
here, since `match` is a reserved word.
-/

namespace GaleShapley

/-- An access outside a vector, or the exhaustion of the fuel of the loop. -/
inductive Fault where
  | outOfRange (k : Int)
  | outOfFuel
  deriving DecidableEq, Repr

/-- The type `struct woman`. -/
structure Woman where
  pList : List Int
  partner : Int := -1
  rank : Int
  deriving DecidableEq, Repr

/-- The type `struct man`. -/
structure Man where
  wList : List Int
  next : Int := 0
  deriving DecidableEq, Repr

/-- The element at the integer index `k`, if there is one. -/
def getI {α : Type} (l : List α) (k : Int) : Option α :=
  if 0 ≤ k then l[k.toNat]? else none

/-- The call `l.at(k)`. -/
def vecAt {α : Type} (l : List α) (k : Int) : Except Fault α :=
  match getI l k with
  | some x => .ok x
  | none => .error (.outOfRange k)

/-- A write through the reference returned by `l.at(k)`. -/
def setAt {α : Type} (l : List α) (k : Int) (x : α) : Except Fault (List α) :=
  if 0 ≤ k ∧ k.toNat < l.length then .ok (l.set k.toNat x) else .error (.outOfRange k)

/-- The numbers `0..N-1`, as integers: the content `iota` gives to `freeMen`. -/
def upTo (N : Nat) : List Int := (List.range N).map fun (n : Nat) => (n : Int)

/-- The loop `while (!freeMen.empty())` of `match`: the men and women after the loop. -/
def matchLoop : Nat → List Man → List Woman → List Int → Except Fault (List Man × List Woman)
  | 0, _, _, _ => .error .outOfFuel
  | _ + 1, men, women, [] => .ok (men, women)
  | fuel + 1, men, women, cur :: rest => do
    let m ← vecAt men cur
    let wi ← vecAt m.wList m.next
    let w ← vecAt women wi
    if w.partner = -1 then do
      let r ← vecAt w.pList cur
      let women1 ← setAt women wi { w with partner := cur, rank := r }
      let men1 ← setAt men cur { m with next := m.next + 1 }
      matchLoop fuel men1 women1 rest
    else do
      let r ← vecAt w.pList cur
      if r < w.rank then do
        let r1 ← vecAt w.pList cur
        let women1 ← setAt women wi { w with partner := cur, rank := r1 }
        let men1 ← setAt men cur { m with next := m.next + 1 }
        matchLoop fuel men1 women1 (w.partner :: rest)
      else do
        let men1 ← setAt men cur { m with next := m.next + 1 }
        matchLoop fuel men1 women (cur :: rest)

/-- The loop `for (int i=0; i<women.size(); i++)` of `match`, on the values of `i` not
yet done: the pairs (partner, woman) pushed to `result`. -/
def resultLoop (women : List Woman) : List Nat → Except Fault (List (List Int))
  | [] => .ok []
  | i :: rest => do
    let w ← vecAt women (i : Int)
    let tl ← resultLoop women rest
    pure ([w.partner, (i : Int)] :: tl)

/-- The function `match`. The `while` loop gets the fuel `N * N + 1` for `N` men. -/
def matching (men : List Man) (women : List Woman) : Except Fault (List (List Int)) := do
  let freeMen : List Int := (upTo men.length).reverse
  let (_, women1) ← matchLoop (men.length * men.length + 1) men women freeMen
  resultLoop women1 (List.range women1.length)

/-! ## Stable matchings -/

/-- The man `m` and the woman `w`, who are not matched to each other, both prefer the
other to their partner in the matching `partners` (the list of the partners of the
women): `w` comes before the partner `v` of `m` in the list of `m`, and `m` has a smaller
rank than the partner `p` of `w` in the list of `w`. -/
def Blocking (men : List Man) (women : List Woman) (partners : List Int) (m w : Nat) : Prop :=
  ∃ (mn : Man) (wn : Woman) (v : Nat) (p : Int) (rm rp : Int),
    men[m]? = some mn ∧ women[w]? = some wn ∧ partners[v]? = some (m : Int) ∧
    partners[w]? = some p ∧ p ≠ (m : Int) ∧
    mn.wList.indexOf (w : Int) < mn.wList.indexOf (v : Int) ∧
    wn.pList[m]? = some rm ∧ getI wn.pList p = some rp ∧ rm < rp

/-- The number of women who have a partner. -/
def engagedCount (women : List Woman) : Int :=
  (women.map fun w => if w.partner = -1 then (0 : Int) else 1).sum

/-- The number of proposals made so far: the sum of the `next` fields. -/
def proposals (men : List Man) : Int := (men.map fun m => m.next).sum

/-- The state of `match` before an iteration of the `while` loop, for `N` men and women
with the preference lists of `men0` and `women0`. The preference lists are unchanged and
`next` is between `0` and `N`; the free men are distinct; a woman with a partner holds
his rank, he is not free and she is the last woman he proposed to; every woman a man has
proposed to has a partner she ranks at least as high as him; and the free men and the
engaged women are `N` together. -/
structure GSInv (N : Nat) (men0 : List Man) (women0 : List Woman) (men : List Man)
    (women : List Woman) (free : List Int) : Prop where
  mlen : men.length = N
  wlen : women.length = N
  mstatic : ∀ (i : Nat) (mn : Man), men[i]? = some mn →
    (∃ m0, men0[i]? = some m0 ∧ mn.wList = m0.wList) ∧ 0 ≤ mn.next ∧ mn.next ≤ (N : Int)
  wstatic : ∀ (j : Nat) (wn : Woman), women[j]? = some wn →
    ∃ w0, women0[j]? = some w0 ∧ wn.pList = w0.pList
  free_nodup : free.Nodup
  free_range : ∀ c ∈ free, 0 ≤ c ∧ c < (N : Int)
  engaged : ∀ (j : Nat) (wn : Woman), women[j]? = some wn → wn.partner ≠ -1 →
    0 ≤ wn.partner ∧ wn.partner < (N : Int) ∧ wn.partner ∉ free ∧
      getI wn.pList wn.partner = some wn.rank ∧
      ∃ mn, getI men wn.partner = some mn ∧ 1 ≤ mn.next ∧
        getI mn.wList (mn.next - 1) = some (j : Int)
  proposed : ∀ (i : Nat) (mn : Man), men[i]? = some mn → ∀ k : Nat, (k : Int) < mn.next →
    ∃ (j : Nat) (wn : Woman) (r : Int), mn.wList[k]? = some (j : Int) ∧
      women[j]? = some wn ∧ wn.partner ≠ -1 ∧ wn.pList[i]? = some r ∧ wn.rank ≤ r
  count : (free.length : Int) + engagedCount women = (N : Int)

end GaleShapley

/-!
# Union-find (`union_find.cpp`: `makeUF`, `Find`, `Union`)

The `UFNode`s live in a heap, a list in which a pointer is an index and a nullable
pointer an `Option Nat`. Items, the `val` fields and the indices into `nodes` and
`groupSize` are natural numbers (the source uses `int`s that are never negative).
Accesses outside a vector and dereferences of pointers outside the heap are faults;
the `while` loop of `Find` is driven by fuel.
-/

namespace UnionFindDS

/-- An access outside a vector or the heap, or the exhaustion of the fuel of a loop. -/
inductive Fault where
  | outOfRange (k : Nat)
  | wildPointer
  | outOfFuel
  deriving DecidableEq, Repr

/-- The node type `struct UFNode`. -/
structure UFNode where
  val : Nat
  next : Option Nat
  deriving DecidableEq, Repr

/-- The type `struct UnionFind`, together with the heap its pointers point into. -/
structure UnionFind where
  heap : List UFNode
  nodes : List Nat
  groupSize : List Int
  deriving DecidableEq, Repr

/-- Dereference of a non-null pointer. -/
def load (heap : List UFNode) (a : Nat) : Except Fault UFNode :=
  match heap[a]? with
  | some n => .ok n
  | none => .error .wildPointer

/-- The read `uf.nodes[i]`. -/
def nodeAt (nodes : List Nat) (i : Nat) : Except Fault Nat :=
  match nodes[i]? with
  | some a => .ok a
  | none => .error (.outOfRange i)

/-- The read `uf.groupSize[i]`. -/
def sizeAt (groupSize : List Int) (i : Nat) : Except Fault Int :=
  match groupSize[i]? with
  | some x => .ok x
  | none => .error (.outOfRange i)

/-- The write `uf.groupSize[i] = x`. -/
def setSize (groupSize : List Int) (i : Nat) (x : Int) : Except Fault (List Int) :=
  if i < groupSize.length then .ok (groupSize.set i x) else .error (.outOfRange i)

/-- The assignment `a->next = p`. -/
def setNext (heap : List UFNode) (a : Nat) (p : Option Nat) : Except Fault (List UFNode) := do
  let n ← load heap a
  pure (heap.set a { n with next := p })

/-- The loop `for (int i=0; i<n; i++) uf.nodes[i] = new UFNode {i, nullptr}` of `makeUF`,
for the last `rem` values of `i`. -/
def makeLoop (n : Nat) : Nat → UnionFind → Except Fault UnionFind
  | 0, uf => .ok uf
  | rem + 1, uf =>
    let i := n - (rem + 1)
    let a := uf.heap.length
    if i < uf.nodes.length then
      makeLoop n rem { uf with heap := uf.heap ++ [⟨i, none⟩], nodes := uf.nodes.set i a }
    else .error (.outOfRange i)

/-- The function `makeUF`. -/
def makeUF (n : Nat) : Except Fault UnionFind :=
  makeLoop n n { heap := [], nodes := List.replicate n 0, groupSize := List.replicate n 1 }

/-- The loop `while (cur->next) { v.push_back(cur); cur = cur->next; }` of `Find`. -/
def findLoop (heap : List UFNode) : Nat → Nat → List Nat → Except Fault (Nat × List Nat)
  | 0, _, _ => .error .outOfFuel
  | fuel + 1, cur, v => do
    let n ← load heap cur
    match n.next with
    | none => pure (cur, v)
    | some nx => findLoop heap fuel nx (v ++ [cur])

/-- The loop `for (UFNode *node : v) node->next = cur` of `Find`. -/
def compress (cur : Nat) : List Nat → List UFNode → Except Fault (List UFNode)
  | [], heap => .ok heap
  | node :: rest, heap => do
    let heap1 ← setNext heap node (some cur)
    compress cur rest heap1

/-- The function `Find`: the union-find after the call and the value returned. The loop
gets the fuel `heap size + 1`. -/
def Find (uf : UnionFind) (a : Nat) : Except Fault (UnionFind × Nat) := do
  let start ← nodeAt uf.nodes a
  let (cur, v) ← findLoop uf.heap (uf.heap.length + 1) start []
  let heap ← compress cur v uf.heap
  let n ← load heap cur
  pure ({ uf with heap := heap }, n.val)

/-- The two branches of `Union` after the test `first == second`: the root `child` of
the smaller group is hung under the root `parent` of the larger one. -/
def link (uf : UnionFind) (parent child : Nat) : Except Fault UnionFind := do
  let heap ← setNext uf.heap child (some parent)
  let pn ← load heap parent
  let cn ← load heap child
  let sp ← sizeAt uf.groupSize pn.val
  let sc ← sizeAt uf.groupSize cn.val
  let gs1 ← setSize uf.groupSize pn.val (sp + sc)
  let gs2 ← setSize gs1 cn.val 0
  pure { uf with heap := heap, groupSize := gs2 }

/-- The function `Union`. -/
def Union (uf : UnionFind) (a b : Nat) : Except Fault UnionFind := do
  let (uf1, ra) ← Find uf a
  let first ← nodeAt uf1.nodes ra
  let (uf2, rb) ← Find uf1 b
  let second ← nodeAt uf2.nodes rb
  if first = second then pure uf2
  else do
    let fn ← load uf2.heap first
    let sn ← load uf2.heap second
    let s1 ← sizeAt uf2.groupSize fn.val
    let s2 ← sizeAt uf2.groupSize sn.val
    if s1 ≥ s2 then link uf2 first second else link uf2 second first

/-! ## Sequences of calls -/

/-- A call of `Find` or of `Union`. -/
inductive Op where
  | find (a : Nat)
  | union (a b : Nat)
  deriving DecidableEq, Repr

/-- The items of a call are below `n`. -/
def Op.Valid (n : Nat) : Op → Prop
  | .find a => a < n
  | .union a b => a < n ∧ b < n

instance (n : Nat) (op : Op) : Decidable (op.Valid n) := by
  cases op <;> unfold Op.Valid <;> infer_instance

/-- The union-find after a call. -/
def runOp (uf : UnionFind) : Op → Except Fault UnionFind
  | .find a => do
    let (uf1, _) ← Find uf a
    pure uf1
  | .union a b => Union uf a b

/-- The union-find after a sequence of calls. -/
def runOps : List Op → UnionFind → Except Fault UnionFind
  | [], uf => .ok uf
  | op :: ops, uf => do
    let uf1 ← runOp uf op
    runOps ops uf1

/-- The pairs united by a sequence of calls. -/
def United (ops : List Op) (a b : Nat) : Prop := Op.union a b ∈ ops

/-- The node `r` is reached from the node `i` by following `next` links. -/
inductive Reaches (heap : List UFNode) : Nat → Nat → Prop where
  | here (i : Nat) (n : UFNode) : heap[i]? = some n → Reaches heap i i
  | step (i p r : Nat) (n : UFNode) : heap[i]? = some n → n.next = some p →
      Reaches heap p r → Reaches heap i r

/-- The node `r` is the root of the tree of the node `i`. -/
def IsRoot (heap : List UFNode) (i r : Nat) : Prop :=
  Reaches heap i r ∧ ∃ n, heap[r]? = some n ∧ n.next = none

/-- The state of a union-find over the items `0..n-1`: node `i` is at address `i` and has
the value `i`, and the `next` links go up along a height function, so they form a
forest. -/
structure WF (uf : UnionFind) (n : Nat) : Prop where
  heap_len : uf.heap.length = n
  nodes : uf.nodes = List.range n
  size_len : uf.groupSize.length = n
  val : ∀ (i : Nat) (nd : UFNode), uf.heap[i]? = some nd → nd.val = i
  acyclic : ∃ ht : Nat → Nat, ∀ (i p : Nat) (nd : UFNode), uf.heap[i]? = some nd →
    nd.next = some p → p < n ∧ ht i < ht p

/-- The items `x` and `y` are in one tree. -/
def Same (uf : UnionFind) (x y : Nat) : Prop :=
  ∃ r, IsRoot uf.heap x r ∧ IsRoot uf.heap y r

/-- The heap `heap2` is the heap `heap1` after path compression: the nodes are the same,
and the `next` link of a node is the one it had or points to the root of the node. -/
def Compressed (heap1 heap2 : List UFNode) : Prop :=
  heap2.length = heap1.length ∧
  ∀ (i : Nat) (nd2 : UFNode), heap2[i]? = some nd2 →
    ∃ nd1, heap1[i]? = some nd1 ∧ nd2.val = nd1.val ∧
      (nd2.next = nd1.next ∨ ∃ r, nd2.next = some r ∧ IsRoot heap1 i r ∧ i ≠ r)

end UnionFindDS

/-!
# Binary min-heap (`binary_heap.cpp`)

A heap is the list of the elements of the vector; positions are the 1-based `int`
arguments of the source, so the element at position `k` is `h[k-1]`. Reads and writes
outside the vector are faults. The recursions of `heapify_up` and `heapify_down` are
driven by fuel, which the callers set to the size of the vector plus one.
-/

namespace BinaryHeap

/-- An access outside the vector, or the exhaustion of the fuel of a recursion. -/
inductive Fault where
  | outOfRange (k : Int)
  | outOfFuel
  deriving DecidableEq, Repr

/-- The read `h[k]`. -/
def readAt (h : List Int) (k : Int) : Except Fault Int :=
  if 0 ≤ k then
    match h[k.toNat]? with
    | some x => .ok x
    | none => .error (.outOfRange k)
  else .error (.outOfRange k)

/-- The write `h[k] = x`. -/
def writeAt (h : List Int) (k : Int) (x : Int) : Except Fault (List Int) :=
  if 0 ≤ k ∧ k.toNat < h.length then .ok (h.set k.toNat x) else .error (.outOfRange k)

/-- The function `swap`. -/
def swap (h : List Int) (i j : Int) : Except Fault (List Int) := do
  let a ← readAt h (i - 1)
  let b ← readAt h (j - 1)
  let h1 ← writeAt h (i - 1) b
  writeAt h1 (j - 1) a

/-- The function `heapify_up`. -/
def heapify_up : Nat → List Int → Int → Except Fault (List Int)
  | 0, _, _ => .error .outOfFuel
  | fuel + 1, h, i =>
    if i > 1 then do
      let p := i.tdiv 2
      let a ← readAt h (p - 1)
      let b ← readAt h (i - 1)
      if a > b then do
        let h1 ← swap h i p
        heapify_up fuel h1 p
      else pure h
    else pure h

/-- The choice of the child `j` in `heapify_down`: `none` stands for the `return` of the
last branch. -/
def pickChild (h : List Int) (i : Int) : Except Fault (Option Int) :=
  let n : Int := h.length
  if 2 * i = n then pure (some n)
  else if 2 * i < n then do
    let a ← readAt h (2 * i - 1)
    let b ← readAt h (2 * i)
    pure (some (if a > b then 2 * i + 1 else 2 * i))
  else pure none

/-- The function `heapify_down`. -/
def heapify_down : Nat → List Int → Int → Except Fault (List Int)
  | 0, _, _ => .error .outOfFuel
  | fuel + 1, h, i => do
    let c ← pickChild h i
    match c with
    | none => pure h
    | some j => do
      let a ← readAt h (i - 1)
      let b ← readAt h (j - 1)
      if a > b then do
        let h1 ← swap h i j
        heapify_down fuel h1 j
      else pure h

/-- The function `insert`. -/
def insert (h : List Int) (k : Int) : Except Fault (List Int) :=
  let n : Int := h.length
  let h1 := h ++ [k]
  heapify_up (h1.length + 1) h1 (n + 1)

/-- The function `findMin`. -/
def findMin (h : List Int) : Except Fault Int := readAt h 0

/-- The function `remove`. The call `h.back()` on an empty vector is a fault. -/
def remove (h : List Int) (i : Int) : Except Fault (List Int) := do
  let last ← readAt h ((h.length : Int) - 1)
  let h1 ← writeAt h (i - 1) last
  let h2 := h1.dropLast
  let h3 ← heapify_up (h2.length + 1) h2 i
  heapify_down (h3.length + 1) h3 i

/-- The function `extractMin`: the heap after the call and the value returned. -/
def extractMin (h : List Int) : Except Fault (List Int × Int) := do
  let a ← findMin h
  let h1 ← remove h 1
  pure (h1, a)

/-! ## The heap order -/

/-- The min-heap order: every element at a 1-based position `k > 1` is at least the
element at position `k / 2`. -/
def HeapOrder (h : List Int) : Prop :=
  ∀ k : Nat, 1 < k → k ≤ h.length → h.getD (k / 2 - 1) 0 ≤ h.getD (k - 1) 0

instance (h : List Int) : Decidable (HeapOrder h) :=
  decidable_of_iff (∀ k : Nat, k < h.length + 1 → 1 < k → h.getD (k / 2 - 1) 0 ≤ h.getD (k - 1) 0)
    ⟨fun H k h1 h2 => H k (by omega) h1, fun H k hk h1 => H k h1 (by omega)⟩

end BinaryHeap

/-! # Proofs -/

namespace AhoCorasick

/-! ## The fault monad and the heap primitives -/

@[simp] theorem ok_bind {α β : Type} (a : α) (f : α → Except Fault β) :
    (Except.ok a >>= f) = f a := rfl

@[simp] theorem error_bind {α β : Type} (e : Fault) (f : α → Except Fault β) :
    ((Except.error e : Except Fault α) >>= f) = Except.error e := rfl

@[simp] theorem pure_eq_ok {α : Type} (a : α) : (pure a : Except Fault α) = Except.ok a := rfl

theorem load_ok {h : Heap} {a : Nat} {n : ACNode} (hn : h[a]? = some n) :
    load h a = .ok n := by
  simp [load, hn]

theorem load_ok_iff {h : Heap} {a : Nat} {n : ACNode} :
    load h a = .ok n ↔ h[a]? = some n := by
  unfold load
  cases h[a]? <;> simp

theorem deref_ok {h : Heap} {a : Nat} {n : ACNode} (hn : h[a]? = some n) :
    deref h (some a) = .ok (a, n) := by
  simp [deref, hn]

theorem lt_of_get {h : Heap} {a : Nat} {n : ACNode} (hn : h[a]? = some n) : a < h.length := by
  by_contra hc
  rw [List.getElem?_eq_none (by omega)] at hn
  cases hn

theorem get_of_lt {h : Heap} {a : Nat} (ha : a < h.length) : ∃ n, h[a]? = some n :=
  ⟨h[a], List.getElem?_eq_getElem ha⟩

theorem get_set {h : Heap} {a : Nat} {n n' : ACNode} (hn : h[a]? = some n) (v : Nat) :
    (h.set a n')[v]? = if v = a then some n' else h[v]? := by
  have ha := lt_of_get hn
  by_cases hv : v = a
  · subst hv; simp [ha]
  · simp [hv, List.getElem?_set_ne (Ne.symm hv)]

theorem childAt_ok {n : ACNode} {k : Int} (h0 : 0 ≤ k) (h1 : k < (SIZE : Int)) :
    n.childAt k = .ok (n.child k.toNat) := by
  simp [ACNode.childAt, h0, h1]

/-- How each accessor sees a heap in which node `a` has been replaced. -/
theorem childOf_set {h : Heap} {a : Nat} {n n' : ACNode} (hn : h[a]? = some n) (v k : Nat) :
    childOf (h.set a n') v k = if v = a then n'.child k else childOf h v k := by
  unfold childOf; rw [get_set hn]; split <;> simp

theorem failOf_set {h : Heap} {a : Nat} {n n' : ACNode} (hn : h[a]? = some n) (v : Nat) :
    failOf (h.set a n') v = if v = a then n'.fail else failOf h v := by
  unfold failOf; rw [get_set hn]; split <;> simp

theorem outOf_set {h : Heap} {a : Nat} {n n' : ACNode} (hn : h[a]? = some n) (v : Nat) :
    outOf (h.set a n') v = if v = a then n'.out else outOf h v := by
  unfold outOf; rw [get_set hn]; split <;> simp

theorem depthOf_set {h : Heap} {a : Nat} {n n' : ACNode} (hn : h[a]? = some n) (v : Nat) :
    depthOf (h.set a n') v = if v = a then some n'.depth else depthOf h v := by
  unfold depthOf; rw [get_set hn]; split <;> simp

theorem patOf_set {h : Heap} {a : Nat} {n n' : ACNode} (hn : h[a]? = some n) (v : Nat) :
    patOf (h.set a n') v = if v = a then some n'.pattern else patOf h v := by
  unfold patOf; rw [get_set hn]; split <;> simp

theorem childOf_get {h : Heap} {a : Nat} {n : ACNode} (hn : h[a]? = some n) (k : Nat) :
    childOf h a k = n.child k := by simp [childOf, hn]

theorem failOf_get {h : Heap} {a : Nat} {n : ACNode} (hn : h[a]? = some n) :
    failOf h a = n.fail := by simp [failOf, hn]

theorem outOf_get {h : Heap} {a : Nat} {n : ACNode} (hn : h[a]? = some n) :
    outOf h a = n.out := by simp [outOf, hn]

theorem depthOf_get {h : Heap} {a : Nat} {n : ACNode} (hn : h[a]? = some n) :
    depthOf h a = some n.depth := by simp [depthOf, hn]

theorem patOf_get {h : Heap} {a : Nat} {n : ACNode} (hn : h[a]? = some n) :
    patOf h a = some n.pattern := by simp [patOf, hn]

theorem childOf_lt {h : Heap} {v k u : Nat} (hc : childOf h v k = some u) : v < h.length := by
  by_contra hv
  simp [childOf, List.getElem?_eq_none (show h.length ≤ v by omega)] at hc

theorem SameTrie.refl_trie (h : Heap) : SameTrie h h :=
  ⟨rfl, fun _ _ => rfl, fun _ => rfl, fun _ n hn => ⟨n, hn, rfl⟩⟩

theorem SameTrie.trans_trie {h1 h2 h3 : Heap} (a : SameTrie h1 h2) (b : SameTrie h2 h3) :
    SameTrie h1 h3 where
  len := b.len.trans a.len
  child v k := (b.child v k).trans (a.child v k)
  depth v := (b.depth v).trans (a.depth v)
  width v n3 h3n := by
    obtain ⟨n2, h2n, e2⟩ := b.width v n3 h3n
    obtain ⟨n1, h1n, e1⟩ := a.width v n2 h2n
    exact ⟨n1, h1n, e2.trans e1⟩

theorem SameShape.refl_shape (h : Heap) : SameShape h h := ⟨SameTrie.refl_trie h, fun _ => rfl⟩

theorem SameShape.trans_shape {h1 h2 h3 : Heap} (a : SameShape h1 h2) (b : SameShape h2 h3) :
    SameShape h1 h3 :=
  ⟨a.trie.trans_trie b.trie, fun v => (b.pat v).trans (a.pat v)⟩

theorem TrieInv.congr_trie {h h' : Heap} {keys : List (List Nat)} (s : SameTrie h h')
    (t : TrieInv h keys) : TrieInv h' keys where
  len := t.len.trans s.len.symm
  root := t.root
  nodup := t.nodup
  width v n' hn' := by
    obtain ⟨n, hn, e⟩ := s.width v n' hn'
    rw [e]; exact t.width v n hn
  child_key v k u hc := t.child_key v k u (by rw [← s.child]; exact hc)
  key_child u w k hk := by
    obtain ⟨v, hv, hc⟩ := t.key_child u w k hk
    exact ⟨v, hv, by rw [s.child]; exact hc⟩
  depth v w hk := by rw [s.depth]; exact t.depth v w hk

/-- Replacing node `a` by a node with the same table and depth keeps the trie structure. -/
theorem sameTrie_set {h : Heap} {a : Nat} {n n' : ACNode} (hn : h[a]? = some n)
    (hc : n'.children = n.children) (hd : n'.depth = n.depth) : SameTrie h (h.set a n') := by
  refine ⟨by simp, ?_, ?_, ?_⟩
  · intro v k; rw [childOf_set hn]; split
    · next e => subst e; rw [childOf_get hn]; simp [ACNode.child, hc]
    · rfl
  · intro v; rw [depthOf_set hn]; split
    · next e => subst e; rw [depthOf_get hn, hd]
    · rfl
  · intro v m hm
    rw [get_set hn] at hm
    split at hm
    · next e => subst e; cases hm; exact ⟨n, hn, hc⟩
    · exact ⟨m, hm, rfl⟩

theorem patOf_set_same {h : Heap} {a : Nat} {n n' : ACNode} (hn : h[a]? = some n)
    (hp : n'.pattern = n.pattern) (v : Nat) : patOf (h.set a n') v = patOf h v := by
  rw [patOf_set hn]; split
  · next e => subst e; rw [patOf_get hn, hp]
  · rfl

theorem failOf_set_same {h : Heap} {a : Nat} {n n' : ACNode} (hn : h[a]? = some n)
    (hp : n'.fail = n.fail) (v : Nat) : failOf (h.set a n') v = failOf h v := by
  rw [failOf_set hn]; split
  · next e => subst e; rw [failOf_get hn, hp]
  · rfl

theorem outOf_set_same {h : Heap} {a : Nat} {n n' : ACNode} (hn : h[a]? = some n)
    (hp : n'.out = n.out) (v : Nat) : outOf (h.set a n') v = outOf h v := by
  rw [outOf_set hn]; split
  · next e => subst e; rw [outOf_get hn, hp]
  · rfl

theorem setFail_spec {h : Heap} {a : Nat} {n : ACNode} (hn : h[a]? = some n) (f : Option Nat) :
    ∃ h', setFail h a f = .ok h' ∧ SameShape h h' ∧
      (∀ v, failOf h' v = if v = a then f else failOf h v) ∧
      (∀ v, outOf h' v = outOf h v) :=
  ⟨h.set a { n with fail := f }, by simp [setFail, load_ok hn],
    ⟨sameTrie_set hn rfl rfl, patOf_set_same hn rfl⟩,
    fun v => failOf_set hn v, outOf_set_same hn rfl⟩

theorem setOut_spec {h : Heap} {a : Nat} {n : ACNode} (hn : h[a]? = some n) (o : Option Nat) :
    ∃ h', setOut h a o = .ok h' ∧ SameShape h h' ∧
      (∀ v, outOf h' v = if v = a then o else outOf h v) ∧
      (∀ v, failOf h' v = failOf h v) :=
  ⟨h.set a { n with out := o }, by simp [setOut, load_ok hn],
    ⟨sameTrie_set hn rfl rfl, patOf_set_same hn rfl⟩,
    fun v => outOf_set hn v, failOf_set_same hn rfl⟩

theorem setPattern_spec {h : Heap} {a : Nat} {n : ACNode} (hn : h[a]? = some n) (i : Int) :
    ∃ h', setPattern h a i = .ok h' ∧ SameTrie h h' ∧
      (∀ v, patOf h' v = if v = a then some i else patOf h v) ∧
      (∀ v, failOf h' v = failOf h v) ∧ (∀ v, outOf h' v = outOf h v) :=
  ⟨h.set a { n with pattern := i }, by simp [setPattern, load_ok hn],
    sameTrie_set hn rfl rfl, fun v => patOf_set hn v,
    failOf_set_same hn rfl, outOf_set_same hn rfl⟩

/-! ## Strings and keys -/

theorem charIndex_range {c : Char} (hc : 'a' ≤ c ∧ c ≤ 'z') :
    0 ≤ charIndex c ∧ charIndex c < (SIZE : Int) := by
  obtain ⟨h1, h2⟩ := hc
  rw [Char.le_def] at h1 h2
  have a1 : (97 : Nat) ≤ c.val.toNat := h1
  have a2 : c.val.toNat ≤ 122 := h2
  have a3 : c.toNat = c.val.toNat := rfl
  simp only [charIndex, FIRST, SIZE]
  have a4 : 'a'.toNat = 97 := rfl
  omega

theorem code_lt {c : Char} (hc : 'a' ≤ c ∧ c ≤ 'z') : code c < SIZE := by
  have := charIndex_range hc
  unfold code
  omega

theorem key_lt {keys : List (List Nat)} {v : Nat} {w : List Nat} (hv : keys[v]? = some w) :
    v < keys.length := by
  by_contra hc
  rw [List.getElem?_eq_none (by omega)] at hv
  cases hv

theorem key_inj {keys : List (List Nat)} (nd : keys.Nodup) {u v : Nat} {w : List Nat}
    (hu : keys[u]? = some w) (hv : keys[v]? = some w) : u = v := by
  have lu := key_lt hu
  have lv := key_lt hv
  rw [List.getElem?_eq_getElem lu] at hu
  rw [List.getElem?_eq_getElem lv] at hv
  have e : keys[u] = keys[v] := by
    rw [Option.some.inj hu, Option.some.inj hv]
  exact (nd.getElem_inj_iff).1 e

theorem key_append {keys l : List (List Nat)} {v : Nat} {w : List Nat}
    (hv : keys[v]? = some w) : (keys ++ l)[v]? = some w := by
  rw [List.getElem?_append_left (key_lt hv)]; exact hv

theorem key_of_isPrefix {keys keys' : List (List Nat)} (hp : keys <+: keys') {v : Nat} {w : List Nat}
    (hv : keys[v]? = some w) : keys'[v]? = some w := by
  obtain ⟨l, rfl⟩ := hp
  exact key_append hv

theorem key_mem {keys : List (List Nat)} {v : Nat} {w : List Nat} (hv : keys[v]? = some w) :
    w ∈ keys := List.mem_iff_getElem?.2 ⟨v, hv⟩

theorem TrieInv.key_of_lt {h : Heap} {keys : List (List Nat)} (t : TrieInv h keys) {v : Nat}
    (hv : v < h.length) : ∃ w, keys[v]? = some w :=
  have hv' : v < keys.length := by rw [t.len]; exact hv
  ⟨keys[v], List.getElem?_eq_getElem hv'⟩

theorem TrieInv.get_of_key {h : Heap} {keys : List (List Nat)} (t : TrieInv h keys) {v : Nat}
    {w : List Nat} (hv : keys[v]? = some w) : ∃ n, h[v]? = some n ∧ n.depth = w.length := by
  have hl : v < h.length := by rw [← t.len]; exact key_lt hv
  obtain ⟨n, hn⟩ := get_of_lt hl
  have hd := t.depth v w hv
  rw [depthOf_get hn] at hd
  exact ⟨n, hn, Option.some.inj hd⟩

theorem TrieInv.sym_lt {h : Heap} {keys : List (List Nat)} (t : TrieInv h keys) {v k u : Nat}
    (hc : childOf h v k = some u) : k < SIZE := by
  obtain ⟨n, hn⟩ := get_of_lt (childOf_lt hc)
  rw [childOf_get hn] at hc
  have hw := t.width v n hn
  by_contra hk
  simp [ACNode.child, List.getElem?_eq_none (show n.children.length ≤ k by omega)] at hc

/-! ## Growing the trie by one node -/

theorem set_self {h : Heap} {a : Nat} {n : ACNode} (hn : h[a]? = some n) : h.set a n = h := by
  apply List.ext_getElem?
  intro v
  rw [get_set hn]
  split
  · next e => subst e; exact hn.symm
  · rfl

theorem fresh_child (k : Nat) : ({} : ACNode).child k = none := by
  simp only [ACNode.child, List.getElem?_replicate]
  split <;> rfl

theorem child_set_children {n : ACNode} {k : Nat} (u : Nat) (hk : k < n.children.length)
    (k' : Nat) : ({ n with children := n.children.set k (some u) } : ACNode).child k' =
      if k' = k then some u else n.child k' := by
  simp only [ACNode.child, List.getElem?_set]
  by_cases e : k = k'
  · subst e; simp [hk]
  · simp [e, Ne.symm e]

/-- The three statements that create a child: `new ACNode()`, the store into the
`children` table and the store of the depth. -/
theorem grow_spec {h : Heap} {cur : Nat} {n : ACNode} (hn : h[cur]? = some n)
    (hw : ∀ (v : Nat) (m : ACNode), h[v]? = some m → m.children.length = SIZE)
    {k : Nat} (hk : k < SIZE) (d : Nat) :
    ∃ h2 h3, setChild (h ++ [({} : ACNode)]) cur k h.length = .ok h2 ∧
      setDepth h2 h.length d = .ok h3 ∧ h3.length = h.length + 1 ∧
      (∀ v k', childOf h3 v k' = if v = cur ∧ k' = k then some h.length else childOf h v k') ∧
      (∀ v, depthOf h3 v = if v = h.length then some d else depthOf h v) ∧
      (∀ v, patOf h3 v = if v = h.length then some (-1) else patOf h v) ∧
      (∀ v, failOf h3 v = failOf h v) ∧ (∀ v, outOf h3 v = outOf h v) ∧
      (∀ (v : Nat) (m : ACNode), h3[v]? = some m → m.children.length = SIZE) := by
  have hcur := lt_of_get hn
  have hne : cur ≠ h.length := by omega
  have hn1 : (h ++ [({} : ACNode)])[cur]? = some n := by
    rw [List.getElem?_append_left hcur]; exact hn
  have hf1 : (h ++ [({} : ACNode)])[h.length]? = some ({} : ACNode) := by
    rw [List.getElem?_append_right (le_refl _)]; simp
  have hout : ∀ v, h.length < v → (h ++ [({} : ACNode)])[v]? = none := by
    intro v hv; apply List.getElem?_eq_none; simp; omega
  have hnone : ∀ v, h.length ≤ v → h[v]? = none := fun v hv => List.getElem?_eq_none hv
  let n1 : ACNode := { n with children := n.children.set k (some h.length) }
  let h2 : Heap := (h ++ [({} : ACNode)]).set cur n1
  have hf2 : h2[h.length]? = some ({} : ACNode) := by
    show ((h ++ [({} : ACNode)]).set cur n1)[h.length]? = _
    rw [get_set hn1, if_neg (Ne.symm hne)]; exact hf1
  let n3 : ACNode := { ({} : ACNode) with depth := d }
  refine ⟨h2, h2.set h.length n3, by simp [setChild, load_ok hn1, h2, n1],
    by simp [setDepth, load_ok hf2, n3], by simp [h2], ?_, ?_, ?_, ?_, ?_, ?_⟩
  · intro v k'
    rw [childOf_set hf2, childOf_set hn1]
    by_cases e1 : v = h.length
    · subst e1
      rw [if_pos rfl, if_neg (by intro hh; exact hne hh.1.symm)]
      simp [childOf, hnone, n3]; exact fresh_child k'
    · rw [if_neg e1]
      by_cases e2 : v = cur
      · subst e2
        rw [if_pos rfl, child_set_children _ (by rw [hw v n hn]; exact hk), childOf_get hn]
        by_cases e3 : k' = k <;> simp [e3]
      · rw [if_neg e2, if_neg (by intro hh; exact e2 hh.1)]
        unfold childOf
        by_cases e4 : v < h.length
        · rw [List.getElem?_append_left e4]
        · rw [hout v (by omega), hnone v (by omega)]
  · intro v
    rw [depthOf_set hf2, depthOf_set hn1]
    by_cases e1 : v = h.length
    · simp [e1, n3]
    · rw [if_neg e1, if_neg e1]
      by_cases e2 : v = cur
      · subst e2; rw [if_pos rfl, depthOf_get hn]
      · rw [if_neg e2]; unfold depthOf
        by_cases e4 : v < h.length
        · rw [List.getElem?_append_left e4]
        · rw [hout v (by omega), hnone v (by omega)]
  · intro v
    rw [patOf_set hf2, patOf_set hn1]
    by_cases e1 : v = h.length
    · simp [e1, n3]
    · rw [if_neg e1, if_neg e1]
      by_cases e2 : v = cur
      · subst e2; rw [if_pos rfl, patOf_get hn]
      · rw [if_neg e2]; unfold patOf
        by_cases e4 : v < h.length
        · rw [List.getElem?_append_left e4]
        · rw [hout v (by omega), hnone v (by omega)]
  · intro v
    rw [failOf_set hf2, failOf_set hn1]
    by_cases e1 : v = h.length
    · simp [e1, n3, failOf, hnone]
    · rw [if_neg e1]
      by_cases e2 : v = cur
      · subst e2; rw [if_pos rfl, failOf_get hn]
      · rw [if_neg e2]; unfold failOf
        by_cases e4 : v < h.length
        · rw [List.getElem?_append_left e4]
        · rw [hout v (by omega), hnone v (by omega)]
  · intro v
    rw [outOf_set hf2, outOf_set hn1]
    by_cases e1 : v = h.length
    · simp [e1, n3, outOf, hnone]
    · rw [if_neg e1]
      by_cases e2 : v = cur
      · subst e2; rw [if_pos rfl, outOf_get hn]
      · rw [if_neg e2]; unfold outOf
        by_cases e4 : v < h.length
        · rw [List.getElem?_append_left e4]
        · rw [hout v (by omega), hnone v (by omega)]
  · intro v m hm
    rw [get_set hf2] at hm
    split at hm
    · cases hm; simp [n3, SIZE]
    · next e1 =>
      change ((h ++ [({} : ACNode)]).set cur n1)[v]? = _ at hm
      rw [get_set hn1] at hm
      split at hm
      · cases hm; simp only [n1, List.length_set]; exact hw _ _ hn
      · by_cases e4 : v < h.length
        · rw [List.getElem?_append_left e4] at hm; exact hw _ _ hm
        · rw [hout v (by omega)] at hm; cases hm

/-! ## `buildTrie` -/

theorem TrieInv.extend {h h3 : Heap} {keys : List (List Nat)} {cur k : Nat} {w : List Nat}
    (t : TrieInv h keys) (hcur : keys[cur]? = some w) (hnone : childOf h cur k = none)
    (hlen : h3.length = h.length + 1)
    (hchild : ∀ v k', childOf h3 v k' =
      if v = cur ∧ k' = k then some h.length else childOf h v k')
    (hdepth : ∀ v, depthOf h3 v = if v = h.length then some (w.length + 1) else depthOf h v)
    (hwidth : ∀ (v : Nat) (m : ACNode), h3[v]? = some m → m.children.length = SIZE) :
    TrieInv h3 (keys ++ [w ++ [k]]) where
  len := by simp [t.len, hlen]
  root := key_append t.root
  nodup := by
    rw [List.nodup_append]
    refine ⟨t.nodup, List.nodup_singleton _, ?_⟩
    intro x hx hx'
    rw [List.mem_singleton] at hx'
    subst hx'
    obtain ⟨u, hu⟩ := List.mem_iff_getElem?.1 hx
    obtain ⟨v, hv, hc⟩ := t.key_child u w k hu
    have := key_inj t.nodup hv hcur
    subst this
    rw [hnone] at hc
    cases hc
  width := hwidth
  child_key v k' u hc := by
    rw [hchild] at hc
    split at hc
    · next e =>
      obtain ⟨rfl, rfl⟩ := e
      cases hc
      refine ⟨w, key_append hcur, ?_⟩
      rw [List.getElem?_append_right (by rw [t.len]), t.len]
      simp
    · obtain ⟨w', h1, h2⟩ := t.child_key v k' u hc
      exact ⟨w', key_append h1, key_append h2⟩
  key_child u w' k' hk := by
    by_cases hu : u < keys.length
    · rw [List.getElem?_append_left hu] at hk
      obtain ⟨v, hv, hc⟩ := t.key_child u w' k' hk
      refine ⟨v, key_append hv, ?_⟩
      rw [hchild, if_neg]
      · exact hc
      · rintro ⟨rfl, rfl⟩
        rw [hnone] at hc
        cases hc
    · rw [List.getElem?_append_right (by omega)] at hk
      have hu0 : u - keys.length = 0 := by
        by_contra h0
        rw [List.getElem?_eq_none (by simp; omega)] at hk
        cases hk
      rw [hu0] at hk
      simp only [List.getElem?_cons_zero, Option.some.injEq] at hk
      obtain ⟨rfl, hk'⟩ := List.append_inj' hk rfl
      cases hk'
      refine ⟨cur, key_append hcur, ?_⟩
      rw [hchild, if_pos ⟨rfl, rfl⟩, ← t.len]
      congr 1
      omega
  depth v w' hk := by
    rw [hdepth]
    by_cases hv : v < keys.length
    · rw [List.getElem?_append_left hv] at hk
      rw [if_neg (by rw [← t.len]; omega)]
      exact t.depth v w' hk
    · rw [List.getElem?_append_right (by omega)] at hk
      have hu0 : v - keys.length = 0 := by
        by_contra h0
        rw [List.getElem?_eq_none (by simp; omega)] at hk
        cases hk
      rw [hu0] at hk
      simp only [List.getElem?_cons_zero, Option.some.injEq] at hk
      subst hk
      rw [if_pos (by rw [← t.len]; omega)]
      simp

theorem Lower.head {c : Char} {s : List Char} (hs : Lower (c :: s)) : 'a' ≤ c ∧ c ≤ 'z' :=
  hs c (List.mem_cons_self _ _)

theorem Lower.tail {c : Char} {s : List Char} (hs : Lower (c :: s)) : Lower s :=
  fun d hd => hs d (List.mem_cons_of_mem _ hd)

theorem insertChars_spec : ∀ (s : List Char) (h : Heap) (keys : List (List Nat)) (cur : Nat)
    (w : List Nat), Lower s → TrieInv h keys → keys[cur]? = some w → NoLinks h →
    ∃ h' keys' u, insertChars h cur w.length s = .ok (h', u) ∧
      InsertPost h keys (w ++ s.map code) h' keys' u := by
  intro s
  induction s with
  | nil =>
    intro h keys cur w _ t hcur hl
    refine ⟨h, keys, cur, rfl, ⟨t, List.prefix_refl _, by simpa using hcur, fun _ _ => rfl, ?_,
      fun t ht => Or.inl ht, hl⟩⟩
    intro v h1 h2; omega
  | cons c s ih =>
    intro h keys cur w hs t hcur hl
    obtain ⟨n, hn, -⟩ := t.get_of_key hcur
    have hr := charIndex_range hs.head
    have hk := code_lt hs.head
    have htarget : w ++ (c :: s).map code = (w ++ [code c]) ++ s.map code := by simp
    rw [htarget]
    unfold insertChars
    simp only [load_ok hn, ok_bind, childAt_ok hr.1 hr.2]
    rw [show (charIndex c).toNat = code c from rfl]
    have hch := childOf_get hn (code c)
    cases hc : n.child (code c) with
    | some u =>
      rw [hc] at hch
      obtain ⟨w', hw', hu⟩ := t.child_key cur (code c) u hch
      rw [hcur] at hw'; cases hw'
      obtain ⟨nu, hnu, hd⟩ := t.get_of_key hu
      have e1 : setDepth h u (w.length + 1) = .ok h := by
        simp only [setDepth, load_ok hnu, ok_bind, pure_eq_ok]
        congr 1
        have : ({ nu with depth := w.length + 1 } : ACNode) = nu := by
          cases nu; simp at hd ⊢; omega
        rw [this]; exact set_self hnu
      simp only [e1, ok_bind]
      have := ih h keys u (w ++ [code c]) hs.tail t hu hl
      simpa using this
    | none =>
      rw [hc] at hch
      obtain ⟨h2, h3, e2, e3, hlen, hchild, hdepth, hpat, hfail, hout, hwidth⟩ :=
        grow_spec hn t.width hk (w.length + 1)
      simp only [alloc, e2, e3, ok_bind]
      have t3 : TrieInv h3 (keys ++ [w ++ [code c]]) :=
        t.extend hcur hch hlen hchild hdepth hwidth
      have hu3 : (keys ++ [w ++ [code c]])[h.length]? = some (w ++ [code c]) := by
        rw [List.getElem?_append_right (by rw [t.len]), t.len]; simp
      have hl3 : NoLinks h3 := fun v => by rw [hfail, hout]; exact hl v
      obtain ⟨h', keys', u, e, post⟩ :=
        ih h3 (keys ++ [w ++ [code c]]) h.length (w ++ [code c]) hs.tail t3 hu3 hl3
      refine ⟨h', keys', u, by simpa using e, ⟨post.trie, ?_, post.key, ?_, ?_, ?_, post.links⟩⟩
      · exact (List.prefix_append _ _).trans post.ext
      · intro v hv
        rw [post.pat_old v (by omega), hpat, if_neg (by omega)]
      · intro v hv1 hv2
        by_cases hv3 : v = h.length
        · rw [post.pat_old v (by omega), hpat, if_pos hv3]
        · exact post.pat_new v (by omega) hv2
      · intro x hx
        rcases post.new_key x hx with h1 | h1
        · rw [List.mem_append, List.mem_singleton] at h1
          rcases h1 with h1 | h1
          · exact Or.inl h1
          · right; rw [h1]; exact List.prefix_append _ _
        · exact Or.inr h1

/-! ## The `pattern` fields -/

theorem lastIndex_snoc (ps : List (List Nat)) (s w : List Nat) :
    lastIndex (ps ++ [s]) w = if s = w then (ps.length : Int) else lastIndex ps w := by
  simp [lastIndex, lastIndexRev]

theorem lastIndexRev_range (w : List Nat) (ps : List (List Nat)) :
    lastIndexRev w ps = -1 ∨ (0 ≤ lastIndexRev w ps ∧ lastIndexRev w ps < ps.length) := by
  induction ps with
  | nil => left; rfl
  | cons s ps ih =>
    simp only [lastIndexRev, List.length_cons]
    split
    · right; omega
    · rcases ih with h | h
      · left; exact h
      · right; push_cast; omega

theorem lastIndexRev_eq_neg_one (w : List Nat) (ps : List (List Nat)) :
    lastIndexRev w ps = -1 ↔ w ∉ ps := by
  induction ps with
  | nil => simp [lastIndexRev]
  | cons s ps ih =>
    simp only [lastIndexRev, List.mem_cons, not_or]
    split
    · next e => subst e; simp
    · next e =>
      rw [ih]
      exact ⟨fun h => ⟨fun h' => e h'.symm, h⟩, fun h => h.2⟩

theorem lastIndex_eq_neg_one (ps : List (List Nat)) (w : List Nat) :
    lastIndex ps w = -1 ↔ w ∉ ps := by
  simp [lastIndex, lastIndexRev_eq_neg_one]

theorem lastIndex_range (ps : List (List Nat)) (w : List Nat) :
    lastIndex ps w = -1 ∨ (0 ≤ lastIndex ps w ∧ lastIndex ps w < ps.length) := by
  have := lastIndexRev_range w ps.reverse
  simpa [lastIndex] using this

/-- A non-negative `lastIndex` is an index at which the string occurs, and the string
does not occur at any later index. -/
theorem lastIndex_get (ps : List (List Nat)) (w : List Nat) (hi : lastIndex ps w ≠ -1) :
    ps[(lastIndex ps w).toNat]? = some w ∧
      ∀ j, (lastIndex ps w).toNat < j → ps[j]? ≠ some w := by
  induction ps using List.reverseRecOn with
  | nil => simp [lastIndex, lastIndexRev] at hi
  | append_singleton ps s ih =>
    rw [lastIndex_snoc] at hi ⊢
    split
    · next e =>
      subst e
      simp only [Int.toNat_ofNat]
      refine ⟨by simp, ?_⟩
      intro j hj
      rw [List.getElem?_eq_none (by simp; omega)]
      simp
    · next e =>
      rw [if_neg e] at hi
      obtain ⟨h1, h2⟩ := ih hi
      have hr := lastIndex_range ps w
      have hlt : (lastIndex ps w).toNat < ps.length := by omega
      refine ⟨by rw [List.getElem?_append_left hlt]; exact h1, ?_⟩
      intro j hj
      by_cases hjl : j < ps.length
      · rw [List.getElem?_append_left hjl]; exact h2 j hj
      · by_cases hje : j = ps.length
        · subst hje; simp; exact e
        · rw [List.getElem?_eq_none (by simp; omega)]; simp

theorem lastIndex_of_nodup {ps : List (List Nat)} (nd : ps.Nodup) {i : Nat} {w : List Nat}
    (hi : ps[i]? = some w) : lastIndex ps w = (i : Int) := by
  have hne : lastIndex ps w ≠ -1 := by
    rw [Ne, lastIndex_eq_neg_one, not_not]; exact key_mem hi
  obtain ⟨h1, -⟩ := lastIndex_get ps w hne
  have := key_inj nd h1 hi
  have hr := lastIndex_range ps w
  omega

/-! ## `buildTrie` -/

theorem buildTrieLoop_spec : ∀ (ps done : List (List Char)) (h : Heap) (keys : List (List Nat)),
    (∀ s ∈ ps, Lower s) → TrieInv h keys → PatInv h keys (done.map (List.map code)) →
    NoLinks h →
    ∃ h' keys', buildTrieLoop 0 ps done.length h = .ok h' ∧ TrieInv h' keys' ∧
      PatInv h' keys' ((done ++ ps).map (List.map code)) ∧ NoLinks h' := by
  intro ps
  induction ps with
  | nil =>
    intro done h keys _ t hp hl
    exact ⟨h, keys, rfl, t, by simpa using hp, hl⟩
  | cons s ps ih =>
    intro done h keys hlow t hp hl
    obtain ⟨h1, keys1, cur, e1, post⟩ :=
      insertChars_spec s h keys 0 [] (hlow s (List.mem_cons_self _ _)) t t.root hl
    simp only [List.nil_append, List.length_nil] at e1 post
    obtain ⟨n, hn, -⟩ := post.trie.get_of_key post.key
    obtain ⟨h2, e2, st, hpat, hfail, hout⟩ := setPattern_spec hn (done.length : Int)
    have t2 : TrieInv h2 keys1 := post.trie.congr_trie st
    have hl2 : NoLinks h2 := fun v => by rw [hfail, hout]; exact post.links v
    have hp2 : PatInv h2 keys1 ((done ++ [s]).map (List.map code)) := by
      obtain ⟨p1, p2, p3⟩ := hp
      refine ⟨?_, ?_, ?_⟩
      · intro v w hv
        rw [List.map_append, List.map_singleton, lastIndex_snoc, hpat]
        by_cases hvc : v = cur
        · subst hvc
          rw [post.key] at hv; cases hv
          simp
        · have hne : List.map code s ≠ w := by
            intro e; subst e
            exact hvc (key_inj post.trie.nodup hv post.key)
          rw [if_neg hvc, if_neg hne]
          by_cases hvl : v < h.length
          · rw [post.pat_old v hvl]
            apply p1
            obtain ⟨w', hw'⟩ := t.key_of_lt hvl
            have := key_of_isPrefix post.ext hw'
            rw [hv] at this; cases this
            exact hw'
          · have hv2 : v < h1.length := by rw [← post.trie.len]; exact key_lt hv
            rw [post.pat_new v (by omega) hv2]
            congr 1
            symm
            rw [lastIndex_eq_neg_one]
            intro hmem
            obtain ⟨v', hv'⟩ := List.mem_iff_getElem?.1 (p2 w hmem)
            have := key_inj post.trie.nodup (key_of_isPrefix post.ext hv') hv
            subst this
            have := key_lt hv'
            rw [t.len] at this
            exact hvl this
      · intro x hx
        rw [List.map_append, List.mem_append, List.map_singleton, List.mem_singleton] at hx
        rcases hx with hx | hx
        · exact post.ext.subset (p2 x hx)
        · subst hx; exact key_mem post.key
      · intro x hx
        rcases post.new_key x hx with h' | h'
        · rcases p3 x h' with h'' | ⟨s', hs', hpre⟩
          · exact Or.inl h''
          · exact Or.inr ⟨s', by rw [List.map_append, List.mem_append]; exact Or.inl hs', hpre⟩
        · exact Or.inr ⟨List.map code s, by simp, h'⟩
    obtain ⟨h', keys', e, t', hp', hl'⟩ :=
      ih (done ++ [s]) h2 keys1 (fun x hx => hlow x (List.mem_cons_of_mem _ hx)) t2 hp2 hl2
    refine ⟨h', keys', ?_, t', by simpa using hp', hl'⟩
    unfold buildTrieLoop
    simp only [e1, e2, ok_bind]
    simpa using e

theorem trieInv_init : TrieInv [({} : ACNode)] [[]] where
  len := rfl
  root := rfl
  nodup := List.nodup_singleton _
  width v n hn := by
    cases v with
    | zero => simp at hn; subst hn; simp
    | succ v => simp at hn
  child_key v k u hc := by
    cases v with
    | zero => simp [childOf, fresh_child] at hc
    | succ v => simp [childOf] at hc
  key_child u w k hk := by
    cases u with
    | zero => simp at hk
    | succ u => simp at hk
  depth v w hk := by
    cases v with
    | zero => simp at hk; subst hk; rfl
    | succ v => simp at hk

/-- On patterns over `'a'..'z'`, `buildTrie` returns a trie rooted at node `0` whose
`pattern` fields hold the last index of each inserted string and whose links are unset. -/
theorem buildTrie_spec (p : List (List Char)) (hp : ∀ s ∈ p, Lower s) :
    ∃ h keys, buildTrie p = .ok (h, 0) ∧ TrieInv h keys ∧
      PatInv h keys (p.map (List.map code)) ∧ NoLinks h := by
  have hp0 : PatInv [({} : ACNode)] [[]] (([] : List (List Char)).map (List.map code)) := by
    refine ⟨?_, by simp, by simp⟩
    intro v w hv
    cases v with
    | zero => simp at hv; subst hv; rfl
    | succ v => simp at hv
  have hl0 : NoLinks [({} : ACNode)] := by
    intro v
    cases v with
    | zero => exact ⟨rfl, rfl⟩
    | succ v => simp [failOf, outOf]
  obtain ⟨h, keys, e, t, hpat, hl⟩ := buildTrieLoop_spec p [] _ _ hp trieInv_init hp0 hl0
  refine ⟨h, keys, ?_, t, by simpa using hpat, hl⟩
  simp only [buildTrie, alloc, List.nil_append, List.length_nil]
  simp only [List.length_nil] at e
  simp [e]

/-! ## Keys, prefixes and suffixes -/

theorem klen_eq {keys : List (List Nat)} {v : Nat} {w : List Nat} (hv : keys[v]? = some w) :
    klen keys v = w.length := by simp [klen, hv]

theorem TrieInv.root_of_nil {h : Heap} {keys : List (List Nat)} (t : TrieInv h keys) {v : Nat}
    (hv : keys[v]? = some []) : v = 0 := key_inj t.nodup hv t.root

theorem TrieInv.child_some {h : Heap} {keys : List (List Nat)} (t : TrieInv h keys)
    {v u k : Nat} {w : List Nat} (hv : keys[v]? = some w) (hu : keys[u]? = some (w ++ [k])) :
    childOf h v k = some u := by
  obtain ⟨v', hv', hc⟩ := t.key_child u w k hu
  rw [key_inj t.nodup hv hv']; exact hc

theorem TrieInv.child_key' {h : Heap} {keys : List (List Nat)} (t : TrieInv h keys)
    {v u k : Nat} {w : List Nat} (hv : keys[v]? = some w) (hc : childOf h v k = some u) :
    keys[u]? = some (w ++ [k]) := by
  obtain ⟨w', hw', hu⟩ := t.child_key v k u hc
  rw [hv] at hw'; cases hw'; exact hu

/-- The strings spelled by the nodes are closed under removing the last symbol. -/
theorem TrieInv.mem_of_snoc {h : Heap} {keys : List (List Nat)} (t : TrieInv h keys)
    {w : List Nat} {k : Nat} (hm : w ++ [k] ∈ keys) : w ∈ keys := by
  obtain ⟨u, hu⟩ := List.mem_iff_getElem?.1 hm
  obtain ⟨v, hv, -⟩ := t.key_child u w k hu
  exact key_mem hv

/-- The strings spelled by the nodes are closed under prefixes. -/
theorem TrieInv.mem_of_append {h : Heap} {keys : List (List Nat)} (t : TrieInv h keys)
    {w x : List Nat} (hm : w ++ x ∈ keys) : w ∈ keys := by
  induction x using List.reverseRecOn with
  | nil => simpa using hm
  | append_singleton x k ih =>
    apply ih
    apply t.mem_of_snoc (k := k)
    simpa using hm

/-- A node has a child labelled `k` exactly when its string extended by `k` is spelled. -/
theorem TrieInv.child_none {h : Heap} {keys : List (List Nat)} (t : TrieInv h keys)
    {v k : Nat} {w : List Nat} (hv : keys[v]? = some w) (hc : childOf h v k = none) :
    w ++ [k] ∉ keys := by
  intro hm
  obtain ⟨u, hu⟩ := List.mem_iff_getElem?.1 hm
  rw [t.child_some hv hu] at hc
  cases hc

theorem walk_of_key {h : Heap} {keys : List (List Nat)} (t : TrieInv h keys) :
    ∀ (x : List Nat) (v u : Nat) (w : List Nat), keys[v]? = some w →
      keys[u]? = some (w ++ x) → walk h v x = some u := by
  intro x
  induction x with
  | nil =>
    intro v u w hv hu
    rw [List.append_nil] at hu
    have := key_inj t.nodup hv hu
    subst this
    have : v < h.length := by rw [← t.len]; exact key_lt hv
    simp [walk, this]
  | cons k x ih =>
    intro v u w hv hu
    have hm : (w ++ [k]) ++ x ∈ keys := by simpa using key_mem hu
    obtain ⟨v', hv'⟩ := List.mem_iff_getElem?.1 (t.mem_of_append hm)
    simp only [walk, t.child_some hv hv', Option.some_bind]
    exact ih v' u (w ++ [k]) hv' (by simpa using hu)

theorem key_of_walk {h : Heap} {keys : List (List Nat)} (t : TrieInv h keys) :
    ∀ (x : List Nat) (v u : Nat) (w : List Nat), keys[v]? = some w →
      walk h v x = some u → keys[u]? = some (w ++ x) := by
  intro x
  induction x with
  | nil =>
    intro v u w hv hu
    simp only [walk] at hu
    split at hu
    · cases hu; simpa using hv
    · cases hu
  | cons k x ih =>
    intro v u w hv hu
    simp only [walk] at hu
    cases hc : childOf h v k with
    | none => rw [hc] at hu; cases hu
    | some v' =>
      rw [hc] at hu
      have := ih v' u (w ++ [k]) (t.child_key' hv hc) hu
      simpa using this

/-! ## Longest proper suffixes -/

theorem suffix_snoc {t w : List Nat} {i : Nat} (ht : t <:+ w ++ [i]) (hlen : t.length < (w ++ [i]).length) :
    t = [] ∨ ∃ t', t = t' ++ [i] ∧ t' <:+ w ∧ t'.length < w.length := by
  rcases List.suffix_concat_iff.1 ht with h | ⟨t', h1, h2⟩
  · exact Or.inl h
  · right
    refine ⟨t', h1, h2, ?_⟩
    subst h1
    simpa using hlen

theorem WalkInv.init {keys : List (List Nat)} {w s : List Nat} (i : Nat)
    (hl : LongestProperSuffix (fun t => t ∈ keys) w s) : WalkInv keys w i s := by
  obtain ⟨h1, h2, -, h4⟩ := hl
  refine ⟨h1, h2, ?_⟩
  intro t ht1 ht2 ht3 ht4
  have := h4 t ht1 ht2 ht3
  omega

theorem WalkInv.step_walk {keys : List (List Nat)} {w s s' : List Nat} {i : Nat}
    (hw : WalkInv keys w i s) (hno : s ++ [i] ∉ keys)
    (hl : LongestProperSuffix (fun t => t ∈ keys) s s') : WalkInv keys w i s' := by
  obtain ⟨h1, h2, h3⟩ := hw
  obtain ⟨l1, l2, -, l4⟩ := hl
  refine ⟨l1.trans h1, by omega, ?_⟩
  intro t ht1 ht2 ht3 ht4
  by_cases hc : s.length < t.length
  · exact h3 t ht1 ht2 ht3 hc
  · have hts : t <:+ s := List.suffix_of_suffix_length_le ht1 h1 (by omega)
    by_cases he : t.length = s.length
    · rw [hts.eq_of_length he]; exact hno
    · have := l4 t hts (by omega) ht3
      omega

/-- Leaving the walk through a child: the child spells the longest proper suffix. -/
theorem WalkInv.via_child {h : Heap} {keys : List (List Nat)} (t : TrieInv h keys)
    {w s : List Nat} {i : Nat} (hw : WalkInv keys w i s) (hin : s ++ [i] ∈ keys) :
    LongestProperSuffix (fun t => t ∈ keys) (w ++ [i]) (s ++ [i]) := by
  obtain ⟨h1, h2, h3⟩ := hw
  refine ⟨?_, by simpa using h2, hin, ?_⟩
  · obtain ⟨p, rfl⟩ := h1
    exact ⟨p, by simp⟩
  · intro x hx1 hx2 hx3
    rcases suffix_snoc hx1 hx2 with rfl | ⟨x', rfl, hx4, hx5⟩
    · simp
    · by_contra hc
      simp only [List.length_append, List.length_singleton] at hc
      exact h3 x' hx4 hx5 (t.mem_of_snoc hx3) (by omega) hx3

/-- Leaving the walk at the root without a child: the longest proper suffix is empty. -/
theorem WalkInv.via_root {h : Heap} {keys : List (List Nat)} (t : TrieInv h keys)
    {w : List Nat} {i : Nat} (hw : WalkInv keys w i []) (hno : [i] ∉ keys) :
    LongestProperSuffix (fun t => t ∈ keys) (w ++ [i]) [] := by
  obtain ⟨-, -, h3⟩ := hw
  refine ⟨List.nil_suffix, by simp, key_mem t.root, ?_⟩
  intro x hx1 hx2 hx3
  rcases suffix_snoc hx1 hx2 with rfl | ⟨x', rfl, hx4, hx5⟩
  · simp
  · exfalso
    by_cases hx' : x' = []
    · subst hx'; exact hno hx3
    · have : 0 < x'.length := List.length_pos.2 hx'
      exact h3 x' hx4 hx5 (t.mem_of_snoc hx3) (by simpa using this) hx3

/-! ## The walk along the `fail` links -/

theorem failWalk_spec {h : Heap} {keys : List (List Nat)} (t : TrieInv h keys) {w : List Nat}
    {i : Nat}
    (hfail : ∀ (v : Nat) (s : List Nat), keys[v]? = some s → s ≠ [] → s.length < w.length →
      FailOK h keys v) :
    ∀ (fuel nf : Nat) (s : List Nat), keys[nf]? = some s → WalkInv keys w i s →
      s.length < fuel →
      ∃ r sr, failWalk h 0 i fuel nf = .ok r ∧ keys[r]? = some sr ∧ WalkInv keys w i sr ∧
        (r ≠ 0 → ∃ c, childOf h r i = some c) := by
  intro fuel
  induction fuel with
  | zero => intro nf s _ _ hlt; omega
  | succ fuel ih =>
    intro nf s hs hw hlt
    unfold failWalk
    by_cases h0 : nf = 0
    · subst h0
      exact ⟨0, s, by simp, hs, hw, fun hne => absurd rfl hne⟩
    · rw [if_neg h0]
      obtain ⟨n, hn, -⟩ := t.get_of_key hs
      simp only [load_ok hn, ok_bind]
      have hch := childOf_get hn i
      cases hc : n.child i with
      | some c =>
        rw [hc] at hch
        exact ⟨nf, s, rfl, hs, hw, fun _ => ⟨c, hch⟩⟩
      | none =>
        rw [hc] at hch
        have hne : s ≠ [] := by
          intro e; subst e; exact h0 (t.root_of_nil hs)
        obtain ⟨f, wf, hf, hwf, hl⟩ := hfail nf s hs hne hw.2.1 s hs
        rw [failOf_get hn] at hf
        obtain ⟨nfn, hnfn, -⟩ := t.get_of_key hwf
        simp only [hf, deref_ok hnfn, ok_bind]
        exact ih f wf hwf (hw.step_walk (t.child_none hs hch) hl) (by have := hl.2.1; omega)

/-! ## The breadth-first order -/

theorem FailInv.pushed_key {h : Heap} {keys : List (List Nat)} {hist : List Nat}
    {E : Nat → Nat → Prop} (t : TrieInv h keys) (inv : FailInv h keys hist E) {u : Nat}
    (hu : u ∈ hist) : ∃ w k, keys[u]? = some (w ++ [k]) := by
  obtain ⟨v, k, -, hc⟩ := inv.parent u hu
  obtain ⟨w, -, hw⟩ := t.child_key v k u hc
  exact ⟨w, k, hw⟩

theorem FailInv.lt {h : Heap} {keys : List (List Nat)} {hist : List Nat}
    {E : Nat → Nat → Prop} (t : TrieInv h keys) (inv : FailInv h keys hist E) {u : Nat}
    (hu : u ∈ hist) : u < h.length := by
  obtain ⟨w, k, hk⟩ := inv.pushed_key t hu
  rw [← t.len]; exact key_lt hk

theorem FailInv.ne_zero {h : Heap} {keys : List (List Nat)} {hist : List Nat}
    {E : Nat → Nat → Prop} (t : TrieInv h keys) (inv : FailInv h keys hist E) {u : Nat}
    (hu : u ∈ hist) : u ≠ 0 := by
  obtain ⟨w, k, hk⟩ := inv.pushed_key t hu
  rintro rfl
  rw [t.root] at hk
  simp at hk

theorem length_le_of_nodup_lt {l : List Nat} {n : Nat} (nd : l.Nodup) (hl : ∀ x ∈ l, x < n) :
    l.length ≤ n := by
  have hsub : l ⊆ List.range n := fun x hx => List.mem_range.2 (hl x hx)
  simpa using (nd.subperm hsub).length_le

theorem FailInv.hist_length_le {h : Heap} {keys : List (List Nat)} {hist : List Nat}
    {E : Nat → Nat → Prop} (t : TrieInv h keys) (inv : FailInv h keys hist E) :
    hist.length ≤ h.length :=
  length_le_of_nodup_lt inv.nodup fun _ hx => inv.lt t hx

/-- Enlarging the set of visited table entries by entries that hold no child. -/
theorem FailInv.widen {h : Heap} {keys : List (List Nat)} {hist : List Nat}
    {E E' : Nat → Nat → Prop} (inv : FailInv h keys hist E)
    (hsub : ∀ v k, E v k → E' v k)
    (hnew : ∀ v k u, E' v k → ¬ E v k → childOf h v k ≠ some u) :
    FailInv h keys hist E' where
  nodup := inv.nodup
  sorted := inv.sorted
  kids v k u he hc := by
    by_cases hE : E v k
    · exact inv.kids v k u hE hc
    · exact absurd hc (hnew v k u he hE)
  parent u hu := by
    obtain ⟨v, k, he, hc⟩ := inv.parent u hu
    exact ⟨v, k, hsub v k he, hc⟩
  failok := inv.failok
  unset := inv.unset

/-- Every node that is no deeper than the front of the queue has been pushed. -/
theorem FailInv.level_pushed {h : Heap} {keys : List (List Nat)} {done q : List Nat}
    {E : Nat → Nat → Prop} (t : TrieInv h keys) (inv : FailInv h keys (done ++ q) E)
    (hE0 : ∀ k, E 0 k) (hEd : ∀ v ∈ done, ∀ k, E v k)
    (bound : Nat) (hq : ∀ v ∈ q, bound ≤ klen keys v) :
    ∀ (w : List Nat) (u : Nat), keys[u]? = some w → w ≠ [] → w.length ≤ bound →
      u ∈ done ++ q := by
  intro w
  induction w using List.reverseRecOn with
  | nil => intro u _ hne; exact absurd rfl hne
  | append_singleton w k ih =>
    intro u hu _ hlen
    obtain ⟨v, hv, hc⟩ := t.key_child u w k hu
    by_cases hw : w = []
    · subst hw
      rw [t.root_of_nil hv] at hc
      exact inv.kids 0 k u (hE0 k) hc
    · have hvm := ih v hv hw (by simp at hlen; omega)
      rcases List.mem_append.1 hvm with hd | hq'
      · exact inv.kids v k u (hEd v hd k) hc
      · have := hq v hq'
        rw [klen_eq hv] at this
        simp at hlen
        omega

/-- Pushing the child found in an entry that had not been visited. -/
theorem FailInv.push {h h1 : Heap} {keys : List (List Nat)} {hist : List Nat}
    {E : Nat → Nat → Prop} (t : TrieInv h keys) (inv : FailInv h keys hist E)
    {v k u : Nat} (hc : childOf h v k = some u) (hnE : ¬ E v k)
    (hdeep : ∀ v' k', E v' k' → klen keys v' ≤ klen keys v)
    (hchild : ∀ a b, childOf h1 a b = childOf h a b)
    (hfail : ∀ x, x ≠ u → failOf h1 x = failOf h x)
    (hok : FailOK h1 keys u) :
    FailInv h1 keys (hist ++ [u]) (fun v' k' => E v' k' ∨ (v' = v ∧ k' = k)) := by
  obtain ⟨wv, hwv, hwu⟩ := t.child_key v k u hc
  have hnot : u ∉ hist := by
    intro hu
    obtain ⟨v', k', he, hc'⟩ := inv.parent u hu
    obtain ⟨wv', hwv', hwu'⟩ := t.child_key v' k' u hc'
    rw [hwu] at hwu'
    obtain ⟨e1, e2⟩ := List.append_inj' (Option.some.inj hwu') rfl
    cases e2
    subst e1
    rw [key_inj t.nodup hwv hwv'] at hnE
    exact hnE he
  refine ⟨?_, ?_, ?_, ?_, ?_, ?_⟩
  · rw [List.nodup_append]
    refine ⟨inv.nodup, List.nodup_singleton _, ?_⟩
    intro x hx hx'
    rw [List.mem_singleton] at hx'
    subst hx'
    exact hnot hx
  · rw [List.pairwise_append]
    refine ⟨inv.sorted, List.pairwise_singleton _ _, ?_⟩
    intro a ha b hb
    rw [List.mem_singleton] at hb
    subst hb
    obtain ⟨v', k', he, hc'⟩ := inv.parent a ha
    obtain ⟨wv', hwv', hwa⟩ := t.child_key v' k' a hc'
    have := hdeep v' k' he
    rw [klen_eq hwv', klen_eq hwv] at this
    rw [klen_eq hwa, klen_eq hwu]
    simp
    omega
  · intro a b x he hx
    rw [hchild] at hx
    rcases he with he | ⟨rfl, rfl⟩
    · exact List.mem_append_left _ (inv.kids a b x he hx)
    · rw [hc] at hx; cases hx; simp
  · intro x hx
    rcases List.mem_append.1 hx with hx | hx
    · obtain ⟨v', k', he, hc'⟩ := inv.parent x hx
      exact ⟨v', k', Or.inl he, by rw [hchild]; exact hc'⟩
    · rw [List.mem_singleton] at hx
      subst hx
      exact ⟨v, k, Or.inr ⟨rfl, rfl⟩, by rw [hchild]; exact hc⟩
  · intro x hx
    rcases List.mem_append.1 hx with hx | hx
    · have hne : x ≠ u := fun e => hnot (e ▸ hx)
      intro w hw
      obtain ⟨f, wf, h1', h2', h3'⟩ := inv.failok x hx w hw
      exact ⟨f, wf, by rw [hfail x hne]; exact h1', h2', h3'⟩
    · rw [List.mem_singleton] at hx
      subst hx
      exact hok
  · intro x hx
    rw [List.mem_append, List.mem_singleton, not_or] at hx
    rw [hfail x hx.2]
    exact inv.unset x hx.1

/-! ## `fillSuffixLink` -/

theorem drop_cons_inv {α : Type} {l : List α} {j : Nat} {x : α} {cs : List α}
    (h : l.drop j = x :: cs) : l[j]? = some x ∧ l.drop (j + 1) = cs := by
  have hj : j < l.length := by
    by_contra hc
    rw [List.drop_eq_nil_of_le (by omega)] at h
    cases h
  rw [List.drop_eq_getElem_cons hj] at h
  injection h with h1 h2
  exact ⟨by rw [List.getElem?_eq_getElem hj, h1], h2⟩

theorem failOK_of {h : Heap} {keys : List (List Nat)} {u f : Nat} {w wf : List Nat}
    (hu : keys[u]? = some w) (hf : failOf h u = some f) (hwf : keys[f]? = some wf)
    (hl : LongestProperSuffix (fun t => t ∈ keys) w wf) : FailOK h keys u := by
  intro w' hw'
  rw [hu] at hw'; cases hw'
  exact ⟨f, wf, hf, hwf, hl⟩

theorem pushRootChildren_spec {h0 : Heap} {keys : List (List Nat)} (t0 : TrieInv h0 keys)
    {rn : ACNode} (hrn : h0[0]? = some rn) :
    ∀ (cs : List (Option Nat)) (j : Nat) (h : Heap) (q : List Nat),
      rn.children.drop j = cs → SameShape h0 h → (∀ v, outOf h v = outOf h0 v) →
      FailInv h keys q (fun v k => v = 0 ∧ k < j) →
      ∃ h' q', pushRootChildren 0 cs h q = .ok (h', q') ∧ SameShape h0 h' ∧
        (∀ v, outOf h' v = outOf h0 v) ∧ FailInv h' keys q' (fun v _ => v = 0) := by
  intro cs
  induction cs with
  | nil =>
    intro j h q hd ss ho inv
    refine ⟨h, q, rfl, ss, ho, inv.widen (fun v k he => he.1) ?_⟩
    intro v k u he hne hc
    subst he
    have t := t0.congr_trie ss.trie
    have hk := t.sym_lt hc
    have hj : rn.children.length ≤ j := List.drop_eq_nil_iff.1 hd
    rw [t0.width 0 rn hrn] at hj
    exact hne ⟨rfl, by omega⟩
  | cons x cs ih =>
    intro j h q hd ss ho inv
    obtain ⟨hx, hd'⟩ := drop_cons_inv hd
    have t := t0.congr_trie ss.trie
    have hchild : childOf h 0 j = x := by
      rw [ss.trie.child, childOf_get hrn]
      simp [ACNode.child, hx]
    cases x with
    | none =>
      simp only [pushRootChildren]
      apply ih (j + 1) h q hd' ss ho
      apply inv.widen (fun v k he => ⟨he.1, by omega⟩)
      intro v k u he hne hc
      obtain ⟨rfl, hk⟩ := he
      have : k = j := by
        by_contra hkj
        exact hne ⟨rfl, by omega⟩
      subst this
      rw [hchild] at hc
      cases hc
    | some child =>
      simp only [pushRootChildren]
      have hck := t.child_key' t.root hchild
      obtain ⟨cn, hcn, -⟩ := t.get_of_key hck
      obtain ⟨h1, e1, s1, hf1, ho1⟩ := setFail_spec hcn (some 0)
      simp only [e1, ok_bind]
      have hok : FailOK h1 keys child := by
        apply failOK_of hck (by rw [hf1, if_pos rfl]) t.root
        refine ⟨List.nil_suffix, by simp, key_mem t.root, ?_⟩
        intro x _ hx2 _
        simp at hx2
        simp [hx2]
      have inv1 := inv.push t hchild (fun he => Nat.lt_irrefl _ he.2)
        (fun v' k' he => by rw [he.1]) s1.trie.child
        (fun x hx => by rw [hf1, if_neg hx]) hok
      apply ih (j + 1) h1 (q ++ [child]) hd' (ss.trans_shape s1) (fun v => by rw [ho1, ho])
      apply inv1.widen
      · rintro v k (⟨rfl, hk⟩ | ⟨rfl, rfl⟩)
        · exact ⟨rfl, by omega⟩
        · exact ⟨rfl, by omega⟩
      · rintro v k u ⟨rfl, hk⟩ hne _
        apply hne
        by_cases hkj : k = j
        · exact Or.inr ⟨rfl, hkj⟩
        · exact Or.inl ⟨rfl, by omega⟩

theorem fillChildren_spec {h0 : Heap} {keys : List (List Nat)} (t0 : TrieInv h0 keys)
    {done : List Nat} {front : Nat} :
    ∀ (rem : Nat) (h : Heap) (q : List Nat), rem ≤ SIZE → SameShape h0 h →
      (∀ v, outOf h v = outOf h0 v) →
      FailInv h keys (done ++ front :: q) (Visited done front (SIZE - rem)) →
      ∃ h' q', fillChildren 0 front rem h (front :: q) = .ok (h', front :: q') ∧
        SameShape h0 h' ∧ (∀ v, outOf h' v = outOf h0 v) ∧
        FailInv h' keys (done ++ front :: q') (Visited done front SIZE) := by
  intro rem
  induction rem with
  | zero =>
    intro h q _ ss ho inv
    exact ⟨h, q, rfl, ss, ho, by simpa using inv⟩
  | succ rem ih =>
    intro h q hrem ss ho inv
    have t := t0.congr_trie ss.trie
    have hfm : front ∈ done ++ front :: q := by simp
    obtain ⟨w0, k0, hfk⟩ := inv.pushed_key t hfm
    obtain ⟨fr, hfr, hfd⟩ := t.get_of_key hfk
    have hi : SIZE - rem = (SIZE - (rem + 1)) + 1 := by omega
    unfold fillChildren
    simp only [load_ok hfr, ok_bind]
    have hch := childOf_get hfr (SIZE - (rem + 1))
    cases hc : fr.child (SIZE - (rem + 1)) with
    | none =>
      rw [hc] at hch
      simp only []
      apply ih h q (by omega) ss ho
      rw [hi]
      apply inv.widen
      · rintro v k (h1 | h1 | ⟨h1, h2⟩)
        · exact Or.inl h1
        · exact Or.inr (Or.inl h1)
        · exact Or.inr (Or.inr ⟨h1, by omega⟩)
      · rintro v k u (h1 | h1 | ⟨h1, h2⟩) hne hcu
        · exact hne (Or.inl h1)
        · exact hne (Or.inr (Or.inl h1))
        · subst h1
          have : k = SIZE - (rem + 1) := by
            by_contra hk
            exact hne (Or.inr (Or.inr ⟨rfl, by omega⟩))
          subst this
          rw [hch] at hcu
          cases hcu
    | some child =>
      rw [hc] at hch
      simp only []
      have hck := t.child_key' hfk hch
      obtain ⟨cn, hcn, -⟩ := t.get_of_key hck
      -- the tail of the iteration, once the target of the link is known
      have tailk : ∀ (f : Nat) (wf : List Nat), keys[f]? = some wf →
          LongestProperSuffix (fun t => t ∈ keys) (w0 ++ [k0] ++ [SIZE - (rem + 1)]) wf →
          ∃ h' q', (setFail h child (some f) >>= fun h1 =>
              fillChildren 0 front rem h1 (front :: q ++ [child])) = .ok (h', front :: q') ∧
            SameShape h0 h' ∧ (∀ v, outOf h' v = outOf h0 v) ∧
            FailInv h' keys (done ++ front :: q') (Visited done front SIZE) := by
        intro f wf hwf hl
        obtain ⟨h1, e1, s1, hf1, ho1⟩ := setFail_spec hcn (some f)
        simp only [e1, ok_bind]
        have hok : FailOK h1 keys child :=
          failOK_of hck (by rw [hf1, if_pos rfl]) hwf hl
        have hnE : ¬ Visited done front (SIZE - (rem + 1)) front (SIZE - (rem + 1)) := by
          rintro (h1 | h1 | ⟨-, h2⟩)
          · exact inv.ne_zero t hfm h1
          · have := inv.nodup
            rw [List.nodup_append] at this
            exact this.2.2 h1 (List.mem_cons_self _ _)
          · omega
        have hdeep : ∀ v' k', Visited done front (SIZE - (rem + 1)) v' k' →
            klen keys v' ≤ klen keys front := by
          rintro v' k' (h1 | h1 | ⟨h1, -⟩)
          · subst h1; rw [klen_eq t.root]; simp
          · have := inv.sorted
            rw [List.pairwise_append] at this
            exact this.2.2 v' h1 front (List.mem_cons_self _ _)
          · rw [h1]
        have inv1 := inv.push t hch hnE hdeep s1.trie.child
          (fun x hx => by rw [hf1, if_neg hx]) hok
        have := ih h1 (q ++ [child]) (by omega) (ss.trans_shape s1) (fun v => by rw [ho1, ho])
          (by
            rw [hi]
            have e : done ++ front :: (q ++ [child]) = (done ++ front :: q) ++ [child] := by
              simp
            rw [e]
            apply inv1.widen
            · rintro v k (h1 | ⟨rfl, rfl⟩)
              · rcases h1 with h1 | h1 | ⟨h1, h2⟩
                · exact Or.inl h1
                · exact Or.inr (Or.inl h1)
                · exact Or.inr (Or.inr ⟨h1, by omega⟩)
              · exact Or.inr (Or.inr ⟨rfl, by omega⟩)
            · rintro v k u he hne _
              apply hne
              rcases he with h1 | h1 | ⟨h1, h2⟩
              · exact Or.inl (Or.inl h1)
              · exact Or.inl (Or.inr (Or.inl h1))
              · by_cases hk : k = SIZE - (rem + 1)
                · exact Or.inr ⟨h1, hk⟩
                · exact Or.inl (Or.inr (Or.inr ⟨h1, by omega⟩)))
        simpa using this
      -- the start of the walk
      obtain ⟨f0, wf0, hf0, hwf0, hl0⟩ := inv.failok front hfm _ hfk
      rw [failOf_get hfr] at hf0
      obtain ⟨f0n, hf0n, -⟩ := t.get_of_key hwf0
      simp only [hf0, deref_ok hf0n, ok_bind]
      have hq : ∀ v ∈ front :: q, (w0 ++ [k0]).length ≤ klen keys v := by
        intro v hv
        rw [← klen_eq hfk]
        rcases List.mem_cons.1 hv with rfl | hv
        · exact le_refl _
        · have := inv.sorted
          rw [List.pairwise_append] at this
          exact (List.pairwise_cons.1 this.2.1).1 v hv
      have hfail : ∀ (v : Nat) (s : List Nat), keys[v]? = some s → s ≠ [] →
          s.length < (w0 ++ [k0]).length → FailOK h keys v := by
        intro v s hs hne hlt
        apply inv.failok
        exact inv.level_pushed t (fun k => Or.inl rfl) (fun v hv k => Or.inr (Or.inl hv))
          (w0 ++ [k0]).length hq s v hs hne (by omega)
      obtain ⟨r, sr, er, hsr, hwr, hrc⟩ := failWalk_spec t hfail fr.depth f0 wf0 hwf0
        (WalkInv.init (SIZE - (rem + 1)) hl0) (by rw [hfd]; exact hl0.2.1)
      simp only [er, ok_bind]
      obtain ⟨rn, hrn, -⟩ := t.get_of_key hsr
      by_cases hr0 : r = 0
      · subst hr0
        rw [t.root] at hsr; cases hsr
        simp only [ne_eq, not_true_eq_false, if_false, load_ok hrn, ok_bind, pure_eq_ok]
        have hcr := childOf_get hrn (SIZE - (rem + 1))
        cases hrc' : rn.child (SIZE - (rem + 1)) with
        | some c =>
          rw [hrc'] at hcr
          have hkc := t.child_key' t.root hcr
          simp only [Option.isSome_some, if_true, load_ok hrn, ok_bind, hrc']
          exact tailk c _ hkc (hwr.via_child t (key_mem hkc))
        | none =>
          rw [hrc'] at hcr
          simp only [Option.isSome_none, Bool.false_eq_true, if_false]
          exact tailk 0 _ t.root (hwr.via_root t (by simpa using t.child_none t.root hcr))
      · obtain ⟨c, hcr⟩ := hrc hr0
        have hkc := t.child_key' hsr hcr
        rw [childOf_get hrn] at hcr
        simp only [ne_eq, hr0, not_false_eq_true, if_true, pure_eq_ok, ok_bind, load_ok hrn, hcr]
        exact tailk c _ hkc (hwr.via_child t (key_mem hkc))

theorem fillSuffixLoop_spec {h0 : Heap} {keys : List (List Nat)} (t0 : TrieInv h0 keys) :
    ∀ (fuel : Nat) (done q : List Nat) (h : Heap), h0.length + 1 ≤ fuel + done.length →
      SameShape h0 h → (∀ v, outOf h v = outOf h0 v) →
      FailInv h keys (done ++ q) (fun v _ => v = 0 ∨ v ∈ done) →
      ∃ h' done', fillSuffixLoop 0 fuel h q = .ok h' ∧ SameShape h0 h' ∧
        (∀ v, outOf h' v = outOf h0 v) ∧
        FailInv h' keys done' (fun v _ => v = 0 ∨ v ∈ done') := by
  intro fuel
  induction fuel with
  | zero =>
    intro done q h hf ss _ inv
    exfalso
    have := inv.hist_length_le (t0.congr_trie ss.trie)
    rw [ss.trie.len, List.length_append] at this
    omega
  | succ fuel ih =>
    intro done q h hf ss ho inv
    cases q with
    | nil => exact ⟨h, done, rfl, ss, ho, by simpa using inv⟩
    | cons front rest =>
      have t := t0.congr_trie ss.trie
      have inv0 : FailInv h keys (done ++ front :: rest) (Visited done front (SIZE - SIZE)) := by
        apply inv.widen
        · rintro v k (h1 | h1)
          · exact Or.inl h1
          · exact Or.inr (Or.inl h1)
        · rintro v k u (h1 | h1 | ⟨-, h2⟩) hne _
          · exact hne (Or.inl h1)
          · exact hne (Or.inr h1)
          · omega
      obtain ⟨h1, q1, e1, s1, ho1, inv1⟩ :=
        fillChildren_spec t0 SIZE h rest (le_refl _) ss ho inv0
      have t1 := t0.congr_trie s1.trie
      unfold fillSuffixLoop
      simp only [e1, ok_bind, List.tail_cons]
      apply ih (done ++ [front]) q1 h1 (by simp; omega) s1 ho1
      have e : done ++ [front] ++ q1 = done ++ front :: q1 := by simp
      rw [e]
      apply inv1.widen
      · rintro v k (h1 | h1 | ⟨h1, -⟩)
        · exact Or.inl h1
        · exact Or.inr (List.mem_append_left _ h1)
        · exact Or.inr (by simp [h1])
      · rintro v k u he hne hc
        apply hne
        rcases he with h1 | h1
        · exact Or.inl h1
        · rcases List.mem_append.1 h1 with h1 | h1
          · exact Or.inr (Or.inl h1)
          · rw [List.mem_singleton] at h1
            exact Or.inr (Or.inr ⟨h1, t1.sym_lt hc⟩)

/-- After `fillSuffixLink` every non-root node has its `fail` link, which points to the
node spelling the longest proper suffix of its string that is spelled in the trie; the
root has none, and nothing else has changed. -/
theorem fillSuffixLink_spec {h : Heap} {keys : List (List Nat)} (t : TrieInv h keys)
    (hl : NoLinks h) :
    ∃ h', fillSuffixLink h 0 = .ok h' ∧ SameShape h h' ∧ (∀ v, outOf h' v = none) ∧
      failOf h' 0 = none ∧
      ∀ (v : Nat) (w : List Nat), keys[v]? = some w → w ≠ [] → FailOK h' keys v := by
  obtain ⟨rn, hrn, -⟩ := t.get_of_key t.root
  have inv0 : FailInv h keys [] (fun v k => v = 0 ∧ k < 0) :=
    ⟨List.nodup_nil, List.Pairwise.nil, fun v k u he => absurd he.2 (Nat.not_lt_zero _),
      fun u hu => absurd hu (List.not_mem_nil _), fun u hu => absurd hu (List.not_mem_nil _),
      fun v _ => (hl v).1⟩
  obtain ⟨h1, q, e1, s1, ho1, inv1⟩ :=
    pushRootChildren_spec t hrn rn.children 0 h [] rfl (SameShape.refl_shape h) (fun _ => rfl) inv0
  have inv1' : FailInv h1 keys ([] ++ q) (fun v _ => v = 0 ∨ v ∈ ([] : List Nat)) := by
    rw [List.nil_append]
    apply inv1.widen (fun v k he => Or.inl he)
    rintro v k u (h1 | h1) hne _
    · exact hne h1
    · exact absurd h1 (List.not_mem_nil _)
  obtain ⟨h', done', e2, s2, ho2, inv2⟩ :=
    fillSuffixLoop_spec t (h.length + 1) [] q h1 (by simp) s1 ho1 inv1'
  have t2 := t.congr_trie s2.trie
  refine ⟨h', ?_, s2, fun v => by rw [ho2]; exact (hl v).2, ?_, ?_⟩
  · simp only [fillSuffixLink, load_ok hrn, ok_bind, e1, e2]
  · exact inv2.unset 0 (fun h0 => inv2.ne_zero t2 h0 rfl)
  · intro v w hv hne
    apply inv2.failok
    have inv3 : FailInv h' keys (done' ++ []) (fun v _ => v = 0 ∨ v ∈ done') := by
      simpa using inv2
    have := inv3.level_pushed t2 (fun k => Or.inl rfl) (fun v hv k => Or.inr hv) w.length
      (fun v hv => absurd hv (List.not_mem_nil _)) w v hv hne (le_refl _)
    simpa using this

/-! ## `fillOutputLink` -/

theorem IsPat.congr_pat {h h' : Heap} {keys : List (List Nat)} (hp : ∀ v, patOf h' v = patOf h v)
    {t : List Nat} : IsPat h' keys t ↔ IsPat h keys t := by
  unfold IsPat
  simp only [hp]

theorem IsPat.mem {h : Heap} {keys : List (List Nat)} {t : List Nat} (hp : IsPat h keys t) :
    t ∈ keys := by
  obtain ⟨u, _, hu, -⟩ := hp
  exact key_mem hu

theorem OutOK.congr_out {h h' : Heap} {keys : List (List Nat)} (hp : ∀ v, patOf h' v = patOf h v)
    {v : Nat} (ho : outOf h' v = outOf h v) (hok : OutOK h keys v) : OutOK h' keys v := by
  intro w hw
  rcases hok w hw with ⟨h1, h2⟩ | ⟨o, wo, h1, h2, h3, h4, h5, h6⟩
  · left
    exact ⟨by rw [ho]; exact h1, fun t ht1 ht2 hc => h2 t ht1 ht2 ((IsPat.congr_pat hp).1 hc)⟩
  · right
    exact ⟨o, wo, by rw [ho]; exact h1, h2, h3, h4, (IsPat.congr_pat hp).2 h5,
      fun t ht1 ht2 hc => h6 t ht1 ht2 ((IsPat.congr_pat hp).1 hc)⟩

theorem FailOK.congr_fail {h h' : Heap} {keys : List (List Nat)} {v : Nat}
    (hf : failOf h' v = failOf h v) (hok : FailOK h keys v) : FailOK h' keys v := by
  intro w hw
  obtain ⟨f, wf, h1, h2, h3⟩ := hok w hw
  exact ⟨f, wf, by rw [hf]; exact h1, h2, h3⟩

/-- The `out` link computed from a correct `fail` link whose target carries a pattern. -/
theorem outOK_of_pat {h : Heap} {keys : List (List Nat)} {cur f : Nat} {w wf : List Nat}
    {p : Int} (hcur : keys[cur]? = some w) (hwf : keys[f]? = some wf)
    (hl : LongestProperSuffix (fun t => t ∈ keys) w wf)
    (hpf : patOf h f = some p) (hp : p ≠ -1) (ho : outOf h cur = some f) :
    OutOK h keys cur := by
  intro w' hw'
  rw [hcur] at hw'; cases hw'
  right
  exact ⟨f, wf, ho, hwf, hl.1, hl.2.1, ⟨f, p, hwf, hpf, hp⟩,
    fun t ht1 ht2 hc => hl.2.2.2 t ht1 ht2 hc.mem⟩

/-- The `out` link copied from the target of a correct `fail` link that carries no pattern. -/
theorem outOK_of_not_pat {h : Heap} {keys : List (List Nat)} (t : TrieInv h keys)
    {cur f : Nat} {w wf : List Nat}
    (hcur : keys[cur]? = some w) (hwf : keys[f]? = some wf)
    (hl : LongestProperSuffix (fun t => t ∈ keys) w wf)
    (hpf : patOf h f = some (-1)) (hof : OutOK h keys f) (ho : outOf h cur = outOf h f) :
    OutOK h keys cur := by
  have hnot : ¬ IsPat h keys wf := by
    rintro ⟨u, i, hu, hi, hne⟩
    rw [key_inj t.nodup hu hwf, hpf] at hi
    cases hi
    exact hne rfl
  -- a pattern that is a proper suffix of `w` is a proper suffix of `wf`
  have hdown : ∀ x, x <:+ w → x.length < w.length → IsPat h keys x →
      x <:+ wf ∧ x.length < wf.length := by
    intro x hx1 hx2 hx3
    have hle := hl.2.2.2 x hx1 hx2 hx3.mem
    have hs : x <:+ wf := List.suffix_of_suffix_length_le hx1 hl.1 hle
    refine ⟨hs, ?_⟩
    by_contra hc
    exact hnot (hs.eq_of_length (by omega) ▸ hx3)
  intro w' hw'
  rw [hcur] at hw'; cases hw'
  rcases hof wf hwf with ⟨h1, h2⟩ | ⟨o, wo, h1, h2, h3, h4, h5, h6⟩
  · left
    refine ⟨by rw [ho]; exact h1, ?_⟩
    intro x hx1 hx2 hx3
    obtain ⟨a, b⟩ := hdown x hx1 hx2 hx3
    exact h2 x a b hx3
  · right
    refine ⟨o, wo, by rw [ho]; exact h1, h2, h3.trans hl.1, by have := hl.2.1; omega, h5, ?_⟩
    intro x hx1 hx2 hx3
    obtain ⟨a, b⟩ := hdown x hx1 hx2 hx3
    exact h6 x a b hx3

theorem mem_reduceOption_children {h : Heap} {cur : Nat} {cn : ACNode} (hcn : h[cur]? = some cn)
    (u : Nat) : u ∈ cn.children.reduceOption ↔ ∃ k, childOf h cur k = some u := by
  rw [List.reduceOption_mem_iff, List.mem_iff_getElem?]
  constructor
  · rintro ⟨k, hk⟩
    exact ⟨k, by rw [childOf_get hcn]; simp [ACNode.child, hk]⟩
  · rintro ⟨k, hk⟩
    rw [childOf_get hcn] at hk
    refine ⟨k, ?_⟩
    unfold ACNode.child at hk
    cases hc : cn.children[k]? with
    | none => rw [hc] at hk; cases hk
    | some x => rw [hc] at hk; simp at hk; rw [hk]

theorem nodup_reduceOption_children {h : Heap} {keys : List (List Nat)} (t : TrieInv h keys)
    {cur : Nat} {cn : ACNode} (hcn : h[cur]? = some cn) : cn.children.reduceOption.Nodup := by
  unfold List.reduceOption List.Nodup
  rw [List.pairwise_filterMap, List.pairwise_iff_getElem]
  intro i j hi hj hij b hb b' hb' e
  subst e
  have h1 : childOf h cur i = some b := by
    rw [childOf_get hcn]
    simp only [id, Option.mem_def] at hb
    simp [ACNode.child, List.getElem?_eq_getElem hi, hb]
  have h2 : childOf h cur j = some b := by
    rw [childOf_get hcn]
    simp only [id, Option.mem_def] at hb'
    simp [ACNode.child, List.getElem?_eq_getElem hj, hb']
  obtain ⟨w1, hw1, hb1⟩ := t.child_key cur i b h1
  obtain ⟨w2, hw2, hb2⟩ := t.child_key cur j b h2
  rw [hw1] at hw2; cases hw2
  rw [hb1] at hb2
  have := List.append_cancel_left (Option.some.inj hb2)
  simp at this
  omega

theorem OutInv.queued_key {h : Heap} {keys : List (List Nat)} {done q : List Nat}
    (t : TrieInv h keys) (inv : OutInv h keys done q) {u : Nat} (hu : u ∈ done ++ q) :
    ∃ w, keys[u]? = some w := by
  rcases inv.parent u hu with rfl | ⟨v, k, -, hc⟩
  · exact ⟨[], t.root⟩
  · obtain ⟨w, -, hw⟩ := t.child_key v k u hc
    exact ⟨_, hw⟩

theorem OutInv.queue_length_le {h : Heap} {keys : List (List Nat)} {done q : List Nat}
    (t : TrieInv h keys) (inv : OutInv h keys done q) : (done ++ q).length ≤ h.length :=
  length_le_of_nodup_lt inv.nodup fun x hx => by
    obtain ⟨w, hw⟩ := inv.queued_key t hx
    rw [← t.len]; exact key_lt hw

/-- Every node that is less deep than the front of the queue has left the queue. -/
theorem OutInv.level_done {h : Heap} {keys : List (List Nat)} {done rest : List Nat} {cur : Nat}
    (t : TrieInv h keys) (inv : OutInv h keys done (cur :: rest)) :
    ∀ (w : List Nat) (u : Nat), keys[u]? = some w → w.length < klen keys cur → u ∈ done := by
  have hq : ∀ x ∈ cur :: rest, klen keys cur ≤ klen keys x := by
    intro x hx
    rcases List.mem_cons.1 hx with rfl | hx
    · exact le_refl _
    · have := inv.sorted
      rw [List.pairwise_append] at this
      exact (List.pairwise_cons.1 this.2.1).1 x hx
  have hsplit : ∀ (w : List Nat) (u : Nat), keys[u]? = some w → w.length < klen keys cur →
      u ∈ done ++ cur :: rest → u ∈ done := by
    intro w u hu hlt hm
    rcases List.mem_append.1 hm with hm | hm
    · exact hm
    · have := hq u hm
      rw [klen_eq hu] at this
      omega
  intro w
  induction w using List.reverseRecOn with
  | nil =>
    intro u hu hlt
    have h0 := t.root_of_nil hu
    subst h0
    exact hsplit [] 0 hu hlt inv.root
  | append_singleton w k ih =>
    intro u hu hlt
    obtain ⟨v, hv, hc⟩ := t.key_child u w k hu
    have hvd := ih v hv (by simp at hlt; omega)
    exact hsplit _ u hu hlt (inv.kids v hvd k u hc)

theorem OutInv.step_out {h h1 : Heap} {keys : List (List Nat)} {done rest : List Nat} {cur : Nat}
    {cn : ACNode} (t : TrieInv h keys) (inv : OutInv h keys done (cur :: rest))
    (hcn : h[cur]? = some cn) (ss : SameShape h h1)
    (ho : ∀ v, v ≠ cur → outOf h1 v = outOf h v) (hok : OutOK h1 keys cur) :
    OutInv h1 keys (done ++ [cur]) (rest ++ cn.children.reduceOption) := by
  have e : done ++ [cur] ++ (rest ++ cn.children.reduceOption) =
      (done ++ cur :: rest) ++ cn.children.reduceOption := by simp
  obtain ⟨w, hw⟩ := inv.queued_key t (u := cur) (by simp)
  have hcd : cur ∉ done := by
    have := inv.nodup
    rw [List.nodup_append] at this
    exact fun hc => this.2.2 hc (List.mem_cons_self _ _)
  have hkid' : ∀ u ∈ cn.children.reduceOption, ∃ k, childOf h cur k = some u ∧
      keys[u]? = some (w ++ [k]) := by
    intro u hu
    obtain ⟨k, hk⟩ := (mem_reduceOption_children hcn u).1 hu
    exact ⟨k, hk, t.child_key' hw hk⟩
  have hdepth : ∀ a ∈ done ++ cur :: rest, klen keys a ≤ w.length + 1 := by
    intro a ha
    rcases inv.parent a ha with rfl | ⟨v, k, hv, hc⟩
    · rw [klen_eq t.root]; simp
    · obtain ⟨wv, hwv, hwa⟩ := t.child_key v k a hc
      have := inv.sorted
      rw [List.pairwise_append] at this
      have := this.2.2 v hv cur (List.mem_cons_self _ _)
      rw [klen_eq hwv, klen_eq hw] at this
      rw [klen_eq hwa]
      simp
      omega
  refine ⟨?_, ?_, ?_, ?_, ?_, ?_, ?_⟩
  · rw [e, List.nodup_append]
    refine ⟨inv.nodup, nodup_reduceOption_children t hcn, ?_⟩
    intro u hu hu'
    obtain ⟨k, hk, hku⟩ := hkid' u hu'
    rcases inv.parent u hu with rfl | ⟨v, k', hv, hc⟩
    · rw [t.root] at hku; simp at hku
    · obtain ⟨wv, hwv, hwu⟩ := t.child_key v k' u hc
      rw [hku] at hwu
      obtain ⟨e1, -⟩ := List.append_inj' (Option.some.inj hwu) rfl
      subst e1
      rw [key_inj t.nodup hwv hw] at hv
      exact hcd hv
  · rw [e, List.pairwise_append]
    refine ⟨inv.sorted, ?_, ?_⟩
    · apply List.Pairwise.imp_of_mem (R := fun _ _ => True)
      · intro a b ha hb _
        obtain ⟨k, -, hka⟩ := hkid' a ha
        obtain ⟨k', -, hkb⟩ := hkid' b hb
        rw [klen_eq hka, klen_eq hkb]
        simp
      · exact List.pairwise_of_forall fun _ _ => trivial
    · intro a ha b hb
      obtain ⟨k, -, hkb⟩ := hkid' b hb
      rw [klen_eq hkb]
      simpa using hdepth a ha
  · rw [e]; exact List.mem_append_left _ inv.root
  · intro v hv k u hc
    rw [ss.trie.child] at hc
    rw [e]
    rcases List.mem_append.1 hv with hv | hv
    · exact List.mem_append_left _ (inv.kids v hv k u hc)
    · rw [List.mem_singleton] at hv
      subst hv
      exact List.mem_append_right _ ((mem_reduceOption_children hcn u).2 ⟨k, hc⟩)
  · intro u hu
    rw [e] at hu
    rcases List.mem_append.1 hu with hu | hu
    · rcases inv.parent u hu with h0 | ⟨v, k, hv, hc⟩
      · exact Or.inl h0
      · exact Or.inr ⟨v, k, List.mem_append_left _ hv, by rw [ss.trie.child]; exact hc⟩
    · obtain ⟨k, hk, -⟩ := hkid' u hu
      exact Or.inr ⟨cur, k, by simp, by rw [ss.trie.child]; exact hk⟩
  · intro v hv
    rcases List.mem_append.1 hv with hv | hv
    · have hne : v ≠ cur := fun e => hcd (e ▸ hv)
      exact (inv.outok v hv).congr_out ss.pat (ho v hne)
    · rw [List.mem_singleton] at hv
      subst hv
      exact hok
  · intro v hv
    rw [List.mem_append, List.mem_singleton, not_or] at hv
    rw [ho v hv.2]
    exact inv.unset v hv.1

theorem fillOutputLoop_spec {h0 : Heap} {keys : List (List Nat)} (t0 : TrieInv h0 keys)
    (hfail0 : ∀ (v : Nat) (w : List Nat), keys[v]? = some w → w ≠ [] → FailOK h0 keys v) :
    ∀ (fuel : Nat) (done q : List Nat) (h : Heap), h0.length + 1 ≤ fuel + done.length →
      SameShape h0 h → (∀ v, failOf h v = failOf h0 v) → OutInv h keys done q →
      ∃ h' done', fillOutputLoop 0 fuel h q = .ok h' ∧ SameShape h0 h' ∧
        (∀ v, failOf h' v = failOf h0 v) ∧ OutInv h' keys done' [] := by
  intro fuel
  induction fuel with
  | zero =>
    intro done q h hf ss _ inv
    exfalso
    have := inv.queue_length_le (t0.congr_trie ss.trie)
    rw [ss.trie.len, List.length_append] at this
    omega
  | succ fuel ih =>
    intro done q h hf ss hfl inv
    cases q with
    | nil => exact ⟨h, done, rfl, ss, hfl, inv⟩
    | cons cur rest =>
      have t := t0.congr_trie ss.trie
      obtain ⟨w, hw⟩ := inv.queued_key t (u := cur) (by simp)
      obtain ⟨cn, hcn, -⟩ := t.get_of_key hw
      have hcd : cur ∉ done := by
        have := inv.nodup
        rw [List.nodup_append] at this
        exact fun hc => this.2.2 hc (List.mem_cons_self _ _)
      have next : ∀ h1, SameShape h h1 → (∀ v, failOf h1 v = failOf h v) →
          (∀ v, v ≠ cur → outOf h1 v = outOf h v) → OutOK h1 keys cur →
          ∃ h' done', fillOutputLoop 0 fuel h1 (rest ++ cn.children.reduceOption) = .ok h' ∧
            SameShape h0 h' ∧ (∀ v, failOf h' v = failOf h0 v) ∧ OutInv h' keys done' [] := by
        intro h1 s1 hf1 ho1 hok
        exact ih (done ++ [cur]) _ h1 (by simp; omega) (ss.trans_shape s1)
          (fun v => by rw [hf1, hfl]) (inv.step_out t hcn s1 ho1 hok)
      unfold fillOutputLoop
      simp only [load_ok hcn, ok_bind, List.cons_append, List.tail_cons]
      by_cases hc0 : cur = 0
      · subst hc0
        simp only [ne_eq, not_true_eq_false, if_false, pure_eq_ok, ok_bind]
        apply next h (SameShape.refl_shape h) (fun _ => rfl) (fun _ _ => rfl)
        intro w' hw'
        rw [t.root] at hw'; cases hw'
        left
        exact ⟨inv.unset 0 hcd, fun x _ hx => absurd hx (Nat.not_lt_zero _)⟩
      · have hne : w ≠ [] := by
          intro e; subst e; exact hc0 (t.root_of_nil hw)
        obtain ⟨f, wf, hf1, hwf, hl⟩ :=
          (hfail0 cur w hw hne).congr_fail (hfl cur) w hw
        rw [failOf_get hcn] at hf1
        obtain ⟨fn, hfn, -⟩ := t.get_of_key hwf
        have hfd : f ∈ done := inv.level_done t wf f hwf (by rw [klen_eq hw]; exact hl.2.1)
        have hfc : f ≠ cur := fun e => hcd (e ▸ hfd)
        simp only [ne_eq, hc0, not_false_eq_true, if_true, hf1, deref_ok hfn, ok_bind]
        by_cases hp : fn.pattern = -1
        · obtain ⟨h1, e1, s1, ho1, hf1'⟩ := setOut_spec hcn fn.out
          simp only [hp, not_true_eq_false, if_false, e1, ok_bind]
          apply next h1 s1 hf1' (fun v hv => by rw [ho1, if_neg hv])
          apply outOK_of_not_pat (t.congr_trie s1.trie) hw hwf hl
          · rw [s1.pat, patOf_get hfn, hp]
          · exact (inv.outok f hfd).congr_out s1.pat (by rw [ho1, if_neg hfc])
          · rw [ho1, if_pos rfl, ho1, if_neg hfc, outOf_get hfn]
        · obtain ⟨h1, e1, s1, ho1, hf1'⟩ := setOut_spec hcn (some f)
          simp only [hp, not_false_eq_true, if_true, e1, ok_bind]
          apply next h1 s1 hf1' (fun v hv => by rw [ho1, if_neg hv])
          exact outOK_of_pat hw hwf hl (by rw [s1.pat, patOf_get hfn]) hp
            (by rw [ho1, if_pos rfl])

/-- After `fillOutputLink` every node has the `out` link it is meant to have, and
nothing else has changed. -/
theorem fillOutputLink_spec {h : Heap} {keys : List (List Nat)} (t : TrieInv h keys)
    (hfail : ∀ (v : Nat) (w : List Nat), keys[v]? = some w → w ≠ [] → FailOK h keys v)
    (hout : ∀ v, outOf h v = none) :
    ∃ h', fillOutputLink h 0 = .ok h' ∧ SameShape h h' ∧ (∀ v, failOf h' v = failOf h v) ∧
      ∀ (v : Nat) (w : List Nat), keys[v]? = some w → OutOK h' keys v := by
  have inv0 : OutInv h keys [] [0] :=
    ⟨by simp, by simp, by simp, fun v hv => absurd hv (List.not_mem_nil _),
      fun u hu => Or.inl (by simpa using hu), fun v hv => absurd hv (List.not_mem_nil _),
      fun v _ => hout v⟩
  obtain ⟨h', done', e, ss, hf, inv⟩ :=
    fillOutputLoop_spec t hfail (h.length + 1) [] [0] h (by simp) (SameShape.refl_shape h)
      (fun _ => rfl) inv0
  have t' := t.congr_trie ss.trie
  refine ⟨h', e, ss, hf, ?_⟩
  have hall : ∀ (w : List Nat) (v : Nat), keys[v]? = some w → v ∈ done' := by
    intro w
    induction w using List.reverseRecOn with
    | nil =>
      intro v hv
      rw [t.root_of_nil hv]
      simpa using inv.root
    | append_singleton w k ih =>
      intro v hv
      obtain ⟨u, hu, hc⟩ := t'.key_child v w k hv
      simpa using inv.kids u (ih u hu) k v hc
  intro v w hv
  exact inv.outok v (hall w v hv)

/-- On patterns over `'a'..'z'`, `buildAutomaton` returns the automaton of the patterns,
rooted at node `0`. -/
theorem buildAutomaton_spec (p : List (List Char)) (hp : ∀ s ∈ p, Lower s) :
    ∃ h keys, buildAutomaton p = .ok (h, 0) ∧ Automaton h keys (p.map (List.map code)) := by
  obtain ⟨h0, keys, e0, t0, hpat, hl⟩ := buildTrie_spec p hp
  obtain ⟨h1, e1, s1, ho1, hr1, hf1⟩ := fillSuffixLink_spec t0 hl
  have t1 := t0.congr_trie s1.trie
  obtain ⟨h2, e2, s2, hf2, ho2⟩ := fillOutputLink_spec t1 hf1 ho1
  have s12 := s1.trans_shape s2
  refine ⟨h2, keys, by simp [buildAutomaton, e0, e1, e2], ⟨t0.congr_trie s12.trie, ?_, ?_, ?_, ho2⟩⟩
  · obtain ⟨p1, p2, p3⟩ := hpat
    exact ⟨fun v w hv => by rw [s12.pat]; exact p1 v w hv, p2, p3⟩
  · intro v w hv hne
    exact (hf1 v w hv hne).congr_fail (hf2 v)
  · rw [hf2]; exact hr1

/-! ## The out chain -/

theorem Automaton.isPat_iff {h : Heap} {keys : List (List Nat)} {ps : List (List Nat)}
    (A : Automaton h keys ps) {o : Nat} {wo : List Nat} {m : ACNode}
    (hwo : keys[o]? = some wo) (hm : h[o]? = some m) :
    IsPat h keys wo ↔ m.pattern ≠ -1 := by
  constructor
  · rintro ⟨u, i, hu, hi, hne⟩
    rw [key_inj A.trie.nodup hu hwo, patOf_get hm] at hi
    cases hi; exact hne
  · intro hne
    exact ⟨o, m.pattern, hwo, patOf_get hm, hne⟩

theorem Automaton.isPat_iff_mem {h : Heap} {keys : List (List Nat)} {ps : List (List Nat)}
    (A : Automaton h keys ps) (t : List Nat) : IsPat h keys t ↔ t ∈ ps := by
  constructor
  · rintro ⟨u, i, hu, hi, hne⟩
    rw [A.pat.1 u t hu] at hi
    cases hi
    by_contra hc
    exact hne ((lastIndex_eq_neg_one ps t).2 hc)
  · intro hm
    obtain ⟨u, hu⟩ := List.mem_iff_getElem?.1 (A.pat.2.1 t hm)
    refine ⟨u, _, hu, A.pat.1 u t hu, ?_⟩
    rw [Ne, lastIndex_eq_neg_one, not_not]
    exact hm

/-- The line printed for a node that carries a pattern. -/
theorem report_ok {h : Heap} {keys : List (List Nat)} {P : List (List Char)}
    (A : Automaton h keys (P.map (List.map code))) {o : Nat} {wo : List Nat} {m : ACNode}
    (hwo : keys[o]? = some wo) (hm : h[o]? = some m) (hne : m.pattern ≠ -1) (i : Nat) :
    ∃ p, report P i m = .ok ⟨p, (i : Int) - (p.length : Int) + 1, i⟩ ∧ p ∈ P ∧
      p.map code = wo := by
  have hp := A.pat.1 o wo hwo
  rw [patOf_get hm] at hp
  have hp' : m.pattern = lastIndex (P.map (List.map code)) wo := Option.some.inj hp
  rw [hp'] at hne
  obtain ⟨hget, -⟩ := lastIndex_get _ wo hne
  have hr := lastIndex_range (P.map (List.map code)) wo
  rw [List.getElem?_map] at hget
  cases hP : P[(lastIndex (P.map (List.map code)) wo).toNat]? with
  | none => rw [hP] at hget; cases hget
  | some p =>
    rw [hP] at hget
    simp only [Option.map_some', Option.some.injEq] at hget
    have hd : m.depth = p.length := by
      obtain ⟨m', hm', hd'⟩ := A.trie.get_of_key hwo
      rw [hm] at hm'; cases hm'
      rw [hd', ← hget]; simp
    refine ⟨p, ?_, List.mem_iff_getElem?.2 ⟨_, hP⟩, hget⟩
    have h0 : 0 ≤ lastIndex (P.map (List.map code)) wo := by omega
    simp only [report, patternAt, hp', hP, ok_bind, pure_eq_ok, hd, if_pos h0]

theorem outWalk_spec {h : Heap} {keys : List (List Nat)} {P : List (List Char)}
    (A : Automaton h keys (P.map (List.map code))) (i : Nat) :
    ∀ (fuel outl : Nat) (acc : List Match) (so : List Nat), keys[outl]? = some so →
      so.length < fuel →
      ∃ R, outWalk h P i fuel outl acc = .ok (acc ++ R) ∧
        ChainSpec h keys P i so.length so R := by
  intro fuel
  induction fuel with
  | zero => intro _ _ _ _ hlt; omega
  | succ fuel ih =>
    intro outl acc so hso hlt
    obtain ⟨n, hn, -⟩ := A.trie.get_of_key hso
    unfold outWalk
    simp only [load_ok hn, ok_bind]
    rcases A.out outl so hso so hso with ⟨h1, h2⟩ | ⟨o, wo, h1, h2, h3, h4, h5, h6⟩
    · rw [outOf_get hn] at h1
      simp only [h1]
      refine ⟨[], by simp, ⟨fun m hm => absurd hm (List.not_mem_nil _), ?_, List.Pairwise.nil⟩⟩
      intro t ht1 ht2 ht3
      exact absurd ht3 (h2 t ht1 ht2)
    · rw [outOf_get hn] at h1
      obtain ⟨m, hm, -⟩ := A.trie.get_of_key h2
      have hne := (A.isPat_iff h2 hm).1 h5
      obtain ⟨p, hr, hpP, hpc⟩ := report_ok A h2 hm hne i
      have hlen : p.length = wo.length := by rw [← hpc]; simp
      obtain ⟨R, hR, spec⟩ := ih o (acc ++ [⟨p, (i : Int) - (p.length : Int) + 1, i⟩]) wo h2
        (by omega)
      simp only [h1, load_ok hm, ok_bind, hne, ne_eq, not_false_eq_true, if_true, hr, hR]
      refine ⟨⟨p, (i : Int) - (p.length : Int) + 1, i⟩ :: R, by simp, ⟨?_, ?_, ?_⟩⟩
      · intro x hx
        rcases List.mem_cons.1 hx with rfl | hx
        · exact ⟨rfl, hpP, by rw [hpc]; exact h3, by rw [hlen]; exact h4, rfl⟩
        · obtain ⟨a, b, c, d, e⟩ := spec.sound x hx
          exact ⟨a, b, c.trans h3, by omega, e⟩
      · intro t ht1 ht2 ht3
        have hle := h6 t ht1 ht2 ht3
        have hs : t <:+ wo := List.suffix_of_suffix_length_le ht1 h3 hle
        by_cases he : t.length = wo.length
        · exact ⟨_, List.mem_cons_self _ _, by rw [hs.eq_of_length he]; exact hpc⟩
        · obtain ⟨x, hx, hxt⟩ := spec.complete t hs (by omega) ht3
          exact ⟨x, List.mem_cons_of_mem _ hx, hxt⟩
      · rw [List.pairwise_cons]
        refine ⟨?_, spec.order⟩
        intro x hx
        have := (spec.sound x hx).2.2.2.1
        simp only
        omega

/-! ## The scan -/

theorem take_succ_of_get {tc : List Nat} {i c : Nat} (hc : tc[i]? = some c) :
    tc.take (i + 1) = tc.take i ++ [c] := by
  rw [List.take_succ, hc]; rfl

/-- A cursor that spells the longest spelled suffix of the text read so far satisfies
the invariant of the scan. -/
theorem QInv.of_longest {keys : List (List Nat)} {tc : List Nat} {i : Nat} {s : List Nat}
    (hs : s <:+ tc.take i)
    (hl : ∀ t, t <:+ tc.take i → t ∈ keys → t.length ≤ s.length) : QInv keys tc i s :=
  ⟨hs, fun _ _ t ht1 ht2 ht3 => absurd (hl t ht1 ht2) (by omega)⟩

/-- Following the `fail` link of a cursor that has no child for the next symbol. -/
theorem QInv.fail {keys : List (List Nat)} {tc : List Nat} {i : Nat} {s s' : List Nat}
    (hq : QInv keys tc i s) (hno : ∀ c, tc[i]? = some c → s ++ [c] ∉ keys)
    (hl : LongestProperSuffix (fun t => t ∈ keys) s s') : QInv keys tc i s' := by
  obtain ⟨h1, h2⟩ := hq
  obtain ⟨l1, l2, -, l4⟩ := hl
  refine ⟨l1.trans h1, ?_⟩
  intro c hc t ht1 ht2 ht3
  by_cases hlt : s.length < t.length
  · exact h2 c hc t ht1 ht2 hlt
  · have hts : t <:+ s := List.suffix_of_suffix_length_le ht1 h1 (by omega)
    by_cases he : t.length = s.length
    · rw [hts.eq_of_length he]; exact hno c hc
    · have := l4 t hts (by omega) ht2
      omega

/-- The spelled suffixes of the text after the next symbol has been read. -/
theorem QInv.advance {h : Heap} {keys : List (List Nat)} (tr : TrieInv h keys)
    {tc : List Nat} {i c : Nat} {s : List Nat} (hq : QInv keys tc i s) (hc : tc[i]? = some c) :
    ∀ t, t <:+ tc.take (i + 1) → t ∈ keys → t = [] ∨ ∃ t', t = t' ++ [c] ∧ t'.length ≤ s.length := by
  intro t ht1 ht2
  rw [take_succ_of_get hc] at ht1
  rcases List.suffix_concat_iff.1 ht1 with h0 | ⟨t', rfl, ht'⟩
  · exact Or.inl h0
  · right
    refine ⟨t', rfl, ?_⟩
    by_contra hlt
    exact hq.2 c hc t' ht' (tr.mem_of_snoc ht2) (by omega) ht2

theorem Good.mono {P : List (List Char)} {tc : List Nat} {i : Nat} {acc : List Match}
    (g : Good P tc i acc) (hnone : ∀ p ∈ P, p ≠ [] → ¬ p.map code <:+ tc.take (i + 1)) :
    Good P tc (i + 1) acc where
  sound m hm := by
    obtain ⟨a, b⟩ := g.sound m hm
    exact ⟨by omega, b⟩
  complete e he p hp hne hs := by
    by_cases hei : e = i
    · subst hei; exact absurd hs (hnone p hp hne)
    · exact g.complete e (by omega) p hp hne hs
  order := g.order

theorem Good.step_good {h : Heap} {keys : List (List Nat)} {P : List (List Char)}
    (A : Automaton h keys (P.map (List.map code))) {tc : List Nat} {i : Nat}
    {acc R : List Match} {s1 : List Nat} (g : Good P tc i acc)
    (hs1 : s1 <:+ tc.take (i + 1))
    (hl : ∀ t, t <:+ tc.take (i + 1) → t ∈ keys → t.length ≤ s1.length)
    (spec : ChainSpec h keys P i (s1.length + 1) s1 R) : Good P tc (i + 1) (acc ++ R) where
  sound m hm := by
    rcases List.mem_append.1 hm with hm | hm
    · obtain ⟨a, b⟩ := g.sound m hm
      exact ⟨by omega, b⟩
    · obtain ⟨a, b, c, d, e⟩ := spec.sound m hm
      refine ⟨by omega, b, ?_, ?_⟩
      · rw [a]; exact c.trans hs1
      · rw [a]; exact e
  complete e he p hp hne hs := by
    by_cases hei : e = i
    · subst hei
      have hmem : p.map code ∈ P.map (List.map code) := List.mem_map_of_mem _ hp
      have hpat := (A.isPat_iff_mem _).2 hmem
      have hle := hl _ hs hpat.mem
      have hsuf : p.map code <:+ s1 := List.suffix_of_suffix_length_le hs hs1 hle
      obtain ⟨m, hm, hmp⟩ := spec.complete _ hsuf (by omega) hpat
      exact ⟨m, List.mem_append_right _ hm, (spec.sound m hm).1, hmp⟩
    · obtain ⟨m, hm, hmp⟩ := g.complete e (by omega) p hp hne hs
      exact ⟨m, List.mem_append_left _ hm, hmp⟩
  order := by
    rw [List.pairwise_append]
    refine ⟨g.order, ?_, ?_⟩
    · apply spec.order.imp_of_mem
      intro a b ha hb hab
      right
      exact ⟨by rw [(spec.sound a ha).1, (spec.sound b hb).1], hab⟩
    · intro a ha b hb
      left
      rw [(spec.sound b hb).1]
      exact (g.sound a ha).1

theorem Lower.get {T : List Char} (hT : Lower T) {i : Nat} {c : Char} (hc : T[i]? = some c) :
    'a' ≤ c ∧ c ≤ 'z' := hT c (List.mem_iff_getElem?.2 ⟨i, hc⟩)

theorem charIndex_bad {c : Char} (hc : ¬ ('a' ≤ c ∧ c ≤ 'z')) :
    ¬ (0 ≤ charIndex c ∧ charIndex c < (SIZE : Int)) := by
  intro hr
  apply hc
  simp only [charIndex, FIRST, SIZE] at hr
  have a4 : 'a'.toNat = 97 := rfl
  have a3 : c.toNat = c.val.toNat := rfl
  rw [Char.le_def, Char.le_def]
  constructor
  · show (97 : Nat) ≤ c.val.toNat
    omega
  · show c.val.toNat ≤ 122
    omega

theorem queryLoop_spec {h : Heap} {keys : List (List Nat)} {P : List (List Char)}
    (A : Automaton h keys (P.map (List.map code))) {T : List Char} {N : Nat}
    (hN : N ≤ T.length) (hT : Lower (T.take N)) :
    ∀ (fuel cur i : Nat) (acc : List Match) (s : List Nat), keys[cur]? = some s →
      i ≤ N → QInv keys (T.map code) i s → Good P (T.map code) i acc →
      2 * (N - i) + s.length < fuel →
      ScanResult P T N (queryLoop h 0 T P fuel cur i acc) := by
  intro fuel
  induction fuel with
  | zero => intro _ _ _ _ _ _ _ _ hlt; omega
  | succ fuel ih =>
    intro cur i acc s hs hi hq g hfuel
    obtain ⟨n, hn, -⟩ := A.trie.get_of_key hs
    unfold queryLoop
    by_cases hiN : i = N
    · subst hiN
      constructor
      · intro hnone
        exact ⟨acc, by rw [hnone], g⟩
      · intro c hc hbad
        rw [hc]
        simp [load_ok hn, ACNode.childAt, charIndex_bad hbad]
    have hiT : i < T.length := by omega
    obtain ⟨c, hc⟩ : ∃ c, T[i]? = some c := ⟨T[i], List.getElem?_eq_getElem hiT⟩
    rw [hc]
    have hlow : 'a' ≤ c ∧ c ≤ 'z' := by
      apply hT c
      rw [List.mem_iff_getElem?]
      exact ⟨i, by rw [List.getElem?_take_of_lt (by omega)]; exact hc⟩
    have hr := charIndex_range hlow
    have htc : (T.map code)[i]? = some (code c) := by rw [List.getElem?_map, hc]; rfl
    simp only [load_ok hn, ok_bind, childAt_ok hr.1 hr.2]
    rw [show (charIndex c).toNat = code c from rfl]
    have hch := childOf_get hn (code c)
    cases hcc : n.child (code c) with
    | some nxt =>
      rw [hcc] at hch
      have hk := A.trie.child_key' hs hch
      obtain ⟨m, hm, hmd⟩ := A.trie.get_of_key hk
      have hs1 : s ++ [code c] <:+ (T.map code).take (i + 1) := by
        rw [take_succ_of_get htc]
        obtain ⟨p, hp⟩ := hq.1
        exact ⟨p, by rw [← hp]; simp⟩
      have hl : ∀ t, t <:+ (T.map code).take (i + 1) → t ∈ keys →
          t.length ≤ (s ++ [code c]).length := by
        intro t ht1 ht2
        rcases hq.advance A.trie htc t ht1 ht2 with rfl | ⟨t', rfl, ht'⟩
        · simp
        · simpa using ht'
      -- the lines printed at this position
      have hrep : ∃ R1,
          ChainSpec h keys P i ((s ++ [code c]).length + 1) (s ++ [code c]) R1 ∧
          (if m.pattern ≠ -1 then do
              let r ← report P i m
              let y ← pure (acc ++ [r])
              let acc2 ← outWalk h P i (m.depth + 1) nxt y
              queryLoop h 0 T P fuel nxt (i + 1) acc2
            else do
              let y ← pure acc
              let acc2 ← outWalk h P i (m.depth + 1) nxt y
              queryLoop h 0 T P fuel nxt (i + 1) acc2) =
            queryLoop h 0 T P fuel nxt (i + 1) (acc ++ R1) := by
        by_cases hne : m.pattern = -1
        · obtain ⟨R, hR, spec⟩ := outWalk_spec A i (m.depth + 1) nxt acc (s ++ [code c]) hk
            (by omega)
          refine ⟨R, ⟨?_, ?_, spec.order⟩, by simp [hne, hR]⟩
          · intro x hx
            obtain ⟨a, b, c, d, e⟩ := spec.sound x hx
            exact ⟨a, b, c, by omega, e⟩
          · intro t ht1 ht2 ht3
            by_cases he : t.length = (s ++ [code c]).length
            · rw [ht1.eq_of_length he] at ht3
              exact absurd hne ((A.isPat_iff hk hm).1 ht3)
            · exact spec.complete t ht1 (by omega) ht3
        · obtain ⟨p, hr, hpP, hpc⟩ := report_ok A hk hm hne i
          have hlen : p.length = (s ++ [code c]).length := by rw [← hpc]; simp
          obtain ⟨R, hR, spec⟩ := outWalk_spec A i (m.depth + 1) nxt
            (acc ++ [⟨p, (i : Int) - (p.length : Int) + 1, i⟩]) (s ++ [code c]) hk (by omega)
          refine ⟨⟨p, (i : Int) - (p.length : Int) + 1, i⟩ :: R, ⟨?_, ?_, ?_⟩,
            by simp [hne, hr, hR]⟩
          · intro x hx
            rcases List.mem_cons.1 hx with rfl | hx
            · exact ⟨rfl, hpP, by rw [hpc], by simp only; omega, rfl⟩
            · obtain ⟨a, b, c, d, e⟩ := spec.sound x hx
              exact ⟨a, b, c, by omega, e⟩
          · intro t ht1 ht2 ht3
            by_cases he : t.length = (s ++ [code c]).length
            · exact ⟨_, List.mem_cons_self _ _, by rw [ht1.eq_of_length he]; exact hpc⟩
            · obtain ⟨x, hx, hxt⟩ := spec.complete t ht1 (by omega) ht3
              exact ⟨x, List.mem_cons_of_mem _ hx, hxt⟩
          · rw [List.pairwise_cons]
            refine ⟨?_, spec.order⟩
            intro x hx
            have := (spec.sound x hx).2.2.2.1
            simp only
            omega
      obtain ⟨R1, spec1, hR1⟩ := hrep
      simp only [load_ok hm, ok_bind]
      rw [hR1]
      exact ih nxt (i + 1) (acc ++ R1) (s ++ [code c]) hk (by omega)
        (QInv.of_longest hs1 hl) (g.step_good A hs1 hl spec1)
        (by simp only [List.length_append, List.length_singleton]; omega)
    | none =>
      rw [hcc] at hch
      have hno : ∀ c', (T.map code)[i]? = some c' → s ++ [c'] ∉ keys := by
        intro c' hc'
        rw [htc] at hc'; cases hc'
        exact A.trie.child_none hs hch
      simp only []
      by_cases h0 : cur = 0
      · subst h0
        rw [A.trie.root] at hs; cases hs
        simp only [ne_eq, not_true_eq_false, if_false]
        have hl : ∀ t, t <:+ (T.map code).take (i + 1) → t ∈ keys → t = [] := by
          intro t ht1 ht2
          rcases hq.advance A.trie htc t ht1 ht2 with rfl | ⟨t', rfl, ht'⟩
          · rfl
          · exfalso
            have : t' = [] := List.length_eq_zero.1 (by simpa using ht')
            subst this
            exact hno _ htc ht2
        apply ih 0 (i + 1) acc [] A.trie.root (by omega)
          (QInv.of_longest List.nil_suffix (fun t ht1 ht2 => by rw [hl t ht1 ht2]))
        · apply g.mono
          intro p hp hne hsuf
          have hmem : p.map code ∈ P.map (List.map code) := List.mem_map_of_mem _ hp
          have := hl _ hsuf (A.pat.2.1 _ hmem)
          exact hne (List.map_eq_nil_iff.1 this)
        · simp only [List.length_nil] at hfuel ⊢; omega
      · have hne : s ≠ [] := by
          intro e; subst e; exact h0 (A.trie.root_of_nil hs)
        obtain ⟨f, wf, hf, hwf, hlps⟩ := A.fail cur s hs hne s hs
        rw [failOf_get hn] at hf
        obtain ⟨fnode, hfn, -⟩ := A.trie.get_of_key hwf
        simp only [ne_eq, h0, not_false_eq_true, if_true, hf, deref_ok hfn, ok_bind]
        exact ih f i acc wf hwf hi (hq.fail hno hlps) g (by have := hlps.2.1; omega)

/-! ## From table indices back to characters -/

theorem code_inj {c d : Char} (hc : 'a' ≤ c ∧ c ≤ 'z') (hd : 'a' ≤ d ∧ d ≤ 'z')
    (h : code c = code d) : c = d := by
  have r1 := charIndex_range hc
  have r2 := charIndex_range hd
  unfold code at h
  have e : charIndex c = charIndex d := by omega
  simp only [charIndex] at e
  have e' : c.toNat = d.toNat := by omega
  apply Char.ext
  apply UInt32.ext
  exact e'

theorem map_code_inj : ∀ {p q : List Char}, Lower p → Lower q → p.map code = q.map code →
    p = q := by
  intro p
  induction p with
  | nil =>
    intro q _ _ h
    cases q with
    | nil => rfl
    | cons d q => simp at h
  | cons c p ih =>
    intro q hp hq h
    cases q with
    | nil => simp at h
    | cons d q =>
      simp only [List.map_cons, List.cons.injEq] at h
      rw [code_inj hp.head hq.head h.1, ih hp.tail hq.tail h.2]

theorem Lower.drop {T : List Char} (hT : Lower T) (n : Nat) : Lower (T.drop n) :=
  fun c hc => hT c (List.mem_of_mem_drop hc)

theorem Lower.take {T : List Char} (hT : Lower T) (n : Nat) : Lower (T.take n) :=
  fun c hc => hT c (List.mem_of_mem_take hc)

theorem suffix_of_map_code {p X : List Char} (hp : Lower p) (hX : Lower X)
    (h : p.map code <:+ X.map code) : p <:+ X := by
  rw [List.suffix_iff_eq_drop, ← List.map_drop] at h
  rw [map_code_inj hp (hX.drop _) h]
  exact List.drop_suffix _ _

theorem occurs_of_suffix {T p : List Char} {e : Nat} (he : e < T.length)
    (hs : p <:+ T.take (e + 1)) :
    p.length ≤ e + 1 ∧ Occurs T p (e + 1 - p.length) := by
  obtain ⟨pre, hpre⟩ := hs
  have hlen : pre.length + p.length = e + 1 := by
    have := congrArg List.length hpre
    rw [List.length_append, List.length_take] at this
    omega
  have hT : T = pre ++ (p ++ T.drop (e + 1)) := by
    rw [← List.append_assoc, hpre, List.take_append_drop]
  have hk : e + 1 - p.length = pre.length := by omega
  refine ⟨by omega, by omega, ?_⟩
  rw [hk]
  conv_lhs => rw [hT]
  rw [List.drop_left, List.take_left]

theorem suffix_of_occurs {T p : List Char} {k : Nat} (ho : Occurs T p k) :
    p <:+ T.take (k + p.length) := by
  rw [List.take_add, ho.2]
  exact List.suffix_append _ _

theorem mem_naive {T : List Char} {P : List (List Char)} {p : List Char} {k : Int} :
    (p, k) ∈ naive T P ↔ p ∈ P ∧ ∃ n : Nat, k = (n : Int) ∧ Occurs T p n := by
  simp only [naive, List.mem_flatMap, List.mem_filterMap, List.mem_range]
  constructor
  · rintro ⟨q, hq, n, hn, hite⟩
    split at hite
    · next ho =>
      simp only [Option.some.injEq, Prod.mk.injEq] at hite
      obtain ⟨rfl, rfl⟩ := hite
      exact ⟨hq, n, rfl, ho⟩
    · cases hite
  · rintro ⟨hp, n, rfl, ho⟩
    exact ⟨p, hp, n, by have := ho.1; omega, by simp [ho]⟩

/-! ## `query` -/

/-- The run of `query` on a text whose first `N` symbols are in `'a'..'z'`, with
patterns over `'a'..'z'`. -/
theorem query_run (T : List Char) (P : List (List Char)) (N : Nat) (hN : N ≤ T.length)
    (hT : Lower (T.take N)) (hP : ∀ p ∈ P, Lower p) : ScanResult P T N (query T P) := by
  obtain ⟨h, keys, e, A⟩ := buildAutomaton_spec P hP
  have hq : QInv keys (T.map code) 0 [] := by
    refine ⟨by simp, ?_⟩
    intro c _ t ht _ hlt
    simp at ht
    subst ht
    simp at hlt
  have g : Good P (T.map code) 0 [] :=
    ⟨fun m hm => absurd hm (List.not_mem_nil _), fun e he => absurd he (Nat.not_lt_zero _),
      List.Pairwise.nil⟩
  have := queryLoop_spec A hN hT (2 * T.length + 1) 0 0 [] [] A.trie.root (Nat.zero_le _) hq g
    (by simp only [List.length_nil]; omega)
  simpa [query, e] using this

/-- On a text and patterns over `'a'..'z'`, `query` returns: each line it prints is a
pattern ending at the position of the line, with its start index; every occurrence of
a non-empty pattern has its line; the lines are in order of position and, at one
position, of strictly decreasing length. -/
theorem query_spec (T : List Char) (P : List (List Char)) (hT : Lower T)
    (hP : ∀ p ∈ P, Lower p) :
    ∃ ms, query T P = .ok ms ∧ Good P (T.map code) T.length ms := by
  have := query_run T P T.length (le_refl _) (by rw [List.take_length]; exact hT) hP
  exact this.1 (List.getElem?_eq_none (le_refl _))

/-- On a text whose first symbol outside `'a'..'z'` is `c`, with patterns over
`'a'..'z'`, `query` indexes a `children` table with `c - 'a'`. -/
theorem query_bad_symbol (pre rest : List Char) (c : Char) (P : List (List Char))
    (hpre : Lower pre) (hc : ¬ ('a' ≤ c ∧ c ≤ 'z')) (hP : ∀ p ∈ P, Lower p) :
    query (pre ++ c :: rest) P = .error (.outOfRange (charIndex c)) := by
  have := query_run (pre ++ c :: rest) P pre.length (by simp)
    (by rw [List.take_left]; exact hpre) hP
  exact this.2 c (by rw [List.getElem?_append_right (le_refl _)]; simp) hc

/-- A printed line is an occurrence of a pattern, in terms of characters. -/
theorem Good.occurs {T : List Char} {P : List (List Char)} {ms : List Match}
    (g : Good P (T.map code) T.length ms) (hT : Lower T) (hP : ∀ p ∈ P, Lower p)
    {m : Match} (hm : m ∈ ms) :
    m.pattern ∈ P ∧ m.pos < T.length ∧ m.pattern.length ≤ m.pos + 1 ∧
      m.index = ((m.pos + 1 - m.pattern.length : Nat) : Int) ∧
      Occurs T m.pattern (m.pos + 1 - m.pattern.length) := by
  obtain ⟨h1, h2, h3, h4⟩ := g.sound m hm
  rw [← List.map_take] at h3
  have hs := suffix_of_map_code (hP _ h2) (hT.take _) h3
  obtain ⟨h5, h6⟩ := occurs_of_suffix h1 hs
  exact ⟨h2, h1, h5, by rw [h4]; omega, h6⟩

/-- An occurrence of a non-empty pattern has its line. -/
theorem Good.found {T : List Char} {P : List (List Char)} {ms : List Match}
    (g : Good P (T.map code) T.length ms) (hP : ∀ p ∈ P, Lower p)
    {p : List Char} (hp : p ∈ P) (hne : p ≠ []) {k : Nat} (ho : Occurs T p k) :
    ∃ m ∈ ms, m.pattern = p ∧ m.index = (k : Int) ∧ m.pos + 1 = k + p.length := by
  have hpos : 0 < p.length := List.length_pos.2 hne
  have hs := suffix_of_occurs ho
  have he : k + p.length = (k + p.length - 1) + 1 := by omega
  rw [he] at hs
  have hs' : p.map code <:+ (T.map code).take (k + p.length - 1 + 1) := by
    rw [← List.map_take]
    obtain ⟨pre, hpre⟩ := hs
    exact ⟨pre.map code, by rw [← List.map_append, hpre]⟩
  obtain ⟨m, hm, hmpos, hmp⟩ := g.complete (k + p.length - 1) (by have := ho.1; omega) p hp hne hs'
  have hmP := (g.sound m hm).2.1
  have hpe : m.pattern = p := map_code_inj (hP _ hmP) (hP _ hp) hmp
  refine ⟨m, hm, hpe, ?_, by omega⟩
  rw [(g.sound m hm).2.2.2, hpe, hmpos]
  omega

/-! ## The claims about `query` and `buildTrie` -/

/-- C1 (as stated, refuted): for the text `"a"` and the pattern list `[""]`, the set of
pairs reported by `query` is not the set found by the naive check: the naive check finds
the empty pattern at offset 0, `query` prints nothing. -/
theorem query_misses_empty_pattern :
    ¬ ∃ ms, query "a".toList ["".toList] = .ok ms ∧
      ∀ p k, (p, k) ∈ reported ms ↔ (p, k) ∈ naive "a".toList ["".toList] := by
  rintro ⟨ms, hms, h⟩
  have e : query "a".toList ["".toList] = .ok [] := by decide
  rw [e] at hms
  cases hms
  have := (h [] 0).2 (by decide)
  simp [reported] at this

/-- C1 (amended): for every list `P` of distinct patterns and every text `T` over
`'a'..'z'`, every pair (pattern, start index) reported by `query T P` is found by the
naive substring check of every pattern at every offset of `T`, and every pair the naive
check finds for a non-empty pattern is reported. -/
theorem query_reports_occurrences (T : List Char) (P : List (List Char)) (hT : Lower T)
    (hP : ∀ p ∈ P, Lower p) (_hd : P.Nodup) :
    ∃ ms, query T P = .ok ms ∧ (∀ pk ∈ reported ms, pk ∈ naive T P) ∧
      ∀ p k, p ≠ [] → (p, k) ∈ naive T P → (p, k) ∈ reported ms := by
  obtain ⟨ms, hms, g⟩ := query_spec T P hT hP
  refine ⟨ms, hms, ?_, ?_⟩
  · rintro ⟨p, k⟩ hpk
    simp only [reported, List.mem_map, Prod.mk.injEq] at hpk
    obtain ⟨m, hm, rfl, rfl⟩ := hpk
    obtain ⟨h1, -, -, h4, h5⟩ := g.occurs hT hP hm
    exact mem_naive.2 ⟨h1, _, h4, h5⟩
  · intro p k hne hpk
    obtain ⟨hp, n, rfl, ho⟩ := mem_naive.1 hpk
    obtain ⟨m, hm, h1, h2, -⟩ := g.found hP hp hne ho
    simp only [reported, List.mem_map, Prod.mk.injEq]
    exact ⟨m, hm, h1, h2⟩

theorem query_reports_occurrences_witness :
    ∃ ms, query "ushers".toList ["he".toList, "she".toList, "".toList] = .ok ms ∧
      (∀ pk ∈ reported ms, pk ∈ naive "ushers".toList ["he".toList, "she".toList, "".toList]) ∧
      ∀ p k, p ≠ [] → (p, k) ∈ naive "ushers".toList ["he".toList, "she".toList, "".toList] →
        (p, k) ∈ reported ms :=
  query_reports_occurrences "ushers".toList ["he".toList, "she".toList, "".toList]
    (by decide) (by decide) (by decide)

/-- C2: for every pattern list `P` and text `T` over `'a'..'z'`, the matches reported by
`query T P` appear in non-decreasing order of end offset, the end offset of a match
being the text position `pos` at which it is reported, and its start index being
`pos - pattern length + 1`. -/
theorem query_end_offsets_sorted (T : List Char) (P : List (List Char)) (hT : Lower T)
    (hP : ∀ p ∈ P, Lower p) :
    ∃ ms, query T P = .ok ms ∧ ms.Pairwise (fun a b => a.pos ≤ b.pos) ∧
      ∀ m ∈ ms, m.index = (m.pos : Int) - (m.pattern.length : Int) + 1 := by
  obtain ⟨ms, hms, g⟩ := query_spec T P hT hP
  refine ⟨ms, hms, g.order.imp ?_, fun m hm => (g.sound m hm).2.2.2⟩
  rintro a b (h | ⟨h, -⟩) <;> omega

theorem query_end_offsets_sorted_witness :
    ∃ ms, query "abcab".toList ["ab".toList, "b".toList, "ca".toList] = .ok ms ∧
      ms.Pairwise (fun a b => a.pos ≤ b.pos) ∧
      ∀ m ∈ ms, m.index = (m.pos : Int) - (m.pattern.length : Int) + 1 :=
  query_end_offsets_sorted "abcab".toList ["ab".toList, "b".toList, "ca".toList]
    (by decide) (by decide)

/-- C3 (as stated, refuted): for the text `"ushers"` and the patterns `"he"`, `"she"`,
the matches reported at one end offset are not in increasing depth order: `"she"`
(depth 3) is reported before `"he"` (depth 2), both at end offset 3. -/
theorem query_not_shortest_first :
    ¬ ∃ ms, query "ushers".toList ["he".toList, "she".toList] = .ok ms ∧
      ms.Pairwise (fun a b => a.pos = b.pos → a.pattern.length ≤ b.pattern.length) := by
  rintro ⟨ms, hms, h⟩
  have e : query "ushers".toList ["he".toList, "she".toList] =
      .ok [⟨"she".toList, 1, 3⟩, ⟨"he".toList, 2, 3⟩] := by decide
  rw [e] at hms
  cases hms
  simp at h

/-- C3 (amended): for every pattern list `P` and text `T` over `'a'..'z'`, among the
matches `query T P` reports for one fixed end offset, the matches are reported in
strictly decreasing depth order: the longest matching pattern first, the shortest last. -/
theorem query_longest_first (T : List Char) (P : List (List Char)) (hT : Lower T)
    (hP : ∀ p ∈ P, Lower p) :
    ∃ ms, query T P = .ok ms ∧
      ms.Pairwise (fun a b => a.pos = b.pos → b.pattern.length < a.pattern.length) := by
  obtain ⟨ms, hms, g⟩ := query_spec T P hT hP
  refine ⟨ms, hms, g.order.imp ?_⟩
  rintro a b (h | ⟨-, h⟩) e
  · omega
  · exact h

theorem query_longest_first_witness :
    ∃ ms, query "ushers".toList ["he".toList, "she".toList] = .ok ms ∧
      ms.Pairwise (fun a b => a.pos = b.pos → b.pattern.length < a.pattern.length) :=
  query_longest_first "ushers".toList ["he".toList, "she".toList] (by decide) (by decide)

/-- C4: `query("ushers", ["he", "she"])` reports exactly two matches: `"she"` at start
index 1 and then `"he"` at start index 2 (both at text position 3). -/
theorem query_ushers :
    query "ushers".toList ["he".toList, "she".toList] =
      .ok [⟨"she".toList, 1, 3⟩, ⟨"he".toList, 2, 3⟩] := by decide

/-- C5: `query("abc", ["a", "ab", "bc"])` reports exactly three matches in this order:
`"a"` with start 0 and end 0, `"ab"` with start 0 and end 1, `"bc"` with start 1 and
end 2. -/
theorem query_abc :
    query "abc".toList ["a".toList, "ab".toList, "bc".toList] =
      .ok [⟨"a".toList, 0, 0⟩, ⟨"ab".toList, 0, 1⟩, ⟨"bc".toList, 1, 2⟩] := by decide

/-- C6: for every text `T` over `'a'..'z'`, `query T []` reports no match. -/
theorem query_no_patterns (T : List Char) (hT : Lower T) : query T [] = .ok [] := by
  obtain ⟨ms, hms, g⟩ := query_spec T [] hT (fun p hp => absurd hp (List.not_mem_nil _))
  cases ms with
  | nil => exact hms
  | cons m ms => exact absurd (g.sound m (List.mem_cons_self _ _)).2.1 (List.not_mem_nil _)

theorem query_no_patterns_witness : query "hello".toList [] = .ok [] :=
  query_no_patterns "hello".toList (by decide)

/-- C7: for every pattern list `P` over `'a'..'z'`, also one that contains the empty
pattern, `query [] P` on the empty text reports no match. -/
theorem query_empty_text (P : List (List Char)) (hP : ∀ p ∈ P, Lower p) :
    query [] P = .ok [] := by
  obtain ⟨ms, hms, g⟩ := query_spec [] P (fun c hc => absurd hc (List.not_mem_nil _)) hP
  cases ms with
  | nil => exact hms
  | cons m ms =>
    have := (g.sound m (List.mem_cons_self _ _)).1
    simp at this

theorem query_empty_text_witness : query [] ["".toList, "ab".toList, "b".toList] = .ok [] :=
  query_empty_text ["".toList, "ab".toList, "b".toList] (by decide)

/-- C8: for every non-empty text `T` over `'a'..'z'`, `query T [T]` reports exactly one
match, its pattern is `T` and its start index is 0. -/
theorem query_whole_text (T : List Char) (hT : Lower T) (hne : T ≠ []) :
    ∃ m, query T [T] = .ok [m] ∧ m.pattern = T ∧ m.index = 0 := by
  have hP : ∀ p ∈ [T], Lower p := by
    intro p hp
    rw [List.mem_singleton] at hp
    rw [hp]; exact hT
  obtain ⟨ms, hms, g⟩ := query_spec T [T] hT hP
  have hall : ∀ m ∈ ms, m.pattern = T ∧ m.index = 0 ∧ m.pos + 1 = T.length := by
    intro m hm
    obtain ⟨h1, h2, h3, h4, -⟩ := g.occurs hT hP hm
    rw [List.mem_singleton] at h1
    rw [h1] at h3 h4
    exact ⟨h1, by rw [h4]; omega, by omega⟩
  obtain ⟨m, hm, -⟩ := g.found hP (List.mem_singleton_self T) hne
    (show Occurs T T 0 from ⟨by simp, by simp⟩)
  cases ms with
  | nil => exact absurd hm (List.not_mem_nil _)
  | cons a ms =>
    cases ms with
    | nil => exact ⟨a, hms, (hall a (List.mem_cons_self _ _)).1, (hall a (List.mem_cons_self _ _)).2.1⟩
    | cons b ms =>
      exfalso
      have ha := hall a (List.mem_cons_self _ _)
      have hb := hall b (List.mem_cons_of_mem _ (List.mem_cons_self _ _))
      have := (List.pairwise_cons.1 g.order).1 b (List.mem_cons_self _ _)
      rw [ha.1, hb.1] at this
      omega

theorem query_whole_text_witness :
    ∃ m, query "banana".toList ["banana".toList] = .ok [m] ∧ m.pattern = "banana".toList ∧
      m.index = 0 :=
  query_whole_text "banana".toList (by decide) (by decide)

/-- C9 (as stated, refuted): on the text `"A"`, whose symbol is outside `'a'..'z'`,
`query` does not reject the symbol: it indexes the `children` table of the root with
`'A' - 'a' = -32`, outside `0..25`. -/
theorem query_indexes_out_of_range :
    query "A".toList [] = .error (.outOfRange (-32)) := by decide

/-- C9 (amended): for every text `T` and pattern list `P` over `'a'..'z'`, `query` runs
to its end without indexing a `children` table outside `0..25`. It has no check of its
symbols: when `T` contains a symbol outside `'a'..'z'` and the first of them is an ASCII
symbol `c` (patterns over `'a'..'z'`), a `children` table is indexed with `c - 'a'`,
which is outside `0..25`. -/
theorem query_alphabet (T : List Char) (P : List (List Char)) (hP : ∀ p ∈ P, Lower p) :
    (Lower T → ∃ ms, query T P = .ok ms) ∧
    ∀ (pre rest : List Char) (c : Char), T = pre ++ c :: rest → Lower pre →
      ¬ ('a' ≤ c ∧ c ≤ 'z') → c.toNat < 128 →
      query T P = .error (.outOfRange ((c.toNat : Int) - 97)) ∧
        ¬ (0 ≤ (c.toNat : Int) - 97 ∧ (c.toNat : Int) - 97 < 26) := by
  constructor
  · intro hT
    obtain ⟨ms, hms, -⟩ := query_spec T P hT hP
    exact ⟨ms, hms⟩
  · intro pre rest c hT hpre hc _
    rw [hT]
    exact ⟨query_bad_symbol pre rest c P hpre hc hP, charIndex_bad hc⟩

theorem query_alphabet_witness :
    (∃ ms, query "she".toList ["he".toList] = .ok ms) ∧
    (Lower "sh".toList ∧ ¬ ('a' ≤ 'E' ∧ 'E' ≤ 'z') ∧ 'E'.toNat < 128 ∧
      query "shE".toList ["he".toList] = .error (.outOfRange (('E'.toNat : Int) - 97)) ∧
      ¬ (0 ≤ ('E'.toNat : Int) - 97 ∧ ('E'.toNat : Int) - 97 < 26)) :=
  ⟨(query_alphabet "she".toList ["he".toList] (by decide)).1 (by decide),
    by decide, by decide, by decide,
    (query_alphabet "shE".toList ["he".toList] (by decide)).2 "sh".toList [] 'E' rfl
      (by decide) (by decide) (by decide)⟩

/-- C10: for every list `P` of distinct patterns over `'a'..'z'` and every index
`i < |P|`, following the symbols of `P[i]` from the root of `buildTrie P` ends at a
node whose `pattern` field equals `i` (also when `P[i]` is a proper prefix of another
pattern: each of the two nodes keeps its own index). -/
theorem buildTrie_pattern_index (P : List (List Char)) (hP : ∀ p ∈ P, Lower p)
    (hd : P.Nodup) (i : Nat) (p : List Char) (hi : P[i]? = some p) :
    ∃ h root v n, buildTrie P = .ok (h, root) ∧ walk h root (p.map code) = some v ∧
      h[v]? = some n ∧ n.pattern = (i : Int) := by
  obtain ⟨h, keys, e, t, hpat, -⟩ := buildTrie_spec P hP
  have hmem : p.map code ∈ P.map (List.map code) :=
    List.mem_map_of_mem _ (List.mem_iff_getElem?.2 ⟨i, hi⟩)
  obtain ⟨v, hv⟩ := List.mem_iff_getElem?.1 (hpat.2.1 _ hmem)
  obtain ⟨n, hn, -⟩ := t.get_of_key hv
  refine ⟨h, 0, v, n, e, walk_of_key t _ 0 v [] t.root (by simpa using hv), hn, ?_⟩
  have hnd : (P.map (List.map code)).Nodup := by
    rw [List.nodup_map_iff_inj_on hd]
    intro x hx y hy hxy
    exact map_code_inj (hP x hx) (hP y hy) hxy
  have hget : (P.map (List.map code))[i]? = some (p.map code) := by
    rw [List.getElem?_map, hi]; rfl
  have := hpat.1 v _ hv
  rw [patOf_get hn, lastIndex_of_nodup hnd hget] at this
  exact Option.some.inj this

theorem buildTrie_pattern_index_witness :
    ∃ h root v n, buildTrie ["ab".toList, "a".toList, "abc".toList] = .ok (h, root) ∧
      walk h root ("a".toList.map code) = some v ∧ h[v]? = some n ∧ n.pattern = ((1 : Nat) : Int) :=
  buildTrie_pattern_index ["ab".toList, "a".toList, "abc".toList] (by decide) (by decide)
    1 "a".toList (by decide)

/-! ## The trie and the links in terms of the patterns -/

theorem prefix_map_code {w : List Nat} {p : List Char} (hw : w <+: p.map code) :
    w = (p.take w.length).map code := by
  obtain ⟨x, hx⟩ := hw
  have : (p.map code).take w.length = w := by rw [← hx, List.take_left]
  rw [← List.map_take] at this
  exact this.symm

/-- A string spelled by a non-root node is the image of a prefix of a pattern. -/
theorem key_chars {h : Heap} {keys : List (List Nat)} {P : List (List Char)}
    (hp : PatInv h keys (P.map (List.map code))) {w : List Nat} (hw : w ∈ keys)
    (hne : w ≠ []) : ∃ p ∈ P, ∃ s, s <+: p ∧ w = s.map code := by
  rcases hp.2.2 w hw with h0 | ⟨x, hx, hpre⟩
  · exact absurd h0 hne
  · obtain ⟨p, hpP, rfl⟩ := List.mem_map.1 hx
    exact ⟨p, hpP, p.take w.length, List.take_prefix _ _, prefix_map_code hpre⟩

/-- The image of a prefix of a pattern is spelled by a node. -/
theorem mem_keys_of_isPrefix {h : Heap} {keys : List (List Nat)} {P : List (List Char)}
    (t : TrieInv h keys) (hp : PatInv h keys (P.map (List.map code))) {s p : List Char}
    (hpP : p ∈ P) (hs : s <+: p) : s.map code ∈ keys := by
  obtain ⟨x, rfl⟩ := hs
  apply t.mem_of_append (x := x.map code)
  rw [← List.map_append]
  exact hp.2.1 _ (List.mem_map_of_mem _ hpP)

theorem lower_of_isPrefix {P : List (List Char)} (hP : ∀ p ∈ P, Lower p) {s p : List Char}
    (hpP : p ∈ P) (hs : s <+: p) : Lower s :=
  fun c hc => hP p hpP c (hs.subset hc)

theorem TrieInv.walk_root {h : Heap} {keys : List (List Nat)} (t : TrieInv h keys) {v : Nat}
    {w : List Nat} (hv : keys[v]? = some w) : walk h 0 w = some v :=
  walk_of_key t w 0 v [] t.root (by simpa using hv)

/-- C11: for every pattern list `P` over `'a'..'z'` and every string `p` that occurs in
`P` (at index `i`, and possibly at several indices), the node at the end of the path of
`p` in `buildTrie P` carries the largest index at which `p` occurs: the last inserted
index wins. -/
theorem buildTrie_last_index_wins (P : List (List Char)) (hP : ∀ p ∈ P, Lower p)
    (i : Nat) (p : List Char) (hi : P[i]? = some p) :
    ∃ h root v n, buildTrie P = .ok (h, root) ∧ walk h root (p.map code) = some v ∧
      h[v]? = some n ∧ ∃ j : Nat, n.pattern = (j : Int) ∧ P[j]? = some p ∧ i ≤ j ∧
        ∀ j', j < j' → P[j']? ≠ some p := by
  obtain ⟨h, keys, e, t, hpat, -⟩ := buildTrie_spec P hP
  have hpP : p ∈ P := List.mem_iff_getElem?.2 ⟨i, hi⟩
  have hmem : p.map code ∈ P.map (List.map code) := List.mem_map_of_mem _ hpP
  obtain ⟨v, hv⟩ := List.mem_iff_getElem?.1 (hpat.2.1 _ hmem)
  obtain ⟨n, hn, -⟩ := t.get_of_key hv
  refine ⟨h, 0, v, n, e, t.walk_root hv, hn, ?_⟩
  have hne : lastIndex (P.map (List.map code)) (p.map code) ≠ -1 := by
    rw [Ne, lastIndex_eq_neg_one, not_not]; exact hmem
  obtain ⟨h1, h2⟩ := lastIndex_get _ _ hne
  have hr := lastIndex_range (P.map (List.map code)) (p.map code)
  have hpv := hpat.1 v _ hv
  rw [patOf_get hn] at hpv
  have hget : ∀ (j : Nat) (q : List Char), P[j]? = some q →
      (P.map (List.map code))[j]? = some (q.map code) := by
    intro j q hq
    rw [List.getElem?_map, hq]; rfl
  refine ⟨(lastIndex (P.map (List.map code)) (p.map code)).toNat, ?_, ?_, ?_, ?_⟩
  · rw [Option.some.inj hpv]; omega
  · rw [List.getElem?_map] at h1
    cases hq : P[(lastIndex (P.map (List.map code)) (p.map code)).toNat]? with
    | none => rw [hq] at h1; cases h1
    | some q =>
      rw [hq] at h1
      simp only [Option.map_some', Option.some.injEq] at h1
      rw [map_code_inj (hP q (List.mem_iff_getElem?.2 ⟨_, hq⟩)) (hP p hpP) h1]
  · by_contra hlt
    exact h2 i (by omega) (hget i p hi)
  · intro j' hj' hc
    exact h2 j' hj' (hget j' p hc)

theorem buildTrie_last_index_wins_witness :
    ∃ h root v n, buildTrie ["ab".toList, "c".toList, "ab".toList, "abc".toList] =
        .ok (h, root) ∧
      walk h root ("ab".toList.map code) = some v ∧ h[v]? = some n ∧
      ∃ j : Nat, n.pattern = (j : Int) ∧
        ["ab".toList, "c".toList, "ab".toList, "abc".toList][j]? = some "ab".toList ∧ 0 ≤ j ∧
        ∀ j', j < j' →
          ["ab".toList, "c".toList, "ab".toList, "abc".toList][j']? ≠ some "ab".toList :=
  buildTrie_last_index_wins ["ab".toList, "c".toList, "ab".toList, "abc".toList] (by decide)
    0 "ab".toList (by decide)

/-- The string of a non-root node of the automaton, as characters. -/
theorem Automaton.node_chars {h : Heap} {keys : List (List Nat)} {P : List (List Char)}
    (A : Automaton h keys (P.map (List.map code))) (hP : ∀ p ∈ P, Lower p) {v : Nat}
    {n : ACNode} (hn : h[v]? = some n) (hv : v ≠ 0) :
    ∃ s, keys[v]? = some (s.map code) ∧ s ≠ [] ∧ Lower s ∧ (∃ p ∈ P, s <+: p) ∧
      walk h 0 (s.map code) = some v ∧ n.depth = s.length := by
  obtain ⟨w, hw⟩ := A.trie.key_of_lt (lt_of_get hn)
  have hne : w ≠ [] := by
    intro e; subst e; exact hv (A.trie.root_of_nil hw)
  obtain ⟨p, hpP, s, hs, rfl⟩ := key_chars A.pat (key_mem hw) hne
  obtain ⟨n', hn', hd⟩ := A.trie.get_of_key hw
  rw [hn] at hn'; cases hn'
  refine ⟨s, hw, ?_, lower_of_isPrefix hP hpP hs, ⟨p, hpP, hs⟩, A.trie.walk_root hw,
    by simpa using hd⟩
  intro e; subst e; exact hne rfl

/-- A string spelled by a node of the automaton, as characters: a prefix of a pattern,
or the empty string. -/
theorem Automaton.key_chars_any {h : Heap} {keys : List (List Nat)} {P : List (List Char)}
    (A : Automaton h keys (P.map (List.map code))) (hP : ∀ p ∈ P, Lower p) {w : List Nat}
    (hw : w ∈ keys) : ∃ s, w = s.map code ∧ Lower s ∧ (s = [] ∨ ∃ p ∈ P, s <+: p) := by
  by_cases hne : w = []
  · exact ⟨[], by simp [hne], fun c hc => absurd hc (List.not_mem_nil _), Or.inl rfl⟩
  · obtain ⟨p, hpP, s, hs, rfl⟩ := key_chars A.pat hw hne
    exact ⟨s, rfl, lower_of_isPrefix hP hpP hs, Or.inr ⟨p, hpP, hs⟩⟩

/-- The string over `'a'..'z'` that leads from the root to a node is unique. -/
theorem Automaton.walk_unique {h : Heap} {keys : List (List Nat)} {ps : List (List Nat)}
    (A : Automaton h keys ps) {v : Nat} {s s' : List Char} (hs : Lower s) (hs' : Lower s')
    (hw : walk h 0 (s.map code) = some v) (hw' : walk h 0 (s'.map code) = some v) :
    s' = s := by
  have k := key_of_walk A.trie (s.map code) 0 v [] A.trie.root hw
  have k' := key_of_walk A.trie (s'.map code) 0 v [] A.trie.root hw'
  rw [List.nil_append] at k k'
  rw [k] at k'
  exact (map_code_inj hs hs' (Option.some.inj k')).symm

/-- C12: for every pattern list `P` over `'a'..'z'` and every non-root node `v` of
`buildAutomaton P`, with `s` the string of `v` (the one string over `'a'..'z'` that
leads from the root to `v`), the link `v.fail` is set and points to the trie node whose
string `sf` is the longest proper suffix of `s` that is a prefix of some pattern of `P`
(the root, spelling the empty string, when no other suffix qualifies). -/
theorem buildAutomaton_fail_link (P : List (List Char)) (hP : ∀ p ∈ P, Lower p) :
    ∃ h root, buildAutomaton P = .ok (h, root) ∧
      ∀ (v : Nat) (n : ACNode), h[v]? = some n → v ≠ root →
        ∃ (s sf : List Char) (f : Nat), Lower s ∧ walk h root (s.map code) = some v ∧
          (∀ s', Lower s' → walk h root (s'.map code) = some v → s' = s) ∧
          n.fail = some f ∧ Lower sf ∧ walk h root (sf.map code) = some f ∧
          FailTarget P s sf := by
  obtain ⟨h, keys, e, A⟩ := buildAutomaton_spec P hP
  refine ⟨h, 0, e, ?_⟩
  intro v n hn hv
  obtain ⟨s, hks, hsne, hsl, ⟨p, hpP, hsp⟩, hwalk, -⟩ := A.node_chars hP hn hv
  have hne : s.map code ≠ [] := by simpa using hsne
  obtain ⟨f, wf, hf, hwf, h1, h2, h3, h4⟩ := A.fail v _ hks hne _ hks
  rw [failOf_get hn] at hf
  obtain ⟨sf, rfl, hsfl, hsfp⟩ := A.key_chars_any hP h3
  refine ⟨s, sf, f, hsl, hwalk, fun s' hs' hw' => A.walk_unique hsl hs' hwalk hw', hf, hsfl,
    A.trie.walk_root hwf, suffix_of_map_code hsfl hsl h1, by simpa using h2, ?_, ?_⟩
  · rcases hsfp with rfl | hsfp
    · exact ⟨p, hpP, List.nil_prefix⟩
    · exact hsfp
  · intro t ht1 ht2 ⟨q, hqP, htq⟩
    have := h4 (t.map code) (by
      obtain ⟨x, hx⟩ := ht1
      exact ⟨x.map code, by rw [← List.map_append, hx]⟩) (by simpa using ht2)
      (mem_keys_of_isPrefix A.trie A.pat hqP htq)
    simpa using this

theorem buildAutomaton_fail_link_witness :
    ∃ h root, buildAutomaton ["he".toList, "she".toList] = .ok (h, root) ∧
      ∀ (v : Nat) (n : ACNode), h[v]? = some n → v ≠ root →
        ∃ (s sf : List Char) (f : Nat), Lower s ∧ walk h root (s.map code) = some v ∧
          (∀ s', Lower s' → walk h root (s'.map code) = some v → s' = s) ∧
          n.fail = some f ∧ Lower sf ∧ walk h root (sf.map code) = some f ∧
          FailTarget ["he".toList, "she".toList] s sf :=
  buildAutomaton_fail_link ["he".toList, "she".toList] (by decide)

/-! ## The `out` link and the chain of `fail` links -/

/-- In the automaton the `out` link of a non-root node is its `fail` target when that
node carries a pattern, and the `out` link of the `fail` target otherwise. -/
theorem Automaton.out_rec {h : Heap} {keys : List (List Nat)} {ps : List (List Nat)}
    (A : Automaton h keys ps) {v f : Nat} {w wf : List Nat} (hw : keys[v]? = some w)
    (hwf : keys[f]? = some wf) (hl : LongestProperSuffix (fun t => t ∈ keys) w wf) :
    outOf h v = if hasPattern h f then some f else outOf h f := by
  obtain ⟨fn, hfn, -⟩ := A.trie.get_of_key hwf
  have hpat : hasPattern h f = true ↔ IsPat h keys wf := by
    rw [A.isPat_iff hwf hfn]
    simp [hasPattern, patOf_get hfn]
  by_cases hp : IsPat h keys wf
  · rw [if_pos (hpat.2 hp)]
    rcases A.out v w hw w hw with ⟨-, h2⟩ | ⟨o, wo, h1, h2, h3, h4, h5, h6⟩
    · exact absurd hp (h2 wf hl.1 hl.2.1)
    · have a := h6 wf hl.1 hl.2.1 hp
      have b := hl.2.2.2 wo h3 h4 h5.mem
      have hs : wo <:+ wf := List.suffix_of_suffix_length_le h3 hl.1 b
      have : wo = wf := hs.eq_of_length (by omega)
      subst this
      rw [h1, key_inj A.trie.nodup h2 hwf]
  · rw [if_neg (fun hc => hp (hpat.1 hc))]
    have hdown : ∀ x, x <:+ w → x.length < w.length → IsPat h keys x →
        x <:+ wf ∧ x.length < wf.length := by
      intro x hx1 hx2 hx3
      have hle := hl.2.2.2 x hx1 hx2 hx3.mem
      have hs : x <:+ wf := List.suffix_of_suffix_length_le hx1 hl.1 hle
      refine ⟨hs, ?_⟩
      by_contra hc
      exact hp (hs.eq_of_length (by omega) ▸ hx3)
    rcases A.out v w hw w hw with ⟨v1, v2⟩ | ⟨o, wo, v1, v2, v3, v4, v5, v6⟩
    · rcases A.out f wf hwf wf hwf with ⟨f1, -⟩ | ⟨o', wo', f1, f2, f3, f4, f5, f6⟩
      · rw [v1, f1]
      · exact absurd f5 (v2 wo' (f3.trans hl.1) (by have := hl.2.1; omega))
    · obtain ⟨a, b⟩ := hdown wo v3 v4 v5
      rcases A.out f wf hwf wf hwf with ⟨-, f2⟩ | ⟨o', wo', f1, f2, f3, f4, f5, f6⟩
      · exact absurd v5 (f2 wo a b)
      · have c := f6 wo a b v5
        have d := v6 wo' (f3.trans hl.1) (by have := hl.2.1; omega) f5
        have hs : wo <:+ wo' := List.suffix_of_suffix_length_le v3 (f3.trans hl.1) c
        have : wo = wo' := hs.eq_of_length (by omega)
        subst this
        rw [v1, f1, key_inj A.trie.nodup v2 f2]

/-- The first pattern-carrying node on the chain of `fail` links is the `out` link, and
the chain of a non-root node ends at the root. -/
theorem Automaton.chain_out {h : Heap} {keys : List (List Nat)} {ps : List (List Nat)}
    (A : Automaton h keys ps) :
    ∀ (fuel v : Nat) (w : List Nat), keys[v]? = some w → w.length ≤ fuel →
      (failChain h fuel v).find? (hasPattern h) = outOf h v ∧
      (w ≠ [] → (failChain h fuel v).getLast? = some 0) := by
  intro fuel
  induction fuel with
  | zero =>
    intro v w hw hlen
    have hnil : w = [] := List.length_eq_zero.1 (by omega)
    subst hnil
    refine ⟨?_, fun hne => absurd rfl hne⟩
    rcases A.out v [] hw [] hw with ⟨h1, -⟩ | ⟨o, wo, -, -, -, h4, -⟩
    · simp [failChain, h1]
    · simp at h4
  | succ fuel ih =>
    intro v w hw hlen
    by_cases hnil : w = []
    · subst hnil
      have h0 := A.trie.root_of_nil hw
      subst h0
      refine ⟨?_, fun hne => absurd rfl hne⟩
      rcases A.out 0 [] hw [] hw with ⟨h1, -⟩ | ⟨o, wo, -, -, -, h4, -⟩
      · simp [failChain, A.root_fail, h1]
      · simp at h4
    · obtain ⟨f, wf, hf, hwf, hl⟩ := A.fail v w hw hnil w hw
      obtain ⟨ih1, ih2⟩ := ih f wf hwf (by have := hl.2.1; omega)
      simp only [failChain, hf]
      constructor
      · rw [List.find?_cons, A.out_rec hw hwf hl]
        cases hp : hasPattern h f <;> simp [ih1]
      · intro _
        by_cases hwfn : wf = []
        · subst hwfn
          have h0 := A.trie.root_of_nil hwf
          subst h0
          cases fuel with
          | zero => simp [failChain]
          | succ fuel => simp [failChain, A.root_fail]
        · have := ih2 hwfn
          generalize failChain h fuel f = c at this ⊢
          cases c with
          | nil => simp at this
          | cons x xs => rw [List.getLast?_cons_cons]; exact this

/-- C13: for every pattern list `P` over `'a'..'z'` and every non-root node `v` of
`buildAutomaton P`, the link `v.out` is the first node on the chain `v.fail`,
`v.fail.fail`, ... (which ends at the root) whose `pattern` field is not `-1`; it is
null exactly when no node of the chain has a pattern; and, with `s` the string of `v`
(the one string over `'a'..'z'` that leads from the root to `v`), it is the node of the
longest pattern of `P` that is a proper suffix of `s` (null when no pattern is). -/
theorem buildAutomaton_out_link (P : List (List Char)) (hP : ∀ p ∈ P, Lower p) :
    ∃ h root, buildAutomaton P = .ok (h, root) ∧
      ∀ (v : Nat) (n : ACNode), h[v]? = some n → v ≠ root →
        n.out = (failChain h n.depth v).find? (hasPattern h) ∧
        (failChain h n.depth v).getLast? = some root ∧
        (n.out = none ↔ ∀ u ∈ failChain h n.depth v, hasPattern h u = false) ∧
        ∃ s : List Char, Lower s ∧ walk h root (s.map code) = some v ∧
          (∀ s', Lower s' → walk h root (s'.map code) = some v → s' = s) ∧
          ((n.out = none ∧ ∀ t, t <:+ s → t.length < s.length → t ∉ P) ∨
            ∃ (o : Nat) (so : List Char), n.out = some o ∧
              walk h root (so.map code) = some o ∧ OutTarget P s so) := by
  obtain ⟨h, keys, e, A⟩ := buildAutomaton_spec P hP
  refine ⟨h, 0, e, ?_⟩
  intro v n hn hv
  obtain ⟨s, hks, hsne, hsl, -, hwalk, hd⟩ := A.node_chars hP hn hv
  have hne : s.map code ≠ [] := by simpa using hsne
  obtain ⟨c1, c2⟩ := A.chain_out n.depth v _ hks (by simp [hd])
  rw [outOf_get hn] at c1
  refine ⟨c1.symm, c2 hne, ?_, s, hsl, hwalk,
    fun s' hs' hw' => A.walk_unique hsl hs' hwalk hw', ?_⟩
  · rw [← c1, List.find?_eq_none]
    simp
  · have hsuf : ∀ t : List Char, t <:+ s → t.map code <:+ s.map code := by
      rintro t ⟨x, hx⟩
      exact ⟨x.map code, by rw [← List.map_append, hx]⟩
    have hmemP : ∀ t : List Char, t ∈ P → IsPat h keys (t.map code) :=
      fun t ht => (A.isPat_iff_mem _).2 (List.mem_map_of_mem _ ht)
    rcases A.out v _ hks _ hks with ⟨h1, h2⟩ | ⟨o, wo, h1, h2, h3, h4, h5, h6⟩
    · left
      rw [outOf_get hn] at h1
      refine ⟨h1, ?_⟩
      intro t ht1 ht2 htP
      exact h2 (t.map code) (hsuf t ht1) (by simpa using ht2) (hmemP t htP)
    · right
      rw [outOf_get hn] at h1
      obtain ⟨so, hsoP, rfl⟩ := List.mem_map.1 ((A.isPat_iff_mem _).1 h5)
      refine ⟨o, so, h1, A.trie.walk_root h2, suffix_of_map_code (hP so hsoP) hsl h3,
        by simpa using h4, hsoP, ?_⟩
      intro t ht1 ht2 htP
      simpa using h6 (t.map code) (hsuf t ht1) (by simpa using ht2) (hmemP t htP)

theorem buildAutomaton_out_link_witness :
    ∃ h root, buildAutomaton ["he".toList, "she".toList, "e".toList] = .ok (h, root) ∧
      ∀ (v : Nat) (n : ACNode), h[v]? = some n → v ≠ root →
        n.out = (failChain h n.depth v).find? (hasPattern h) ∧
        (failChain h n.depth v).getLast? = some root ∧
        (n.out = none ↔ ∀ u ∈ failChain h n.depth v, hasPattern h u = false) ∧
        ∃ s : List Char, Lower s ∧ walk h root (s.map code) = some v ∧
          (∀ s', Lower s' → walk h root (s'.map code) = some v → s' = s) ∧
          ((n.out = none ∧ ∀ t, t <:+ s → t.length < s.length →
              t ∉ ["he".toList, "she".toList, "e".toList]) ∨
            ∃ (o : Nat) (so : List Char), n.out = some o ∧
              walk h root (so.map code) = some o ∧
              OutTarget ["he".toList, "she".toList, "e".toList] s so) :=
  buildAutomaton_out_link ["he".toList, "she".toList, "e".toList] (by decide)

/-- C14: for every pattern list `P` over `'a'..'z'` and every non-root node `v` of
`buildAutomaton P`, the link `v.fail` is set and `depth(v.fail) < depth(v)`; the `fail`
link of the root is unset (null). -/
theorem buildAutomaton_fail_depth (P : List (List Char)) (hP : ∀ p ∈ P, Lower p) :
    ∃ h root, buildAutomaton P = .ok (h, root) ∧
      (∃ rn, h[root]? = some rn ∧ rn.fail = none) ∧
      ∀ (v : Nat) (n : ACNode), h[v]? = some n → v ≠ root →
        ∃ (f : Nat) (fn : ACNode), n.fail = some f ∧ h[f]? = some fn ∧
          fn.depth < n.depth := by
  obtain ⟨h, keys, e, A⟩ := buildAutomaton_spec P hP
  refine ⟨h, 0, e, ?_, ?_⟩
  · obtain ⟨rn, hrn, -⟩ := A.trie.get_of_key A.trie.root
    have := A.root_fail
    rw [failOf_get hrn] at this
    exact ⟨rn, hrn, this⟩
  · intro v n hn hv
    obtain ⟨w, hw⟩ := A.trie.key_of_lt (lt_of_get hn)
    have hne : w ≠ [] := by
      intro e; subst e; exact hv (A.trie.root_of_nil hw)
    obtain ⟨f, wf, hf, hwf, hl⟩ := A.fail v w hw hne w hw
    rw [failOf_get hn] at hf
    obtain ⟨fn, hfn, hfd⟩ := A.trie.get_of_key hwf
    obtain ⟨n', hn', hd⟩ := A.trie.get_of_key hw
    rw [hn] at hn'; cases hn'
    exact ⟨f, fn, hf, hfn, by rw [hfd, hd]; exact hl.2.1⟩

theorem buildAutomaton_fail_depth_witness :
    ∃ h root, buildAutomaton ["he".toList, "she".toList] = .ok (h, root) ∧
      (∃ rn, h[root]? = some rn ∧ rn.fail = none) ∧
      ∀ (v : Nat) (n : ACNode), h[v]? = some n → v ≠ root →
        ∃ (f : Nat) (fn : ACNode), n.fail = some f ∧ h[f]? = some fn ∧
          fn.depth < n.depth :=
  buildAutomaton_fail_depth ["he".toList, "she".toList] (by decide)

/-! ## Further claims on `query` and on the links -/

/-- C26: for every list `P` of distinct non-empty patterns over `'a'..'z'` and every
text `T` over `'a'..'z'`, `query T P` reports the pair (pattern `p`, start index `k`)
if and only if `p` is in `P` and `T[k .. k+|p|) = p`; every reported line is an
occurrence that ends at the position `pos` at which it is printed, with start index
`pos - |p| + 1`. -/
theorem query_exact_matches (T : List Char) (P : List (List Char)) (hT : Lower T)
    (hP : ∀ p ∈ P, Lower p) (_hd : P.Nodup) (hne : ∀ p ∈ P, p ≠ []) :
    ∃ ms, query T P = .ok ms ∧
      (∀ (p : List Char) (k : Int), (p, k) ∈ reported ms ↔
        p ∈ P ∧ ∃ n : Nat, k = (n : Int) ∧ Occurs T p n) ∧
      ∀ m ∈ ms, m.index = (m.pos : Int) - (m.pattern.length : Int) + 1 ∧
        ∃ n : Nat, m.index = (n : Int) ∧ n + m.pattern.length = m.pos + 1 ∧
          Occurs T m.pattern n := by
  obtain ⟨ms, hms, g⟩ := query_spec T P hT hP
  refine ⟨ms, hms, ?_, ?_⟩
  · intro p k
    simp only [reported, List.mem_map, Prod.mk.injEq]
    constructor
    · rintro ⟨m, hm, rfl, rfl⟩
      obtain ⟨h1, -, -, h4, h5⟩ := g.occurs hT hP hm
      exact ⟨h1, _, h4, h5⟩
    · rintro ⟨hp, n, rfl, ho⟩
      obtain ⟨m, hm, h1, h2, -⟩ := g.found hP hp (hne p hp) ho
      exact ⟨m, hm, h1, h2⟩
  · intro m hm
    obtain ⟨-, -, h3, h4, h5⟩ := g.occurs hT hP hm
    exact ⟨(g.sound m hm).2.2.2, _, h4, by omega, h5⟩

theorem query_exact_matches_witness :
    ∃ ms, query "ushers".toList ["he".toList, "she".toList, "hers".toList] = .ok ms ∧
      (∀ (p : List Char) (k : Int), (p, k) ∈ reported ms ↔
        p ∈ ["he".toList, "she".toList, "hers".toList] ∧
          ∃ n : Nat, k = (n : Int) ∧ Occurs "ushers".toList p n) ∧
      ∀ m ∈ ms, m.index = (m.pos : Int) - (m.pattern.length : Int) + 1 ∧
        ∃ n : Nat, m.index = (n : Int) ∧ n + m.pattern.length = m.pos + 1 ∧
          Occurs "ushers".toList m.pattern n :=
  query_exact_matches "ushers".toList ["he".toList, "she".toList, "hers".toList]
    (by decide) (by decide) (by decide) (by decide)

/-- C28: for every pattern list `P` over `'a'..'z'` and every node `v` of
`buildAutomaton P`, if `v.out` is not null then the node `v.out` has a `pattern` other
than `-1` and lies on the chain `v.fail`, `v.fail.fail`, ... of `v`; so the test
`outl->pattern != -1` of the reporting loop of `query` holds at every node the loop
reaches through an `out` link. -/
theorem buildAutomaton_out_has_pattern (P : List (List Char)) (hP : ∀ p ∈ P, Lower p) :
    ∃ h root, buildAutomaton P = .ok (h, root) ∧
      ∀ (v : Nat) (n : ACNode), h[v]? = some n → ∀ o, n.out = some o →
        (∃ m, h[o]? = some m ∧ m.pattern ≠ -1) ∧ o ∈ failChain h n.depth v := by
  obtain ⟨h, keys, e, A⟩ := buildAutomaton_spec P hP
  refine ⟨h, 0, e, ?_⟩
  intro v n hn o ho
  obtain ⟨w, hw⟩ := A.trie.key_of_lt (lt_of_get hn)
  obtain ⟨n', hn', hd⟩ := A.trie.get_of_key hw
  rw [hn] at hn'
  cases hn'
  obtain ⟨c1, -⟩ := A.chain_out n.depth v w hw (by omega)
  rw [outOf_get hn, ho] at c1
  have hpat := List.find?_some c1
  have hmem := List.mem_of_find?_eq_some c1
  refine ⟨?_, hmem⟩
  rcases A.out v w hw w hw with ⟨h1, -⟩ | ⟨o', wo, h1, h2, -⟩
  · rw [outOf_get hn, ho] at h1
    cases h1
  · rw [outOf_get hn, ho] at h1
    cases h1
    obtain ⟨m, hm, -⟩ := A.trie.get_of_key h2
    refine ⟨m, hm, ?_⟩
    simpa [hasPattern, patOf_get hm] using hpat

theorem buildAutomaton_out_has_pattern_witness :
    ∃ h root, buildAutomaton ["he".toList, "she".toList, "e".toList] = .ok (h, root) ∧
      ∀ (v : Nat) (n : ACNode), h[v]? = some n → ∀ o, n.out = some o →
        (∃ m, h[o]? = some m ∧ m.pattern ≠ -1) ∧ o ∈ failChain h n.depth v :=
  buildAutomaton_out_has_pattern ["he".toList, "she".toList, "e".toList] (by decide)

/-- A text is over `'a'..'z'`, or it has a first symbol outside `'a'..'z'`. -/
theorem lower_or_split (T : List Char) :
    Lower T ∨ ∃ pre c rest, T = pre ++ c :: rest ∧ Lower pre ∧ ¬ ('a' ≤ c ∧ c ≤ 'z') := by
  induction T with
  | nil => exact Or.inl (fun c hc => absurd hc (List.not_mem_nil _))
  | cons a T ih =>
    by_cases ha : 'a' ≤ a ∧ a ≤ 'z'
    · rcases ih with h | ⟨pre, c, rest, rfl, h1, h2⟩
      · left
        intro c hc
        rcases List.mem_cons.1 hc with rfl | hc
        · exact ha
        · exact h c hc
      · right
        refine ⟨a :: pre, c, rest, rfl, ?_, h2⟩
        intro x hx
        rcases List.mem_cons.1 hx with rfl | hx
        · exact ha
        · exact h1 x hx
    · exact Or.inr ⟨[], a, T, rfl, fun c hc => absurd hc (List.not_mem_nil _), ha⟩

/-- C30: for every pattern list `P` over `'a'..'z'`, building and using the automaton
never dereferences a null link. `fillSuffixLink` runs to its end on the trie of `P` (a
read of an unset `fail` link is the fault `nullDeref` of the model), after it every
non-root node has a `fail` link, `fillOutputLink` runs to its end on that heap, the
`fail` links are still there in the automaton, and `query` on any text ends without
the fault `nullDeref`. -/
theorem buildAutomaton_no_null_link (P : List (List Char)) (hP : ∀ p ∈ P, Lower p) :
    ∃ h0 h1 h2 root, buildTrie P = .ok (h0, root) ∧ fillSuffixLink h0 root = .ok h1 ∧
      (∀ (v : Nat) (n : ACNode), h1[v]? = some n → v ≠ root → n.fail ≠ none) ∧
      fillOutputLink h1 root = .ok h2 ∧ buildAutomaton P = .ok (h2, root) ∧
      (∀ (v : Nat) (n : ACNode), h2[v]? = some n → v ≠ root → n.fail ≠ none) ∧
      (∀ T, Lower T → ∃ ms, query T P = .ok ms) ∧
      ∀ T, query T P ≠ .error .nullDeref := by
  obtain ⟨h0, keys, e0, t0, hpat, hl⟩ := buildTrie_spec P hP
  obtain ⟨h1, e1, s1, ho1, hr1, hf1⟩ := fillSuffixLink_spec t0 hl
  have t1 := t0.congr_trie s1.trie
  obtain ⟨h2, e2, s2, hf2, ho2⟩ := fillOutputLink_spec t1 hf1 ho1
  have t2 := t1.congr_trie s2.trie
  have hset : ∀ (h : Heap), TrieInv h keys → (∀ v, failOf h v = failOf h1 v) →
      ∀ (v : Nat) (n : ACNode), h[v]? = some n → v ≠ 0 → n.fail ≠ none := by
    intro h t hfe v n hn hv
    obtain ⟨w, hw⟩ := t.key_of_lt (lt_of_get hn)
    have hne : w ≠ [] := by
      rintro rfl
      exact hv (t.root_of_nil hw)
    obtain ⟨f, wf, hf, -⟩ := hf1 v w hw hne w hw
    rw [← hfe v, failOf_get hn] at hf
    rw [hf]
    exact Option.some_ne_none f
  refine ⟨h0, h1, h2, 0, e0, e1, hset h1 t1 (fun _ => rfl), e2,
    by simp [buildAutomaton, e0, e1, e2], hset h2 t2 hf2, ?_, ?_⟩
  · intro T hT
    obtain ⟨ms, hms, -⟩ := query_spec T P hT hP
    exact ⟨ms, hms⟩
  · intro T
    rcases lower_or_split T with hT | ⟨pre, c, rest, rfl, h1, h2⟩
    · obtain ⟨ms, hms, -⟩ := query_spec T P hT hP
      rw [hms]
      exact fun hc => by cases hc
    · rw [query_bad_symbol pre rest c P h1 h2 hP]
      exact fun hc => by cases hc

theorem buildAutomaton_no_null_link_witness :
    ∃ h0 h1 h2 root, buildTrie ["he".toList, "she".toList, "hers".toList] = .ok (h0, root) ∧
      fillSuffixLink h0 root = .ok h1 ∧
      (∀ (v : Nat) (n : ACNode), h1[v]? = some n → v ≠ root → n.fail ≠ none) ∧
      fillOutputLink h1 root = .ok h2 ∧
      buildAutomaton ["he".toList, "she".toList, "hers".toList] = .ok (h2, root) ∧
      (∀ (v : Nat) (n : ACNode), h2[v]? = some n → v ≠ root → n.fail ≠ none) ∧
      (∀ T, Lower T → ∃ ms, query T ["he".toList, "she".toList, "hers".toList] = .ok ms) ∧
      ∀ T, query T ["he".toList, "she".toList, "hers".toList] ≠ .error .nullDeref :=
  buildAutomaton_no_null_link ["he".toList, "she".toList, "hers".toList] (by decide)

/-! ## One iteration of the loop of `query` -/

/-- The lines the loop over the `out` links adds do not depend on the lines printed
before. -/
theorem outWalk_acc (h : Heap) (P : List (List Char)) (i : Nat) :
    ∀ (fuel outl : Nat) (acc0 R0 : List Match), outWalk h P i fuel outl acc0 = .ok R0 →
      ∃ R, R0 = acc0 ++ R ∧ ∀ acc, outWalk h P i fuel outl acc = .ok (acc ++ R) := by
  intro fuel
  induction fuel with
  | zero =>
    intro outl acc0 R0 h0
    simp [outWalk] at h0
  | succ fuel ih =>
    intro outl acc0 R0 h0
    unfold outWalk at h0 ⊢
    cases hl : load h outl with
    | error e => simp [hl, error_bind] at h0
    | ok n =>
      simp only [hl, ok_bind] at h0 ⊢
      cases ho : n.out with
      | none =>
        simp only [ho] at h0 ⊢
        cases h0
        exact ⟨[], by simp, fun acc => by simp⟩
      | some o =>
        simp only [ho] at h0 ⊢
        cases hm : load h o with
        | error e => simp [hm, error_bind] at h0
        | ok m =>
          simp only [hm, ok_bind] at h0 ⊢
          by_cases hp : m.pattern ≠ -1
          · simp only [if_pos hp] at h0 ⊢
            cases hr : report P i m with
            | error e => simp [hr, error_bind] at h0
            | ok r =>
              simp only [hr, ok_bind] at h0 ⊢
              obtain ⟨R, e1, e2⟩ := ih o (acc0 ++ [r]) R0 h0
              refine ⟨r :: R, by simp [e1], fun acc => ?_⟩
              rw [e2]
              simp
          · simp only [if_neg hp] at h0 ⊢
            cases h0
            exact ⟨[], by simp, fun acc => by simp⟩

/-- The lines printed at the node `v` spelling `so`: one line for each pattern that is a
suffix of `so`, `so` itself included, the longest first. -/
theorem reportAt_spec {h : Heap} {keys : List (List Nat)} {P : List (List Char)}
    (A : Automaton h keys (P.map (List.map code))) (i : Nat) {v : Nat} {so : List Nat}
    (hk : keys[v]? = some so) :
    ∃ R, reportAt h P i v = .ok R ∧ ChainSpec h keys P i (so.length + 1) so R := by
  obtain ⟨m, hm, hmd⟩ := A.trie.get_of_key hk
  unfold reportAt
  simp only [load_ok hm, ok_bind]
  by_cases hne : m.pattern = -1
  · obtain ⟨R, hR, spec⟩ := outWalk_spec A i (m.depth + 1) v [] so hk (by omega)
    refine ⟨R, by simp [hne, hR], ?_, ?_, spec.order⟩
    · intro x hx
      obtain ⟨a, b, c, d, e⟩ := spec.sound x hx
      exact ⟨a, b, c, by omega, e⟩
    · intro t ht1 ht2 ht3
      by_cases he : t.length = so.length
      · rw [ht1.eq_of_length he] at ht3
        exact absurd hne ((A.isPat_iff hk hm).1 ht3)
      · exact spec.complete t ht1 (by omega) ht3
  · obtain ⟨p, hr, hpP, hpc⟩ := report_ok A hk hm hne i
    have hlen : p.length = so.length := by rw [← hpc]; simp
    obtain ⟨R, hR, spec⟩ := outWalk_spec A i (m.depth + 1) v
      [⟨p, (i : Int) - (p.length : Int) + 1, i⟩] so hk (by omega)
    refine ⟨⟨p, (i : Int) - (p.length : Int) + 1, i⟩ :: R, by simp [hne, hr, hR], ?_, ?_, ?_⟩
    · intro x hx
      rcases List.mem_cons.1 hx with rfl | hx
      · exact ⟨rfl, hpP, by rw [hpc], by simp only; omega, rfl⟩
      · obtain ⟨a, b, c, d, e⟩ := spec.sound x hx
        exact ⟨a, b, c, by omega, e⟩
    · intro t ht1 ht2 ht3
      by_cases he : t.length = so.length
      · exact ⟨_, List.mem_cons_self _ _, by rw [ht1.eq_of_length he]; exact hpc⟩
      · obtain ⟨x, hx, hxt⟩ := spec.complete t ht1 (by omega) ht3
        exact ⟨x, List.mem_cons_of_mem _ hx, hxt⟩
    · rw [List.pairwise_cons]
      refine ⟨?_, spec.order⟩
      intro x hx
      have := (spec.sound x hx).2.2.2.1
      simp only
      omega

/-- An iteration of the loop of `query` that finds a child: the cursor moves to the
child, the lines of `reportAt` are printed and the position advances. -/
theorem queryLoop_child {h : Heap} {P : List (List Char)} {T : List Char} {root cur i v : Nat}
    {n : ACNode} {c : Char} {R : List Match} (hn : h[cur]? = some n) (hc : T[i]? = some c)
    (hch : n.childAt (charIndex c) = .ok (some v)) (hR : reportAt h P i v = .ok R)
    (fuel : Nat) (acc : List Match) :
    queryLoop h root T P (fuel + 1) cur i acc = queryLoop h root T P fuel v (i + 1) (acc ++ R) := by
  unfold reportAt at hR
  conv_lhs => unfold queryLoop
  simp only [hc, load_ok hn, ok_bind, hch]
  cases hm : load h v with
  | error e => simp [hm, error_bind] at hR
  | ok m =>
    simp only [hm, ok_bind] at hR ⊢
    by_cases hp : m.pattern ≠ -1
    · simp only [if_pos hp] at hR ⊢
      cases hr : report P i m with
      | error e => simp [hr, error_bind] at hR
      | ok r =>
        simp only [hr, ok_bind, pure_eq_ok] at hR ⊢
        obtain ⟨R', e1, e2⟩ := outWalk_acc h P i _ _ _ _ hR
        rw [e2 (acc ++ [r])]
        simp [e1]
    · simp only [if_neg hp, pure_eq_ok, ok_bind] at hR ⊢
      obtain ⟨R', e1, e2⟩ := outWalk_acc h P i _ _ _ _ hR
      rw [e2 acc]
      simp [e1]

/-- An iteration of the loop of `query` that finds no child at a node other than the
root: the cursor moves along the `fail` link. -/
theorem queryLoop_fail {h : Heap} {P : List (List Char)} {T : List Char} {root cur i f : Nat}
    {n fn : ACNode} {c : Char} (hn : h[cur]? = some n) (hc : T[i]? = some c)
    (hch : n.childAt (charIndex c) = .ok none) (hroot : cur ≠ root) (hf : n.fail = some f)
    (hfn : h[f]? = some fn) (fuel : Nat) (acc : List Match) :
    queryLoop h root T P (fuel + 1) cur i acc = queryLoop h root T P fuel f i acc := by
  conv_lhs => unfold queryLoop
  simp [hc, load_ok hn, hch, hroot, hf, deref_ok hfn]

/-- An iteration of the loop of `query` that finds no child at the root: the position
advances. -/
theorem queryLoop_root {h : Heap} {P : List (List Char)} {T : List Char} {root i : Nat}
    {n : ACNode} {c : Char} (hn : h[root]? = some n) (hc : T[i]? = some c)
    (hch : n.childAt (charIndex c) = .ok none) (fuel : Nat) (acc : List Match) :
    queryLoop h root T P (fuel + 1) root i acc = queryLoop h root T P fuel root (i + 1) acc := by
  conv_lhs => unfold queryLoop
  simp [hc, load_ok hn, hch]

/-- C27: for every pattern list `P` over `'a'..'z'`, each time `query` moves its cursor
to a child node `v` (spelling `s`) at text position `i`, the lines it prints at `i` are
those of `reportAt`, and their patterns are exactly the patterns of `P` that are suffixes
of `s`: all of them, the longest first (the pattern of `v` itself when it has one, then the
patterns on the `out` chain), each with the start index `i - |p| + 1`. -/
theorem query_reports_all_suffix_patterns (P : List (List Char)) (hP : ∀ p ∈ P, Lower p) :
    ∃ h root, buildAutomaton P = .ok (h, root) ∧
      ∀ (v : Nat) (s : List Char), Lower s → walk h root (s.map code) = some v → ∀ i : Nat,
        ∃ R, reportAt h P i v = .ok R ∧
          (∀ p, (∃ m ∈ R, m.pattern = p) ↔ p ∈ P ∧ p <:+ s) ∧
          R.Pairwise (fun a b => b.pattern.length < a.pattern.length) ∧
          (∀ m ∈ R, m.pos = i ∧ m.index = (i : Int) - (m.pattern.length : Int) + 1) ∧
          ∀ (T : List Char) (cur : Nat) (n : ACNode) (c : Char), h[cur]? = some n →
            T[i]? = some c → n.childAt (charIndex c) = .ok (some v) →
            ∀ (fuel : Nat) (acc : List Match),
              queryLoop h root T P (fuel + 1) cur i acc =
                queryLoop h root T P fuel v (i + 1) (acc ++ R) := by
  obtain ⟨h, keys, e, A⟩ := buildAutomaton_spec P hP
  refine ⟨h, 0, e, ?_⟩
  intro v s hs hwalk i
  have hk : keys[v]? = some (s.map code) := by
    simpa using key_of_walk A.trie (s.map code) 0 v [] A.trie.root hwalk
  obtain ⟨R, hR, spec⟩ := reportAt_spec A i hk
  refine ⟨R, hR, ?_, spec.order, ?_, ?_⟩
  · intro p
    constructor
    · rintro ⟨m, hm, rfl⟩
      obtain ⟨-, h2, h3, -⟩ := spec.sound m hm
      exact ⟨h2, suffix_of_map_code (hP _ h2) hs h3⟩
    · rintro ⟨hp, hsuf⟩
      have hsuf' : p.map code <:+ s.map code := by
        obtain ⟨t, rfl⟩ := hsuf
        exact ⟨t.map code, by simp⟩
      have hpat : IsPat h keys (p.map code) :=
        (A.isPat_iff_mem _).2 (List.mem_map_of_mem _ hp)
      obtain ⟨m, hm, hmp⟩ := spec.complete _ hsuf' (by have := hsuf'.length_le; omega) hpat
      exact ⟨m, hm, map_code_inj (hP _ (spec.sound m hm).2.1) (hP _ hp) hmp⟩
  · intro m hm
    obtain ⟨h1, -, -, -, h5⟩ := spec.sound m hm
    exact ⟨h1, h5⟩
  · intro T cur n c hn hc hch fuel acc
    exact queryLoop_child hn hc hch hR fuel acc

theorem query_reports_all_suffix_patterns_witness :
    ∃ h root, buildAutomaton ["he".toList, "she".toList, "e".toList] = .ok (h, root) ∧
      ∀ (v : Nat) (s : List Char), Lower s → walk h root (s.map code) = some v → ∀ i : Nat,
        ∃ R, reportAt h ["he".toList, "she".toList, "e".toList] i v = .ok R ∧
          (∀ p, (∃ m ∈ R, m.pattern = p) ↔
            p ∈ ["he".toList, "she".toList, "e".toList] ∧ p <:+ s) ∧
          R.Pairwise (fun a b => b.pattern.length < a.pattern.length) ∧
          (∀ m ∈ R, m.pos = i ∧ m.index = (i : Int) - (m.pattern.length : Int) + 1) ∧
          ∀ (T : List Char) (cur : Nat) (n : ACNode) (c : Char), h[cur]? = some n →
            T[i]? = some c → n.childAt (charIndex c) = .ok (some v) →
            ∀ (fuel : Nat) (acc : List Match),
              queryLoop h root T ["he".toList, "she".toList, "e".toList] (fuel + 1) cur i acc =
                queryLoop h root T ["he".toList, "she".toList, "e".toList] fuel v (i + 1)
                  (acc ++ R) :=
  query_reports_all_suffix_patterns ["he".toList, "she".toList, "e".toList] (by decide)

/-- C29: for every pattern list `P` over `'a'..'z'`, an iteration of the scanning loop
of `query` at a node `cur` and a position `i` holding a symbol of `'a'..'z'` leads to a
node `cur'` and a position `i'` such that either `i' = i + 1`, or `i' = i` and `cur'` is
strictly less deep than `cur`: the pair `(|T| - i, depth of cursor)` decreases in the
lexicographic order. On a text over `'a'..'z'` the loop ends and `query` returns. -/
theorem query_loop_measure_decreases (P : List (List Char)) (hP : ∀ p ∈ P, Lower p) :
    ∃ h root, buildAutomaton P = .ok (h, root) ∧
      (∀ (T : List Char) (cur i : Nat) (n : ACNode) (c : Char), h[cur]? = some n →
        T[i]? = some c → ('a' ≤ c ∧ c ≤ 'z') →
        ∃ (cur' i' : Nat) (n' : ACNode), h[cur']? = some n' ∧
          (∀ (fuel : Nat) (acc : List Match), ∃ acc',
            queryLoop h root T P (fuel + 1) cur i acc = queryLoop h root T P fuel cur' i' acc') ∧
          (i' = i + 1 ∨ (i' = i ∧ n'.depth < n.depth)) ∧
          Prod.Lex (· < ·) (· < ·) (T.length - i', n'.depth) (T.length - i, n.depth)) ∧
      ∀ T, Lower T → ∃ ms, query T P = .ok ms := by
  obtain ⟨h, keys, e, A⟩ := buildAutomaton_spec P hP
  refine ⟨h, 0, e, ?_, ?_⟩
  · intro T cur i n c hn hc hlow
    have hi : i < T.length := by
      by_contra hcon
      rw [List.getElem?_eq_none (by omega)] at hc
      cases hc
    obtain ⟨s, hs⟩ := A.trie.key_of_lt (lt_of_get hn)
    obtain ⟨n0, hn0, hd⟩ := A.trie.get_of_key hs
    rw [hn] at hn0
    cases hn0
    have hr := charIndex_range hlow
    have hch : n.childAt (charIndex c) = .ok (n.child (code c)) := childAt_ok hr.1 hr.2
    have hco := childOf_get hn (code c)
    cases hcc : n.child (code c) with
    | some nxt =>
      rw [hcc] at hch hco
      have hk := A.trie.child_key' hs hco
      obtain ⟨m, hm, -⟩ := A.trie.get_of_key hk
      obtain ⟨R, hR, -⟩ := reportAt_spec (P := P) A i hk
      refine ⟨nxt, i + 1, m, hm, fun fuel acc => ⟨acc ++ R, queryLoop_child hn hc hch hR fuel acc⟩,
        Or.inl rfl, Prod.Lex.left _ _ (by omega)⟩
    | none =>
      rw [hcc] at hch
      by_cases h0 : cur = 0
      · subst h0
        refine ⟨0, i + 1, n, hn, fun fuel acc => ⟨acc, queryLoop_root hn hc hch fuel acc⟩,
          Or.inl rfl, Prod.Lex.left _ _ (by omega)⟩
      · have hne : s ≠ [] := by
          rintro rfl
          exact h0 (A.trie.root_of_nil hs)
        obtain ⟨f, wf, hf, hwf, hlps⟩ := A.fail cur s hs hne s hs
        rw [failOf_get hn] at hf
        obtain ⟨fn, hfn, hfd⟩ := A.trie.get_of_key hwf
        have hlt : fn.depth < n.depth := by
          have := hlps.2.1
          omega
        refine ⟨f, i, fn, hfn, fun fuel acc => ⟨acc, queryLoop_fail hn hc hch h0 hf hfn fuel acc⟩,
          Or.inr ⟨rfl, hlt⟩, Prod.Lex.right _ hlt⟩
  · intro T hT
    obtain ⟨ms, hms, -⟩ := query_spec T P hT hP
    exact ⟨ms, hms⟩

theorem query_loop_measure_decreases_witness :
    ∃ h root, buildAutomaton ["he".toList, "she".toList, "hers".toList] = .ok (h, root) ∧
      (∀ (T : List Char) (cur i : Nat) (n : ACNode) (c : Char), h[cur]? = some n →
        T[i]? = some c → ('a' ≤ c ∧ c ≤ 'z') →
        ∃ (cur' i' : Nat) (n' : ACNode), h[cur']? = some n' ∧
          (∀ (fuel : Nat) (acc : List Match), ∃ acc',
            queryLoop h root T ["he".toList, "she".toList, "hers".toList] (fuel + 1) cur i acc =
              queryLoop h root T ["he".toList, "she".toList, "hers".toList] fuel cur' i' acc') ∧
          (i' = i + 1 ∨ (i' = i ∧ n'.depth < n.depth)) ∧
          Prod.Lex (· < ·) (· < ·) (T.length - i', n'.depth) (T.length - i, n.depth)) ∧
      ∀ T, Lower T → ∃ ms, query T ["he".toList, "she".toList, "hers".toList] = .ok ms :=
  query_loop_measure_decreases ["he".toList, "she".toList, "hers".toList] (by decide)

/-! ## The stages of `buildTrie` -/

/-- Storing in `u->depth` the value it holds leaves the heap as it is. -/
theorem setDepth_same {h : Heap} {u : Nat} {n : ACNode} (hn : h[u]? = some n) {d : Nat}
    (hd : n.depth = d) : setDepth h u d = .ok h := by
  subst hd
  simp only [setDepth, load_ok hn, ok_bind, pure_eq_ok]
  congr 1
  apply List.ext_getElem?
  intro v
  rw [get_set hn]
  split
  · next e => subst e; rw [hn]
  · rfl

/-- The inner loop of `buildTrie` on `s ++ t` runs on `s` and goes on with `t` from the
state it has reached. -/
theorem insertChars_append : ∀ (s t : List Char) (h : Heap) (cur cc : Nat),
    insertChars h cur cc (s ++ t) =
      (insertChars h cur cc s >>= fun r => insertChars r.1 r.2 (cc + s.length) t) := by
  intro s
  induction s with
  | nil => intro t h cur cc; simp [insertChars]
  | cons c s ih =>
    intro t h cur cc
    rw [List.cons_append]
    simp only [insertChars, List.length_cons]
    cases load h cur with
    | error e => rfl
    | ok n =>
      simp only [ok_bind]
      cases n.childAt (charIndex c) with
      | error e => rfl
      | ok ch =>
        simp only [ok_bind]
        cases ch with
        | some u =>
          simp only
          cases setDepth h u (cc + 1) with
          | error e => rfl
          | ok h1 =>
            simp only [ok_bind]
            rw [ih, show cc + 1 + s.length = cc + (s.length + 1) by omega]
        | none =>
          simp only [alloc]
          cases setChild (h ++ [({} : ACNode)]) cur (charIndex c).toNat h.length with
          | error e => rfl
          | ok h2 =>
            simp only [ok_bind]
            cases setDepth h2 h.length (cc + 1) with
            | error e => rfl
            | ok h3 =>
              simp only [ok_bind]
              rw [ih, show cc + 1 + s.length = cc + (s.length + 1) by omega]

/-- The outer loop of `buildTrie` on `a ++ b` runs on `a` and goes on with `b` from the
heap it has reached. -/
theorem buildTrieLoop_append (root : Nat) : ∀ (a b : List (List Char)) (i : Nat) (h : Heap),
    buildTrieLoop root (a ++ b) i h =
      (buildTrieLoop root a i h >>= fun h1 => buildTrieLoop root b (i + a.length) h1) := by
  intro a
  induction a with
  | nil => intro b i h; simp [buildTrieLoop]
  | cons s a ih =>
    intro b i h
    rw [List.cons_append]
    simp only [buildTrieLoop, List.length_cons]
    cases insertChars h root 0 s with
    | error e => rfl
    | ok r =>
      obtain ⟨h1, cur⟩ := r
      simp only [ok_bind]
      cases setPattern h1 cur (i : Int) with
      | error e => rfl
      | ok h2 =>
        simp only [ok_bind]
        rw [ih, show i + 1 + a.length = i + (a.length + 1) by omega]

/-! ## The nodes of the trie and the prefixes of the patterns -/

theorem mem_prefixes {P : List (List Char)} {s : List Char} :
    s ∈ prefixes P ↔ s = [] ∨ ∃ p ∈ P, s <+: p := by
  simp [prefixes, List.mem_flatMap, List.mem_inits]

theorem lower_of_mem_prefixes {P : List (List Char)} (hP : ∀ p ∈ P, Lower p) {s : List Char}
    (hs : s ∈ prefixes P) : Lower s := by
  rcases mem_prefixes.1 hs with h0 | ⟨p, hpP, hpre⟩
  · subst h0; exact fun c hc => absurd hc (List.not_mem_nil _)
  · exact lower_of_isPrefix hP hpP hpre

/-- The strings spelled by the nodes are the images of the empty string and of the
prefixes of the patterns. -/
theorem mem_keys_iff {h : Heap} {keys : List (List Nat)} {P : List (List Char)}
    (t : TrieInv h keys) (hp : PatInv h keys (P.map (List.map code))) {w : List Nat} :
    w ∈ keys ↔ ∃ s ∈ prefixes P, w = s.map code := by
  constructor
  · intro hw
    by_cases hne : w = []
    · exact ⟨[], mem_prefixes.2 (Or.inl rfl), by simp [hne]⟩
    · obtain ⟨p, hpP, s, hs, e⟩ := key_chars hp hw hne
      exact ⟨s, mem_prefixes.2 (Or.inr ⟨p, hpP, hs⟩), e⟩
  · rintro ⟨s, hs, rfl⟩
    rcases mem_prefixes.1 hs with h0 | ⟨p, hpP, hpre⟩
    · subst h0; exact key_mem t.root
    · exact mem_keys_of_isPrefix t hp hpP hpre

/-- The trie has as many nodes as there are distinct prefixes, the empty one included. -/
theorem length_eq_prefixes {h : Heap} {keys : List (List Nat)} {P : List (List Char)}
    (t : TrieInv h keys) (hp : PatInv h keys (P.map (List.map code)))
    (hP : ∀ p ∈ P, Lower p) : h.length = (prefixes P).length := by
  have nd0 : (prefixes P).Nodup := List.nodup_dedup _
  have nd : ((prefixes P).map (List.map code)).Nodup := by
    rw [List.nodup_map_iff_inj_on nd0]
    intro x hx y hy hxy
    exact map_code_inj (lower_of_mem_prefixes hP hx) (lower_of_mem_prefixes hP hy) hxy
  have hperm : keys.Perm ((prefixes P).map (List.map code)) := by
    rw [List.perm_ext_iff_of_nodup t.nodup nd]
    intro w
    rw [mem_keys_iff t hp, List.mem_map]
    constructor
    · rintro ⟨s, hs, rfl⟩; exact ⟨s, hs, rfl⟩
    · rintro ⟨s, hs, rfl⟩; exact ⟨s, hs, rfl⟩
  rw [← t.len, hperm.length_eq, List.length_map]

/-- C31 (as stated, refuted): for the empty pattern list `buildTrie` returns the root
alone; the root is a node, and no prefix of a pattern leads to it, because there is no
pattern. -/
theorem buildTrie_no_patterns_root_unreached :
    buildTrie [] = .ok ([({} : ACNode)], 0) ∧ 0 < [({} : ACNode)].length ∧
      ¬ ∃ p ∈ ([] : List (List Char)), ∃ s, s <+: p ∧
        walk [({} : ACNode)] 0 (s.map code) = some 0 := by
  refine ⟨by decide, by decide, ?_⟩
  rintro ⟨p, hp, -⟩
  exact absurd hp (List.not_mem_nil _)

/-- C31 (amended): for every pattern list `P` over `'a'..'z'`, the nodes of `buildTrie P`
correspond one-to-one to the empty string and the distinct prefixes of the patterns of
`P`. The root is reached by following the empty string; following any prefix of any
pattern from the root reaches a node; every node is reached by following a string that
is empty or a prefix of some pattern, and by one such string only; the number of nodes
is the number of these strings. When `P` is not empty, every node is reached by
following some prefix of some pattern. -/
theorem buildTrie_nodes_are_prefixes (P : List (List Char)) (hP : ∀ p ∈ P, Lower p) :
    ∃ h root, buildTrie P = .ok (h, root) ∧ walk h root [] = some root ∧
      (∀ p ∈ P, ∀ s, s <+: p → ∃ v, v < h.length ∧ walk h root (s.map code) = some v) ∧
      (∀ v, v < h.length → ∃ s, (s = [] ∨ ∃ p ∈ P, s <+: p) ∧
        walk h root (s.map code) = some v ∧
        ∀ s', (s' = [] ∨ ∃ p ∈ P, s' <+: p) → walk h root (s'.map code) = some v → s' = s) ∧
      h.length = (prefixes P).length ∧
      (P ≠ [] → ∀ v, v < h.length →
        ∃ p ∈ P, ∃ s, s <+: p ∧ walk h root (s.map code) = some v) := by
  obtain ⟨h, keys, e, t, hpat, -⟩ := buildTrie_spec P hP
  have hnode : ∀ v, v < h.length → ∃ s, (s = [] ∨ ∃ p ∈ P, s <+: p) ∧
      walk h 0 (s.map code) = some v ∧
      ∀ s', (s' = [] ∨ ∃ p ∈ P, s' <+: p) → walk h 0 (s'.map code) = some v → s' = s := by
    intro v hv
    obtain ⟨w, hw⟩ := t.key_of_lt hv
    obtain ⟨s, hs, rfl⟩ := (mem_keys_iff t hpat).1 (key_mem hw)
    refine ⟨s, mem_prefixes.1 hs, t.walk_root hw, ?_⟩
    intro s' hs' hwalk
    have hk := key_of_walk t (s'.map code) 0 v [] t.root hwalk
    rw [List.nil_append, hw] at hk
    exact (map_code_inj (lower_of_mem_prefixes hP hs)
      (lower_of_mem_prefixes hP (mem_prefixes.2 hs')) (Option.some.inj hk)).symm
  refine ⟨h, 0, e, t.walk_root t.root, ?_, hnode, length_eq_prefixes t hpat hP, ?_⟩
  · intro p hpP s hs
    obtain ⟨v, hv⟩ := List.mem_iff_getElem?.1 (mem_keys_of_isPrefix t hpat hpP hs)
    exact ⟨v, by rw [← t.len]; exact key_lt hv, t.walk_root hv⟩
  · intro hne v hv
    obtain ⟨s, hs, hwalk, -⟩ := hnode v hv
    rcases hs with h0 | ⟨p, hpP, hpre⟩
    · subst h0
      cases P with
      | nil => exact absurd rfl hne
      | cons p P => exact ⟨p, List.mem_cons_self _ _, [], List.nil_prefix, hwalk⟩
    · exact ⟨p, hpP, s, hpre, hwalk⟩

theorem buildTrie_nodes_are_prefixes_witness :
    ∃ h root, buildTrie ["he".toList, "she".toList, "hers".toList] = .ok (h, root) ∧
      walk h root [] = some root ∧
      (∀ p ∈ ["he".toList, "she".toList, "hers".toList], ∀ s, s <+: p →
        ∃ v, v < h.length ∧ walk h root (s.map code) = some v) ∧
      (∀ v, v < h.length →
        ∃ s, (s = [] ∨ ∃ p ∈ ["he".toList, "she".toList, "hers".toList], s <+: p) ∧
          walk h root (s.map code) = some v ∧
          ∀ s', (s' = [] ∨ ∃ p ∈ ["he".toList, "she".toList, "hers".toList], s' <+: p) →
            walk h root (s'.map code) = some v → s' = s) ∧
      h.length = (prefixes ["he".toList, "she".toList, "hers".toList]).length ∧
      (["he".toList, "she".toList, "hers".toList] ≠ [] → ∀ v, v < h.length →
        ∃ p ∈ ["he".toList, "she".toList, "hers".toList], ∃ s, s <+: p ∧
          walk h root (s.map code) = some v) :=
  buildTrie_nodes_are_prefixes ["he".toList, "she".toList, "hers".toList] (by decide)

/-! ## The depth of a node -/

/-- The outer loop of `buildTrie`, run from a trie, only adds nodes: the heap it returns
is a trie in which the nodes that existed spell what they spelled. -/
theorem buildTrieLoop_ext : ∀ (ps : List (List Char)) (i : Nat) (h : Heap)
    (keys : List (List Nat)), (∀ s ∈ ps, Lower s) → TrieInv h keys → NoLinks h →
    ∃ h' keys', buildTrieLoop 0 ps i h = .ok h' ∧ TrieInv h' keys' ∧ keys <+: keys' ∧
      NoLinks h' := by
  intro ps
  induction ps with
  | nil =>
    intro i h keys _ t hl
    exact ⟨h, keys, rfl, t, List.prefix_refl _, hl⟩
  | cons s ps ih =>
    intro i h keys hlow t hl
    obtain ⟨h1, keys1, cur, e1, post⟩ :=
      insertChars_spec s h keys 0 [] (hlow s (List.mem_cons_self _ _)) t t.root hl
    simp only [List.nil_append, List.length_nil] at e1 post
    obtain ⟨n, hn, -⟩ := post.trie.get_of_key post.key
    obtain ⟨h2, e2, st, -, hfail, hout⟩ := setPattern_spec hn (i : Int)
    have t2 : TrieInv h2 keys1 := post.trie.congr_trie st
    have hl2 : NoLinks h2 := fun v => by rw [hfail, hout]; exact post.links v
    obtain ⟨h', keys', e, t', hext, hl'⟩ :=
      ih (i + 1) h2 keys1 (fun x hx => hlow x (List.mem_cons_of_mem _ hx)) t2 hl2
    refine ⟨h', keys', ?_, t', post.ext.trans hext, hl'⟩
    unfold buildTrieLoop
    simp only [e1, e2, ok_bind]
    exact e

theorem buildTrie_ok_iff {p : List (List Char)} {h : Heap} {r : Nat} :
    buildTrie p = .ok (h, r) ↔ buildTrieLoop 0 p 0 [({} : ACNode)] = .ok h ∧ r = 0 := by
  simp only [buildTrie, alloc, List.nil_append, List.length_nil]
  cases buildTrieLoop 0 p 0 [({} : ACNode)] with
  | error e => simp
  | ok h1 =>
    simp only [ok_bind, pure_eq_ok, Except.ok.injEq, Prod.mk.injEq]
    constructor
    · rintro ⟨a, b⟩; exact ⟨a, b.symm⟩
    · rintro ⟨a, b⟩; exact ⟨a, b.symm⟩

/-- The trie of the first `k` patterns is a stage of the construction of the trie of
`P`: its nodes are nodes of the final trie, with the depth they have. -/
theorem buildTrie_stage {P : List (List Char)} (hP : ∀ p ∈ P, Lower p) (k : Nat) {h : Heap}
    {r : Nat} (e : buildTrie P = .ok (h, r)) :
    ∃ hk keysk, buildTrie (P.take k) = .ok (hk, 0) ∧ TrieInv hk keysk ∧ NoLinks hk ∧
      ∀ (v : Nat) (nk : ACNode), hk[v]? = some nk →
        ∃ n, h[v]? = some n ∧ n.depth = nk.depth := by
  have hPk : ∀ p ∈ P.take k, Lower p := fun p hp => hP p (List.mem_of_mem_take hp)
  have hPd : ∀ p ∈ P.drop k, Lower p := fun p hp => hP p (List.mem_of_mem_drop hp)
  obtain ⟨hk, keysk, ek, tk, -, hlk⟩ := buildTrie_spec (P.take k) hPk
  refine ⟨hk, keysk, ek, tk, hlk, ?_⟩
  obtain ⟨h', keys', e', t', hext, -⟩ :=
    buildTrieLoop_ext (P.drop k) (0 + (P.take k).length) hk keysk hPd tk hlk
  have e0 := (buildTrie_ok_iff.1 e).1
  rw [← List.take_append_drop k P, buildTrieLoop_append, (buildTrie_ok_iff.1 ek).1, ok_bind,
    e'] at e0
  cases e0
  intro v nk hv
  obtain ⟨w, hw⟩ := tk.key_of_lt (lt_of_get hv)
  obtain ⟨nk', hnk', hdk⟩ := tk.get_of_key hw
  rw [hv] at hnk'; cases hnk'
  obtain ⟨n, hn, hd⟩ := t'.get_of_key (key_of_isPrefix hext hw)
  exact ⟨n, hn, by rw [hd, hdk]⟩

/-- The step of the inner loop of `buildTrie` that finds the child for the next symbol
`c` in place, after the symbols `s` of the pattern: the child has depth `|s| + 1`
already, and the assignment `cur->depth = ++charCount` leaves the heap as it is. -/
theorem insertChars_revisit {hk : Heap} {keysk : List (List Nat)} (tk : TrieInv hk keysk)
    (hlk : NoLinks hk) {s : List Char} (hs : Lower s) (c : Char) (rest : List Char) :
    ∃ h' cur n, insertChars hk 0 0 s = .ok (h', cur) ∧
      insertChars hk 0 0 (s ++ c :: rest) = insertChars h' cur s.length (c :: rest) ∧
      h'[cur]? = some n ∧
      ∀ u, n.childAt (charIndex c) = .ok (some u) →
        setDepth h' u (s.length + 1) = .ok h' := by
  obtain ⟨h', keys', cur, e1, post⟩ := insertChars_spec s hk keysk 0 [] hs tk tk.root hlk
  simp only [List.nil_append, List.length_nil] at e1 post
  obtain ⟨n, hn, -⟩ := post.trie.get_of_key post.key
  refine ⟨h', cur, n, e1, ?_, hn, ?_⟩
  · rw [insertChars_append, e1, ok_bind, Nat.zero_add]
  · intro u hu
    have hr : 0 ≤ charIndex c ∧ charIndex c < (SIZE : Int) := by
      by_contra hc
      simp [ACNode.childAt, hc] at hu
    rw [childAt_ok hr.1 hr.2] at hu
    have hch : childOf h' cur (charIndex c).toNat = some u := by
      rw [childOf_get hn]; exact Except.ok.inj hu
    obtain ⟨w, hw, hku⟩ := post.trie.child_key _ _ _ hch
    rw [post.key] at hw; cases hw
    obtain ⟨nu, hnu, hd⟩ := post.trie.get_of_key hku
    exact setDepth_same hnu (by simpa using hd)

/-- C32: for every pattern list `P` over `'a'..'z'` and every node `v` of `buildTrie P`,
exactly one path leads from the root to `v`, and `v.depth` is the length of the string
it spells; the root has depth 0. For every pattern `p = P[k]`, the nodes present when
`p` is inserted (those of the trie of the first `k` patterns) have in the final trie the
depth they had then, and whenever the insertion of `p` finds the child for its next
symbol in place, the depth it stores there is the depth the child holds: the heap is
left as it is. -/
theorem buildTrie_depth_is_path_length (P : List (List Char)) (hP : ∀ p ∈ P, Lower p) :
    ∃ h root, buildTrie P = .ok (h, root) ∧
      (∀ (v : Nat) (n : ACNode), h[v]? = some n →
        ∃ s : List Char, Lower s ∧ walk h root (s.map code) = some v ∧
          (∀ w, walk h root w = some v → w = s.map code) ∧ n.depth = s.length) ∧
      (∃ n0, h[root]? = some n0 ∧ n0.depth = 0) ∧
      ∀ (k : Nat) (p : List Char), P[k]? = some p →
        ∃ hk, buildTrie (P.take k) = .ok (hk, root) ∧
          (∀ (v : Nat) (nk : ACNode), hk[v]? = some nk →
            ∃ n, h[v]? = some n ∧ n.depth = nk.depth) ∧
          ∀ (s : List Char) (c : Char) (rest : List Char), p = s ++ c :: rest →
            ∃ h' cur n, insertChars hk root 0 s = .ok (h', cur) ∧
              insertChars hk root 0 p = insertChars h' cur s.length (c :: rest) ∧
              h'[cur]? = some n ∧
              ∀ u, n.childAt (charIndex c) = .ok (some u) →
                setDepth h' u (s.length + 1) = .ok h' := by
  obtain ⟨h, keys, e, t, hpat, -⟩ := buildTrie_spec P hP
  refine ⟨h, 0, e, ?_, ?_, ?_⟩
  · intro v n hn
    obtain ⟨w, hw⟩ := t.key_of_lt (lt_of_get hn)
    obtain ⟨s, hs, rfl⟩ := (mem_keys_iff t hpat).1 (key_mem hw)
    obtain ⟨n', hn', hd⟩ := t.get_of_key hw
    rw [hn] at hn'; cases hn'
    refine ⟨s, lower_of_mem_prefixes hP hs, t.walk_root hw, ?_, by simpa using hd⟩
    intro w' hwalk
    have hk := key_of_walk t w' 0 v [] t.root hwalk
    rw [List.nil_append, hw] at hk
    exact (Option.some.inj hk).symm
  · obtain ⟨n0, hn0, hd⟩ := t.get_of_key t.root
    exact ⟨n0, hn0, by simpa using hd⟩
  · intro k p hkp
    obtain ⟨hk, keysk, ek, tk, hlk, hstage⟩ := buildTrie_stage hP k e
    refine ⟨hk, ek, hstage, ?_⟩
    intro s c rest hp
    have hpP : p ∈ P := List.mem_iff_getElem?.2 ⟨k, hkp⟩
    have hs : Lower s := fun d hd => hP p hpP d (by rw [hp]; simp [hd])
    subst hp
    exact insertChars_revisit tk hlk hs c rest

theorem buildTrie_depth_is_path_length_witness :
    ∃ h root, buildTrie ["he".toList, "she".toList, "hers".toList] = .ok (h, root) ∧
      (∀ (v : Nat) (n : ACNode), h[v]? = some n →
        ∃ s : List Char, Lower s ∧ walk h root (s.map code) = some v ∧
          (∀ w, walk h root w = some v → w = s.map code) ∧ n.depth = s.length) ∧
      (∃ n0, h[root]? = some n0 ∧ n0.depth = 0) ∧
      ∀ (k : Nat) (p : List Char),
        ["he".toList, "she".toList, "hers".toList][k]? = some p →
        ∃ hk, buildTrie (["he".toList, "she".toList, "hers".toList].take k) =
            .ok (hk, root) ∧
          (∀ (v : Nat) (nk : ACNode), hk[v]? = some nk →
            ∃ n, h[v]? = some n ∧ n.depth = nk.depth) ∧
          ∀ (s : List Char) (c : Char) (rest : List Char), p = s ++ c :: rest →
            ∃ h' cur n, insertChars hk root 0 s = .ok (h', cur) ∧
              insertChars hk root 0 p = insertChars h' cur s.length (c :: rest) ∧
              h'[cur]? = some n ∧
              ∀ u, n.childAt (charIndex c) = .ok (some u) →
                setDepth h' u (s.length + 1) = .ok h' :=
  buildTrie_depth_is_path_length ["he".toList, "she".toList, "hers".toList] (by decide)

end AhoCorasick

namespace UndirectedGraph

/-- C15: on the simple graph with the edges 0-1, 0-2, 1-2, 1-3 and 2-3, `getAP` returns
the node `1`, which is not an articulation point: the graph is connected, and it stays
connected when `1` is removed. The scan of the neighbours of `1` takes `3` for a child of
`1` because it was explored later, although `3` is a child of `2`. -/
theorem getAP_returns_non_articulation :
    isSimple [[2, 1], [0, 3, 2], [1, 3, 0], [2, 1]] = true ∧
      getAP [[2, 1], [0, 3, 2], [1, 3, 0], [2, 1]] = .ok [1] ∧
      componentCount [[2, 1], [0, 3, 2], [1, 3, 0], [2, 1]] none = 1 ∧
      componentCount [[2, 1], [0, 3, 2], [1, 3, 0], [2, 1]] (some 1) = 1 ∧
      isArticulation [[2, 1], [0, 3, 2], [1, 3, 0], [2, 1]] 1 = false := by
  decide

end UndirectedGraph

namespace KMP

/-! ## The fault monad and the reads -/

@[simp] theorem kmp_ok_bind {α β : Type} (a : α) (f : α → Except Fault β) :
    (Except.ok a >>= f) = f a := rfl

@[simp] theorem kmp_pure_eq_ok {α : Type} (a : α) : (pure a : Except Fault α) = Except.ok a :=
  rfl

theorem charAt_ok {s : List Char} {k : Nat} {c : Char} (h : s[k]? = some c) :
    charAt s k = .ok c := by
  simp [charAt, h]

theorem vecAt_pred {lps : List Nat} {j x : Nat} (hj : 0 < j) (h : lps[j - 1]? = some x) :
    vecAt lps ((j : Int) - 1) = .ok x := by
  have h0 : (0 : Int) ≤ (j : Int) - 1 := by omega
  have h1 : ((j : Int) - 1).toNat = j - 1 := by omega
  simp [vecAt, h0, h1, h]

theorem get_of_lt_length {s : List Char} {k : Nat} (h : k < s.length) : ∃ c, s[k]? = some c :=
  ⟨s[k], List.getElem?_eq_getElem h⟩

/-! ## Prefixes that are suffixes -/

theorem take_succ_get {s : List Char} {k : Nat} {c : Char} (h : s[k]? = some c) :
    s.take (k + 1) = s.take k ++ [c] := by
  rw [List.take_succ, h]; rfl

theorem snoc_suffix_snoc {x y : List Char} {a b : Char} :
    x ++ [a] <:+ y ++ [b] ↔ a = b ∧ x <:+ y := by
  constructor
  · intro h
    rcases List.suffix_concat_iff.1 h with h0 | ⟨t, h1, h2⟩
    · simp at h0
    · obtain ⟨e1, e2⟩ := List.append_inj' h1 rfl
      simp only [List.cons.injEq, and_true] at e2
      exact ⟨e2, e1 ▸ h2⟩
  · rintro ⟨rfl, ⟨z, rfl⟩⟩
    exact ⟨z, by simp⟩

theorem length_take_le' {s : List Char} {k : Nat} (h : k ≤ s.length) : (s.take k).length = k := by
  simp [h]

theorem Border.le {p : List Char} {n b : Nat} (h : Border p n b) (hb : b ≤ p.length) : b ≤ n := by
  have := h.length_le
  simp only [List.length_take] at this
  omega

theorem Border.zero_border (p : List Char) (n : Nat) : Border p n 0 := by
  simp [Border]

theorem Border.trans_border {p : List Char} {n b c : Nat} (h1 : Border p n b)
    (h2 : Border p b c) : Border p n c :=
  h2.trans h1

/-- Of two borders of the same prefix, the shorter is a border of the longer. -/
theorem Border.of_le {p : List Char} {n b c : Nat} (h1 : Border p n b) (h2 : Border p n c)
    (hc : c ≤ b) (hb : b ≤ p.length) : Border p b c := by
  apply List.suffix_of_suffix_length_le h2 h1
  simp only [List.length_take]
  omega

/-- A border of the next prefix is a border of this prefix followed by the next symbol. -/
theorem Border.succ_iff {p : List Char} {i b : Nat} (hi : i < p.length) (hb : b < p.length) :
    Border p (i + 1) (b + 1) ↔ Border p i b ∧ p[b]? = p[i]? := by
  obtain ⟨ci, hci⟩ := get_of_lt_length hi
  obtain ⟨cb, hcb⟩ := get_of_lt_length hb
  unfold Border
  rw [take_succ_get hci, take_succ_get hcb, snoc_suffix_snoc, hci, hcb]
  constructor
  · rintro ⟨rfl, h⟩; exact ⟨h, rfl⟩
  · rintro ⟨h, e⟩; exact ⟨Option.some.inj e, h⟩

/-! ## `findLPS` -/

/-- The state of the loop of `findLPS`: the table is right up to `i`, `len` is the
length of a proper border of `p[0..i)`, and no longer proper border can be extended by
`p[i]`. -/
theorem findLPSLoop_spec (p : List Char) :
    ∀ (fuel : Nat) (lps : List Nat) (i len : Nat), LpsOK p lps i → 1 ≤ i →
      (i ≤ p.length ∨ i = 1) → len < i → Border p i len →
      (∀ b, b < i → Border p i b → len < b → p[b]? ≠ p[i]?) →
      2 * p.length + 3 + len ≤ fuel + 2 * i →
      ∃ lps', findLPSLoop p fuel lps i len = .ok lps' ∧ LpsOK p lps' (max 1 p.length) := by
  intro fuel
  induction fuel with
  | zero =>
    intro lps i len _ h1 h2 h3 _ _ hf
    omega
  | succ fuel ih =>
    intro lps i len hok h1 h2 hlen hbord hwalk hf
    unfold findLPSLoop
    by_cases hi : i < p.length
    · rw [if_pos hi]
      obtain ⟨ci, hci⟩ := get_of_lt_length hi
      obtain ⟨cl, hcl⟩ := get_of_lt_length (show len < p.length by omega)
      simp only [charAt_ok hci, charAt_ok hcl, kmp_ok_bind]
      by_cases heq : ci = cl
      · subst heq
        rw [if_pos rfl]
        have hnew : Border p (i + 1) (len + 1) :=
          (Border.succ_iff hi (by omega)).2 ⟨hbord, by rw [hci, hcl]⟩
        refine ih (lps ++ [len + 1]) (i + 1) (len + 1) ?_ (by omega) (Or.inl (by omega))
          (by omega) hnew ?_ (by omega)
        swap
        · intro b hb1 hb2 hb3
          exfalso
          cases b with
          | zero => omega
          | succ b =>
            have := (Border.succ_iff hi (by omega)).1 hb2
            exact hwalk b (by omega) this.1 (by omega) this.2
        · refine ⟨by simp [hok.1], ?_⟩
          intro k hk
          by_cases hki : k < i
          · obtain ⟨b, e, r⟩ := hok.2 k hki
            exact ⟨b, by rw [List.getElem?_append_left (by rw [hok.1]; exact hki)]; exact e, r⟩
          · have hke : k = i := by omega
            subst hke
            refine ⟨len + 1, by rw [List.getElem?_append_right (by rw [hok.1])]; simp [hok.1],
              by omega, hnew, ?_⟩
            intro b' hb1 hb2
            cases b' with
            | zero => omega
            | succ b' =>
              have := (Border.succ_iff hi (by omega)).1 hb2
              by_contra hc
              exact hwalk b' (by omega) this.1 (by omega) this.2
      · rw [if_neg heq]
        by_cases hl0 : len > 0
        · rw [if_pos hl0]
          obtain ⟨b, e, hb1, hb2, hb3⟩ := hok.2 (len - 1) (by omega)
          have e1 : len - 1 + 1 = len := by omega
          rw [e1] at hb2 hb3
          simp only [vecAt_pred hl0 e, kmp_ok_bind]
          refine ih lps i b hok h1 h2 (by omega) (hbord.trans_border hb2) ?_ (by omega)
          intro c hc1 hc2 hc3
          by_cases hcl' : len < c
          · exact hwalk c hc1 hc2 hcl'
          · by_cases hce : c = len
            · subst hce
              rw [hci, hcl]
              exact fun h => heq (Option.some.inj h).symm
            · have := hb3 c (by omega) (Border.of_le hbord hc2 (by omega) (by omega))
              omega
        · rw [if_neg hl0]
          have hl : len = 0 := by omega
          subst hl
          have hmax : ∀ b', b' ≤ i → Border p (i + 1) b' → b' ≤ 0 := by
            intro b' hb1 hb2
            cases b' with
            | zero => omega
            | succ b' =>
              exfalso
              have := (Border.succ_iff hi (by omega)).1 hb2
              by_cases hb0 : b' = 0
              · subst hb0
                rw [hci, hcl] at this
                exact heq (Option.some.inj this.2).symm
              · exact hwalk b' (by omega) this.1 (by omega) this.2
          refine ih (lps ++ [0]) (i + 1) 0 ?_ (by omega) (Or.inl (by omega)) (by omega)
            (Border.zero_border _ _) ?_ (by omega)
          swap
          · intro b hb1 hb2 hb3
            have := hmax b (by omega) hb2
            omega
          · refine ⟨by simp [hok.1], ?_⟩
            intro k hk
            by_cases hki : k < i
            · obtain ⟨b, e, r⟩ := hok.2 k hki
              exact ⟨b, by rw [List.getElem?_append_left (by rw [hok.1]; exact hki)]; exact e, r⟩
            · have hke : k = i := by omega
              subst hke
              exact ⟨0, by rw [List.getElem?_append_right (by rw [hok.1])]; simp [hok.1],
                by omega, Border.zero_border _ _, hmax⟩
    · rw [if_neg hi]
      refine ⟨lps, rfl, ?_⟩
      have : max 1 p.length = i := by
        rcases h2 with h2 | h2
        · omega
        · omega
      rw [this]; exact hok

/-! ## Occurrences -/

theorem occ_iff {s p : List Char} {k : Nat} :
    Occ s p k ↔ ∃ a c, s = a ++ p ++ c ∧ a.length = k := by
  constructor
  · rintro ⟨h1, h2⟩
    refine ⟨s.take k, (s.drop k).drop p.length, ?_, by simp; omega⟩
    have : s.drop k = p ++ (s.drop k).drop p.length := by
      conv_lhs => rw [← List.take_append_drop p.length (s.drop k), h2]
    rw [List.append_assoc, ← this, List.take_append_drop]
  · rintro ⟨a, c, rfl, rfl⟩
    simp [Occ]

theorem Occ.get_char {s p : List Char} {k m : Nat} (h : Occ s p k) (hm : m < p.length) :
    s[k + m]? = p[m]? := by
  obtain ⟨a, c, rfl, rfl⟩ := occ_iff.1 h
  rw [List.append_assoc, List.getElem?_append_right (by omega)]
  simp [List.getElem?_append_left hm]

theorem Occ.take_suffix {s p : List Char} {k i : Nat} (h : Occ s p k) (h1 : k ≤ i)
    (h2 : i ≤ k + p.length) : p.take (i - k) <:+ s.take i := by
  obtain ⟨a, c, rfl, rfl⟩ := occ_iff.1 h
  rw [List.take_append_eq_append_take, List.take_append_eq_append_take,
    List.take_of_length_le h1]
  have : i - (a ++ p).length = 0 := by simp; omega
  rw [this]
  simp

theorem occ_of_suffix {s p : List Char} {i : Nat} (h : p <:+ s.take i) (hi : i ≤ s.length) :
    Occ s p (i - p.length) := by
  obtain ⟨a, ha⟩ := h
  refine occ_iff.2 ⟨a, s.drop i, by rw [ha, List.take_append_drop], ?_⟩
  have := congrArg List.length ha
  simp at this
  omega

/-! ## The steps of the search -/

theorem Match.zero_match (s p : List Char) (i : Nat) : Match s p i 0 := by
  simp [Match]

theorem Match.extend_match {s p : List Char} {i j : Nat} {a : Char} (hm : Match s p i j)
    (hi : s[i]? = some a) (hj : p[j]? = some a) : Match s p (i + 1) (j + 1) := by
  unfold Match
  rw [take_succ_get hi, take_succ_get hj, snoc_suffix_snoc]
  exact ⟨rfl, hm⟩

theorem Match.occ {s p : List Char} {i : Nat} (hm : Match s p i p.length)
    (hi : i ≤ s.length) : Occ s p (i - p.length) := by
  apply occ_of_suffix _ hi
  simpa [Match] using hm

theorem Match.border_of_occ {s p : List Char} {i j n : Nat} (hm : Match s p i j)
    (hj : j ≤ p.length) (ho : Occ s p n) (h1 : i ≤ n + j) (h2 : n ≤ i) :
    Border p j (i - n) := by
  have h3 := ho.take_suffix h2 (by omega)
  apply List.suffix_of_suffix_length_le h3 hm
  simp only [List.length_take]
  omega

theorem Match.fallback {s p : List Char} {lps : List Nat} {m i j l : Nat}
    (hok : LpsOK p lps m) (hm : Match s p i j) (hj0 : 0 < j) (hjm : j ≤ m)
    (hjp : j ≤ p.length) (e : lps[j - 1]? = some l) :
    l < j ∧ Match s p i l ∧ ∀ n, i < n + j → n + l < i → ¬ Occ s p n := by
  obtain ⟨b, e', hb1, hb2, hb3⟩ := hok.2 (j - 1) (by omega)
  rw [e] at e'
  cases e'
  have e1 : j - 1 + 1 = j := by omega
  rw [e1] at hb2 hb3
  refine ⟨by omega, hb2.trans hm, ?_⟩
  intro n h1 h2 ho
  have := hb3 (i - n) (by omega) (hm.border_of_occ hjp ho (by omega) (by omega))
  omega

theorem findLPS_spec (p : List Char) :
    ∃ lps, findLPS p = .ok lps ∧ LpsOK p lps (max 1 p.length) := by
  apply findLPSLoop_spec p _ [0] 1 0 _ (by omega) (Or.inr rfl) (by omega) (Border.zero_border _ _)
  · intro b hb1 _ hb2
    omega
  · omega
  · refine ⟨rfl, ?_⟩
    intro k hk
    have : k = 0 := by omega
    subst this
    exact ⟨0, rfl, by omega, Border.zero_border _ _, fun b' h _ => h⟩

/-! ## `findFirst` -/

theorem findFirstLoop_spec (s p : List Char) (lps : List Nat)
    (hok : LpsOK p lps (max 1 p.length)) :
    ∀ (fuel i j : Nat), j ≤ p.length → j ≤ i → i ≤ s.length → Match s p i j →
      (∀ n, n + j < i → ¬ Occ s p n) → 2 * s.length + j + 1 ≤ fuel + 2 * i →
      ∃ r, findFirstLoop s p lps fuel i j = .ok r ∧
        ((r = -1 ∧ ∀ k, ¬ Occ s p k) ∨
          ∃ k : Nat, r = (k : Int) ∧ Occ s p k ∧ ∀ k', k' < k → ¬ Occ s p k') := by
  intro fuel
  induction fuel with
  | zero =>
    intro i j _ _ _ _ _ hf
    omega
  | succ fuel ih =>
    intro i j hjp hji hi hm hno hf
    unfold findFirstLoop
    by_cases hw : inWindow s p i j = true
    · rw [if_pos hw]
      simp only [inWindow, Bool.and_eq_true, decide_eq_true_eq] at hw
      by_cases hj : j = p.length
      · rw [if_pos hj]
        subst hj
        refine ⟨_, rfl, Or.inr ⟨i - p.length, by omega, hm.occ hi, ?_⟩⟩
        intro k' hk'
        exact hno k' (by omega)
      · rw [if_neg hj]
        have hjlt : j < p.length := by omega
        have hilt : i < s.length := by omega
        obtain ⟨a, ha⟩ := get_of_lt_length hilt
        obtain ⟨b, hb⟩ := get_of_lt_length hjlt
        simp only [charAt_ok ha, charAt_ok hb, kmp_ok_bind]
        by_cases hab : a = b
        · subst hab
          rw [if_pos rfl]
          exact ih (i + 1) (j + 1) (by omega) (by omega) (by omega) (hm.extend_match ha hb)
            (fun n hn => hno n (by omega)) (by omega)
        · rw [if_neg hab]
          have hne : ∀ n, n + j = i → ¬ Occ s p n := by
            intro n hn ho
            have := ho.get_char hjlt
            rw [hn, ha, hb] at this
            exact hab (Option.some.inj this)
          by_cases hj0 : j = 0
          · rw [if_pos hj0]
            subst hj0
            refine ih (i + 1) 0 (by omega) (by omega) (by omega) (Match.zero_match _ _ _) ?_
              (by omega)
            intro n hn
            by_cases h : n + 0 < i
            · exact hno n h
            · exact hne n (by omega)
          · rw [if_neg hj0]
            obtain ⟨l, hl⟩ : ∃ l, lps[j - 1]? = some l := by
              obtain ⟨l, hl, _⟩ := hok.2 (j - 1) (by omega)
              exact ⟨l, hl⟩
            simp only [vecAt_pred (by omega) hl, kmp_ok_bind]
            obtain ⟨h1, h2, h3⟩ := hm.fallback hok (by omega) (by omega) hjp hl
            refine ih i l (by omega) (by omega) hi h2 ?_ (by omega)
            intro n hn
            by_cases h : n + j < i
            · exact hno n h
            · by_cases h' : n + j = i
              · exact hne n h'
              · exact h3 n (by omega) hn
    · rw [if_neg hw]
      refine ⟨_, rfl, Or.inl ⟨rfl, ?_⟩⟩
      intro k ho
      simp only [inWindow, Bool.and_eq_true, decide_eq_true_eq, not_and_or] at hw
      have := ho.1
      by_cases h : k + j < i
      · exact hno k h ho
      · omega

theorem findFirst_spec (s p : List Char) :
    ∃ r, findFirst s p = .ok r ∧
      ((r = -1 ∧ ∀ k, ¬ Occ s p k) ∨
        ∃ k : Nat, r = (k : Int) ∧ Occ s p k ∧ ∀ k', k' < k → ¬ Occ s p k') := by
  obtain ⟨lps, e, hok⟩ := findLPS_spec p
  unfold findFirst
  simp only [e, kmp_ok_bind]
  exact findFirstLoop_spec s p lps hok _ 0 0 (by omega) (by omega) (by omega)
    (Match.zero_match _ _ _) (fun n hn => by omega) (by omega)

/-! ## `findAll` -/

theorem Found.shift {s p : List Char} {idx : List Int} {i j i' j' : Nat}
    (h : Found s p idx i j) (h1 : ∀ n, n + j < i → n + j' < i')
    (h2 : ∀ n, n + j' < i' → ¬ n + j < i → ¬ Occ s p n) : Found s p idx i' j' := by
  refine ⟨h.1, fun k => ?_⟩
  rw [h.2 k]
  constructor
  · rintro ⟨n, e, ho, hn⟩
    exact ⟨n, e, ho, h1 n hn⟩
  · rintro ⟨n, e, ho, hn⟩
    refine ⟨n, e, ho, ?_⟩
    by_contra hc
    exact h2 n hn hc ho

theorem Found.all {s p : List Char} {idx : List Int} {i j : Nat} (h : Found s p idx i j)
    (hall : ∀ n, Occ s p n → n + j < i) :
    idx.Pairwise (· < ·) ∧ ∀ k : Int, k ∈ idx ↔ ∃ n : Nat, k = (n : Int) ∧ Occ s p n := by
  refine ⟨h.1, fun k => ?_⟩
  rw [h.2 k]
  constructor
  · rintro ⟨n, e, ho, _⟩
    exact ⟨n, e, ho⟩
  · rintro ⟨n, e, ho⟩
    exact ⟨n, e, ho, hall n ho⟩

theorem recordMatch_spec {s p : List Char} {lps : List Nat} {i j : Nat} {idx : List Int}
    (hok : LpsOK p lps (max 1 p.length)) (hp : 0 < p.length) (hjp : j ≤ p.length)
    (hji : j ≤ i) (hi : i ≤ s.length) (hm : Match s p i j) (hfound : Found s p idx i j) :
    ∃ idx1 j1, recordMatch p lps i j idx = .ok (idx1, j1) ∧ j1 < p.length ∧ j1 ≤ j ∧
      Match s p i j1 ∧ Found s p idx1 i j1 := by
  unfold recordMatch
  by_cases hj : j = p.length
  · rw [if_pos hj]
    obtain ⟨l, hl⟩ : ∃ l, lps[j - 1]? = some l := by
      obtain ⟨l, hl, _⟩ := hok.2 (j - 1) (by omega)
      exact ⟨l, hl⟩
    simp only [vecAt_pred (by omega) hl, kmp_ok_bind, kmp_pure_eq_ok]
    obtain ⟨h1, h2, h3⟩ := hm.fallback hok (by omega) (by omega) hjp hl
    refine ⟨_, _, rfl, by omega, by omega, h2, ?_, ?_⟩
    · rw [List.pairwise_append]
      refine ⟨hfound.1, List.pairwise_singleton _ _, ?_⟩
      intro a ha b hb
      obtain ⟨n, e, _, hn⟩ := (hfound.2 a).1 ha
      simp only [List.mem_singleton] at hb
      omega
    · intro k
      rw [List.mem_append, hfound.2 k, List.mem_singleton]
      constructor
      · rintro (⟨n, e, ho, hn⟩ | e)
        · exact ⟨n, e, ho, by omega⟩
        · refine ⟨i - j, by omega, ?_, by omega⟩
          subst hj
          exact hm.occ hi
      · rintro ⟨n, e, ho, hn⟩
        by_cases h : n + j < i
        · exact Or.inl ⟨n, e, ho, h⟩
        · by_cases h' : n + j = i
          · right; omega
          · exact absurd ho (h3 n (by omega) hn)
  · rw [if_neg hj]
    exact ⟨_, _, rfl, by omega, le_refl _, hm, hfound⟩

theorem findAllLoop_exit (s p : List Char) (lps : List Nat) {fuel i j : Nat} (idx : List Int)
    (hf : 0 < fuel) (hw : inWindow s p i j = false) :
    findAllLoop s p lps fuel i j idx = .ok idx := by
  cases fuel with
  | zero => omega
  | succ fuel =>
    unfold findAllLoop
    rw [hw]
    rfl

theorem findAllLoop_spec (s p : List Char) (lps : List Nat)
    (hok : LpsOK p lps (max 1 p.length)) (hp : 0 < p.length) :
    ∀ (fuel i j : Nat) (idx : List Int), j ≤ p.length → j ≤ i → i ≤ s.length →
      Match s p i j → Found s p idx i j → 2 * s.length + j + 2 ≤ fuel + 2 * i →
      ∃ r, findAllLoop s p lps fuel i j idx = .ok r ∧ r.Pairwise (· < ·) ∧
        ∀ k : Int, k ∈ r ↔ ∃ n : Nat, k = (n : Int) ∧ Occ s p n := by
  intro fuel
  induction fuel with
  | zero =>
    intro i j _ _ _ hi _ _ hf
    omega
  | succ fuel ih =>
    intro i j idx hjp hji hi hm hfound hf
    unfold findAllLoop
    by_cases hw : inWindow s p i j = true
    · rw [if_pos hw]
      obtain ⟨idx1, j1, hrec, hj1, hj1j, hm1, hf1⟩ :=
        recordMatch_spec hok hp hjp hji hi hm hfound
      obtain ⟨b, hb⟩ := get_of_lt_length hj1
      by_cases hilt : i < s.length
      · obtain ⟨a, ha⟩ := get_of_lt_length hilt
        simp only [hrec, charAt_ok ha, charAt_ok hb, kmp_ok_bind]
        by_cases hab : a = b
        · subst hab
          rw [if_pos rfl]
          exact ih (i + 1) (j1 + 1) idx1 (by omega) (by omega) (by omega) (hm1.extend_match ha hb)
            (hf1.shift (fun n hn => by omega) (fun n hn hc => by omega)) (by omega)
        · rw [if_neg hab]
          have hne : ∀ n, n + j1 = i → ¬ Occ s p n := by
            intro n hn ho
            have := ho.get_char hj1
            rw [hn, ha, hb] at this
            exact hab (Option.some.inj this)
          by_cases hj0 : j1 = 0
          · rw [if_pos hj0]
            subst hj0
            refine ih (i + 1) 0 idx1 (by omega) (by omega) (by omega) (Match.zero_match _ _ _)
              (hf1.shift (fun n hn => by omega) (fun n hn hc => hne n (by omega))) (by omega)
          · rw [if_neg hj0]
            obtain ⟨l, hl⟩ : ∃ l, lps[j1 - 1]? = some l := by
              obtain ⟨l, hl, _⟩ := hok.2 (j1 - 1) (by omega)
              exact ⟨l, hl⟩
            simp only [vecAt_pred (by omega) hl, kmp_ok_bind]
            obtain ⟨h1, h2, h3⟩ := hm1.fallback hok (by omega) (by omega) (by omega) hl
            refine ih i l idx1 (by omega) (by omega) hi h2
              (hf1.shift (fun n hn => by omega) ?_) (by omega)
            intro n hn hc
            by_cases h' : n + j1 = i
            · exact hne n h'
            · exact h3 n (by omega) hn
      · have hie : i = s.length := by omega
        have ha : charAt s i = .ok (Char.ofNat 0) := by
          have : s[i]? = none := List.getElem?_eq_none (by omega)
          simp [charAt, this, hie]
        have hres := hf1.all (fun n ho => by have := ho.1; omega)
        simp only [hrec, ha, charAt_ok hb, kmp_ok_bind]
        by_cases hab : Char.ofNat 0 = b
        · rw [if_pos hab]
          refine ⟨idx1, ?_, hres⟩
          apply findAllLoop_exit _ _ _ _ (by omega)
          simp [inWindow]
          omega
        · rw [if_neg hab]
          by_cases hj0 : j1 = 0
          · rw [if_pos hj0]
            refine ⟨idx1, ?_, hres⟩
            apply findAllLoop_exit _ _ _ _ (by omega)
            simp [inWindow]
            omega
          · rw [if_neg hj0]
            obtain ⟨l, hl⟩ : ∃ l, lps[j1 - 1]? = some l := by
              obtain ⟨l, hl, _⟩ := hok.2 (j1 - 1) (by omega)
              exact ⟨l, hl⟩
            simp only [vecAt_pred (by omega) hl, kmp_ok_bind]
            obtain ⟨h1, h2, h3⟩ := hm1.fallback hok (by omega) (by omega) (by omega) hl
            refine ⟨idx1, ?_, hres⟩
            apply findAllLoop_exit _ _ _ _ (by omega)
            simp [inWindow]
            omega
    · rw [if_neg hw]
      refine ⟨idx, rfl, hfound.all ?_⟩
      intro n ho
      simp only [inWindow, Bool.and_eq_true, decide_eq_true_eq, not_and_or] at hw
      have := ho.1
      omega

/-- C16: `findFirst s p` returns, for all strings `s` and `p`, the smallest index at
which `p` occurs in `s`, and `-1` when `p` occurs nowhere in `s`. -/
theorem findFirst_smallest_index (s p : List Char) :
    ∃ r, findFirst s p = .ok r ∧
      ((r = -1 ∧ ∀ k, ¬ Occ s p k) ∨
        ∃ k : Nat, r = (k : Int) ∧ Occ s p k ∧ ∀ k', k' < k → ¬ Occ s p k') :=
  findFirst_spec s p

/-- C17: for a non-empty `p`, `findAll s p` returns the indices at which `p` occurs in
`s`: every such index, nothing else, each once and in strictly increasing order. -/
theorem findAll_all_occurrences (s p : List Char) (hp : p ≠ []) :
    ∃ idx, findAll s p = .ok idx ∧ idx.Pairwise (· < ·) ∧
      ∀ k : Int, k ∈ idx ↔ ∃ n : Nat, k = (n : Int) ∧ Occ s p n := by
  obtain ⟨lps, e, hok⟩ := findLPS_spec p
  unfold findAll
  simp only [e, kmp_ok_bind]
  have hp' : 0 < p.length := List.length_pos.2 hp
  refine findAllLoop_spec s p lps hok hp' _ 0 0 [] (by omega) (by omega) (by omega)
    (Match.zero_match _ _ _) ⟨List.Pairwise.nil, fun k => ?_⟩ (by omega)
  simp

theorem findAll_all_occurrences_witness :
    "aa".toList ≠ [] ∧ findAll "aaaa".toList "aa".toList = .ok [0, 1, 2] ∧
      ∃ idx, findAll "aaaa".toList "aa".toList = .ok idx ∧ idx.Pairwise (· < ·) ∧
        ∀ k : Int, k ∈ idx ↔ ∃ n : Nat, k = (n : Int) ∧ Occ "aaaa".toList "aa".toList n :=
  ⟨by decide, by decide, findAll_all_occurrences "aaaa".toList "aa".toList (by decide)⟩

end KMP

namespace DivideAndConquer

/-! ## Counting inversions in lists -/

theorem cross_nil_left (bs : List Int) : cross [] bs = 0 := by
  induction bs with
  | nil => rfl
  | cons b bs ih => simp [cross]

theorem cross_nil_right (as : List Int) : cross as [] = 0 := rfl

theorem cross_cons_right (as : List Int) (b : Int) (bs : List Int) :
    cross as (b :: bs) = as.countP (fun a => decide (b < a)) + cross as bs := by
  simp [cross]

theorem cross_cons_left (a : Int) (as bs : List Int) :
    cross (a :: as) bs = cross as bs + bs.countP (fun b => decide (b < a)) := by
  induction bs with
  | nil => rfl
  | cons b bs ih =>
    rw [cross_cons_right, cross_cons_right, ih, List.countP_cons, List.countP_cons]
    omega

theorem cross_perm {as as' bs bs' : List Int} (h1 : as.Perm as') (h2 : bs.Perm bs') :
    cross as bs = cross as' bs' := by
  have e : ∀ b : Int, as.countP (fun a => decide (b < a)) = as'.countP (fun a => decide (b < a)) :=
    fun b => h1.countP_eq _
  unfold cross
  simp only [e]
  exact (h2.map _).sum_eq

theorem invCount_append (as bs : List Int) :
    invCount (as ++ bs) = invCount as + invCount bs + cross as bs := by
  induction as with
  | nil => simp [invCount, cross_nil_left]
  | cons a as ih =>
    rw [List.cons_append, invCount, invCount, ih, cross_cons_left, List.countP_append]
    omega

theorem invCount_singleton (x : Int) : invCount [x] = 0 := rfl

/-- The left run gives no cross inversion with a right run of greater or equal elements. -/
theorem cross_head_le (a : Int) (as bs : List Int) (h : ∀ b ∈ bs, a ≤ b) :
    cross (a :: as) bs = cross as bs := by
  rw [cross_cons_left]
  have : bs.countP (fun b => decide (b < a)) = 0 := by
    rw [List.countP_eq_zero]
    intro b hb
    have := h b hb
    simp
    omega
  omega

/-- An element of the right run smaller than all of the left run is in an inversion with
each of them. -/
theorem cross_head_lt (as : List Int) (b : Int) (bs : List Int) (h : ∀ a ∈ as, b < a) :
    cross as (b :: bs) = as.length + cross as bs := by
  rw [cross_cons_right]
  have : as.countP (fun a => decide (b < a)) = as.length := by
    rw [List.countP_eq_length]
    intro a ha
    simpa using h a ha
  omega

/-! ## Inversions by index pairs -/

theorem inversions_cons (x : Int) (v : List Int) (l r : Nat) :
    inversions (x :: v) (l + 1) (r + 1) = inversions v l r := by
  unfold inversions
  rw [List.range_succ_eq_map, List.map_cons, List.sum_cons, List.map_map]
  simp only [List.range_zero, List.filter_nil, List.length_nil, zero_add]
  congr 1
  apply List.map_congr_left
  intro j _
  simp only [Function.comp]
  rw [List.range_succ_eq_map, List.filter_cons]
  simp only [Nat.add_one_ne_zero, nonpos_iff_eq_zero, decide_False, Bool.false_and,
    Bool.false_eq_true, if_false, List.filter_map, List.length_map]
  congr 1
  apply List.filter_congr
  intro i _
  simp [Function.comp_def]

theorem inversions_append_left (pre v : List Int) (l r : Nat) :
    inversions (pre ++ v) (pre.length + l) (pre.length + r) = inversions v l r := by
  induction pre with
  | nil => simp
  | cons x pre ih =>
    have e1 : (x :: pre).length + l = (pre.length + l) + 1 := by simp; omega
    have e2 : (x :: pre).length + r = (pre.length + r) + 1 := by simp; omega
    rw [e1, e2, List.cons_append, inversions_cons, ih]

theorem inversions_append_right (v post : List Int) (l : Nat) :
    inversions (v ++ post) l v.length = inversions v l v.length := by
  unfold inversions
  apply congrArg
  apply List.map_congr_left
  intro j hj
  rw [List.mem_range] at hj
  congr 1
  apply List.filter_congr
  intro i hi
  rw [List.mem_range] at hi
  rw [List.getD_append _ _ _ _ hj, List.getD_append _ _ _ _ (by omega)]

theorem sum_indicator (xs : List Int) (p : Int → Bool) :
    ((List.range xs.length).map fun j => if p (xs.getD j 0) then 1 else 0).sum =
      xs.countP p := by
  induction xs with
  | nil => rfl
  | cons x xs ih =>
    rw [List.length_cons, List.range_succ_eq_map, List.map_cons, List.sum_cons, List.map_map,
      List.countP_cons]
    simp only [Function.comp_def, List.getD_cons_zero, List.getD_cons_succ]
    rw [ih]
    omega

theorem inversions_eq_invCount (v : List Int) : inversions v 0 v.length = invCount v := by
  induction v with
  | nil => rfl
  | cons x xs ih =>
    rw [invCount, ← ih, ← sum_indicator xs (fun y => decide (y < x))]
    unfold inversions
    rw [List.length_cons, List.range_succ_eq_map, List.map_cons, List.sum_cons, List.map_map]
    simp only [List.range_zero, List.filter_nil, List.length_nil, zero_add]
    rw [← List.sum_map_add]
    apply congrArg
    apply List.map_congr_left
    intro j _
    simp only [Function.comp]
    rw [List.range_succ_eq_map, List.filter_cons]
    simp only [zero_le, decide_True, Bool.true_and, List.getD_cons_zero, List.getD_cons_succ,
      List.filter_map, List.length_map, Function.comp_def]
    split
    · simp
      omega
    · simp

/-- The index-pair count over the window `[l, r)` of a vector is the inversion count of
the window taken as a list. -/
theorem inversions_window (pre mid post : List Int) :
    inversions (pre ++ mid ++ post) pre.length (pre.length + mid.length) = invCount mid := by
  rw [List.append_assoc]
  have := inversions_append_left pre (mid ++ post) 0 mid.length
  rw [Nat.add_zero] at this
  rw [this, inversions_append_right, inversions_eq_invCount]

/-! ## Reads and writes -/

@[simp] theorem dc_ok_bind {α β : Type} (a : α) (f : α → Except Fault β) :
    (Except.ok a >>= f) = f a := rfl

@[simp] theorem dc_pure_eq_ok {α : Type} (a : α) : (pure a : Except Fault α) = Except.ok a :=
  rfl

theorem readAt_ok {a : List Int} {k : Nat} {x : Int} {z : Int} (hz : z = (k : Int))
    (h : a[k]? = some x) : readAt a z = .ok x := by
  subst hz
  simp [readAt, h]

theorem writeAt_ok {a : List Int} {k : Nat} {z : Int} (x : Int) (hz : z = (k : Int))
    (h : k < a.length) : writeAt a z x = .ok (a.set k x) := by
  subst hz
  simp [writeAt, h]

theorem drop_eq_cons {A : List Int} {a : Nat} (h : a < A.length) :
    A.drop a = A[a] :: A.drop (a + 1) :=
  List.drop_eq_getElem_cons h

/-! ## Sums in `int` -/

theorem addInt_ok {a b : Int} (h0 : 0 ≤ a) (h1 : 0 ≤ b) (h2 : a + b < 2 ^ 31) :
    addInt a b = .ok (a + b) := by
  have hc : INT_MIN ≤ a + b ∧ a + b ≤ INT_MAX := by
    simp only [INT_MIN, INT_MAX]
    constructor <;> omega
  simp only [addInt, if_pos hc]

/-- A sum that `addInt` returns is in the range of `int`. -/
theorem addInt_le {a b c : Int} (h : addInt a b = .ok c) : c ≤ INT_MAX := by
  unfold addInt at h
  split at h
  · next hc => cases h; exact hc.2
  · cases h

theorem sumCounts_ok {a b c : Int} (h0 : 0 ≤ a) (h1 : 0 ≤ b) (h2 : 0 ≤ c)
    (h3 : a + b + c < 2 ^ 31) : sumCounts a b c = .ok (a + b + c) := by
  unfold sumCounts
  rw [addInt_ok h0 h1 (by omega)]
  exact addInt_ok (by omega) h2 h3

theorem sumCounts_le {a b c s : Int} (h : sumCounts a b c = .ok s) : s ≤ INT_MAX := by
  unfold sumCounts at h
  cases hab : addInt a b with
  | error e => rw [hab] at h; cases h
  | ok ab =>
    rw [hab] at h
    exact addInt_le h

/-! ## `mergeAndCount` -/

theorem takeLeft_right_done (v : List Int) (m lcur : Int) {r rcur : Int} (h : rcur = r) :
    takeLeft v m r lcur rcur = .ok true := by
  simp [takeLeft, h]

theorem takeLeft_cmp {v : List Int} {m r lcur rcur x y : Int} (h1 : rcur ≠ r) (h2 : lcur < m)
    (hx : readAt v lcur = .ok x) (hy : readAt v rcur = .ok y) :
    takeLeft v m r lcur rcur = .ok (decide (x ≤ y)) := by
  simp [takeLeft, h1, h2, hx, hy]

theorem takeLeft_left_done (v : List Int) {m r lcur rcur : Int} (h1 : rcur ≠ r)
    (h2 : ¬ lcur < m) : takeLeft v m r lcur rcur = .ok false := by
  simp [takeLeft, h1, h2]

theorem cross_tail_le (a : Int) (as bs : List Int) : cross as bs ≤ cross (a :: as) bs := by
  rw [cross_cons_left]
  omega

theorem mergeLoop_spec (v A B : List Int) (l : Nat)
    (hA : ∀ k, k < A.length → v[l + k]? = A[k]?)
    (hB : ∀ k, k < B.length → v[l + A.length + k]? = B[k]?) (m r : Int)
    (hm : m = ((l + A.length : Nat) : Int)) (hr : r = ((l + A.length + B.length : Nat) : Int)) :
    ∀ (fuel a b : Nat) (lcur rcur : Int) (temp : List Int) (inv : Int),
      a ≤ A.length → b ≤ B.length → lcur = ((l + a : Nat) : Int) →
      rcur = ((l + A.length + b : Nat) : Int) →
      (A.drop a).Sorted (· ≤ ·) → (B.drop b).Sorted (· ≤ ·) →
      (A.length - a) + (B.length - b) < fuel → 0 ≤ inv →
      inv + ((cross (A.drop a) (B.drop b) : Nat) : Int) < 2 ^ 31 →
      ∃ out, mergeLoop v m r fuel lcur rcur temp inv =
          .ok (temp ++ out, inv + ((cross (A.drop a) (B.drop b) : Nat) : Int)) ∧
        out.Perm (A.drop a ++ B.drop b) ∧ out.Sorted (· ≤ ·) := by
  intro fuel
  induction fuel with
  | zero =>
    intro a b lcur rcur temp inv _ _ _ _ _ _ hf _ _
    omega
  | succ fuel ih =>
    intro a b lcur rcur temp inv ha hb hl hrc hsA hsB hf hi0 hmax
    unfold mergeLoop
    by_cases hcond : lcur < m ∨ rcur < r
    · rw [if_pos hcond]
      by_cases hbB : b = B.length
      · -- the right run is used up
        have haA : a < A.length := by omega
        have hx : readAt v lcur = .ok A[a] :=
          readAt_ok hl (by rw [hA a haA]; exact List.getElem?_eq_getElem haA)
        rw [takeLeft_right_done v m lcur (by omega)]
        simp only [dc_ok_bind, if_true, hx]
        rw [drop_eq_cons haA] at hsA hmax ⊢
        have hmono := cross_tail_le A[a] (A.drop (a + 1)) (B.drop b)
        obtain ⟨out, e, hp, hs⟩ := ih (a + 1) b (lcur + 1) rcur (temp ++ [A[a]]) inv
          (by omega) hb (by omega) hrc hsA.of_cons hsB (by omega) hi0 (by omega)
        have hBnil : B.drop b = [] := by rw [hbB]; exact List.drop_length B
        refine ⟨A[a] :: out, ?_, ?_, ?_⟩
        · rw [e, hBnil]
          simp [cross_nil_right]
        · exact (hp.cons _)
        · rw [List.sorted_cons]
          refine ⟨?_, hs⟩
          intro y hy
          have := hp.subset hy
          rw [hBnil, List.append_nil] at this
          exact List.rel_of_sorted_cons hsA y this
      · have hbB' : b < B.length := by omega
        have hy : readAt v rcur = .ok B[b] :=
          readAt_ok hrc (by rw [hB b hbB']; exact List.getElem?_eq_getElem hbB')
        by_cases haA : a < A.length
        · have hx : readAt v lcur = .ok A[a] :=
            readAt_ok hl (by rw [hA a haA]; exact List.getElem?_eq_getElem haA)
          rw [takeLeft_cmp (by omega) (by omega) hx hy]
          simp only [dc_ok_bind]
          by_cases hxy : A[a] ≤ B[b]
          · simp only [hxy, decide_True, if_true, hx, dc_ok_bind]
            rw [drop_eq_cons haA] at hsA hmax ⊢
            have hmono := cross_tail_le A[a] (A.drop (a + 1)) (B.drop b)
            obtain ⟨out, e, hp, hs⟩ := ih (a + 1) b (lcur + 1) rcur (temp ++ [A[a]]) inv
              (by omega) hb (by omega) hrc hsA.of_cons hsB (by omega) hi0 (by omega)
            have hle : ∀ y ∈ B.drop b, A[a] ≤ y := by
              intro y hy'
              rw [drop_eq_cons hbB'] at hy' hsB
              rcases List.mem_cons.1 hy' with rfl | hy''
              · exact hxy
              · exact le_trans hxy (List.rel_of_sorted_cons hsB y hy'')
            refine ⟨A[a] :: out, ?_, ?_, ?_⟩
            · rw [e, cross_head_le _ _ _ hle]
              simp
            · exact (hp.cons _)
            · rw [List.sorted_cons]
              refine ⟨?_, hs⟩
              intro y hy'
              rcases List.mem_append.1 (hp.subset hy') with h | h
              · exact List.rel_of_sorted_cons hsA y h
              · exact hle y h
          · simp only [hxy, decide_False, Bool.false_eq_true, if_false, hy, dc_ok_bind]
            have hlt : ∀ x ∈ A.drop a, B[b] < x := by
              intro x hx'
              rw [drop_eq_cons haA] at hx' hsA
              rcases List.mem_cons.1 hx' with rfl | hx''
              · omega
              · have := List.rel_of_sorted_cons hsA x hx''
                omega
            rw [drop_eq_cons hbB'] at hsB hmax ⊢
            rw [cross_head_lt _ _ _ hlt] at hmax ⊢
            have hlen : ((A.drop a).length : Int) = m - lcur := by
              rw [List.length_drop]; omega
            rw [addInt_ok hi0 (by omega) (by omega)]
            simp only [dc_ok_bind]
            obtain ⟨out, e, hp, hs⟩ := ih a (b + 1) lcur (rcur + 1) (temp ++ [B[b]])
              (inv + (m - lcur)) ha (by omega) hl (by omega) hsA hsB.of_cons (by omega)
              (by omega) (by omega)
            refine ⟨B[b] :: out, ?_, ?_, ?_⟩
            · rw [e]
              simp only [List.append_assoc, List.singleton_append]
              congr 2
              omega
            · exact (hp.cons _).trans List.perm_middle.symm
            · rw [List.sorted_cons]
              refine ⟨?_, hs⟩
              intro y hy'
              rcases List.mem_append.1 (hp.subset hy') with h | h
              · exact le_of_lt (hlt y h)
              · exact List.rel_of_sorted_cons hsB y h
        · -- the left run is used up
          rw [takeLeft_left_done v (by omega) (by omega)]
          simp only [dc_ok_bind, Bool.false_eq_true, if_false, hy]
          have hAnil : A.drop a = [] := List.drop_eq_nil_of_le (by omega)
          rw [addInt_ok hi0 (by omega) (by omega)]
          simp only [dc_ok_bind]
          rw [drop_eq_cons hbB'] at hsB ⊢
          obtain ⟨out, e, hp, hs⟩ := ih a (b + 1) lcur (rcur + 1) (temp ++ [B[b]])
            (inv + (m - lcur)) ha (by omega) hl (by omega) hsA hsB.of_cons (by omega)
            (by omega) (by rw [hAnil, cross_nil_left]; omega)
          refine ⟨B[b] :: out, ?_, ?_, ?_⟩
          · rw [e, hAnil, cross_nil_left, cross_nil_left]
            simp only [List.append_assoc, List.singleton_append]
            congr 2
            omega
          · rw [hAnil] at hp ⊢
            exact hp.cons _
          · rw [List.sorted_cons]
            refine ⟨?_, hs⟩
            intro y hy'
            have := hp.subset hy'
            rw [hAnil, List.nil_append] at this
            exact List.rel_of_sorted_cons hsB y this
    · rw [if_neg hcond]
      have haA : A.drop a = [] := List.drop_eq_nil_of_le (by omega)
      have hbB : B.drop b = [] := List.drop_eq_nil_of_le (by omega)
      refine ⟨[], ?_, ?_, List.sorted_nil⟩
      · rw [haA, hbB]
        simp [cross_nil_left]
      · rw [haA, hbB]
        exact List.Perm.refl _

theorem set_middle (xs ys : List Int) (o t : Int) :
    (xs ++ o :: ys).set xs.length t = xs ++ t :: ys := by
  induction xs with
  | nil => rfl
  | cons x xs ih => simp [ih]

theorem get_window (pre mid post : List Int) (k : Nat) (hk : k < mid.length) :
    (pre ++ mid ++ post)[pre.length + k]? = mid[k]? := by
  rw [List.append_assoc, List.getElem?_append_right (by omega)]
  simp [List.getElem?_append_left hk]

theorem copyBack_spec (temp pre post : List Int) (r : Int) :
    ∀ (todo old done : List Int) (fuel : Nat) (i j : Int), todo.length = old.length →
      temp = done ++ todo → i = ((pre.length + done.length : Nat) : Int) →
      j = (done.length : Int) → r = ((pre.length + done.length + todo.length : Nat) : Int) →
      todo.length < fuel →
      copyBack temp r fuel (pre ++ done ++ old ++ post) i j = .ok (pre ++ done ++ todo ++ post) := by
  intro todo
  induction todo with
  | nil =>
    intro old done fuel i j hlen _ hi _ hr hf
    cases fuel with
    | zero => simp at hf
    | succ fuel =>
      have : old = [] := List.length_eq_zero.1 hlen.symm
      subst this
      unfold copyBack
      have hc : ¬ i < r := by simp at hr; omega
      rw [if_neg hc]
  | cons t todo ih =>
    intro old done fuel i j hlen htemp hi hj hr hf
    cases fuel with
    | zero => simp at hf
    | succ fuel =>
      cases old with
      | nil => simp at hlen
      | cons o old =>
        unfold copyBack
        have hc : i < r := by simp at hr; omega
        rw [if_pos hc]
        have hread : readAt temp j = .ok t := by
          apply readAt_ok hj
          rw [htemp, List.getElem?_append_right (le_refl _)]
          simp
        have hv : pre ++ done ++ (o :: old) ++ post = (pre ++ done) ++ o :: (old ++ post) := by
          simp
        have hwrite : writeAt (pre ++ done ++ (o :: old) ++ post) i t =
            .ok (pre ++ (done ++ [t]) ++ old ++ post) := by
          rw [writeAt_ok t (show i = (((pre ++ done).length : Nat) : Int) by simp [hi])
            (by simp), hv, set_middle]
          simp
        simp only [hread, hwrite, dc_ok_bind]
        rw [ih old (done ++ [t]) fuel (i + 1) (j + 1) (by simpa using hlen)
          (by rw [htemp]; simp) (by simp; omega) (by simp; omega) (by simp at hr ⊢; omega)
          (by simp at hf; omega)]
        simp

theorem mergeAndCount_spec (pre A B post : List Int) (hsA : A.Sorted (· ≤ ·))
    (hsB : B.Sorted (· ≤ ·)) (l r m : Int) (hl : l = (pre.length : Int))
    (hm : m = ((pre.length + A.length : Nat) : Int))
    (hr : r = ((pre.length + A.length + B.length : Nat) : Int))
    (hmax : ((cross A B : Nat) : Int) < 2 ^ 31) :
    ∃ out, mergeAndCount (pre ++ A ++ B ++ post) l r m =
        .ok (pre ++ out ++ post, ((cross A B : Nat) : Int)) ∧
      out.Perm (A ++ B) ∧ out.Sorted (· ≤ ·) := by
  have hA : ∀ k, k < A.length → (pre ++ A ++ B ++ post)[pre.length + k]? = A[k]? := by
    intro k hk
    rw [List.append_assoc pre A B, List.append_assoc pre (A ++ B) post,
      List.getElem?_append_right (by omega)]
    simp [List.getElem?_append_left hk, List.getElem?_append_left
      (show k < (A ++ B).length by simp; omega)]
  have hB : ∀ k, k < B.length → (pre ++ A ++ B ++ post)[pre.length + A.length + k]? = B[k]? := by
    intro k hk
    have := get_window (pre ++ A) B post k hk
    simpa using this
  obtain ⟨out, e, hp, hs⟩ := mergeLoop_spec (pre ++ A ++ B ++ post) A B pre.length hA hB m r hm hr
    ((r - l).toNat + 1) 0 0 l m [] 0 (by omega) (by omega) (by simp [hl]) (by simp [hm])
    (by simpa using hsA) (by simpa using hsB) (by subst hl hr; simp; omega) (le_refl _)
    (by simpa using hmax)
  refine ⟨out, ?_, by simpa using hp, hs⟩
  unfold mergeAndCount
  simp only [List.drop_zero, List.nil_append, zero_add] at e
  simp only [e, dc_ok_bind]
  have hlen : out.length = (A ++ B).length := by simpa using hp.length_eq
  have hcopy := copyBack_spec out pre post r out (A ++ B) [] ((r - l).toNat + 1) l 0 hlen
    (by simp) (by simp [hl]) (by simp) (by subst hr; simp at hlen ⊢; omega)
    (by subst hl hr; simp at hlen ⊢; omega)
  simp only [List.append_nil, ← List.append_assoc] at hcopy
  simp only [hcopy, dc_ok_bind, dc_pure_eq_ok]

theorem mid_eq (l n : Nat) :
    (l : Int) + (((l + n : Nat) : Int) - (l : Int)).tdiv 2 = ((l + n / 2 : Nat) : Int) := by
  have : ((l + n : Nat) : Int) - (l : Int) = (n : Int) := by omega
  rw [this, Int.tdiv_eq_ediv (by omega) (by omega)]
  omega

/-- When both recursive calls are evaluated before `mergeAndCount` and the number of
inversions of the window is in the range of `int`, `sortAndCount` sorts the window and
returns that number. -/
theorem sortAndCount_spec (ord : EvalOrder) (hord : ord.mergeLast = true) :
    ∀ (fuel : Nat) (pre mid post : List Int), mid ≠ [] → mid.length ≤ fuel →
      ((invCount mid : Nat) : Int) < 2 ^ 31 →
      ∃ mid', sortAndCount ord fuel (pre ++ mid ++ post) (pre.length : Int)
          ((pre.length + mid.length : Nat) : Int) =
            .ok (pre ++ mid' ++ post, ((invCount mid : Nat) : Int)) ∧
        mid'.Perm mid ∧ mid'.Sorted (· ≤ ·) := by
  intro fuel
  induction fuel with
  | zero =>
    intro pre mid post hne hf _
    have := List.length_pos.2 hne
    omega
  | succ fuel ih =>
    intro pre mid post hne hf hmax
    have hpos := List.length_pos.2 hne
    unfold sortAndCount
    by_cases h1 : mid.length = 1
    · have hc : ((pre.length + mid.length : Nat) : Int) = (pre.length : Int) + 1 := by omega
      rw [if_pos hc]
      obtain ⟨x, rfl⟩ := List.length_eq_one.1 h1
      exact ⟨[x], rfl, List.Perm.refl _, List.sorted_singleton x⟩
    · have hc : ¬ ((pre.length + mid.length : Nat) : Int) = (pre.length : Int) + 1 := by omega
      rw [if_neg hc]
      have hh : mid.length / 2 < mid.length := by omega
      have hh0 : 0 < mid.length / 2 := by omega
      have hA0 : (mid.take (mid.length / 2)).length = mid.length / 2 := by
        simp; omega
      have hB0 : (mid.drop (mid.length / 2)).length = mid.length - mid.length / 2 := by
        simp
      have hAne : mid.take (mid.length / 2) ≠ [] := by
        intro h; rw [h] at hA0; simp at hA0; omega
      have hBne : mid.drop (mid.length / 2) ≠ [] := by
        intro h; rw [h] at hB0; simp at hB0; omega
      have hsplit : invCount mid = invCount (mid.take (mid.length / 2)) +
          invCount (mid.drop (mid.length / 2)) +
          cross (mid.take (mid.length / 2)) (mid.drop (mid.length / 2)) := by
        rw [← invCount_append, List.take_append_drop]
      have hv : pre ++ mid.take (mid.length / 2) ++ (mid.drop (mid.length / 2) ++ post) =
          pre ++ mid ++ post := by
        rw [List.append_assoc pre, ← List.append_assoc (mid.take _), List.take_append_drop,
          ← List.append_assoc]
      have hv' : pre ++ mid.take (mid.length / 2) ++ mid.drop (mid.length / 2) ++ post =
          pre ++ mid ++ post := by
        rw [List.append_assoc pre, List.take_append_drop]
      have e3 : ((pre.length + mid.length / 2 + (mid.length - mid.length / 2) : Nat) : Int) =
          ((pre.length + mid.length : Nat) : Int) := by
        congr 1; omega
      rcases ord with _ | _ | _ | _ | _ | _
      · -- left, right, merge
        obtain ⟨A, eA, pA, sA⟩ := ih pre (mid.take (mid.length / 2))
          (mid.drop (mid.length / 2) ++ post) hAne (by omega) (by omega)
        have hAlen : A.length = mid.length / 2 := by rw [pA.length_eq, hA0]
        obtain ⟨B, eB, pB, sB⟩ := ih (pre ++ A) (mid.drop (mid.length / 2)) post hBne
          (by omega) (by omega)
        have hcross := cross_perm pA pB
        obtain ⟨out, eM, pM, sM⟩ := mergeAndCount_spec pre A B post sA sB (pre.length : Int)
          ((pre.length + mid.length : Nat) : Int) ((pre.length + mid.length / 2 : Nat) : Int)
          rfl (by rw [hAlen]) (by rw [hAlen, pB.length_eq, hB0]; congr 1; omega)
          (by rw [hcross]; omega)
        have hv2 : pre ++ A ++ (mid.drop (mid.length / 2) ++ post) =
            pre ++ A ++ mid.drop (mid.length / 2) ++ post := by
          simp
        rw [hv, hA0, hv2] at eA
        rw [List.length_append, hAlen, hB0, e3] at eB
        have hsum := sumCounts_ok (a := ((invCount (mid.take (mid.length / 2)) : Nat) : Int))
          (b := ((invCount (mid.drop (mid.length / 2)) : Nat) : Int))
          (c := ((cross A B : Nat) : Int)) (by omega) (by omega) (by omega)
          (by rw [hcross]; omega)
        simp only [mid_eq, eA, eB, eM, hsum, dc_ok_bind, dc_pure_eq_ok]
        refine ⟨out, ?_, ?_, sM⟩
        · congr 2
          rw [hsplit, hcross]
          push_cast
          ring
        · have := pM.trans (pA.append pB)
          rwa [List.take_append_drop] at this
      · -- right, left, merge
        obtain ⟨B, eB, pB, sB⟩ := ih (pre ++ mid.take (mid.length / 2))
          (mid.drop (mid.length / 2)) post hBne (by omega) (by omega)
        obtain ⟨A, eA, pA, sA⟩ := ih pre (mid.take (mid.length / 2)) (B ++ post) hAne
          (by omega) (by omega)
        have hAlen : A.length = mid.length / 2 := by rw [pA.length_eq, hA0]
        have hcross := cross_perm pA pB
        obtain ⟨out, eM, pM, sM⟩ := mergeAndCount_spec pre A B post sA sB (pre.length : Int)
          ((pre.length + mid.length : Nat) : Int) ((pre.length + mid.length / 2 : Nat) : Int)
          rfl (by rw [hAlen]) (by rw [hAlen, pB.length_eq, hB0]; congr 1; omega)
          (by rw [hcross]; omega)
        rw [hv', List.length_append, hA0, hB0, e3] at eB
        have hv3 : pre ++ mid.take (mid.length / 2) ++ (B ++ post) =
            pre ++ mid.take (mid.length / 2) ++ B ++ post := by
          simp
        have hv4 : pre ++ A ++ (B ++ post) = pre ++ A ++ B ++ post := by
          simp
        rw [hv3, hA0, hv4] at eA
        have hsum := sumCounts_ok (a := ((invCount (mid.take (mid.length / 2)) : Nat) : Int))
          (b := ((invCount (mid.drop (mid.length / 2)) : Nat) : Int))
          (c := ((cross A B : Nat) : Int)) (by omega) (by omega) (by omega)
          (by rw [hcross]; omega)
        simp only [mid_eq, eA, eB, eM, hsum, dc_ok_bind, dc_pure_eq_ok]
        refine ⟨out, ?_, ?_, sM⟩
        · congr 2
          rw [hsplit, hcross]
          push_cast
          ring
        · have := pM.trans (pA.append pB)
          rwa [List.take_append_drop] at this
      · exact absurd hord (by decide)
      · exact absurd hord (by decide)
      · exact absurd hord (by decide)
      · exact absurd hord (by decide)

/-! ## `search` -/

theorem sizeMinusOne_small (n : Nat) (h : n < 2 ^ 31) : sizeMinusOne n = (n : Int) - 1 := by
  unfold sizeMinusOne toInt32
  omega

theorem mid_bounds (lo hi : Int) (h : lo ≤ hi) :
    lo ≤ lo + (hi - lo).tdiv 2 ∧ lo + (hi - lo).tdiv 2 ≤ hi := by
  rw [Int.tdiv_eq_ediv (by omega) (by omega)]
  omega

theorem searchLoop_spec (nums : List Int) (target : Int) (hs : nums.Sorted (· < ·)) :
    ∀ (fuel : Nat) (lo hi : Int), 0 ≤ lo → hi < nums.length → lo ≤ hi + 1 →
      (∀ (k : Nat) (x : Int), (k : Int) < lo → nums[k]? = some x → x < target) →
      (∀ (k : Nat) (x : Int), hi < (k : Int) → nums[k]? = some x → target < x) →
      hi + 1 - lo < fuel →
      ∃ r, searchLoop nums target fuel lo hi = .ok r ∧
        ((r = -1 ∧ target ∉ nums) ∨ ∃ i : Nat, r = (i : Int) ∧ nums[i]? = some target) := by
  intro fuel
  induction fuel with
  | zero =>
    intro lo hi _ _ _ _ _ hf
    omega
  | succ fuel ih =>
    intro lo hi hlo hhi hle hlow hhigh hf
    unfold searchLoop
    by_cases hc : lo ≤ hi
    · rw [if_pos hc]
      obtain ⟨hm1, hm2⟩ := mid_bounds lo hi hc
      generalize lo + (hi - lo).tdiv 2 = mid at hm1 hm2
      obtain ⟨k, rfl⟩ : ∃ k : Nat, mid = (k : Int) := ⟨mid.toNat, by omega⟩
      have hk : k < nums.length := by omega
      have hx : nums[k]? = some nums[k] := List.getElem?_eq_getElem hk
      simp only [readAt_ok rfl hx, dc_ok_bind]
      by_cases h1 : nums[k] = target
      · rw [if_pos h1]
        exact ⟨_, rfl, Or.inr ⟨k, rfl, by rw [hx, h1]⟩⟩
      · rw [if_neg h1]
        have hsorted := List.pairwise_iff_getElem.1 hs
        by_cases h2 : nums[k] < target
        · rw [if_pos h2]
          refine ih _ _ (by omega) hhi (by omega) ?_ hhigh (by omega)
          intro k' x hk' hx'
          have hk'' : k' < nums.length := by
            by_contra hc'
            rw [List.getElem?_eq_none (by omega)] at hx'
            cases hx'
          rw [List.getElem?_eq_getElem hk''] at hx'
          cases hx'
          by_cases hlt : k' < k
          · exact lt_trans (hsorted k' k hk'' hk hlt) h2
          · have : k' = k := by omega
            subst this
            exact h2
        · rw [if_neg h2]
          refine ih _ _ hlo (by omega) (by omega) hlow ?_ (by omega)
          intro k' x hk' hx'
          have hk'' : k' < nums.length := by
            by_contra hc'
            rw [List.getElem?_eq_none (by omega)] at hx'
            cases hx'
          rw [List.getElem?_eq_getElem hk''] at hx'
          cases hx'
          by_cases hlt : k < k'
          · have := hsorted k k' hk hk'' hlt
            omega
          · have : k' = k := by omega
            subst this
            omega
    · rw [if_neg hc]
      refine ⟨_, rfl, Or.inl ⟨rfl, ?_⟩⟩
      intro hmem
      obtain ⟨k, hk, e⟩ := List.getElem_of_mem hmem
      have hx : nums[k]? = some target := by rw [List.getElem?_eq_getElem hk, e]
      by_cases hlt : (k : Int) < lo
      · have := hlow k target hlt hx
        omega
      · have := hhigh k target (by omega) hx
        omega

/-- With a vector `v` of the size of `nums`, `search` is a binary search of `nums`. -/
theorem search_same_size (v nums : List Int) (target : Int) (hv : v.length = nums.length)
    (hn : nums.length < 2 ^ 31) (hs : nums.Sorted (· < ·)) :
    ∃ r, search v nums target = .ok r ∧
      ((r = -1 ∧ target ∉ nums) ∨ ∃ i : Nat, r = (i : Int) ∧ nums[i]? = some target) := by
  unfold search
  rw [sizeMinusOne_small _ (by omega), hv]
  refine searchLoop_spec nums target hs _ 0 _ (by omega) (by omega) (by omega) ?_ ?_ (by omega)
  · intro k x hk
    omega
  · intro k x hk hx
    rw [List.getElem?_eq_none (by omega)] at hx
    cases hx

/-! ## The range of `int` -/

theorem invCount_le (xs : List Int) : 2 * invCount xs + xs.length ≤ xs.length * xs.length := by
  induction xs with
  | nil => simp [invCount]
  | cons x xs ih =>
    have hc : xs.countP (fun y => decide (y < x)) ≤ xs.length := List.countP_le_length _
    simp only [invCount, List.length_cons]
    nlinarith

/-- A window of at most 65536 elements has fewer than `2 ^ 31` inversions. -/
theorem invCount_lt_of_length (xs : List Int) (h : xs.length ≤ 65536) :
    invCount xs < 2 ^ 31 := by
  have h1 := invCount_le xs
  have h2 : xs.length * xs.length ≤ 65536 * xs.length := Nat.mul_le_mul_right _ h
  omega

theorem bind_ok {α β : Type} {x : Except Fault α} {f : α → Except Fault β} {y : β}
    (h : (x >>= f) = .ok y) : ∃ a, x = .ok a ∧ f a = .ok y := by
  cases x with
  | error e => cases h
  | ok a => exact ⟨a, rfl, h⟩

/-- A count that `sortAndCount` returns is in the range of `int`, in every order of
evaluation. -/
theorem sortAndCount_le (ord : EvalOrder) (fuel : Nat) (v : List Int) (l r : Int)
    {v' : List Int} {c : Int} (h : sortAndCount ord fuel v l r = .ok (v', c)) :
    c ≤ INT_MAX := by
  cases fuel with
  | zero => cases h
  | succ fuel =>
    unfold sortAndCount at h
    split at h
    · cases h; decide
    · rcases ord with _ | _ | _ | _ | _ | _ <;>
      · obtain ⟨⟨v1, a⟩, -, h⟩ := bind_ok h
        obtain ⟨⟨v2, b⟩, -, h⟩ := bind_ok h
        obtain ⟨⟨v3, d⟩, -, h⟩ := bind_ok h
        obtain ⟨s, hs, h⟩ := bind_ok h
        cases h
        exact sumCounts_le hs

theorem mem_descending {n : Nat} {x : Int} (h : x ∈ descending n) : x < (n : Int) := by
  induction n with
  | zero => simp [descending] at h
  | succ n ih =>
    simp only [descending, List.mem_cons] at h
    rcases h with rfl | h
    · omega
    · have := ih h
      omega

theorem length_descending (n : Nat) : (descending n).length = n := by
  induction n with
  | zero => rfl
  | succ n ih => simp [descending, ih]

/-- The vector `n-1, ..., 0` has `n (n - 1) / 2` inversions. -/
theorem invCount_descending (n : Nat) : 2 * invCount (descending n) + n = n * n := by
  induction n with
  | zero => rfl
  | succ n ih =>
    have hc : (descending n).countP (fun y => decide (y < (n : Int))) = n := by
      have hall : (descending n).countP (fun y => decide (y < (n : Int))) =
          (descending n).length :=
        List.countP_eq_length.2 fun y hy => by simpa using mem_descending hy
      rw [hall, length_descending]
    simp only [descending, invCount, hc]
    nlinarith

theorem inversions_descending (n : Nat) : 2 * inversions (descending n) 0 n + n = n * n := by
  have h := inversions_eq_invCount (descending n)
  rw [length_descending] at h
  rw [h]
  exact invCount_descending n

/-! ## The claims on `sortAndCount` and `search` -/

/-- C18 (as stated, refuted): the vector `65536, 65535, ..., 0` of 65537 elements has
`2147516416` inversions, more than the largest `int`, so that `sortAndCount`, which
returns an `int`, does not return their number, in whatever order its operands are
evaluated. And on the vector `3, 2, 1`, which has three inversions, an implementation
that evaluates the operands of the `return` expression from right to left (the merge
before the recursive calls) returns `2`. -/
theorem sortAndCount_misses_inversions :
    (inversions (descending 65537) 0 65537 = 2147516416 ∧
      (0 < 65537 ∧ 65537 ≤ (descending 65537).length) ∧
      ¬ ∃ ord fuel v', sortAndCount ord fuel (descending 65537) ((0 : Nat) : Int)
          ((65537 : Nat) : Int) =
        .ok (v', ((inversions (descending 65537) 0 65537 : Nat) : Int))) ∧
    (inversions [3, 2, 1] 0 3 = 3 ∧
      sortAndCount .mergeRightLeft 3 [3, 2, 1] 0 3 = .ok ([2, 1, 3], 2)) := by
  have hinv : inversions (descending 65537) 0 65537 = 2147516416 := by
    have := inversions_descending 65537
    omega
  refine ⟨⟨hinv, ⟨by omega, by rw [length_descending]⟩, ?_⟩, by decide, by decide⟩
  rintro ⟨ord, fuel, v', h⟩
  have hle := sortAndCount_le ord fuel _ _ _ h
  rw [hinv] at hle
  simp only [INT_MAX] at hle
  omega

/-- C18 (amended): for a vector `v` and bounds `0 ≤ l < r ≤ |v|` such that the window
has at most 65536 elements, or has fewer than `2 ^ 31` inversions, on an implementation
that evaluates both recursive calls of the `return` expression before `mergeAndCount`,
`sortAndCount v l r` returns the number of index pairs `l ≤ i < j < r` with
`v[i] > v[j]`; a recursion depth of `r - l` is enough. -/
theorem sortAndCount_counts_inversions (ord : EvalOrder) (hord : ord.mergeLast = true)
    (v : List Int) (l r : Nat) (hl : l < r) (hr : r ≤ v.length)
    (hsize : r - l ≤ 65536 ∨ inversions v l r < 2 ^ 31) (fuel : Nat) (hf : r - l ≤ fuel) :
    ∃ v', sortAndCount ord fuel v (l : Int) (r : Int) =
      .ok (v', ((inversions v l r : Nat) : Int)) := by
  have hv : v = v.take l ++ (v.drop l).take (r - l) ++ (v.drop l).drop (r - l) := by
    rw [List.append_assoc, List.take_append_drop, List.take_append_drop]
  have h1 : (v.take l).length = l := by simp; omega
  have h2 : ((v.drop l).take (r - l)).length = r - l := by simp; omega
  have hw := inversions_window (v.take l) ((v.drop l).take (r - l)) ((v.drop l).drop (r - l))
  have e3 : l + (r - l) = r := by omega
  rw [← hv, h1, h2, e3] at hw
  have hcount : invCount ((v.drop l).take (r - l)) < 2 ^ 31 := by
    rcases hsize with h | h
    · exact invCount_lt_of_length _ (by rw [h2]; exact h)
    · rw [← hw]; exact h
  obtain ⟨mid', e, _, _⟩ := sortAndCount_spec ord hord fuel (v.take l)
    ((v.drop l).take (r - l)) ((v.drop l).drop (r - l))
    (by intro h; rw [h] at h2; simp at h2; omega) (by omega) (by exact_mod_cast hcount)
  rw [← hv, h1, h2, e3] at e
  exact ⟨_, by rw [e, hw]⟩

theorem sortAndCount_counts_inversions_witness :
    (EvalOrder.leftRightMerge.mergeLast = true ∧ 0 < 5 ∧ 5 ≤ [3, 1, 2, 5, 4].length ∧
        (5 - 0 ≤ 65536 ∨ inversions [3, 1, 2, 5, 4] 0 5 < 2 ^ 31) ∧ 5 - 0 ≤ 5) ∧
      sortAndCount .leftRightMerge 5 [3, 1, 2, 5, 4] 0 5 = .ok ([1, 2, 3, 4, 5], 3) ∧
      ∃ v', sortAndCount .leftRightMerge 5 [3, 1, 2, 5, 4] ((0 : Nat) : Int)
          ((5 : Nat) : Int) =
        .ok (v', ((inversions [3, 1, 2, 5, 4] 0 5 : Nat) : Int)) :=
  ⟨⟨by decide, by decide, by decide, Or.inl (by decide), by decide⟩, by decide,
    sortAndCount_counts_inversions .leftRightMerge (by decide) [3, 1, 2, 5, 4] 0 5 (by decide)
      (by decide) (Or.inl (by decide)) 5 (by decide)⟩

/-- C19: on the empty vector the call `sortAndCount(v, 0, v.size())` does not return, in
whatever order the operands of the `return` expression are evaluated: the test
`r == l + 1` fails, `m` is `0`, `mergeAndCount` (where it comes first) returns at once,
and the first recursive call is the same call again, whatever the depth allowed. -/
theorem sortAndCount_empty_no_return (ord : EvalOrder) (fuel : Nat) :
    sortAndCount ord fuel [] 0 ((([] : List Int).length : Nat) : Int) = .error .outOfFuel := by
  show sortAndCount ord fuel [] 0 0 = .error .outOfFuel
  induction fuel with
  | zero => rfl
  | succ fuel ih =>
    unfold sortAndCount
    have hc : ¬ ((0 : Int) = 0 + 1) := by decide
    rw [if_neg hc]
    have hm : (0 : Int) + ((0 : Int) - 0).tdiv 2 = 0 := by decide
    have hmerge : mergeAndCount [] 0 0 0 = .ok ([], 0) := by decide
    rcases ord with _ | _ | _ | _ | _ | _ <;> simp only [hm, hmerge, ih, dc_ok_bind] <;> rfl

/-- C20: `search` takes its upper bound from `v.size()`, where `v` is not its parameter
`nums`: with an empty `v` the target `5` is not found in `[5]`, and with a longer `v` the
search reads `nums` out of range. -/
theorem search_uses_other_vector :
    search [] [5] 5 = .ok (-1) ∧ search [1, 2, 3] [5] 7 = .error (.outOfRange 1) := by
  constructor <;> decide

end DivideAndConquer

namespace DirectedGraph

/-! ## Reads, writes and the count of incoming edges -/

@[simp] theorem ts_ok_bind {α β : Type} (a : α) (f : α → Except Fault β) :
    (Except.ok a >>= f) = f a := rfl

@[simp] theorem ts_pure_eq_ok {α : Type} (a : α) : (pure a : Except Fault α) = Except.ok a :=
  rfl

theorem ts_readAt_ok {a : List Int} {i : Nat} {x : Int} (h : a[i]? = some x) :
    readAt a i = .ok x := by
  simp [readAt, h]

theorem ts_writeAt_ok {a : List Int} {i : Nat} (x : Int) (h : i < a.length) :
    writeAt a i x = .ok (a.set i x) := by
  simp [writeAt, h]

theorem get_set_int {a : List Int} {i : Nat} (x : Int) (v : Nat) (h : i < a.length) :
    (a.set i x)[v]? = if v = i then some x else a[v]? := by
  by_cases hv : v = i
  · subst hv
    simp [h]
  · rw [if_neg hv, List.getElem?_set_ne (fun e => hv e.symm)]

theorem adj_ok {l : Graph} {i : Nat} (h : i < l.length) : adj l i = .ok (l.getD i []) := by
  simp [adj, List.getElem?_eq_getElem h, List.getD_eq_getElem?_getD]

theorem Edge.lt_left {l : Graph} {u v : Nat} (h : Edge l u v) : u < l.length := by
  obtain ⟨row, hrow, -⟩ := h
  by_contra hc
  rw [List.getElem?_eq_none (by omega)] at hrow
  cases hrow

theorem Edge.lt_right {l : Graph} (hl : ∀ row ∈ l, ∀ v ∈ row, v < l.length) {u v : Nat}
    (h : Edge l u v) : v < l.length := by
  obtain ⟨row, hrow, hv⟩ := h
  exact hl row (List.getElem?_mem hrow) v hv

theorem edge_iff {l : Graph} {u v : Nat} (hu : u < l.length) :
    Edge l u v ↔ v ∈ l.getD u [] := by
  unfold Edge
  rw [List.getD_eq_getElem?_getD, List.getElem?_eq_getElem hu]
  simp

/-- The sum of a function over the rows of a list is the sum over its indices. -/
theorem sum_rows (f : List Nat → Nat) :
    ∀ l : Graph, (l.map f).sum = ∑ u ∈ Finset.range l.length, f (l.getD u []) := by
  intro l
  induction l with
  | nil => simp
  | cons x xs ih =>
    rw [List.map_cons, List.sum_cons, List.length_cons, Finset.sum_range_succ', ih]
    simp [add_comm]

theorem indeg_nil (l : Graph) (v : Nat) : indeg l [] v = (l.map (List.count v)).sum := by
  unfold indeg
  rw [sum_rows]
  simp

/-- Placing `cur` takes its edges out of the count. -/
theorem indeg_snoc (l : Graph) (done : List Nat) {cur : Nat} (hc : cur < l.length)
    (hnot : cur ∉ done) (v : Nat) :
    indeg l done v = indeg l (done ++ [cur]) v + (l.getD cur []).count v := by
  unfold indeg
  have e : (Finset.range l.length).filter (fun u => u ∉ done) =
      insert cur ((Finset.range l.length).filter (fun u => u ∉ done ++ [cur])) := by
    ext u
    simp only [Finset.mem_filter, Finset.mem_range, Finset.mem_insert, List.mem_append,
      List.mem_singleton, not_or]
    constructor
    · rintro ⟨h1, h2⟩
      by_cases hu : u = cur
      · exact Or.inl hu
      · exact Or.inr ⟨h1, h2, hu⟩
    · rintro (h | ⟨h1, h2, -⟩)
      · rw [h]
        exact ⟨hc, hnot⟩
      · exact ⟨h1, h2⟩
  rw [e, Finset.sum_insert (by simp), add_comm]

theorem indeg_pos {l : Graph} {done : List Nat} {v : Nat} (h : indeg l done v ≠ 0) :
    ∃ u, u ∉ done ∧ Edge l u v := by
  unfold indeg at h
  obtain ⟨u, hu, hne⟩ := Finset.exists_ne_zero_of_sum_ne_zero h
  simp only [Finset.mem_filter, Finset.mem_range] at hu
  refine ⟨u, hu.2, (edge_iff hu.1).2 ?_⟩
  exact List.count_pos_iff.1 (Nat.pos_of_ne_zero hne)

theorem indeg_zero {l : Graph} {done : List Nat} {v : Nat} (h : indeg l done v = 0) {u : Nat}
    (he : Edge l u v) : u ∈ done := by
  by_contra hc
  unfold indeg at h
  have hu := he.lt_left
  have := (Finset.sum_eq_zero_iff.1 h) u (by simp [hu, hc])
  rw [List.count_eq_zero] at this
  exact this ((edge_iff hu).1 he)

/-! ## The preprocessing -/

theorem countRow_spec :
    ∀ (row : List Nat) (a : List Int), (∀ v ∈ row, v < a.length) →
      ∃ a', countRow row a = .ok a' ∧ a'.length = a.length ∧
        ∀ v, a'[v]? = (a[v]?).map (fun x : Int => x + ((row.count v : Nat) : Int)) := by
  intro row
  induction row with
  | nil =>
    intro a _
    exact ⟨a, rfl, rfl, fun v => by cases a[v]? <;> simp⟩
  | cons node rest ih =>
    intro a hrow
    have hn : node < a.length := hrow node (List.mem_cons_self _ _)
    unfold countRow
    simp only [ts_readAt_ok (List.getElem?_eq_getElem hn), ts_ok_bind, ts_writeAt_ok _ hn]
    obtain ⟨a', e, hlen, hget⟩ := ih (a.set node (a[node] + 1))
      (by intro v hv; simpa using hrow v (List.mem_cons_of_mem _ hv))
    refine ⟨a', e, by simpa using hlen, ?_⟩
    intro v
    rw [hget v, get_set_int _ _ hn]
    by_cases hv : v = node
    · subst hv
      simp only [if_true, List.getElem?_eq_getElem hn, Option.map_some', List.count_cons_self]
      congr 1
      push_cast
      ring
    · rw [if_neg hv, List.count_cons_of_ne hv]

theorem countAll_spec :
    ∀ (rows : List (List Nat)) (a : List Int), (∀ row ∈ rows, ∀ v ∈ row, v < a.length) →
      ∃ a', countAll rows a = .ok a' ∧ a'.length = a.length ∧
        ∀ v, a'[v]? = (a[v]?).map (fun x : Int => x + (((rows.map (List.count v)).sum : Nat) : Int)) := by
  intro rows
  induction rows with
  | nil =>
    intro a _
    exact ⟨a, rfl, rfl, fun v => by cases a[v]? <;> simp⟩
  | cons row rows ih =>
    intro a hrows
    obtain ⟨a1, e1, hlen1, hget1⟩ := countRow_spec row a (hrows row (List.mem_cons_self _ _))
    obtain ⟨a2, e2, hlen2, hget2⟩ := ih a1
      (by intro r hr v hv; rw [hlen1]; exact hrows r (List.mem_cons_of_mem _ hr) v hv)
    unfold countAll
    simp only [e1, ts_ok_bind, e2]
    refine ⟨a2, rfl, by rw [hlen2, hlen1], ?_⟩
    intro v
    rw [hget2 v, hget1 v]
    cases a[v]? with
    | none => rfl
    | some x =>
      simp only [Option.map_some', List.map_cons, List.sum_cons]
      congr 1
      push_cast
      ring

theorem pushLeading_spec (a : List Int) :
    ∀ (is q : List Nat), (∀ i ∈ is, i < a.length) →
      pushLeading a is q = .ok (q ++ is.filter (fun i => decide (a.getD i 1 = 0))) := by
  intro is
  induction is with
  | nil =>
    intro q _
    simp [pushLeading]
  | cons i rest ih =>
    intro q his
    have hi : i < a.length := his i (List.mem_cons_self _ _)
    unfold pushLeading
    simp only [ts_readAt_ok (List.getElem?_eq_getElem hi), ts_ok_bind]
    have hd : a[i]?.getD 1 = a[i] := by
      rw [List.getElem?_eq_getElem hi]
      rfl
    by_cases h0 : a[i] = 0
    · rw [if_pos h0, ih _ (fun j hj => his j (List.mem_cons_of_mem _ hj))]
      simp [List.filter_cons, hd, h0]
    · rw [if_neg h0, ih _ (fun j hj => his j (List.mem_cons_of_mem _ hj))]
      simp [List.filter_cons, hd, h0]

/-! ## The extraction -/

theorem relax_spec (l : Graph) (done : List Nat) :
    ∀ (row : List Nat) (a : List Int) (Q known : List Nat),
      (∀ v ∈ row, v < l.length) → a.length = l.length →
      (∀ v, v < l.length → a[v]? = some ((indeg l done v + row.count v : Nat) : Int)) →
      known.Nodup →
      (∀ v, v < l.length → (v ∈ known ↔ indeg l done v + row.count v = 0)) →
      ∃ a' pushed, relax row a Q = .ok (a', Q ++ pushed) ∧ a'.length = l.length ∧
        (∀ v, v < l.length → a'[v]? = some ((indeg l done v : Nat) : Int)) ∧
        (known ++ pushed).Nodup ∧
        (∀ v, v < l.length → (v ∈ known ++ pushed ↔ indeg l done v = 0)) ∧
        ∀ v ∈ pushed, v < l.length := by
  intro row
  induction row with
  | nil =>
    intro a Q known _ hlen hcount hnd hzero
    exact ⟨a, [], by simp [relax], hlen, by simpa using hcount, by simpa using hnd,
      by simpa using hzero, fun v hv => absurd hv (List.not_mem_nil _)⟩
  | cons node rest ih =>
    intro a Q known hrow hlen hcount hnd hzero
    have hn : node < l.length := hrow node (List.mem_cons_self _ _)
    have hna : node < a.length := by rw [hlen]; exact hn
    have hrest : ∀ v ∈ rest, v < l.length := fun v hv => hrow v (List.mem_cons_of_mem _ hv)
    have hread := hcount node hn
    rw [List.count_cons_self] at hread
    have hnk : node ∉ known := by
      intro hmem
      have := (hzero node hn).1 hmem
      rw [List.count_cons_self] at this
      omega
    have hcount1 : ∀ v, v < l.length →
        (a.set node (((indeg l done node + (rest.count node + 1) : Nat) : Int) - 1))[v]? =
          some ((indeg l done v + rest.count v : Nat) : Int) := by
      intro v hv
      rw [get_set_int _ _ hna]
      by_cases hvn : v = node
      · rw [if_pos hvn, hvn]
        congr 1
        push_cast
        ring
      · rw [if_neg hvn, hcount v hv, List.count_cons_of_ne hvn]
    unfold relax
    simp only [ts_readAt_ok hread, ts_ok_bind, ts_writeAt_ok _ hna, ts_readAt_ok (hcount1 node hn)]
    by_cases hy : ((indeg l done node + rest.count node : Nat) : Int) = 0
    · rw [if_pos hy]
      have hy' : indeg l done node + rest.count node = 0 := by exact_mod_cast hy
      obtain ⟨a', pushed, e, h1, h2, h3, h4, h5⟩ := ih _ (Q ++ [node]) (known ++ [node]) hrest
        (by simpa using hlen) hcount1
        (by
          rw [List.nodup_append]
          refine ⟨hnd, List.nodup_singleton _, ?_⟩
          intro x hx1 hx2
          simp at hx2
          subst hx2
          exact hnk hx1)
        (by
          intro v hv
          by_cases hvn : v = node
          · subst hvn
            simp [hy']
          · have := hzero v hv
            rw [List.count_cons_of_ne hvn] at this
            simp [hvn, this])
      refine ⟨a', node :: pushed, by rw [e]; simp, h1, h2, by simpa using h3, ?_, ?_⟩
      · intro v hv
        rw [← h4 v hv]
        simp
      · intro v hv
        rcases List.mem_cons.1 hv with rfl | hv
        · exact hn
        · exact h5 v hv
    · rw [if_neg hy]
      have hy' : indeg l done node + rest.count node ≠ 0 := by
        intro e
        apply hy
        exact_mod_cast e
      obtain ⟨a', pushed, e, h1, h2, h3, h4, h5⟩ := ih _ Q known hrest
        (by simpa using hlen) hcount1 hnd
        (by
          intro v hv
          by_cases hvn : v = node
          · subst hvn
            simp [hy', hnk]
          · have := hzero v hv
            rw [List.count_cons_of_ne hvn] at this
            exact this)
      exact ⟨a', pushed, e, h1, h2, h3, h4, h5⟩

theorem length_le_of_nodup_bound {n : Nat} {L : List Nat} (hnd : L.Nodup)
    (hb : ∀ v ∈ L, v < n) : L.length ≤ n := by
  have hsub : L ⊆ List.range n := fun x hx => List.mem_range.2 (hb x hx)
  have := (List.subperm_of_subset hnd hsub).length_le
  simpa using this

/-- One iteration of the `while` loop keeps the invariant, and the loop ends with an
empty queue. -/
theorem extractLoop_spec (l : Graph) (hl : ∀ row ∈ l, ∀ v ∈ row, v < l.length) :
    ∀ (fuel : Nat) (order q : List Nat) (a : List Int), ExtractInv l order q a →
      l.length + 1 ≤ fuel + order.length →
      ∃ order' a', extractLoop l fuel order a q = .ok order' ∧ ExtractInv l order' [] a' := by
  intro fuel
  induction fuel with
  | zero =>
    intro order q a inv hf
    exfalso
    have := length_le_of_nodup_bound inv.nodup inv.bound
    simp at this
    omega
  | succ fuel ih =>
    intro order q a inv hf
    unfold extractLoop
    cases q with
    | nil => exact ⟨order, a, rfl, inv⟩
    | cons cur rest =>
      have hcur : cur < l.length := inv.bound cur (by simp)
      have hnot : cur ∉ order := by
        have := inv.nodup
        rw [List.nodup_append] at this
        exact fun hmem => this.2.2 hmem (List.mem_cons_self _ _)
      have hrow : ∀ v ∈ l.getD cur [], v < l.length := by
        intro v hv
        exact Edge.lt_right hl ((edge_iff hcur).2 hv)
      obtain ⟨a', pushed, e, h1, h2, h3, h4, h5⟩ := relax_spec l (order ++ [cur])
        (l.getD cur []) a (cur :: rest) (order ++ cur :: rest) hrow inv.len
        (by
          intro v hv
          rw [inv.count v hv, indeg_snoc l order hcur hnot v])
        inv.nodup
        (by
          intro v hv
          rw [inv.zero v hv, indeg_snoc l order hcur hnot v])
      simp only [adj_ok hcur, ts_ok_bind, e, List.cons_append, List.tail_cons]
      have hzero_cur : indeg l order cur = 0 := (inv.zero cur hcur).1 (by simp)
      apply ih (order ++ [cur]) (rest ++ pushed) a' _ (by simp; omega)
      have hperm : order ++ [cur] ++ (rest ++ pushed) = (order ++ cur :: rest) ++ pushed := by
        simp
      refine ⟨h1, by rw [hperm]; exact h3, ?_, h2, ?_, ?_⟩
      · intro v hv
        rw [hperm] at hv
        rcases List.mem_append.1 hv with h | h
        · exact inv.bound v h
        · exact h5 v h
      · intro v hv
        rw [hperm]
        exact h4 v hv
      · intro u v he hv
        rcases List.mem_append.1 hv with h | h
        · obtain ⟨hu, hlt⟩ := inv.sorted u v he h
          refine ⟨List.mem_append_left _ hu, ?_⟩
          rw [List.indexOf_append_of_mem hu, List.indexOf_append_of_mem h]
          exact hlt
        · simp only [List.mem_singleton] at h
          subst h
          have hu : u ∈ order := indeg_zero hzero_cur he
          refine ⟨List.mem_append_left _ hu, ?_⟩
          rw [List.indexOf_append_of_mem hu, List.indexOf_append_of_not_mem hnot]
          have := List.indexOf_lt_length.2 hu
          simp
          omega

/-! ## The result of `topologicalOrder` -/

theorem extract_init (l : Graph) (hl : ∀ row ∈ l, ∀ v ∈ row, v < l.length) :
    ∃ a q, countAll l (List.replicate l.length 0) = .ok a ∧
      pushLeading a (List.range l.length) [] = .ok q ∧ ExtractInv l [] q a := by
  obtain ⟨a, e, hlen, hget⟩ := countAll_spec l (List.replicate l.length 0)
    (by intro row hrow v hv; simpa using hl row hrow v hv)
  have hlen' : a.length = l.length := by simpa using hlen
  have hcount : ∀ v, v < l.length → a[v]? = some ((indeg l [] v : Nat) : Int) := by
    intro v hv
    rw [hget v, indeg_nil]
    simp [List.getElem?_replicate, hv]
  have hq := pushLeading_spec a (List.range l.length) []
    (by intro i hi; rw [hlen']; exact List.mem_range.1 hi)
  refine ⟨a, _, e, hq, hlen', ?_, ?_, hcount, ?_, ?_⟩
  · simpa using (List.nodup_range _).filter _
  · intro v hv
    simp only [List.nil_append, List.mem_filter, List.mem_range] at hv
    exact hv.1
  · intro v hv
    simp only [List.nil_append, List.mem_filter, List.mem_range, hv, true_and,
      decide_eq_true_eq]
    rw [List.getD_eq_getElem?_getD, hcount v hv]
    simp
  · intro u v _ hv
    exact absurd hv (List.not_mem_nil _)

/-- When the extraction has placed every node, the graph has no cycle. -/
theorem no_cycle_of_sorted {l : Graph} (hl : ∀ row ∈ l, ∀ v ∈ row, v < l.length)
    {order : List Nat} (hall : ∀ v, v < l.length → v ∈ order)
    (hs : ∀ u v, Edge l u v → v ∈ order → u ∈ order ∧ order.indexOf u < order.indexOf v) :
    ¬ HasCycle l := by
  have key : ∀ u v, Relation.TransGen (Edge l) u v → order.indexOf u < order.indexOf v := by
    intro u v h
    induction h with
    | single he => exact (hs _ _ he (hall _ (he.lt_right hl))).2
    | tail _ he ih => exact lt_trans ih (hs _ _ he (hall _ (he.lt_right hl))).2
  rintro ⟨v, hv⟩
  exact lt_irrefl _ (key v v hv)

/-- When the extraction stops before it has placed every node, the graph has a cycle:
every node that is left has an edge from a node that is left. -/
theorem cycle_of_stuck {l : Graph} {order : List Nat} {w : Nat} (hw : w < l.length)
    (hwo : w ∉ order)
    (hpre : ∀ v, v < l.length → v ∉ order → ∃ u, u ∉ order ∧ Edge l u v) : HasCycle l := by
  by_contra hno
  have hirr : IsIrrefl (Fin l.length) (fun x y => Relation.TransGen (Edge l) x.val y.val) :=
    ⟨fun x hx => hno ⟨x.val, hx⟩⟩
  have htr : IsTrans (Fin l.length) (fun x y => Relation.TransGen (Edge l) x.val y.val) :=
    ⟨fun _ _ _ h1 h2 => Relation.TransGen.trans h1 h2⟩
  have hwf : WellFounded (fun x y : Fin l.length => Relation.TransGen (Edge l) x.val y.val) :=
    Finite.wellFounded_of_trans_of_irrefl _
  obtain ⟨m, hm, hmin⟩ := hwf.has_min {x : Fin l.length | x.val ∉ order} ⟨⟨w, hw⟩, hwo⟩
  obtain ⟨u, hu, he⟩ := hpre m.val m.isLt hm
  exact hmin ⟨u, he.lt_left⟩ hu (Relation.TransGen.single he)

/-- C21: for every graph `l` given as adjacency lists over the nodes `0..n-1` with
`n ≥ 1`, `topologicalOrder l` returns the empty vector if and only if `l` contains a
directed cycle; when `l` has no cycle it returns a permutation of `0..n-1` in which `u`
comes before `v` for every edge `u -> v`. -/
theorem topologicalOrder_empty_iff_cycle (l : Graph) (hn : 1 ≤ l.length)
    (hl : ∀ row ∈ l, ∀ v ∈ row, v < l.length) :
    ∃ r, topologicalOrder l = .ok r ∧ (r = [] ↔ HasCycle l) ∧
      (¬ HasCycle l → r.Perm (List.range l.length) ∧
        ∀ u v, Edge l u v → r.indexOf u < r.indexOf v) := by
  obtain ⟨a, q, e1, e2, inv0⟩ := extract_init l hl
  obtain ⟨order, a', e3, inv⟩ := extractLoop_spec l hl (l.length + 1) [] q a inv0 (by simp)
  have hnd : order.Nodup := by simpa using inv.nodup
  have hb : ∀ v ∈ order, v < l.length := fun v hv => inv.bound v (by simpa using hv)
  have hle := length_le_of_nodup_bound hnd hb
  unfold topologicalOrder
  simp only [e1, ts_ok_bind, e2, e3]
  by_cases hlt : order.length < l.length
  · rw [if_pos hlt]
    have hcyc : HasCycle l := by
      have hex : ∃ w, w < l.length ∧ w ∉ order := by
        by_contra hc
        have hsub : List.range l.length ⊆ order := by
          intro x hx
          by_contra hxo
          exact hc ⟨x, List.mem_range.1 hx, hxo⟩
        have := (List.subperm_of_subset (List.nodup_range _) hsub).length_le
        simp at this
        omega
      obtain ⟨w, hw, hwo⟩ := hex
      apply cycle_of_stuck hw hwo
      intro v hv hvo
      apply indeg_pos
      intro h0
      exact hvo (by simpa using (inv.zero v hv).2 h0)
    exact ⟨[], rfl, ⟨fun _ => hcyc, fun _ => rfl⟩, fun hno => absurd hcyc hno⟩
  · rw [if_neg hlt]
    have hlen : order.length = l.length := by omega
    have hperm : order.Perm (List.range l.length) := by
      have hsub : order ⊆ List.range l.length := fun x hx => List.mem_range.2 (hb x hx)
      exact (List.subperm_of_subset hnd hsub).perm_of_length_le (by simp [hlen])
    have hall : ∀ v, v < l.length → v ∈ order := fun v hv =>
      hperm.mem_iff.2 (List.mem_range.2 hv)
    have hno : ¬ HasCycle l := no_cycle_of_sorted hl hall inv.sorted
    refine ⟨order, rfl, ⟨?_, fun h => absurd h hno⟩, fun _ => ⟨hperm, ?_⟩⟩
    · intro h
      rw [h] at hlen
      simp at hlen
      omega
    · intro u v he
      exact (inv.sorted u v he (hall v (he.lt_right hl))).2

theorem topologicalOrder_empty_iff_cycle_witness :
    (1 ≤ [[1, 2], [3], [3], []].length ∧
      ∀ row ∈ [[1, 2], [3], [3], []], ∀ v ∈ row, v < [[1, 2], [3], [3], []].length) ∧
      topologicalOrder [[1, 2], [3], [3], []] = .ok [0, 1, 2, 3] ∧
      ∃ r, topologicalOrder [[1, 2], [3], [3], []] = .ok r ∧
        (r = [] ↔ HasCycle [[1, 2], [3], [3], []]) ∧
        (¬ HasCycle [[1, 2], [3], [3], []] →
          r.Perm (List.range [[1, 2], [3], [3], []].length) ∧
          ∀ u v, Edge [[1, 2], [3], [3], []] u v → r.indexOf u < r.indexOf v) :=
  ⟨⟨by decide, by decide⟩, by decide,
    topologicalOrder_empty_iff_cycle [[1, 2], [3], [3], []] (by decide) (by decide)⟩

end DirectedGraph

namespace Greedy

/-- C22: `getMaxSchedule` does not always select a largest conflict-free set. On the one
event `(-5, -3)` it selects nothing, because the start `-5` is below the initial
`lastEnd = -1`, although the event alone is a conflict-free set. On the events `(3, 3)`,
`(1, 3)`, which the sort leaves in this order, it selects only `(3, 3)`, although the two
events do not conflict. -/
theorem getMaxSchedule_not_maximum :
    (getMaxSchedule [(-5, -3)] = [] ∧ ConflictFree [(-5, -3)] [(-5, -3)]) ∧
      (getMaxSchedule [(3, 3), (1, 3)] = [(3, 3)] ∧
        ConflictFree [(3, 3), (1, 3)] [(1, 3), (3, 3)]) := by
  refine ⟨⟨by decide, List.Subperm.refl _, by simp⟩, by decide, ?_, ?_⟩
  · exact (List.Perm.swap _ _ _).subperm
  · simp [NonConflicting]

end Greedy

namespace GaleShapley

/-! ## Accesses -/

@[simp] theorem gs_ok_bind {α β : Type} (a : α) (f : α → Except Fault β) :
    (Except.ok a >>= f) = f a := rfl

@[simp] theorem gs_pure_eq_ok {α : Type} (a : α) : (pure a : Except Fault α) = Except.ok a :=
  rfl

theorem getI_nat {α : Type} (l : List α) (k : Nat) : getI l (k : Int) = l[k]? := by
  simp [getI]

theorem getI_eq {α : Type} {l : List α} {k : Int} (h : 0 ≤ k) : getI l k = l[k.toNat]? := by
  simp [getI, h]

theorem getI_some {α : Type} {l : List α} {k : Int} {x : α} (h : getI l k = some x) :
    0 ≤ k ∧ l[k.toNat]? = some x := by
  unfold getI at h
  by_cases hk : 0 ≤ k
  · rw [if_pos hk] at h
    exact ⟨hk, h⟩
  · rw [if_neg hk] at h
    cases h

theorem vecAt_ok {α : Type} {l : List α} {k : Int} {x : α} (h : getI l k = some x) :
    vecAt l k = .ok x := by
  simp [vecAt, h]

theorem setAt_ok {α : Type} {l : List α} {k : Int} (x : α) (h0 : 0 ≤ k)
    (h : k.toNat < l.length) : setAt l k x = .ok (l.set k.toNat x) := by
  simp [setAt, h0, h]

theorem get_set_gen {α : Type} {l : List α} {i : Nat} (x : α) (k : Nat) (h : i < l.length) :
    (l.set i x)[k]? = if k = i then some x else l[k]? := by
  by_cases hk : k = i
  · subst hk
    simp [h]
  · rw [if_neg hk, List.getElem?_set_ne (fun e => hk e.symm)]

theorem lt_length_of_get {α : Type} {l : List α} {i : Nat} {x : α} (h : l[i]? = some x) :
    i < l.length := by
  by_contra hc
  rw [List.getElem?_eq_none (by omega)] at h
  cases h

/-- The sum of an integer function over a list after one entry is replaced. -/
theorem sum_map_set {α : Type} (f : α → Int) (x : α) :
    ∀ (l : List α) (i : Nat) (y : α), l[i]? = some y →
      ((l.set i x).map f).sum = (l.map f).sum - f y + f x := by
  intro l
  induction l with
  | nil =>
    intro i y h
    simp at h
  | cons a l ih =>
    intro i y h
    cases i with
    | zero =>
      simp only [List.getElem?_cons_zero, Option.some.injEq] at h
      subst h
      simp only [List.set_cons_zero, List.map_cons, List.sum_cons]
      omega
    | succ i =>
      simp only [List.getElem?_cons_succ] at h
      simp only [List.set_cons_succ, List.map_cons, List.sum_cons, ih i y h]
      omega

theorem sum_le_of_le {α : Type} (f : α → Int) (b : Int) :
    ∀ l : List α, (∀ x ∈ l, f x ≤ b) → (l.map f).sum ≤ (l.length : Int) * b := by
  intro l
  induction l with
  | nil => intro _; simp
  | cons a l ih =>
    intro h
    have h1 := h a (List.mem_cons_self _ _)
    have h2 := ih (fun x hx => h x (List.mem_cons_of_mem _ hx))
    simp only [List.map_cons, List.sum_cons, List.length_cons]
    push_cast
    nlinarith

theorem engagedCount_all (women : List Woman) (h : ∀ w ∈ women, w.partner ≠ -1) :
    engagedCount women = (women.length : Int) := by
  unfold engagedCount
  induction women with
  | nil => simp
  | cons a l ih =>
    have h1 := h a (List.mem_cons_self _ _)
    have h2 := ih (fun x hx => h x (List.mem_cons_of_mem _ hx))
    simp only [List.map_cons, List.sum_cons, List.length_cons, if_neg h1, h2]
    push_cast
    omega

theorem engagedCount_le (women : List Woman) : engagedCount women ≤ (women.length : Int) := by
  have := sum_le_of_le (fun w : Woman => if w.partner = -1 then (0 : Int) else 1) 1 women
    (by intro x _; simp only; split <;> omega)
  unfold engagedCount
  omega

/-! ## Preference lists -/

theorem mem_upTo {N : Nat} {k : Int} : k ∈ upTo N ↔ 0 ≤ k ∧ k < (N : Int) := by
  unfold upTo
  simp only [List.mem_map, List.mem_range]
  constructor
  · rintro ⟨a, ha, rfl⟩
    exact ⟨Int.ofNat_nonneg a, by exact_mod_cast ha⟩
  · rintro ⟨h1, h2⟩
    exact ⟨k.toNat, by omega, by simp [Int.toNat_of_nonneg h1]⟩

theorem upTo_length (N : Nat) : (upTo N).length = N := by
  simp [upTo]

theorem upTo_nodup (N : Nat) : (upTo N).Nodup := by
  unfold upTo
  exact (List.nodup_range N).map (fun a b h => by exact_mod_cast h)

/-- An entry of a list of all the women is a woman. -/
theorem perm_get {N : Nat} {l : List Int} (hp : l.Perm (upTo N)) {k : Nat} (hk : k < N) :
    ∃ j : Nat, j < N ∧ l[k]? = some (j : Int) := by
  have hlen : l.length = N := by rw [hp.length_eq, upTo_length]
  have hk' : k < l.length := by omega
  have hmem : l[k] ∈ upTo N := hp.mem_iff.1 (List.getElem_mem _)
  obtain ⟨h1, h2⟩ := mem_upTo.1 hmem
  refine ⟨l[k].toNat, by omega, ?_⟩
  rw [List.getElem?_eq_getElem hk', Int.toNat_of_nonneg h1]

/-- Every woman is an entry of a list of all the women. -/
theorem perm_index {N : Nat} {l : List Int} (hp : l.Perm (upTo N)) {j : Nat} (hj : j < N) :
    ∃ k : Nat, k < N ∧ l[k]? = some (j : Int) := by
  have hlen : l.length = N := by rw [hp.length_eq, upTo_length]
  have hmem : (j : Int) ∈ l := hp.mem_iff.2 (mem_upTo.2 ⟨by omega, by exact_mod_cast hj⟩)
  obtain ⟨k, hk⟩ := List.mem_iff_getElem?.1 hmem
  exact ⟨k, by have := lt_length_of_get hk; omega, hk⟩

/-! ## The state at the head of the loop -/

theorem GSInv.wlist_perm {N : Nat} {men0 men : List Man} {women0 women : List Woman}
    {free : List Int} (inv : GSInv N men0 women0 men women free)
    (hmen0 : ∀ m0 ∈ men0, m0.wList.Perm (upTo N)) {i : Nat} {mn : Man}
    (h : men[i]? = some mn) : mn.wList.Perm (upTo N) := by
  obtain ⟨⟨m0, hm0, e⟩, -⟩ := inv.mstatic i mn h
  rw [e]
  exact hmen0 m0 (List.getElem?_mem hm0)

theorem GSInv.plist {N : Nat} {men0 men : List Man} {women0 women : List Woman}
    {free : List Int} (inv : GSInv N men0 women0 men women free)
    (hwomen0 : ∀ w0 ∈ women0, w0.pList.length = N ∧ w0.pList.Nodup) {j : Nat} {wn : Woman}
    (h : women[j]? = some wn) : wn.pList.length = N ∧ wn.pList.Nodup := by
  obtain ⟨w0, hw0, e⟩ := inv.wstatic j wn h
  rw [e]
  exact hwomen0 w0 (List.getElem?_mem hw0)

/-- A free man has not yet proposed to every woman. -/
theorem GSInv.next_lt {N : Nat} {men0 men : List Man} {women0 women : List Woman}
    {cur : Int} {rest : List Int} (inv : GSInv N men0 women0 men women (cur :: rest))
    (hmen0 : ∀ m0 ∈ men0, m0.wList.Perm (upTo N)) {c : Nat} {mn : Man}
    (h : men[c]? = some mn) : mn.next < (N : Int) := by
  by_contra hc
  have hle := (inv.mstatic c mn h).2.2
  have hall : ∀ w ∈ women, w.partner ≠ -1 := by
    intro w hw
    obtain ⟨j, hj⟩ := List.mem_iff_getElem?.1 hw
    have hjN : j < N := by rw [← inv.wlen]; exact lt_length_of_get hj
    obtain ⟨k, hk, hkj⟩ := perm_index (inv.wlist_perm hmen0 h) hjN
    obtain ⟨j', wn, r, h1, h2, h3, -⟩ := inv.proposed c mn h k (by omega)
    rw [hkj] at h1
    have : j = j' := by exact_mod_cast Option.some.inj h1
    subst this
    rw [hj] at h2
    cases h2
    exact h3
  have := inv.count
  rw [engagedCount_all women hall, inv.wlen] at this
  simp only [List.length_cons] at this
  push_cast at this
  omega

/-- The man on top of `freeMen`, the woman he proposes to next, and his rank in her
list. -/
theorem GSInv.head_facts {N : Nat} {men0 men : List Man} {women0 women : List Woman}
    {cur : Int} {rest : List Int} (inv : GSInv N men0 women0 men women (cur :: rest))
    (hmen0 : ∀ m0 ∈ men0, m0.wList.Perm (upTo N))
    (hwomen0 : ∀ w0 ∈ women0, w0.pList.length = N ∧ w0.pList.Nodup) :
    ∃ (c : Nat) (mn : Man) (k j : Nat) (wn : Woman) (r : Int), cur = (c : Int) ∧ c < N ∧
      men[c]? = some mn ∧ mn.next = (k : Int) ∧ k < N ∧ mn.wList[k]? = some (j : Int) ∧
      j < N ∧ women[j]? = some wn ∧ wn.pList[c]? = some r := by
  obtain ⟨h0, h1⟩ := inv.free_range cur (List.mem_cons_self _ _)
  have hc : cur.toNat < N := by omega
  have hcl : cur.toNat < men.length := by rw [inv.mlen]; exact hc
  have hm : men[cur.toNat]? = some men[cur.toNat] := List.getElem?_eq_getElem hcl
  have hnext := inv.next_lt hmen0 hm
  have hnn := (inv.mstatic _ _ hm).2.1
  have hk : men[cur.toNat].next.toNat < N := by omega
  obtain ⟨j, hj, hkj⟩ := perm_get (inv.wlist_perm hmen0 hm) hk
  have hjl : j < women.length := by rw [inv.wlen]; exact hj
  have hw : women[j]? = some women[j] := List.getElem?_eq_getElem hjl
  have hpl := (inv.plist hwomen0 hw).1
  have hcp : cur.toNat < women[j].pList.length := by rw [hpl]; exact hc
  exact ⟨cur.toNat, men[cur.toNat], men[cur.toNat].next.toNat, j, women[j],
    women[j].pList[cur.toNat], by omega, hc, hm, by omega, hk, hkj, hj, hw,
    List.getElem?_eq_getElem hcp⟩

/-! ## One proposal -/

/-- The invariant after a proposal of the man `c` to the woman `j`, for any new state of
the women and of `freeMen` that keeps the women engaged with partners of at least the same
rank, leaves `j` engaged to a man she ranks at least as high as `c`, and keeps the records
of the engaged women right. -/
theorem GSInv.step {N : Nat} {men0 men : List Man} {women0 women : List Woman}
    {cur : Int} {rest : List Int} (inv : GSInv N men0 women0 men women (cur :: rest))
    {c k j : Nat} {mn : Man} {wn : Woman} {r : Int} (hcur : cur = (c : Int))
    (hm : men[c]? = some mn) (hk : mn.next = (k : Int)) (hkN : k < N)
    (hkj : mn.wList[k]? = some (j : Int)) (hr : wn.pList[c]? = some r)
    (women1 : List Woman) (free1 : List Int) (hwlen : women1.length = N)
    (hwst : ∀ (i : Nat) (w1 : Woman), women1[i]? = some w1 →
      ∃ w0, women0[i]? = some w0 ∧ w1.pList = w0.pList)
    (hfn : free1.Nodup) (hfr : ∀ x ∈ free1, 0 ≤ x ∧ x < (N : Int))
    (hmono : ∀ (i : Nat) (wo : Woman), women[i]? = some wo → wo.partner ≠ -1 →
      ∃ w1, women1[i]? = some w1 ∧ w1.partner ≠ -1 ∧ w1.pList = wo.pList ∧ w1.rank ≤ wo.rank)
    (htarget : ∃ w1, women1[j]? = some w1 ∧ w1.partner ≠ -1 ∧ w1.rank ≤ r ∧
      w1.pList = wn.pList)
    (heng : ∀ (i : Nat) (w1 : Woman), women1[i]? = some w1 → w1.partner ≠ -1 →
      0 ≤ w1.partner ∧ w1.partner < (N : Int) ∧ w1.partner ∉ free1 ∧
        getI w1.pList w1.partner = some w1.rank ∧
        ((w1.partner = cur ∧ i = j) ∨ (w1.partner ≠ cur ∧ ∃ m2, getI men w1.partner = some m2 ∧
          1 ≤ m2.next ∧ getI m2.wList (m2.next - 1) = some (i : Int))))
    (hcount : (free1.length : Int) + engagedCount women1 = (N : Int)) :
    GSInv N men0 women0 (men.set c { mn with next := mn.next + 1 }) women1 free1 := by
  have hcl : c < men.length := lt_length_of_get hm
  have hget : ∀ i, (men.set c { mn with next := mn.next + 1 })[i]? =
      if i = c then some { mn with next := mn.next + 1 } else men[i]? :=
    fun i => get_set_gen _ i hcl
  refine ⟨by simp [inv.mlen], hwlen, ?_, hwst, hfn, hfr, ?_, ?_, hcount⟩
  · intro i m1 h1
    rw [hget] at h1
    by_cases hi : i = c
    · rw [if_pos hi] at h1
      cases h1
      obtain ⟨hs, h0, -⟩ := inv.mstatic c mn hm
      rw [hi]
      exact ⟨hs, by simp only; omega, by simp only; omega⟩
    · rw [if_neg hi] at h1
      exact inv.mstatic i m1 h1
  · intro i w1 hw1 hp
    obtain ⟨e1, e2, e3, e4, e5⟩ := heng i w1 hw1 hp
    refine ⟨e1, e2, e3, e4, ?_⟩
    rcases e5 with ⟨hpc, hij⟩ | ⟨hpc, m2, hm2, h1, h2⟩
    · refine ⟨{ mn with next := mn.next + 1 }, ?_, by simp only; omega, ?_⟩
      · rw [hpc, hcur, getI_nat, hget, if_pos rfl]
      · simp only [hk, hij]
        rw [show ((k : Int) + 1 - 1) = (k : Int) by omega, getI_nat]
        exact hkj
    · refine ⟨m2, ?_, h1, h2⟩
      rw [getI_eq e1] at hm2 ⊢
      rw [hget, if_neg (by omega)]
      exact hm2
  · intro i m1 h1 k' hk'
    rw [hget] at h1
    by_cases hi : i = c
    · rw [if_pos hi] at h1
      cases h1
      simp only at hk' ⊢
      by_cases hkk : k' = k
      · obtain ⟨w1, hw1, hp1, hr1, hpl⟩ := htarget
        rw [hkk, hi]
        exact ⟨j, w1, r, hkj, hw1, hp1, by rw [hpl]; exact hr, hr1⟩
      · obtain ⟨j', wo, r', a1, a2, a3, a4, a5⟩ := inv.proposed c mn hm k' (by omega)
        obtain ⟨w1, b1, b2, b3, b4⟩ := hmono j' wo a2 a3
        rw [hi]
        exact ⟨j', w1, r', a1, b1, b2, by rw [b3]; exact a4, le_trans b4 a5⟩
    · rw [if_neg hi] at h1
      obtain ⟨j', wo, r', a1, a2, a3, a4, a5⟩ := inv.proposed i m1 h1 k' hk'
      obtain ⟨w1, b1, b2, b3, b4⟩ := hmono j' wo a2 a3
      exact ⟨j', w1, r', a1, b1, b2, by rw [b3]; exact a4, le_trans b4 a5⟩

theorem proposals_step {men : List Man} {c : Nat} {mn : Man} (hm : men[c]? = some mn) :
    proposals (men.set c { mn with next := mn.next + 1 }) = proposals men + 1 := by
  unfold proposals
  rw [sum_map_set _ _ men c mn hm]
  simp only
  omega

theorem engagedCount_set {women : List Woman} {j : Nat} {wn : Woman}
    (hw : women[j]? = some wn) (w1 : Woman) (h1 : w1.partner ≠ -1) :
    engagedCount (women.set j w1) =
      engagedCount women + (if wn.partner = -1 then 1 else 0) := by
  unfold engagedCount
  rw [sum_map_set _ _ women j wn hw]
  simp only [if_neg h1]
  split <;> omega

/-- One iteration of the `while` loop: it does not fault, it keeps the invariant, and
one more proposal has been made. -/
theorem matchLoop_step {N : Nat} {men0 men : List Man} {women0 women : List Woman}
    {cur : Int} {rest : List Int} (inv : GSInv N men0 women0 men women (cur :: rest))
    (hmen0 : ∀ m0 ∈ men0, m0.wList.Perm (upTo N))
    (hwomen0 : ∀ w0 ∈ women0, w0.pList.length = N ∧ w0.pList.Nodup) :
    ∃ men1 women1 free1,
      (∀ fuel, matchLoop (fuel + 1) men women (cur :: rest) = matchLoop fuel men1 women1 free1) ∧
      GSInv N men0 women0 men1 women1 free1 ∧ proposals men1 = proposals men + 1 := by
  obtain ⟨c, mn, k, j, wn, r, hcur, hc, hm, hk, hkN, hkj, hj, hw, hr⟩ :=
    inv.head_facts hmen0 hwomen0
  have hcl : c < men.length := lt_length_of_get hm
  have hjl : j < women.length := lt_length_of_get hw
  have hnd := inv.free_nodup
  rw [List.nodup_cons] at hnd
  have hgetw : ∀ (w1 : Woman) (i : Nat), (women.set j w1)[i]? =
      if i = j then some w1 else women[i]? := fun w1 i => get_set_gen _ i hjl
  -- the reads of the iteration
  have e1 : vecAt men cur = .ok mn := vecAt_ok (by rw [hcur, getI_nat]; exact hm)
  have e2 : vecAt mn.wList mn.next = .ok (j : Int) := vecAt_ok (by rw [hk, getI_nat]; exact hkj)
  have e3 : vecAt women (j : Int) = .ok wn := vecAt_ok (by rw [getI_nat]; exact hw)
  have e4 : vecAt wn.pList cur = .ok r := vecAt_ok (by rw [hcur, getI_nat]; exact hr)
  have e5 : ∀ w1, setAt women (j : Int) w1 = .ok (women.set j w1) := fun w1 => by
    have := setAt_ok (l := women) (k := (j : Int)) w1 (by omega) (by simpa using hjl)
    simpa using this
  have e6 : setAt men cur { mn with next := mn.next + 1 } =
      .ok (men.set c { mn with next := mn.next + 1 }) := by
    have := setAt_ok (l := men) (k := cur) { mn with next := mn.next + 1 } (by omega)
      (by rw [hcur]; simpa using hcl)
    rw [this, hcur]
    simp
  have hcur0 : cur ≠ -1 := by omega
  -- the new state of the woman when she accepts
  have hwst1 : ∀ (i : Nat) (w1 : Woman),
      (women.set j { wn with partner := cur, rank := r })[i]? = some w1 →
        ∃ w0, women0[i]? = some w0 ∧ w1.pList = w0.pList := by
    intro i w1 h1
    rw [hgetw] at h1
    by_cases hi : i = j
    · rw [if_pos hi] at h1
      cases h1
      rw [hi]
      exact inv.wstatic j wn hw
    · rw [if_neg hi] at h1
      exact inv.wstatic i w1 h1
  by_cases hfree : wn.partner = -1
  · -- she is free
    refine ⟨men.set c { mn with next := mn.next + 1 },
      women.set j { wn with partner := cur, rank := r }, rest, ?_, ?_, proposals_step hm⟩
    · intro fuel
      conv_lhs => unfold matchLoop
      simp only [e1, e2, e3, e4, e5, e6, gs_ok_bind, if_pos hfree]
    · apply inv.step hcur hm hk hkN hkj hr _ _ (by simp [inv.wlen]) hwst1 hnd.2
        (fun x hx => inv.free_range x (List.mem_cons_of_mem _ hx))
      · intro i wo hwo hp
        have hi : i ≠ j := by
          rintro rfl
          rw [hw] at hwo
          cases hwo
          exact hp hfree
        exact ⟨wo, by rw [hgetw, if_neg hi]; exact hwo, hp, rfl, le_refl _⟩
      · exact ⟨{ wn with partner := cur, rank := r }, by rw [hgetw, if_pos rfl], hcur0,
          le_refl _, rfl⟩
      · intro i w1 h1 hp
        rw [hgetw] at h1
        by_cases hi : i = j
        · rw [if_pos hi] at h1
          cases h1
          exact ⟨by simp only; omega, by simp only; omega, hnd.1,
            by simp only; rw [hcur, getI_nat]; exact hr, Or.inl ⟨rfl, hi⟩⟩
        · rw [if_neg hi] at h1
          obtain ⟨a1, a2, a3, a4, a5⟩ := inv.engaged i w1 h1 hp
          rw [List.mem_cons, not_or] at a3
          exact ⟨a1, a2, a3.2, a4, Or.inr ⟨a3.1, a5⟩⟩
      · have := inv.count
        rw [engagedCount_set hw _ (by simpa using hcur0), if_pos hfree]
        simp only [List.length_cons] at this
        push_cast at this
        omega
  · obtain ⟨p1, p2, p3, p4, mp, hmp, hmp1, hmp2⟩ := inv.engaged j wn hw hfree
    rw [List.mem_cons, not_or] at p3
    by_cases hbetter : r < wn.rank
    · -- she prefers him to her partner
      refine ⟨men.set c { mn with next := mn.next + 1 },
        women.set j { wn with partner := cur, rank := r }, wn.partner :: rest, ?_, ?_,
        proposals_step hm⟩
      · intro fuel
        conv_lhs => unfold matchLoop
        simp only [e1, e2, e3, e4, e5, e6, gs_ok_bind, if_neg hfree, if_pos hbetter]
      · apply inv.step hcur hm hk hkN hkj hr _ _ (by simp [inv.wlen]) hwst1
          (List.nodup_cons.2 ⟨p3.2, hnd.2⟩)
        · intro x hx
          rcases List.mem_cons.1 hx with rfl | hx
          · exact ⟨p1, p2⟩
          · exact inv.free_range x (List.mem_cons_of_mem _ hx)
        · intro i wo hwo hp
          by_cases hi : i = j
          · rw [hi] at hwo
            rw [hw] at hwo
            cases hwo
            exact ⟨{ wn with partner := cur, rank := r }, by rw [hi, hgetw, if_pos rfl], hcur0,
              rfl, by simp only; omega⟩
          · exact ⟨wo, by rw [hgetw, if_neg hi]; exact hwo, hp, rfl, le_refl _⟩
        · exact ⟨{ wn with partner := cur, rank := r }, by rw [hgetw, if_pos rfl], hcur0,
          le_refl _, rfl⟩
        · intro i w1 h1 hp
          rw [hgetw] at h1
          by_cases hi : i = j
          · rw [if_pos hi] at h1
            cases h1
            refine ⟨by simp only; omega, by simp only; omega, ?_,
              by simp only; rw [hcur, getI_nat]; exact hr, Or.inl ⟨rfl, hi⟩⟩
            simp only [List.mem_cons, not_or]
            exact ⟨fun e => p3.1 e.symm, hnd.1⟩
          · rw [if_neg hi] at h1
            obtain ⟨a1, a2, a3, a4, m2, hm2, b1, b2⟩ := inv.engaged i w1 h1 hp
            rw [List.mem_cons, not_or] at a3
            refine ⟨a1, a2, ?_, a4, Or.inr ⟨a3.1, m2, hm2, b1, b2⟩⟩
            simp only [List.mem_cons, not_or]
            refine ⟨?_, a3.2⟩
            intro e
            rw [e, hmp] at hm2
            cases hm2
            rw [hmp2] at b2
            exact hi (by exact_mod_cast (Option.some.inj b2).symm)
        · have := inv.count
          rw [engagedCount_set hw _ (by simpa using hcur0), if_neg hfree]
          simp only [List.length_cons] at this ⊢
          push_cast at this ⊢
          omega
    · -- she keeps her partner
      refine ⟨men.set c { mn with next := mn.next + 1 }, women, cur :: rest, ?_, ?_,
        proposals_step hm⟩
      · intro fuel
        conv_lhs => unfold matchLoop
        simp only [e1, e2, e3, e4, e6, gs_ok_bind, if_neg hfree, if_neg hbetter]
      · apply inv.step hcur hm hk hkN hkj hr _ _ inv.wlen inv.wstatic inv.free_nodup
          inv.free_range
        · intro i wo hwo hp
          exact ⟨wo, hwo, hp, rfl, le_refl _⟩
        · exact ⟨wn, hw, hfree, by omega, rfl⟩
        · intro i w1 h1 hp
          obtain ⟨a1, a2, a3, a4, a5⟩ := inv.engaged i w1 h1 hp
          refine ⟨a1, a2, a3, a4, Or.inr ⟨?_, a5⟩⟩
          intro e
          exact a3 (by rw [e]; exact List.mem_cons_self _ _)
        · exact inv.count

/-! ## The loop and its result -/

theorem proposals_le {N : Nat} {men0 men : List Man} {women0 women : List Woman}
    {free : List Int} (inv : GSInv N men0 women0 men women free) :
    proposals men ≤ (N : Int) * (N : Int) := by
  have := sum_le_of_le (fun m : Man => m.next) (N : Int) men (by
    intro x hx
    obtain ⟨i, hi⟩ := List.mem_iff_getElem?.1 hx
    exact (inv.mstatic i x hi).2.2)
  rw [inv.mlen] at this
  exact this

theorem matchLoop_spec {N : Nat} {men0 : List Man} {women0 : List Woman}
    (hmen0 : ∀ m0 ∈ men0, m0.wList.Perm (upTo N))
    (hwomen0 : ∀ w0 ∈ women0, w0.pList.length = N ∧ w0.pList.Nodup) :
    ∀ (fuel : Nat) (men : List Man) (women : List Woman) (free : List Int),
      GSInv N men0 women0 men women free →
      (N : Int) * (N : Int) + 1 ≤ (fuel : Int) + proposals men →
      ∃ men1 women1, matchLoop fuel men women free = .ok (men1, women1) ∧
        GSInv N men0 women0 men1 women1 [] := by
  intro fuel
  induction fuel with
  | zero =>
    intro men women free inv hf
    have := proposals_le inv
    omega
  | succ fuel ih =>
    intro men women free inv hf
    cases free with
    | nil => exact ⟨men, women, by simp [matchLoop], inv⟩
    | cons cur rest =>
      obtain ⟨men1, women1, free1, e, inv1, hp⟩ := matchLoop_step inv hmen0 hwomen0
      rw [e fuel]
      exact ih men1 women1 free1 inv1 (by push_cast at hf; omega)

theorem engagedCount_none (women : List Woman) (h : ∀ w ∈ women, w.partner = -1) :
    engagedCount women = 0 := by
  unfold engagedCount
  induction women with
  | nil => simp
  | cons a l ih =>
    have h1 := h a (List.mem_cons_self _ _)
    have h2 := ih (fun x hx => h x (List.mem_cons_of_mem _ hx))
    simp only [List.map_cons, List.sum_cons, if_pos h1, h2]
    rfl

theorem all_engaged_of_count :
    ∀ women : List Woman, engagedCount women = (women.length : Int) →
      ∀ w ∈ women, w.partner ≠ -1 := by
  intro women
  induction women with
  | nil => intro _ w hw; exact absurd hw (List.not_mem_nil _)
  | cons a l ih =>
    intro h w hw
    have hle := engagedCount_le l
    have e : engagedCount (a :: l) = (if a.partner = -1 then 0 else 1) + engagedCount l := by
      simp [engagedCount]
    rw [e] at h
    simp only [List.length_cons] at h
    push_cast at h
    by_cases ha : a.partner = -1
    · rw [if_pos ha] at h
      omega
    · rw [if_neg ha] at h
      rcases List.mem_cons.1 hw with rfl | hw
      · exact ha
      · exact ih (by omega) w hw

theorem init_inv {N : Nat} {men : List Man} {women : List Woman} (hm : men.length = N)
    (hw : women.length = N) (hmen : ∀ m ∈ men, m.next = 0)
    (hwomen : ∀ w ∈ women, w.partner = -1) :
    GSInv N men women men women (upTo N).reverse := by
  refine ⟨hm, hw, ?_, fun j wn h => ⟨wn, h, rfl⟩, List.nodup_reverse.2 (upTo_nodup N), ?_, ?_,
    ?_, ?_⟩
  · intro i mn h
    have := hmen mn (List.getElem?_mem h)
    exact ⟨⟨mn, h, rfl⟩, by omega, by omega⟩
  · intro c hc
    exact mem_upTo.1 (List.mem_reverse.1 hc)
  · intro j wn h hp
    exact absurd (hwomen wn (List.getElem?_mem h)) hp
  · intro i mn h k hk
    have := hmen mn (List.getElem?_mem h)
    omega
  · rw [engagedCount_none women hwomen]
    simp [upTo_length]

theorem resultLoop_spec (women : List Woman) :
    ∀ is : List Nat, (∀ i ∈ is, i < women.length) →
      resultLoop women is =
        .ok (is.map fun j => [(women.map fun w => w.partner).getD j (-1), (j : Int)]) := by
  intro is
  induction is with
  | nil => intro _; rfl
  | cons i rest ih =>
    intro h
    have hi : i < women.length := h i (List.mem_cons_self _ _)
    have e : vecAt women (i : Int) = .ok women[i] :=
      vecAt_ok (by rw [getI_nat]; exact List.getElem?_eq_getElem hi)
    unfold resultLoop
    simp only [e, gs_ok_bind, ih (fun j hj => h j (List.mem_cons_of_mem _ hj)), gs_pure_eq_ok,
      List.map_cons]
    simp [List.getD_eq_getElem?_getD, List.getElem?_eq_getElem hi]

theorem indexOf_of_get {l : List Int} (hnd : l.Nodup) {i : Nat} {a : Int}
    (h : l[i]? = some a) : l.indexOf a = i := by
  have hi : i < l.length := lt_length_of_get h
  rw [List.getElem?_eq_getElem hi] at h
  rw [← Option.some.inj h]
  exact List.indexOf_getElem hnd i hi

/-- When the loop has ended, the partners of the women are all the men, each once. -/
theorem GSInv.perfect {N : Nat} {men0 men : List Man} {women0 women : List Woman}
    (inv : GSInv N men0 women0 men women []) :
    (women.map fun w => w.partner).Perm (upTo N) := by
  have hcount := inv.count
  simp only [List.length_nil, Nat.cast_zero, zero_add] at hcount
  have hall := all_engaged_of_count women (by rw [hcount, inv.wlen])
  have hnd : (women.map fun w => w.partner).Nodup := by
    rw [List.nodup_iff_getElem?_ne_getElem?]
    intro i j hij hj he
    simp only [List.length_map] at hj
    have hi : i < women.length := by omega
    rw [List.getElem?_map, List.getElem?_map, List.getElem?_eq_getElem hi,
      List.getElem?_eq_getElem hj] at he
    simp only [Option.map_some', Option.some.injEq] at he
    obtain ⟨-, -, -, -, m1, hm1, -, h1⟩ := inv.engaged i women[i]
      (List.getElem?_eq_getElem hi) (hall _ (List.getElem_mem _))
    obtain ⟨-, -, -, -, m2, hm2, -, h2⟩ := inv.engaged j women[j]
      (List.getElem?_eq_getElem hj) (hall _ (List.getElem_mem _))
    rw [he, hm2] at hm1
    cases hm1
    rw [h2] at h1
    have : j = i := by exact_mod_cast Option.some.inj h1
    omega
  have hsub : (women.map fun w => w.partner) ⊆ upTo N := by
    intro p hp
    obtain ⟨w, hw, rfl⟩ := List.mem_map.1 hp
    obtain ⟨j, hj⟩ := List.mem_iff_getElem?.1 hw
    obtain ⟨h1, h2, -⟩ := inv.engaged j w hj (hall w hw)
    exact mem_upTo.2 ⟨h1, h2⟩
  exact (List.subperm_of_subset hnd hsub).perm_of_length_le
    (by simp [upTo_length, inv.wlen])

/-- When the loop has ended, no man and woman both prefer each other to their partners. -/
theorem GSInv.stable {N : Nat} {men0 men : List Man} {women0 women : List Woman}
    (inv : GSInv N men0 women0 men women [])
    (hmen0 : ∀ m0 ∈ men0, m0.wList.Perm (upTo N)) :
    ¬ ∃ m w, Blocking men0 women0 (women.map fun w => w.partner) m w := by
  rintro ⟨m, w, mn0, wn0, v, p, rm, rp, hm0, hw0, hv, hwp, -, hidx, hrm, hrp, hlt⟩
  -- the partner `v` of `m` is the last woman he proposed to
  rw [List.getElem?_map] at hv hwp
  obtain ⟨wv, hwv, hpv⟩ : ∃ wv, women[v]? = some wv ∧ wv.partner = (m : Int) := by
    cases h : women[v]? with
    | none => rw [h] at hv; cases hv
    | some wv => rw [h] at hv; exact ⟨wv, rfl, Option.some.inj hv⟩
  obtain ⟨ww, hww, hpw⟩ : ∃ ww, women[w]? = some ww ∧ ww.partner = p := by
    cases h : women[w]? with
    | none => rw [h] at hwp; cases hwp
    | some ww => rw [h] at hwp; exact ⟨ww, rfl, Option.some.inj hwp⟩
  obtain ⟨-, -, -, -, m2, hm2, h1, h2⟩ := inv.engaged v wv hwv (by rw [hpv]; omega)
  rw [hpv, getI_nat] at hm2
  obtain ⟨⟨m0, hm0', hwl⟩, hn0, -⟩ := inv.mstatic m m2 hm2
  rw [hm0] at hm0'
  cases hm0'
  have hperm := hmen0 mn0 (List.getElem?_mem hm0)
  have hnd : mn0.wList.Nodup := hperm.nodup_iff.2 (upTo_nodup N)
  have hvidx : mn0.wList.indexOf (v : Int) = (m2.next - 1).toNat := by
    apply indexOf_of_get hnd
    rw [hwl, getI_eq (by omega)] at h2
    exact h2
  -- he proposed to `w` before
  have hwlt : mn0.wList.indexOf (w : Int) < mn0.wList.length := by
    have := (List.indexOf_lt_length (a := (v : Int)) (l := mn0.wList)).2
      (by
        rw [hwl, getI_eq (by omega)] at h2
        exact List.getElem?_mem h2)
    omega
  have hwget : mn0.wList[mn0.wList.indexOf (w : Int)]? = some (w : Int) :=
    List.getElem?_indexOf (List.indexOf_lt_length.1 hwlt)
  obtain ⟨j, wn, r, a1, a2, a3, a4, a5⟩ := inv.proposed m m2 hm2
    (mn0.wList.indexOf (w : Int)) (by omega)
  rw [hwl, hwget] at a1
  have hjw : w = j := by exact_mod_cast Option.some.inj a1
  subst hjw
  rw [hww] at a2
  cases a2
  obtain ⟨-, -, -, b4, -⟩ := inv.engaged w ww hww a3
  obtain ⟨w0, hw0', hpl⟩ := inv.wstatic w ww hww
  rw [hw0] at hw0'
  cases hw0'
  rw [hpl, hpw, hrp] at b4
  rw [hpl, hrm] at a4
  have e1 : rp = ww.rank := Option.some.inj b4
  have e2 : rm = r := Option.some.inj a4
  omega

/-- C23: for `N` men and `N` women with complete preference data (the list of every man
is a permutation of `0..N-1`, the list of every woman holds the ranks `0..N-1`, each
once; every `next` is `0` and every `partner` is `-1`), `match` runs to its end without
an access outside a vector and returns the pairs (partner, woman) of a perfect matching
that is stable: the partners are all the men, each once, and no man and woman who are not
matched to each other both prefer the other to their partner. -/
theorem matching_perfect_stable (N : Nat) (men : List Man) (women : List Woman)
    (hm : men.length = N) (hw : women.length = N)
    (hmen : ∀ m ∈ men, m.next = 0 ∧ m.wList.Perm (upTo N))
    (hwomen : ∀ w ∈ women, w.partner = -1 ∧ w.pList.Perm (upTo N)) :
    ∃ partners : List Int,
      matching men women =
        .ok ((List.range N).map fun j => [partners.getD j (-1), (j : Int)]) ∧
      partners.Perm (upTo N) ∧ ¬ ∃ m w, Blocking men women partners m w := by
  have hmen0 : ∀ m0 ∈ men, m0.wList.Perm (upTo N) := fun m h => (hmen m h).2
  have hwomen0 : ∀ w0 ∈ women, w0.pList.length = N ∧ w0.pList.Nodup := fun w h =>
    ⟨by rw [(hwomen w h).2.length_eq, upTo_length], (hwomen w h).2.nodup_iff.2 (upTo_nodup N)⟩
  have inv0 := init_inv hm hw (fun m h => (hmen m h).1) (fun w h => (hwomen w h).1)
  obtain ⟨men1, women1, e, inv⟩ := matchLoop_spec hmen0 hwomen0 (N * N + 1) men women
    (upTo N).reverse inv0 (by
      have : proposals men = 0 := by
        unfold proposals
        have : ∀ l : List Man, (∀ m ∈ l, m.next = 0) → (l.map fun m => m.next).sum = 0 := by
          intro l
          induction l with
          | nil => intro _; rfl
          | cons a l ih =>
            intro h
            simp [h a (List.mem_cons_self _ _), ih (fun x hx => h x (List.mem_cons_of_mem _ hx))]
        exact this men (fun m h => (hmen m h).1)
      rw [this]
      push_cast
      omega)
  refine ⟨women1.map fun w => w.partner, ?_, inv.perfect, inv.stable hmen0⟩
  unfold matching
  rw [hm]
  simp only [e, gs_ok_bind]
  rw [inv.wlen]
  exact resultLoop_spec women1 (List.range N)
    (by intro i hi; rw [inv.wlen]; exact List.mem_range.1 hi)

theorem matching_perfect_stable_witness :
    matching [⟨[0, 1, 2], 0⟩, ⟨[1, 0, 2], 0⟩, ⟨[0, 1, 2], 0⟩]
        [⟨[1, 0, 2], -1, 0⟩, ⟨[0, 1, 2], -1, 0⟩, ⟨[0, 1, 2], -1, 0⟩] =
        .ok [[0, 0], [1, 1], [2, 2]] ∧
      ∃ partners : List Int,
        matching [⟨[0, 1, 2], 0⟩, ⟨[1, 0, 2], 0⟩, ⟨[0, 1, 2], 0⟩]
            [⟨[1, 0, 2], -1, 0⟩, ⟨[0, 1, 2], -1, 0⟩, ⟨[0, 1, 2], -1, 0⟩] =
          .ok ((List.range 3).map fun j => [partners.getD j (-1), (j : Int)]) ∧
        partners.Perm (upTo 3) ∧
        ¬ ∃ m w, Blocking [⟨[0, 1, 2], 0⟩, ⟨[1, 0, 2], 0⟩, ⟨[0, 1, 2], 0⟩]
          [⟨[1, 0, 2], -1, 0⟩, ⟨[0, 1, 2], -1, 0⟩, ⟨[0, 1, 2], -1, 0⟩] partners m w :=
  ⟨by decide, matching_perfect_stable 3 [⟨[0, 1, 2], 0⟩, ⟨[1, 0, 2], 0⟩, ⟨[0, 1, 2], 0⟩]
    [⟨[1, 0, 2], -1, 0⟩, ⟨[0, 1, 2], -1, 0⟩, ⟨[0, 1, 2], -1, 0⟩] (by decide) (by decide)
    (by decide) (by decide)⟩

end GaleShapley

namespace UnionFindDS

/-! ## The fault monad and the heap -/

@[simp] theorem uf_ok_bind {α β : Type} (a : α) (f : α → Except Fault β) :
    (Except.ok a >>= f) = f a := rfl

@[simp] theorem uf_pure_eq_ok {α : Type} (a : α) : (pure a : Except Fault α) = Except.ok a :=
  rfl

theorem uf_load_ok {heap : List UFNode} {a : Nat} {n : UFNode} (h : heap[a]? = some n) :
    load heap a = .ok n := by
  simp [load, h]

theorem uf_lt_of_get {heap : List UFNode} {a : Nat} {n : UFNode} (h : heap[a]? = some n) :
    a < heap.length := by
  by_contra hc
  rw [List.getElem?_eq_none (by omega)] at h
  cases h

theorem uf_get_of_lt {heap : List UFNode} {a : Nat} (h : a < heap.length) :
    ∃ n, heap[a]? = some n :=
  ⟨heap[a], List.getElem?_eq_getElem h⟩

theorem nodeAt_range {n i : Nat} (h : i < n) : nodeAt (List.range n) i = .ok i := by
  simp [nodeAt, List.getElem?_range h]

theorem setNext_ok {heap : List UFNode} {a : Nat} {n : UFNode} (h : heap[a]? = some n)
    (p : Option Nat) : setNext heap a p = .ok (heap.set a { n with next := p }) := by
  simp [setNext, uf_load_ok h]

theorem get_set_node {heap : List UFNode} {a : Nat} (nd : UFNode) (i : Nat)
    (ha : a < heap.length) :
    (heap.set a nd)[i]? = if i = a then some nd else heap[i]? := by
  by_cases h : i = a
  · subst h
    simp [ha]
  · rw [if_neg h, List.getElem?_set_ne (fun e => h e.symm)]

/-! ## `makeUF` -/

theorem makeLoop_spec (n : Nat) :
    ∀ (rem : Nat) (uf : UnionFind), rem ≤ n →
      uf.heap = (List.range (n - rem)).map (fun i => (⟨i, none⟩ : UFNode)) →
      uf.nodes.length = n → (∀ i, i < n - rem → uf.nodes[i]? = some i) →
      ∃ uf', makeLoop n rem uf = .ok uf' ∧ uf'.groupSize = uf.groupSize ∧
        uf'.heap = (List.range n).map (fun i => (⟨i, none⟩ : UFNode)) ∧
        uf'.nodes = List.range n := by
  intro rem
  induction rem with
  | zero =>
    intro uf _ hheap hlen hnodes
    refine ⟨uf, rfl, rfl, by simpa using hheap, ?_⟩
    apply List.ext_getElem?
    intro i
    by_cases hi : i < n
    · rw [hnodes i (by omega), List.getElem?_range hi]
    · rw [List.getElem?_eq_none (by omega), List.getElem?_eq_none (by simp; omega)]
  | succ rem ih =>
    intro uf hrem hheap hlen hnodes
    unfold makeLoop
    have hi : n - (rem + 1) < uf.nodes.length := by omega
    simp only [hi, if_true]
    have hhl : uf.heap.length = n - (rem + 1) := by rw [hheap]; simp
    have e : n - rem = (n - (rem + 1)) + 1 := by omega
    obtain ⟨uf', h1, h2, h3, h4⟩ := ih
      { uf with heap := uf.heap ++ [⟨n - (rem + 1), none⟩],
                nodes := uf.nodes.set (n - (rem + 1)) uf.heap.length }
      (by omega) (by simp only; rw [e, List.range_succ, List.map_append, hheap]; rfl)
      (by simpa using hlen)
      (by
        intro i hi'
        simp only
        by_cases hie : i = n - (rem + 1)
        · subst hie
          rw [List.getElem?_set_self hi, hhl]
        · rw [List.getElem?_set_ne (fun e' => hie e'.symm)]
          exact hnodes i (by omega))
    exact ⟨uf', h1, h2, h3, h4⟩

theorem makeUF_spec (n : Nat) :
    ∃ uf, makeUF n = .ok uf ∧ WF uf n ∧
      ∀ i, i < n → uf.heap[i]? = some ⟨i, none⟩ := by
  obtain ⟨uf, h1, h2, h3, h4⟩ := makeLoop_spec n n
    { heap := [], nodes := List.replicate n 0, groupSize := List.replicate n 1 }
    (le_refl _) (by simp) (by simp) (by intro i hi; omega)
  have hget : ∀ i, i < n → uf.heap[i]? = some ⟨i, none⟩ := by
    intro i hi
    rw [h3, List.getElem?_map, List.getElem?_range hi]
    rfl
  have hnode : ∀ (i : Nat) (nd : UFNode), uf.heap[i]? = some nd → nd = ⟨i, none⟩ := by
    intro i nd hnd
    have hi : i < n := by
      have := uf_lt_of_get hnd
      rw [h3] at this
      simpa using this
    rw [hget i hi] at hnd
    exact (Option.some.inj hnd).symm
  refine ⟨uf, h1, ⟨by rw [h3]; simp, h4, by rw [h2]; simp, ?_, ⟨fun _ => 0, ?_⟩⟩, hget⟩
  · intro i nd hnd
    rw [hnode i nd hnd]
  · intro i p nd hnd hp
    rw [hnode i nd hnd] at hp
    cases hp

/-! ## Paths to the root -/

theorem Reaches.node {heap : List UFNode} {i r : Nat} (h : Reaches heap i r) :
    ∃ n, heap[i]? = some n := by
  cases h with
  | here _ n hn => exact ⟨n, hn⟩
  | step _ p _ n hn _ _ => exact ⟨n, hn⟩

theorem Reaches.target {heap : List UFNode} {i r : Nat} (h : Reaches heap i r) :
    ∃ n, heap[r]? = some n := by
  induction h with
  | here _ n hn => exact ⟨n, hn⟩
  | step _ _ _ _ _ _ _ ih => exact ih

/-- A root reaches only itself. -/
theorem Reaches.of_root {heap : List UFNode} {i r : Nat} {n : UFNode} (h : Reaches heap i r)
    (hn : heap[i]? = some n) (hroot : n.next = none) : r = i := by
  cases h with
  | here _ _ _ => rfl
  | step _ p _ n' hn' hp _ =>
    rw [hn] at hn'
    cases hn'
    rw [hroot] at hp
    cases hp

/-- The root of a node is unique. -/
theorem IsRoot.unique {heap : List UFNode} {i r r' : Nat} (h : IsRoot heap i r)
    (h' : IsRoot heap i r') : r = r' := by
  obtain ⟨h1, n, hn, hroot⟩ := h
  obtain ⟨h1', n', hn', hroot'⟩ := h'
  induction h1 with
  | here i nd hnd =>
    rw [hnd] at hn
    cases hn
    exact (h1'.of_root hnd hroot).symm
  | step i p r nd hnd hp _ ih =>
    cases h1' with
    | here _ nd' hnd' =>
      rw [hnd] at hn'
      cases hn'
      rw [hroot'] at hp
      cases hp
    | step _ p' _ nd' hnd' hp' hrest =>
      rw [hnd] at hnd'
      cases hnd'
      rw [hp] at hp'
      cases hp'
      exact ih hn hrest

theorem IsRoot.self {heap : List UFNode} {r : Nat} {n : UFNode} (hn : heap[r]? = some n)
    (hroot : n.next = none) : IsRoot heap r r :=
  ⟨Reaches.here r n hn, n, hn, hroot⟩

theorem IsRoot.step_root {heap : List UFNode} {i p r : Nat} {n : UFNode}
    (hn : heap[i]? = some n) (hp : n.next = some p) (h : IsRoot heap p r) : IsRoot heap i r :=
  ⟨Reaches.step i p r n hn hp h.1, h.2⟩

/-- Along a path the height does not go down, and it goes up when the path has a step. -/
theorem Reaches.height {heap : List UFNode} {n : Nat} {ht : Nat → Nat}
    (hacyc : ∀ (i p : Nat) (nd : UFNode), heap[i]? = some nd → nd.next = some p →
      p < n ∧ ht i < ht p) {i r : Nat} (h : Reaches heap i r) :
    ht i ≤ ht r ∧ (i ≠ r → ht i < ht r) := by
  induction h with
  | here _ _ _ => exact ⟨le_refl _, fun hne => absurd rfl hne⟩
  | step i p r nd hnd hp _ ih =>
    have := (hacyc i p nd hnd hp).2
    exact ⟨by omega, fun _ => by omega⟩

/-! ## Path compression -/

theorem Compressed.refl_heap (heap : List UFNode) : Compressed heap heap :=
  ⟨rfl, fun _ nd h => ⟨nd, h, rfl, Or.inl rfl⟩⟩

/-- Path compression keeps the roots. -/
theorem Compressed.root_iff {heap1 heap2 : List UFNode} (c : Compressed heap1 heap2) (r : Nat) :
    (∃ n, heap2[r]? = some n ∧ n.next = none) ↔ (∃ n, heap1[r]? = some n ∧ n.next = none) := by
  constructor
  · rintro ⟨n2, hn2, hroot⟩
    obtain ⟨n1, hn1, -, h | ⟨r', h, -, -⟩⟩ := c.2 r n2 hn2
    · exact ⟨n1, hn1, by rw [← h, hroot]⟩
    · rw [hroot] at h
      cases h
  · rintro ⟨n1, hn1, hroot⟩
    have hlt : r < heap2.length := by rw [c.1]; exact uf_lt_of_get hn1
    obtain ⟨n2, hn2⟩ := uf_get_of_lt hlt
    obtain ⟨n1', hn1', -, h | ⟨r', -, h, hne⟩⟩ := c.2 r n2 hn2
    · rw [hn1] at hn1'
      cases hn1'
      exact ⟨n2, hn2, by rw [h, hroot]⟩
    · exact absurd (h.1.of_root hn1 hroot).symm hne

/-- Path compression keeps the root of every node. -/
theorem Compressed.isRoot_iff {heap1 heap2 : List UFNode} (c : Compressed heap1 heap2)
    (z r : Nat) : IsRoot heap2 z r ↔ IsRoot heap1 z r := by
  constructor
  · rintro ⟨h, hroot⟩
    have hroot1 := (c.root_iff r).1 hroot
    induction h with
    | here i nd hnd =>
      obtain ⟨n1, hn1, -⟩ := c.2 i nd hnd
      exact ⟨Reaches.here i n1 hn1, hroot1⟩
    | step i p r nd hnd hp _ ih =>
      have ihr := ih hroot hroot1
      obtain ⟨n1, hn1, -, h | ⟨r', h, hr', -⟩⟩ := c.2 i nd hnd
      · exact IsRoot.step_root hn1 (by rw [← h, hp]) ihr
      · rw [hp] at h
        cases h
        obtain ⟨np, hnp, hproot⟩ := hr'.2
        have := ihr.1.of_root hnp hproot
        subst this
        exact hr'
  · rintro ⟨h, hroot⟩
    have hroot2 := (c.root_iff r).2 hroot
    induction h with
    | here i nd hnd =>
      have ⟨n2, hn2, _⟩ := hroot2
      exact ⟨Reaches.here i n2 hn2, hroot2⟩
    | step i p r nd hnd hp hrest ih =>
      have ihr := ih hroot hroot2
      have hlt : i < heap2.length := by rw [c.1]; exact uf_lt_of_get hnd
      obtain ⟨n2, hn2⟩ := uf_get_of_lt hlt
      obtain ⟨n1, hn1, -, h | ⟨r', h, hr', -⟩⟩ := c.2 i n2 hn2
      · rw [hnd] at hn1
        cases hn1
        exact IsRoot.step_root hn2 (by rw [h, hp]) ihr
      · have e : r' = r := hr'.unique (IsRoot.step_root hnd hp ⟨hrest, hroot⟩)
        subst e
        obtain ⟨nr, hnr, hrr⟩ := hroot2
        exact IsRoot.step_root hn2 h (IsRoot.self hnr hrr)

/-- Path compression keeps the state well-formed. -/
theorem Compressed.wf {uf : UnionFind} {n : Nat} (w : WF uf n) {heap2 : List UFNode}
    (c : Compressed uf.heap heap2) : WF { uf with heap := heap2 } n := by
  obtain ⟨ht, hacyc⟩ := w.acyclic
  refine ⟨by simp only; rw [c.1, w.heap_len], w.nodes, w.size_len, ?_, ⟨ht, ?_⟩⟩
  · intro i nd hnd
    obtain ⟨n1, hn1, hv, -⟩ := c.2 i nd hnd
    rw [hv]
    exact w.val i n1 hn1
  · intro i p nd hnd hp
    obtain ⟨n1, hn1, -, h | ⟨r', h, hr', hne⟩⟩ := c.2 i nd hnd
    · exact hacyc i p n1 hn1 (by rw [← h, hp])
    · rw [hp] at h
      cases h
      obtain ⟨np, hnp, -⟩ := hr'.2
      have := uf_lt_of_get hnp
      rw [w.heap_len] at this
      exact ⟨this, (hr'.1.height hacyc).2 hne⟩

/-! ## `Find` -/

theorem length_le_of_chain {n : Nat} (ht : Nat → Nat) :
    ∀ (l : List Nat), (∀ x ∈ l, x < n) → l.Pairwise (fun a b => ht a < ht b) → l.length ≤ n := by
  intro l hlt hp
  have hnd : l.Nodup := hp.imp (fun {a b} h e => by rw [e] at h; exact lt_irrefl _ h)
  have hsub : l ⊆ List.range n := fun x hx => List.mem_range.2 (hlt x hx)
  have := (List.subperm_of_subset hnd hsub).length_le
  simpa using this

theorem findLoop_spec {heap : List UFNode} {n : Nat} {ht : Nat → Nat}
    (hlen : heap.length = n)
    (hacyc : ∀ (i p : Nat) (nd : UFNode), heap[i]? = some nd → nd.next = some p →
      p < n ∧ ht i < ht p) :
    ∀ (fuel cur : Nat) (v : List Nat), cur < n → (∀ x ∈ v, x < n ∧ ht x < ht cur) →
      v.Pairwise (fun a b => ht a < ht b) → n + 1 ≤ fuel + v.length →
      ∃ r path, findLoop heap fuel cur v = .ok (r, v ++ path) ∧ IsRoot heap cur r ∧
        ∀ x ∈ path, IsRoot heap x r ∧ x ≠ r := by
  intro fuel
  induction fuel with
  | zero =>
    intro cur v hcur hv hp hf
    exfalso
    have h1 : (v ++ [cur]).length ≤ n := by
      apply length_le_of_chain ht
      · intro x hx
        rcases List.mem_append.1 hx with h | h
        · exact (hv x h).1
        · simp at h
          omega
      · rw [List.pairwise_append]
        refine ⟨hp, List.pairwise_singleton _ _, ?_⟩
        intro a ha b hb
        simp at hb
        subst hb
        exact (hv a ha).2
    simp at h1
    omega
  | succ fuel ih =>
    intro cur v hcur hv hp hf
    obtain ⟨nd, hnd⟩ := uf_get_of_lt (show cur < heap.length by omega)
    unfold findLoop
    simp only [uf_load_ok hnd, uf_ok_bind]
    cases hnx : nd.next with
    | none =>
      exact ⟨cur, [], by simp, IsRoot.self hnd hnx, fun x hx => absurd hx (List.not_mem_nil _)⟩
    | some nx =>
      obtain ⟨h1, h2⟩ := hacyc cur nx nd hnd hnx
      obtain ⟨r, path, e, hr, hpath⟩ := ih nx (v ++ [cur]) h1
        (by
          intro x hx
          rcases List.mem_append.1 hx with h | h
          · exact ⟨(hv x h).1, lt_trans (hv x h).2 h2⟩
          · simp at h
            subst h
            exact ⟨hcur, h2⟩)
        (by
          rw [List.pairwise_append]
          refine ⟨hp, List.pairwise_singleton _ _, ?_⟩
          intro a ha b hb
          simp at hb
          subst hb
          exact (hv a ha).2)
        (by simp; omega)
      have hrc : IsRoot heap cur r := IsRoot.step_root hnd hnx hr
      have hne : cur ≠ r := by
        intro e'
        have := (hr.1.height hacyc).1
        rw [← e'] at this
        omega
      refine ⟨r, cur :: path, by simp only [e]; simp, hrc, ?_⟩
      intro x hx
      rcases List.mem_cons.1 hx with rfl | hx
      · exact ⟨hrc, hne⟩
      · exact hpath x hx

theorem compress_spec {heap0 : List UFNode} (r : Nat) :
    ∀ (l : List Nat) (heap1 : List UFNode), Compressed heap0 heap1 →
      (∀ x ∈ l, IsRoot heap0 x r ∧ x ≠ r) →
      ∃ heap2, compress r l heap1 = .ok heap2 ∧ Compressed heap0 heap2 := by
  intro l
  induction l with
  | nil =>
    intro heap1 c _
    exact ⟨heap1, rfl, c⟩
  | cons x l ih =>
    intro heap1 c hl
    obtain ⟨hx, hne⟩ := hl x (List.mem_cons_self _ _)
    obtain ⟨n0, hn0⟩ := hx.1.node
    have hlt : x < heap1.length := by rw [c.1]; exact uf_lt_of_get hn0
    obtain ⟨n1, hn1⟩ := uf_get_of_lt hlt
    unfold compress
    simp only [setNext_ok hn1, uf_ok_bind]
    apply ih _ _ (fun y hy => hl y (List.mem_cons_of_mem _ hy))
    refine ⟨by simp [c.1], ?_⟩
    intro i nd2 hnd2
    rw [get_set_node _ _ hlt] at hnd2
    by_cases hi : i = x
    · subst hi
      rw [if_pos rfl] at hnd2
      cases hnd2
      obtain ⟨n0', hn0', hv, -⟩ := c.2 i n1 hn1
      exact ⟨n0', hn0', hv, Or.inr ⟨r, rfl, hx, hne⟩⟩
    · rw [if_neg hi] at hnd2
      exact c.2 i nd2 hnd2

/-- The call `Find(uf, a)` returns the root of `a` and leaves a compressed heap. -/
theorem Find_spec {uf : UnionFind} {n a : Nat} (w : WF uf n) (ha : a < n) :
    ∃ uf' r, Find uf a = .ok (uf', r) ∧ WF uf' n ∧ IsRoot uf.heap a r ∧
      Compressed uf.heap uf'.heap ∧ r < n := by
  obtain ⟨ht, hacyc⟩ := w.acyclic
  obtain ⟨r, path, e, hr, hpath⟩ := findLoop_spec w.heap_len hacyc (uf.heap.length + 1) a []
    ha (fun x hx => absurd hx (List.not_mem_nil _)) List.Pairwise.nil
    (by rw [w.heap_len]; simp)
  obtain ⟨heap2, e2, c⟩ := compress_spec r path uf.heap (Compressed.refl_heap _) hpath
  obtain ⟨nr, hnr, hroot⟩ := ((c.isRoot_iff a r).2 hr).2
  obtain ⟨nr0, hnr0, hv, -⟩ := c.2 r nr hnr
  have hval : nr.val = r := by rw [hv]; exact w.val r nr0 hnr0
  have hrn : r < n := by
    have := uf_lt_of_get hnr0
    rw [w.heap_len] at this
    exact this
  refine ⟨{ uf with heap := heap2 }, r, ?_, Compressed.wf w c, hr, c, hrn⟩
  unfold Find
  rw [w.nodes, nodeAt_range ha]
  simp only [uf_ok_bind, List.nil_append] at e ⊢
  simp only [e, e2, uf_ok_bind, uf_load_ok hnr, uf_pure_eq_ok, hval]

/-! ## `Union` -/

theorem sizeAt_ok {gs : List Int} {i : Nat} (h : i < gs.length) :
    sizeAt gs i = .ok (gs.getD i 0) := by
  simp [sizeAt, List.getElem?_eq_getElem h, List.getD_eq_getElem?_getD]

theorem setSize_ok {gs : List Int} {i : Nat} (x : Int) (h : i < gs.length) :
    setSize gs i x = .ok (gs.set i x) := by
  simp [setSize, h]

/-- A path of the old heap that does not end at `child` is a path of the new heap. -/
theorem link_reaches_old {heap : List UFNode} {child : Nat} {nc nc' : UFNode}
    (hnc : heap[child]? = some nc) (hcroot : nc.next = none) {z r : Nat}
    (h : Reaches heap z r) : r ≠ child → Reaches (heap.set child nc') z r := by
  have hcl := uf_lt_of_get hnc
  induction h with
  | here i nd hnd =>
    intro hrc
    exact Reaches.here i nd (by rw [get_set_node _ _ hcl, if_neg hrc]; exact hnd)
  | step i p r nd hnd hp _ ih =>
    intro hrc
    have hi : i ≠ child := by
      intro e
      rw [e, hnc] at hnd
      cases hnd
      rw [hcroot] at hp
      cases hp
    exact Reaches.step i p r nd (by rw [get_set_node _ _ hcl, if_neg hi]; exact hnd) hp (ih hrc)

/-- A path of the old heap that ends at `child` goes on to `parent` in the new heap. -/
theorem link_reaches_child {heap : List UFNode} {parent child : Nat} {np nc : UFNode}
    (hnp : heap[parent]? = some np) (hnc : heap[child]? = some nc) (hcroot : nc.next = none)
    (hne : parent ≠ child) {z c : Nat} (h : Reaches heap z c) :
    c = child → Reaches (heap.set child { nc with next := some parent }) z parent := by
  have hcl := uf_lt_of_get hnc
  induction h with
  | here i nd hnd =>
    intro e
    rw [e]
    exact Reaches.step child parent parent _ (by rw [get_set_node _ _ hcl, if_pos rfl]) rfl
      (Reaches.here parent np (by rw [get_set_node _ _ hcl, if_neg hne]; exact hnp))
  | step i p c nd hnd hp _ ih =>
    intro e
    have hi : i ≠ child := by
      intro e'
      rw [e', hnc] at hnd
      cases hnd
      rw [hcroot] at hp
      cases hp
    exact Reaches.step i p parent nd (by rw [get_set_node _ _ hcl, if_neg hi]; exact hnd) hp
      (ih e)

/-- A path of the new heap to a root is a path of the old heap, or such a path to `child`
followed by the new link. -/
theorem link_reaches_new {heap : List UFNode} {parent child : Nat} {np nc : UFNode}
    (hnp : heap[parent]? = some np) (hnc : heap[child]? = some nc) (hproot : np.next = none)
    (hcroot : nc.next = none) (hne : parent ≠ child) {z r : Nat}
    (h : Reaches (heap.set child { nc with next := some parent }) z r) :
    (∃ nr, (heap.set child { nc with next := some parent })[r]? = some nr ∧ nr.next = none) →
      (IsRoot heap z r ∧ r ≠ child) ∨ (IsRoot heap z child ∧ r = parent) := by
  have hcl := uf_lt_of_get hnc
  induction h with
  | here i nd hnd =>
    rintro ⟨nr, hnr, hrr⟩
    have hrc : i ≠ child := by
      intro e
      rw [e, get_set_node _ _ hcl, if_pos rfl] at hnr
      cases hnr
      cases hrr
    rw [get_set_node _ _ hcl, if_neg hrc] at hnr
    exact Or.inl ⟨IsRoot.self hnr hrr, hrc⟩
  | step i p r nd hnd hp _ ih =>
    intro hroot
    have ihr := ih hroot
    rw [get_set_node _ _ hcl] at hnd
    by_cases hi : i = child
    · rw [if_pos hi] at hnd
      cases hnd
      simp only [Option.some.injEq] at hp
      rw [← hp] at ihr
      right
      rcases ihr with ⟨h1, -⟩ | ⟨h1, -⟩
      · rw [hi]
        exact ⟨IsRoot.self hnc hcroot, h1.1.of_root hnp hproot⟩
      · exact absurd (h1.1.of_root hnp hproot) (Ne.symm hne)
    · rw [if_neg hi] at hnd
      rcases ihr with ⟨h1, h2⟩ | ⟨h1, h2⟩
      · exact Or.inl ⟨IsRoot.step_root hnd hp h1, h2⟩
      · exact Or.inr ⟨IsRoot.step_root hnd hp h1, h2⟩

theorem link_spec {uf : UnionFind} {n parent child : Nat} {np nc : UFNode} (w : WF uf n)
    (hnp : uf.heap[parent]? = some np) (hnc : uf.heap[child]? = some nc)
    (hproot : np.next = none) (hcroot : nc.next = none) (hne : parent ≠ child) :
    ∃ uf', link uf parent child = .ok uf' ∧ WF uf' n ∧
      ∀ z r, IsRoot uf'.heap z r ↔
        (IsRoot uf.heap z r ∧ r ≠ child) ∨ (IsRoot uf.heap z child ∧ r = parent) := by
  have hcl := uf_lt_of_get hnc
  have hpl := uf_lt_of_get hnp
  have hget : ∀ i, (uf.heap.set child { nc with next := some parent })[i]? =
      if i = child then some { nc with next := some parent } else uf.heap[i]? :=
    fun i => get_set_node _ i hcl
  have hnp' : (uf.heap.set child { nc with next := some parent })[parent]? = some np := by
    rw [hget, if_neg hne, hnp]
  have hnc' : (uf.heap.set child { nc with next := some parent })[child]? =
      some { nc with next := some parent } := by
    rw [hget, if_pos rfl]
  have hvp := w.val parent np hnp
  have hvc := w.val child nc hnc
  have hpn : parent < n := by rw [← w.heap_len]; exact hpl
  have hcn : child < n := by rw [← w.heap_len]; exact hcl
  obtain ⟨ht, hacyc⟩ := w.acyclic
  refine ⟨{ uf with heap := uf.heap.set child { nc with next := some parent },
                    groupSize := (uf.groupSize.set parent
                      (uf.groupSize.getD parent 0 + uf.groupSize.getD child 0)).set child 0 },
    ?_, ?_, ?_⟩
  · unfold link
    simp only [setNext_ok hnc, uf_ok_bind, uf_load_ok hnp', uf_load_ok hnc']
    simp only [hvp, hvc]
    rw [sizeAt_ok (by rw [w.size_len]; exact hpn), sizeAt_ok (by rw [w.size_len]; exact hcn)]
    simp only [uf_ok_bind]
    rw [setSize_ok _ (by rw [w.size_len]; exact hpn)]
    simp only [uf_ok_bind]
    rw [setSize_ok _ (by simp [w.size_len]; exact hcn)]
    rfl
  · refine ⟨by simp [w.heap_len], w.nodes, by simp [w.size_len], ?_,
      ⟨fun i => if i = parent then max (ht parent) (ht child + 1) else ht i, ?_⟩⟩
    · intro i nd hnd
      simp only at hnd
      rw [hget] at hnd
      by_cases hi : i = child
      · rw [if_pos hi] at hnd
        cases hnd
        rw [hi]
        exact hvc
      · rw [if_neg hi] at hnd
        exact w.val i nd hnd
    · intro i p nd hnd hp
      simp only at hnd
      rw [hget] at hnd
      by_cases hi : i = child
      · rw [if_pos hi] at hnd
        cases hnd
        simp only [Option.some.injEq] at hp
        subst hp
        subst hi
        refine ⟨hpn, ?_⟩
        simp only [if_neg (Ne.symm hne), if_true]
        exact lt_of_lt_of_le (Nat.lt_succ_self _) (le_max_right _ _)
      · rw [if_neg hi] at hnd
        obtain ⟨h1, h2⟩ := hacyc i p nd hnd hp
        have hip : i ≠ parent := by
          rintro rfl
          rw [hnp] at hnd
          cases hnd
          rw [hproot] at hp
          cases hp
        refine ⟨h1, ?_⟩
        simp only [if_neg hip]
        by_cases hpp : p = parent
        · rw [if_pos hpp, ← hpp]
          exact lt_of_lt_of_le h2 (le_max_left _ _)
        · rw [if_neg hpp]
          exact h2
  · intro z r
    simp only
    constructor
    · rintro ⟨h, hroot⟩
      exact link_reaches_new hnp hnc hproot hcroot hne h hroot
    · rintro (⟨⟨h, nr, hnr, hrr⟩, hrc⟩ | ⟨⟨h, -⟩, e⟩)
      · exact ⟨link_reaches_old hnc hcroot h hrc, nr, by rw [hget, if_neg hrc]; exact hnr, hrr⟩
      · rw [e]
        exact ⟨link_reaches_child hnp hnc hcroot hne h rfl, np, hnp', hproot⟩

/-! ## The partition -/

theorem same_iff_root {uf : UnionFind} {x a r : Nat} (ha : IsRoot uf.heap a r) :
    Same uf x a ↔ IsRoot uf.heap x r := by
  constructor
  · rintro ⟨r', h1, h2⟩
    rw [ha.unique h2]
    exact h1
  · intro h
    exact ⟨r, h, ha⟩

theorem Same.symm_same {uf : UnionFind} {x y : Nat} (h : Same uf x y) : Same uf y x := by
  obtain ⟨r, h1, h2⟩ := h
  exact ⟨r, h2, h1⟩

theorem Same.trans_same {uf : UnionFind} {x y z : Nat} (h : Same uf x y) (h' : Same uf y z) :
    Same uf x z := by
  obtain ⟨r, h1, h2⟩ := h
  obtain ⟨r', h3, h4⟩ := h'
  rw [← h2.unique h3] at h4
  exact ⟨r, h1, h4⟩

theorem same_congr {uf uf' : UnionFind}
    (h : ∀ z r, IsRoot uf'.heap z r ↔ IsRoot uf.heap z r) (x y : Nat) :
    Same uf' x y ↔ Same uf x y := by
  unfold Same
  simp only [h]

/-- The trees after hanging the root `child` under the root `parent`. -/
theorem same_link {uf uf' : UnionFind} {parent child : Nat} (hne : parent ≠ child)
    (h : ∀ z r, IsRoot uf'.heap z r ↔
      (IsRoot uf.heap z r ∧ r ≠ child) ∨ (IsRoot uf.heap z child ∧ r = parent)) (x y : Nat) :
    Same uf' x y ↔ Same uf x y ∨ (IsRoot uf.heap x parent ∧ IsRoot uf.heap y child) ∨
      (IsRoot uf.heap x child ∧ IsRoot uf.heap y parent) := by
  constructor
  · rintro ⟨r, hx, hy⟩
    rcases (h x r).1 hx with ⟨x1, x2⟩ | ⟨x1, x2⟩ <;> rcases (h y r).1 hy with ⟨y1, y2⟩ | ⟨y1, y2⟩
    · exact Or.inl ⟨r, x1, y1⟩
    · rw [y2] at x1
      exact Or.inr (Or.inl ⟨x1, y1⟩)
    · rw [x2] at y1
      exact Or.inr (Or.inr ⟨x1, y1⟩)
    · exact Or.inl ⟨child, x1, y1⟩
  · rintro (⟨r, hx, hy⟩ | ⟨hx, hy⟩ | ⟨hx, hy⟩)
    · by_cases hr : r = child
      · rw [hr] at hx hy
        exact ⟨parent, (h x parent).2 (Or.inr ⟨hx, rfl⟩), (h y parent).2 (Or.inr ⟨hy, rfl⟩)⟩
      · exact ⟨r, (h x r).2 (Or.inl ⟨hx, hr⟩), (h y r).2 (Or.inl ⟨hy, hr⟩)⟩
    · exact ⟨parent, (h x parent).2 (Or.inl ⟨hx, hne⟩), (h y parent).2 (Or.inr ⟨hy, rfl⟩)⟩
    · exact ⟨parent, (h x parent).2 (Or.inr ⟨hx, rfl⟩), (h y parent).2 (Or.inl ⟨hy, hne⟩)⟩

/-- The call `Union(uf, a, b)` merges the trees of `a` and `b` and changes nothing else
in the partition. -/
theorem Union_spec {uf : UnionFind} {n a b : Nat} (w : WF uf n) (ha : a < n) (hb : b < n) :
    ∃ uf', Union uf a b = .ok uf' ∧ WF uf' n ∧
      ∀ x y, Same uf' x y ↔
        Same uf x y ∨ (Same uf x a ∧ Same uf b y) ∨ (Same uf x b ∧ Same uf a y) := by
  obtain ⟨uf1, ra, e1, w1, hra, c1, hran⟩ := Find_spec w ha
  obtain ⟨uf2, rb, e2, w2, hrb1, c2, hrbn⟩ := Find_spec w1 hb
  have hroot2 : ∀ z r, IsRoot uf2.heap z r ↔ IsRoot uf.heap z r := fun z r =>
    (c2.isRoot_iff z r).trans (c1.isRoot_iff z r)
  have hrb : IsRoot uf.heap b rb := (c1.isRoot_iff b rb).1 hrb1
  have hra2 : IsRoot uf2.heap a ra := (hroot2 a ra).2 hra
  have hrb2 : IsRoot uf2.heap b rb := (hroot2 b rb).2 hrb
  obtain ⟨fa, hfa, hfroot⟩ := hra2.2
  obtain ⟨fb, hfb, hfbroot⟩ := hrb2.2
  have hxa : ∀ x, Same uf x a ↔ IsRoot uf.heap x ra := fun x => same_iff_root hra
  have hxb : ∀ x, Same uf x b ↔ IsRoot uf.heap x rb := fun x => same_iff_root hrb
  have hax : ∀ x, Same uf a x ↔ IsRoot uf.heap x ra := fun x =>
    ⟨fun h => (hxa x).1 h.symm_same, fun h => ((hxa x).2 h).symm_same⟩
  have hbx : ∀ x, Same uf b x ↔ IsRoot uf.heap x rb := fun x =>
    ⟨fun h => (hxb x).1 h.symm_same, fun h => ((hxb x).2 h).symm_same⟩
  unfold Union
  simp only [e1, uf_ok_bind, w1.nodes, nodeAt_range hran, e2, w2.nodes, nodeAt_range hrbn]
  by_cases heq : ra = rb
  · rw [if_pos heq]
    refine ⟨uf2, rfl, w2, ?_⟩
    intro x y
    rw [same_congr hroot2]
    have hab : Same uf a b := ⟨ra, hra, by rw [heq]; exact hrb⟩
    constructor
    · exact Or.inl
    · rintro (h | ⟨h1, h2⟩ | ⟨h1, h2⟩)
      · exact h
      · exact (h1.trans_same hab).trans_same h2
      · exact (h1.trans_same hab.symm_same).trans_same h2
  · rw [if_neg heq]
    have hva := w2.val ra fa hfa
    have hvb := w2.val rb fb hfb
    simp only [uf_load_ok hfa, uf_load_ok hfb, uf_ok_bind, hva, hvb]
    rw [sizeAt_ok (by rw [w2.size_len]; exact hran), sizeAt_ok (by rw [w2.size_len]; exact hrbn)]
    simp only [uf_ok_bind]
    by_cases hsz : uf2.groupSize.getD ra 0 ≥ uf2.groupSize.getD rb 0
    · rw [if_pos hsz]
      obtain ⟨uf', e, w', hroot⟩ := link_spec w2 hfa hfb hfroot hfbroot heq
      refine ⟨uf', e, w', ?_⟩
      intro x y
      rw [same_link heq hroot, same_congr hroot2, hxa, hbx, hxb, hax]
      simp only [hroot2]
    · rw [if_neg hsz]
      obtain ⟨uf', e, w', hroot⟩ := link_spec w2 hfb hfa hfbroot hfroot (Ne.symm heq)
      refine ⟨uf', e, w', ?_⟩
      intro x y
      rw [same_link (Ne.symm heq) hroot, same_congr hroot2, hxa, hbx, hxb, hax]
      simp only [hroot2]
      constructor
      · rintro (h | h | h)
        · exact Or.inl h
        · exact Or.inr (Or.inr h)
        · exact Or.inr (Or.inl h)
      · rintro (h | h | h)
        · exact Or.inl h
        · exact Or.inr (Or.inr h)
        · exact Or.inr (Or.inl h)

/-! ## The equivalence generated by the united pairs -/

theorem eqvGen_add_pair {R : Nat → Nat → Prop} (a b x y : Nat) :
    Relation.EqvGen (fun u v => R u v ∨ (u = a ∧ v = b)) x y ↔
      Relation.EqvGen R x y ∨ (Relation.EqvGen R x a ∧ Relation.EqvGen R b y) ∨ (Relation.EqvGen R x b ∧ Relation.EqvGen R a y) := by
  have mono : ∀ u v, Relation.EqvGen R u v → Relation.EqvGen (fun u v => R u v ∨ (u = a ∧ v = b)) u v := by
    intro u v h
    induction h with
    | rel _ _ h => exact Relation.EqvGen.rel _ _ (Or.inl h)
    | refl _ => exact Relation.EqvGen.refl _
    | symm _ _ _ ih => exact Relation.EqvGen.symm _ _ ih
    | trans _ _ _ _ _ ih1 ih2 => exact Relation.EqvGen.trans _ _ _ ih1 ih2
  have hab : Relation.EqvGen (fun u v => R u v ∨ (u = a ∧ v = b)) a b :=
    Relation.EqvGen.rel _ _ (Or.inr ⟨rfl, rfl⟩)
  constructor
  · intro h
    induction h with
    | rel u v h =>
      rcases h with h | ⟨rfl, rfl⟩
      · exact Or.inl (Relation.EqvGen.rel _ _ h)
      · exact Or.inr (Or.inl ⟨Relation.EqvGen.refl _, Relation.EqvGen.refl _⟩)
    | refl u => exact Or.inl (Relation.EqvGen.refl _)
    | symm u v _ ih =>
      rcases ih with h | ⟨h1, h2⟩ | ⟨h1, h2⟩
      · exact Or.inl (Relation.EqvGen.symm _ _ h)
      · exact Or.inr (Or.inr ⟨Relation.EqvGen.symm _ _ h2, Relation.EqvGen.symm _ _ h1⟩)
      · exact Or.inr (Or.inl ⟨Relation.EqvGen.symm _ _ h2, Relation.EqvGen.symm _ _ h1⟩)
    | trans u v t _ _ ih1 ih2 =>
      rcases ih1 with h | ⟨h1, h2⟩ | ⟨h1, h2⟩ <;> rcases ih2 with g | ⟨g1, g2⟩ | ⟨g1, g2⟩
      · exact Or.inl (Relation.EqvGen.trans _ _ _ h g)
      · exact Or.inr (Or.inl ⟨Relation.EqvGen.trans _ _ _ h g1, g2⟩)
      · exact Or.inr (Or.inr ⟨Relation.EqvGen.trans _ _ _ h g1, g2⟩)
      · exact Or.inr (Or.inl ⟨h1, Relation.EqvGen.trans _ _ _ h2 g⟩)
      · exact Or.inr (Or.inl ⟨h1, g2⟩)
      · exact Or.inl (Relation.EqvGen.trans _ _ _ h1 g2)
      · exact Or.inr (Or.inr ⟨h1, Relation.EqvGen.trans _ _ _ h2 g⟩)
      · exact Or.inl (Relation.EqvGen.trans _ _ _ h1 g2)
      · exact Or.inr (Or.inr ⟨h1, g2⟩)
  · rintro (h | ⟨h1, h2⟩ | ⟨h1, h2⟩)
    · exact mono _ _ h
    · exact Relation.EqvGen.trans _ _ _ (mono _ _ h1) (Relation.EqvGen.trans _ _ _ hab (mono _ _ h2))
    · exact Relation.EqvGen.trans _ _ _ (mono _ _ h1)
        (Relation.EqvGen.trans _ _ _ (Relation.EqvGen.symm _ _ hab) (mono _ _ h2))

theorem eqvGen_congr {R S : Nat → Nat → Prop} (h : ∀ u v, R u v ↔ S u v) (x y : Nat) :
    Relation.EqvGen R x y ↔ Relation.EqvGen S x y := by
  have : R = S := by
    funext u v
    exact propext (h u v)
  rw [this]

theorem eqvGen_empty (x y : Nat) : Relation.EqvGen (United []) x y ↔ x = y := by
  constructor
  · intro h
    induction h with
    | rel _ _ h => simp [United] at h
    | refl _ => rfl
    | symm _ _ _ ih => exact ih.symm
    | trans _ _ _ _ _ ih1 ih2 => exact ih1.trans ih2
  · rintro rfl
    exact Relation.EqvGen.refl _

theorem united_snoc_union (done : List Op) (a b u v : Nat) :
    United (done ++ [Op.union a b]) u v ↔ United done u v ∨ (u = a ∧ v = b) := by
  simp [United]

theorem united_snoc_find (done : List Op) (a u v : Nat) :
    United (done ++ [Op.find a]) u v ↔ United done u v := by
  simp [United]

/-! ## Sequences of calls -/

theorem runOps_spec (n : Nat) :
    ∀ (ops done : List Op) (uf : UnionFind), WF uf n →
      (∀ x y, x < n → y < n → (Same uf x y ↔ Relation.EqvGen (United done) x y)) →
      (∀ op ∈ ops, op.Valid n) →
      ∃ uf', runOps ops uf = .ok uf' ∧ WF uf' n ∧
        ∀ x y, x < n → y < n → (Same uf' x y ↔ Relation.EqvGen (United (done ++ ops)) x y) := by
  intro ops
  induction ops with
  | nil =>
    intro done uf w hs _
    exact ⟨uf, rfl, w, by simpa using hs⟩
  | cons op ops ih =>
    intro done uf w hs hv
    have hop := hv op (List.mem_cons_self _ _)
    have hrest : ∀ o ∈ ops, o.Valid n := fun o ho => hv o (List.mem_cons_of_mem _ ho)
    have e : done ++ op :: ops = (done ++ [op]) ++ ops := by simp
    rw [e]
    unfold runOps
    cases op with
    | find a =>
      obtain ⟨uf1, r, e1, w1, -, c, -⟩ := Find_spec w (show a < n from hop)
      simp only [runOp, e1, uf_ok_bind, uf_pure_eq_ok]
      apply ih (done ++ [Op.find a]) uf1 w1 _ hrest
      intro x y hx hy
      rw [same_congr c.isRoot_iff, hs x y hx hy]
      exact eqvGen_congr (fun u v => (united_snoc_find done a u v).symm) x y
    | union a b =>
      obtain ⟨ha, hb⟩ : a < n ∧ b < n := hop
      obtain ⟨uf1, e1, w1, hsame⟩ := Union_spec w ha hb
      simp only [runOp, e1, uf_ok_bind]
      apply ih (done ++ [Op.union a b]) uf1 w1 _ hrest
      intro x y hx hy
      rw [hsame, eqvGen_congr (united_snoc_union done a b) x y, eqvGen_add_pair,
        hs x y hx hy, hs x a hx ha, hs b y hb hy, hs x b hx hb, hs a y ha hy]

theorem same_makeUF {uf : UnionFind} {n : Nat}
    (hget : ∀ i, i < n → uf.heap[i]? = some ⟨i, none⟩) (x y : Nat) (hx : x < n) (hy : y < n) :
    Same uf x y ↔ x = y := by
  have hroot : ∀ z, z < n → ∀ r, IsRoot uf.heap z r → r = z := by
    intro z hz r hr
    exact hr.1.of_root (hget z hz) rfl
  constructor
  · rintro ⟨r, h1, h2⟩
    rw [← hroot x hx r h1, ← hroot y hy r h2]
  · rintro rfl
    exact ⟨x, IsRoot.self (hget x hx) rfl, IsRoot.self (hget x hx) rfl⟩

/-- C24: for every `n` and every sequence of `Union` and `Find` calls on items below `n`
applied to `makeUF(n)`, the calls run to their end and afterwards `Find(x) = Find(y)`
holds if and only if `x` and `y` are in one class of the equivalence relation generated
by the united pairs; the path compression of a `Find` call does not change the value
that `Find` returns for any item. -/
theorem Find_eq_iff_united (n : Nat) (ops : List Op) (hops : ∀ op ∈ ops, op.Valid n)
    (x y : Nat) (hx : x < n) (hy : y < n) :
    ∃ uf0 uf uf1 uf2 rx ry, makeUF n = .ok uf0 ∧ runOps ops uf0 = .ok uf ∧
      Find uf x = .ok (uf1, rx) ∧ Find uf1 y = .ok (uf2, ry) ∧
      (rx = ry ↔ Relation.EqvGen (United ops) x y) ∧
      ∀ z, z < n → ∃ ufa ufb r, Find uf z = .ok (ufa, r) ∧ Find uf1 z = .ok (ufb, r) := by
  obtain ⟨uf0, e0, w0, hget⟩ := makeUF_spec n
  obtain ⟨uf, e, w, hs⟩ := runOps_spec n ops [] uf0 w0
    (fun a b ha hb => by rw [same_makeUF hget a b ha hb, eqvGen_empty]) hops
  obtain ⟨uf1, rx, ex, w1, hrx, c1, -⟩ := Find_spec w hx
  obtain ⟨uf2, ry, ey, w2, hry1, c2, -⟩ := Find_spec w1 hy
  have hry : IsRoot uf.heap y ry := (c1.isRoot_iff y ry).1 hry1
  refine ⟨uf0, uf, uf1, uf2, rx, ry, e0, e, ex, ey, ?_, ?_⟩
  · rw [← (show [] ++ ops = ops from rfl), ← hs x y hx hy]
    constructor
    · intro h
      exact ⟨rx, hrx, by rw [h]; exact hry⟩
    · rintro ⟨r, h1, h2⟩
      rw [hrx.unique h1, hry.unique h2]
  · intro z hz
    obtain ⟨ufa, r, ea, -, hr, -, -⟩ := Find_spec w hz
    obtain ⟨ufb, r', eb, -, hr', -, -⟩ := Find_spec w1 hz
    have : r' = r := ((c1.isRoot_iff z r').1 hr').unique hr
    subst this
    exact ⟨ufa, ufb, r', ea, eb⟩

theorem Find_eq_iff_united_witness :
    (∀ op ∈ [Op.union 0 1, Op.find 1, Op.union 2 3, Op.union 1 3], op.Valid 5) ∧
      ∃ uf0 uf uf1 uf2 rx ry, makeUF 5 = .ok uf0 ∧
        runOps [Op.union 0 1, Op.find 1, Op.union 2 3, Op.union 1 3] uf0 = .ok uf ∧
        Find uf 0 = .ok (uf1, rx) ∧ Find uf1 3 = .ok (uf2, ry) ∧
        (rx = ry ↔
          Relation.EqvGen (United [Op.union 0 1, Op.find 1, Op.union 2 3, Op.union 1 3]) 0 3) ∧
        ∀ z, z < 5 → ∃ ufa ufb r, Find uf z = .ok (ufa, r) ∧ Find uf1 z = .ok (ufb, r) :=
  ⟨by decide, Find_eq_iff_united 5 [Op.union 0 1, Op.find 1, Op.union 2 3, Op.union 1 3]
    (by decide) 0 3 (by decide) (by decide)⟩

end UnionFindDS

namespace BinaryHeap

@[simp] theorem bh_ok_bind {α β : Type} (a : α) (f : α → Except Fault β) :
    (Except.ok a >>= f) = f a := rfl

@[simp] theorem bh_error_bind {α β : Type} (e : Fault) (f : α → Except Fault β) :
    (Except.error e >>= f) = Except.error e := rfl

theorem bh_readAt_ok {h : List Int} {k : Nat} (hk : k < h.length) {z : Int}
    (hz : z = (k : Int)) : readAt h z = .ok h[k] := by
  subst hz
  simp [readAt, List.getElem?_eq_getElem hk]

theorem bh_readAt_out {h : List Int} {z : Int} (hz : (h.length : Int) ≤ z) :
    readAt h z = .error (.outOfRange z) := by
  have h0 : 0 ≤ z := by omega
  have h1 : h.length ≤ z.toNat := by omega
  simp [readAt, h0, List.getElem?_eq_none h1]

/-- Removing the last position of a heap of two or more elements reads the vector at the
index of the element that was popped. -/
theorem remove_last_faults (h : List Int) (hlen : 2 ≤ h.length) :
    remove h (h.length : Int) = .error (.outOfRange ((h.length : Int) - 1)) := by
  have hl : h.length - 1 < h.length := by omega
  have e1 : readAt h ((h.length : Int) - 1) = .ok h[h.length - 1] :=
    bh_readAt_ok hl (by omega)
  have e2 : writeAt h ((h.length : Int) - 1) h[h.length - 1] =
      .ok (h.set (h.length - 1) h[h.length - 1]) := by
    have h0 : (0 : Int) ≤ (h.length : Int) - 1 := by omega
    have h1 : ((h.length : Int) - 1).toNat = h.length - 1 := by omega
    simp [writeAt, h0, h1, hl]
  have hdl : (h.set (h.length - 1) h[h.length - 1]).dropLast.length = h.length - 1 := by
    simp
  have hp1 : (0 : Int) ≤ (h.length : Int).tdiv 2 - 1 := by
    rw [Int.tdiv_eq_ediv (by omega) (by omega)]
    omega
  have hp2 : ((h.length : Int).tdiv 2 - 1).toNat <
      (h.set (h.length - 1) h[h.length - 1]).dropLast.length := by
    rw [hdl, Int.tdiv_eq_ediv (by omega) (by omega)]
    omega
  have e3 := bh_readAt_ok hp2 (z := (h.length : Int).tdiv 2 - 1) (by omega)
  have e4 : readAt (h.set (h.length - 1) h[h.length - 1]).dropLast ((h.length : Int) - 1) =
      .error (.outOfRange ((h.length : Int) - 1)) := by
    apply bh_readAt_out
    rw [hdl]
    omega
  have hgt : (h.length : Int) > 1 := by omega
  unfold remove
  simp only [e1, e2, bh_ok_bind, hdl]
  rw [show h.length - 1 + 1 = (h.length - 2) + 1 + 1 from by omega]
  unfold heapify_up
  simp only [if_pos hgt, e3, e4, bh_ok_bind, bh_error_bind]

/-- C25: `remove(h, i)` with `i = |h|` on a heap of two elements: after `pop_back` the
call `heapify_up(h, 2)` reads `h[1]` of a vector of size one. The heap `[1, 2]` satisfies
the heap order, and the removal of the other positions of small heaps runs to its end. -/
theorem remove_last_reads_past_end :
    HeapOrder [1, 2] ∧ remove [1, 2] 2 = .error (.outOfRange 1) ∧
      remove [1, 2, 3] 3 = .error (.outOfRange 2) ∧ remove [1, 2] 1 = .ok [2] ∧
      remove [1] 1 = .ok [] := by
  decide

end BinaryHeap
